import Mathlib

/-!
# Two-pass assembler: a shallow embedding of the C sources

The definitions below follow the files of `assembler grade 100/`
(`Pre_Proc.c`, `Pre_Proc_Error_Handler.c`, `First_Passage.c`, `First_Passage_Errors.c`,
`Functions.c`, `Second_Pass.c`, `Translation_Unit.c`, `assembler.h`) function by function
and keep their names.

Conventions of the embedding.

* A C string is the `List Char` of its bytes up to (not including) the first NUL;
  `line + k` is `line.drop k`. A line buffer is zeroed before it is filled, so a pointer
  behind the end of the string reads the empty string.
* The singly linked lists of `assembler.h` are Lean lists of their nodes, in list order.
* `int` values are `Int` (not reduced); `unsigned short` values are `Nat`, reduced modulo
  `2 ^ 16` wherever the C code converts to `unsigned short`.
* `BOOLEAN` is the enum of `assembler.h` with `TRUE = 0` and `FALSE = 1`; the code adds
  these values up and tests the sum against `TRUE`, so they are `Nat` here (not reduced:
  one diagnostic adds at most a few units).
* A fixed buffer (`char label[32]`) holds the bytes that the code copies into it; where
  the C code fills all 32 bytes and leaves no terminator, the model reads these 32 bytes.
* `shift_Bits` is the shift reduced modulo `2 ^ 16` for every shift count; the counts that
  the code uses with operand types `0..3` are `0, 1, 2, 3, 6, 11`.
* Console output made with `printf` is not part of the state, except for the
  "Label is not defined" lines of `Check_If_Label_Exist`, which `Second_Pass` returns.
* `firstpass` takes the text of the `.am` file that `Pre_Proc` wrote and returns what
  `translationunit` writes.
* `Pre_Proc` takes the text of the `.as` file and returns `none` where the C code has no
  defined behaviour: on the empty source, where `free` is called on a pointer that was
  never assigned.
-/

namespace Assembler

/-! ## Constants of `assembler.h` -/

def MAX_FILE_LINE_LENGTH : Nat := 81
def MAX_LABEL_SIZE : Nat := 32

def IS_ENTRY : Int := 10
def IS_EXTERN : Int := 20
def IS_STRING : Int := 30
def IS_DATA : Int := 40
def IS_COMMAND : Int := 50
def UNDEFINED_INSTRUCTION : Int := 60
def IS_ERROR : Int := 70

def LABEL : Int := 1
def REGISTER : Int := 3
def POINTER : Int := 2
def NUMBER : Int := 0
def NO_OP : Int := -1
def NONE : Int := 0

def NO_LABEL : Int := 0
def ERROR : Int := -1

def MARK_FOR_SECOND_PASS : Nat := 0

def E : Nat := 1
def R : Nat := 2
def A : Nat := 4

def OPCODE : Int := 11
def MASK128 : Int := 128
def MASK8 : Int := 8

def MAX_VALUE_FOR_12_BITS : Int := 2048
def MIN_VALUE_FOR_12_BITS : Int := -2047
def MAX_VALUE_FOR_15_BITS : Int := 32767
def MIN_VALUE_FOR_15_BITS : Int := -16384
def MIN_DATA_SIZE : Nat := 2
def MIN_STR_SIZE : Nat := 2
def MAX_ASCII_VALUE : Nat := 127

/-- The enum constant `TRUE` of `BOOLEAN` (the first enumerator, value 0). -/
def TRUE : Nat := 0
/-- The enum constant `FALSE` of `BOOLEAN` (the second enumerator, value 1). -/
def FALSE : Nat := 1

def MOV : Int := 0
def CMP : Int := 1
def ADD : Int := 2
def SUB : Int := 3
def LEA : Int := 4
def CLR : Int := 5
def NOT : Int := 6
def INC : Int := 7
def DEC : Int := 8
def JMP : Int := 9
def BNE : Int := 10
def RED : Int := 11
def PRN : Int := 12
def JSR : Int := 13
def RTS : Int := 14
def STOP : Int := 15

/-! ## Data structures of `assembler.h` -/

/-- Node of the label list: name and address. -/
structure LABEL_LIST where
  label : List Char
  addr : Int
deriving DecidableEq, Repr

/-- Node of the entry list: name and the addresses collected by the second pass. -/
structure ENTRY_LIST where
  label : List Char
  addr_list : List Int
deriving DecidableEq, Repr

/-- Node of the extern list: name and the addresses collected by the second pass. -/
structure EXTERN_LIST where
  label : List Char
  addr_list : List Int
deriving DecidableEq, Repr

/-- Node of the code image: address, word (`binary_code.mila`), operand name, operand type. -/
structure MACHINE_CODE_COMMAND where
  addr : Int
  mila : Nat
  label : List Char
  type : Int
deriving DecidableEq, Repr

/-- Node of the data image: address (the value of `DC` at insertion) and word. -/
structure MACHINE_CODE_INSTRUCTION where
  addr : Int
  mila : Nat
deriving DecidableEq, Repr

/-- The tables of one translation unit (the macro list is used by `Pre_Proc` only). -/
structure ASSEMBLER_TABLE where
  label_head : List LABEL_LIST
  entry_head : List ENTRY_LIST
  extern_head : List EXTERN_LIST
  command_head : List MACHINE_CODE_COMMAND
  instruction_head : List MACHINE_CODE_INSTRUCTION
deriving DecidableEq, Repr

/-- Entry of `commands_table`: mnemonic and opcode. -/
structure COMMAND where
  name : List Char
  code : Int
deriving DecidableEq, Repr

/-- The table `commands_table` of `firstpass` and `Reserved_Words_Check`. -/
def commands_table : List COMMAND :=
  [⟨"mov".toList, 0⟩, ⟨"cmp".toList, 1⟩, ⟨"add".toList, 2⟩, ⟨"sub".toList, 3⟩,
   ⟨"lea".toList, 4⟩, ⟨"clr".toList, 5⟩, ⟨"not".toList, 6⟩, ⟨"inc".toList, 7⟩,
   ⟨"dec".toList, 8⟩, ⟨"jmp".toList, 9⟩, ⟨"bne".toList, 10⟩, ⟨"red".toList, 11⟩,
   ⟨"prn".toList, 12⟩, ⟨"jsr".toList, 13⟩, ⟨"rts".toList, 14⟩, ⟨"stop".toList, 15⟩]

/-- The array `registers` of `firstpass` and `Reserved_Words_Check`. -/
def registers : List (List Char) :=
  ["r0".toList, "r1".toList, "r2".toList, "r3".toList,
   "r4".toList, "r5".toList, "r6".toList, "r7".toList]

/-! ## C library functions used by the sources -/

/-- Conversion of an `int` to `unsigned short`. -/
def toU16 (x : Int) : Nat := (x % 65536).toNat

def isdigit (c : Char) : Bool := decide ('0'.toNat ≤ c.toNat) && decide (c.toNat ≤ '9'.toNat)
def isupper (c : Char) : Bool := decide ('A'.toNat ≤ c.toNat) && decide (c.toNat ≤ 'Z'.toNat)
def islower (c : Char) : Bool := decide ('a'.toNat ≤ c.toNat) && decide (c.toNat ≤ 'z'.toNat)
def isspace (c : Char) : Bool :=
  c == ' ' || c == '\t' || c == '\n' || c == Char.ofNat 11 || c == Char.ofNat 12 || c == '\r'

/-- The digit loop of `atoi`: accumulates decimal digits and stops at the first other byte. -/
def atoi_digits : Nat → List Char → Nat
  | acc, [] => acc
  | acc, c :: cs => if isdigit c then atoi_digits (acc * 10 + (c.toNat - '0'.toNat)) cs else acc

/-- The sign step of `atoi`. -/
def atoi_signed : List Char → Int
  | [] => 0
  | c :: cs =>
    if c = '-' then - (atoi_digits 0 cs : Int)
    else if c = '+' then (atoi_digits 0 cs : Int)
    else (atoi_digits 0 (c :: cs) : Int)

/-- The function `atoi`: leading white space, an optional sign, decimal digits
(values outside the range of `int` are not reduced). -/
def atoi (s : List Char) : Int := atoi_signed (s.dropWhile isspace)

/-- The remaining calls of `strtok`: skip delimiters, cut a token, repeat. `fuel` bounds
the number of bytes left. -/
def strtok_all : Nat → List Char → List Char → List (List Char)
  | 0, _, _ => []
  | fuel + 1, delims, s =>
    match s.dropWhile (fun c => delims.contains c) with
    | [] => []
    | c :: cs =>
      let tok := (c :: cs).takeWhile (fun x => !delims.contains x)
      tok :: strtok_all fuel delims ((c :: cs).drop (tok.length + 1))

/-- All tokens that successive `strtok` calls return for `s`. -/
def strtok (s delims : List Char) : List (List Char) := strtok_all (s.length + 1) delims s

/-- Output of `printf("%d")` for a natural number, most significant digit first. -/
def fmt_u_aux : Nat → Nat → List Char → List Char
  | 0, _, acc => acc
  | fuel + 1, n, acc =>
    let acc1 := Char.ofNat ('0'.toNat + n % 10) :: acc
    if n / 10 = 0 then acc1 else fmt_u_aux fuel (n / 10) acc1

def fmt_u (n : Nat) : List Char := fmt_u_aux (n + 1) n []

/-- Output of `printf("%d", n)`. -/
def fmt_d (n : Int) : List Char :=
  if n < 0 then '-' :: fmt_u n.natAbs else fmt_u n.toNat

/-- Octal digits of a natural number, most significant first. -/
def fmt_o_aux : Nat → Nat → List Char → List Char
  | 0, _, acc => acc
  | fuel + 1, n, acc =>
    let acc1 := Char.ofNat ('0'.toNat + n % 8) :: acc
    if n / 8 = 0 then acc1 else fmt_o_aux fuel (n / 8) acc1

/-- Output of `printf("%05o", n)`: octal, padded with zeros on the left to five digits. -/
def fmt_05o (n : Nat) : List Char :=
  let ds := fmt_o_aux (n + 1) n []
  List.replicate (5 - ds.length) '0' ++ ds

/-! ## `shift_Bits` (First_Passage.c) -/

/-- `shift_Bits(num, steps)`: both arguments are converted to `unsigned short`, the shift
is returned as `unsigned short`. -/
def shift_Bits (num steps : Int) : Nat := (toU16 num <<< toU16 steps) % 65536

/-! ## First pass: scanning helpers (First_Passage.c) -/

/-- The scanning loop of `extract_Label`: looks at the first `n` bytes of `line` for
`delimiter`; returns the bytes copied and whether the delimiter was met. -/
def extract_Label_scan : Nat → List Char → Char → List Char × Bool
  | 0, _, _ => ([], false)
  | _ + 1, [], _ => ([], false)
  | n + 1, c :: cs, delimiter =>
    if c ≠ delimiter then
      let r := extract_Label_scan n cs delimiter
      (c :: r.1, r.2)
    else ([], true)

/-- `extract_Label(line, label, delimiter, line_counter)` on a zeroed buffer `label`:
returns the `int` result and the contents of `label`. -/
def extract_Label (line : List Char) (delimiter : Char) : Int × List Char :=
  let r := extract_Label_scan MAX_LABEL_SIZE line delimiter
  if r.2 then ((r.1.length : Int) + 1, r.1)
  else if r.1.length = MAX_LABEL_SIZE ∧ delimiter ≠ ':' then (ERROR, r.1)
  else (0, r.1)

/-- `insert_Label_List`: appends a node at the end of the label list. -/
def insert_Label_List (label_list : List LABEL_LIST) (label : List Char) (address : Int) :
    List LABEL_LIST :=
  label_list ++ [⟨label.take (MAX_LABEL_SIZE - 1), address⟩]

/-- `strncmp(line, word, strlen(word)) == 0`. -/
def starts_with (line word : List Char) : Bool := word.isPrefixOf line

/-- `get_Line_Type(line, commands_table, &skip, &command)`: the line type, the amount
added to `skip`, and the matched command. -/
def get_Line_Type (line : List Char) : Int × Nat × Option COMMAND :=
  if starts_with line ".entry".toList then (IS_ENTRY, ".entry".length, none)
  else if starts_with line ".extern".toList then (IS_EXTERN, ".extern".length, none)
  else
    match commands_table.find? (fun c => starts_with line c.name) with
    | some c => (IS_COMMAND, c.name.length, some c)
    | none =>
      if starts_with line ".string".toList then (IS_STRING, ".string".length, none)
      else if starts_with line ".data".toList then (IS_DATA, ".data".length, none)
      else (UNDEFINED_INSTRUCTION, 0, none)

/-- `insert_Entry_List(entry_list, line, line_counter)`. -/
def insert_Entry_List (entry_list : List ENTRY_LIST) (line : List Char) : List ENTRY_LIST :=
  entry_list ++ [⟨(extract_Label line '\n').2, []⟩]

/-- `insert_Extern_List(extern_list, line, line_counter)`. -/
def insert_Extern_List (extern_list : List EXTERN_LIST) (line : List Char) : List EXTERN_LIST :=
  extern_list ++ [⟨(extract_Label line '\n').2, []⟩]

/-- `add_to_instruction_list`: appends a node at the end of the data image. -/
def add_to_instruction_list (instruction_list : List MACHINE_CODE_INSTRUCTION)
    (address : Int) (mila : Nat) : List MACHINE_CODE_INSTRUCTION :=
  instruction_list ++ [⟨address, mila⟩]

/-- The `for` loop of `extract_String` over the bytes between the quotes. -/
def extract_String_loop : List Char → List MACHINE_CODE_INSTRUCTION → Int →
    List MACHINE_CODE_INSTRUCTION × Int
  | [], l, address => (l, address)
  | c :: cs, l, address =>
    extract_String_loop cs (add_to_instruction_list l address (c.toNat % 65536)) (address + 1)

/-- `extract_String(instruction_list, line, address)`: the new list and the new `*address`.
The loop runs over the indices `1 .. strlen(line) - 3`. -/
def extract_String (instruction_list : List MACHINE_CODE_INSTRUCTION) (line : List Char)
    (address : Int) : List MACHINE_CODE_INSTRUCTION × Int :=
  if line.head? ≠ some (Char.ofNat 34) then (instruction_list, address)
  else
    let r := extract_String_loop ((line.take (line.length - 2)).drop 1) instruction_list address
    (add_to_instruction_list r.1 r.2 0, r.2 + 1)

/-- The `while` loop of `extract_Data` over the tokens. -/
def extract_Data_loop : List (List Char) → List MACHINE_CODE_INSTRUCTION → Int →
    List MACHINE_CODE_INSTRUCTION × Int
  | [], l, address => (l, address)
  | number :: rest, l, address =>
    extract_Data_loop rest (add_to_instruction_list l address (toU16 (atoi number))) (address + 1)

/-- `extract_Data(instruction_list, line, address)`: the new list and the new `*address`. -/
def extract_Data (instruction_list : List MACHINE_CODE_INSTRUCTION) (line : List Char)
    (address : Int) : List MACHINE_CODE_INSTRUCTION × Int :=
  extract_Data_loop (strtok line ",\n".toList) instruction_list address

/-- `insert_Command_List`: appends a node at the end of the code image. -/
def insert_Command_List (command_list : List MACHINE_CODE_COMMAND) (addr : Int)
    (label : List Char) (binary_code : Nat) (type : Int) : List MACHINE_CODE_COMMAND :=
  command_list ++ [⟨addr, binary_code, label, type⟩]

/-- `get_Operand_Value(type_op, op)`. -/
def get_Operand_Value (type_op : Int) (op : List Char) : Int :=
  if type_op = REGISTER then atoi (op.drop 1)
  else if type_op = POINTER then atoi (op.drop 2)
  else if type_op = NUMBER then atoi (op.drop 1)
  else if type_op = NO_OP then NO_OP
  else NONE

/-- `operand_Type_Identifier(registers, operand)`. -/
def operand_Type_Identifier (operand : List Char) : Int :=
  match operand with
  | [] => NO_OP
  | c :: rest =>
    if !isdigit c && !isupper c && !islower c && c != '*' && c != '#' then NO_OP
    else if c = 'r' then (if registers.contains operand then REGISTER else NO_OP)
    else if c = '*' then (if registers.contains rest then POINTER else NO_OP)
    else if c = '#' then NUMBER
    else LABEL

/-- `generate_Mila(command_list, command_code, src_op, type_src, dest_op, type_dest, IC)`:
the new code image and the new value of `*IC`. A `NULL` operand is the empty string. -/
def generate_Mila (command_list : List MACHINE_CODE_COMMAND) (command_code : Int)
    (src_op : List Char) (type_src : Int) (dest_op : List Char) (type_dest : Int) (IC : Int) :
    List MACHINE_CODE_COMMAND × Int :=
  if command_code ≥ RTS then
    (insert_Command_List command_list IC [] (A ||| shift_Bits command_code OPCODE) type_src,
      IC + 1)
  else if command_code ≤ LEA then
    let w0 := A ||| shift_Bits MASK128 type_src ||| shift_Bits MASK8 type_dest
                ||| shift_Bits command_code OPCODE
    let l1 := insert_Command_List command_list IC [] w0 type_src
    if (type_src = REGISTER ∨ type_src = POINTER) ∧ (type_dest = POINTER ∨ type_dest = REGISTER)
    then
      let w := A ||| shift_Bits (get_Operand_Value type_dest dest_op) 3
                 ||| shift_Bits (get_Operand_Value type_src src_op) 6
      (insert_Command_List l1 (IC + 1) [] w NONE, IC + 2)
    else
      let ws :=
        if type_src = LABEL then MARK_FOR_SECOND_PASS
        else if type_src = NUMBER then A ||| shift_Bits (get_Operand_Value type_src src_op) 3
        else A ||| shift_Bits (get_Operand_Value type_src src_op) 6
      let l2 := insert_Command_List l1 (IC + 1) src_op ws type_src
      let wd :=
        if type_dest = LABEL then MARK_FOR_SECOND_PASS
        else A ||| shift_Bits (get_Operand_Value type_dest dest_op) 3
      (insert_Command_List l2 (IC + 2) dest_op wd type_dest, IC + 3)
  else
    let w0 := A ||| shift_Bits MASK8 type_dest ||| shift_Bits command_code OPCODE
    let l1 := insert_Command_List command_list IC [] w0 type_src
    let wd :=
      if type_dest = LABEL then MARK_FOR_SECOND_PASS
      else A ||| shift_Bits (get_Operand_Value type_dest dest_op) 3
    (insert_Command_List l1 (IC + 1) dest_op wd type_dest, IC + 2)

/-- `convert_Command(command_list, registers, line, command, IC, line_counter)`: the new
code image and the new value of `*IC`. -/
def convert_Command (command_list : List MACHINE_CODE_COMMAND) (line : List Char)
    (command : COMMAND) (IC : Int) : List MACHINE_CODE_COMMAND × Int :=
  if command.code = MOV ∨ command.code = CMP ∨ command.code = ADD ∨ command.code = SUB
      ∨ command.code = LEA then
    let src_op := (extract_Label line ',').2
    let dest_op := (extract_Label (line.drop (src_op.length + 1)) '\n').2
    generate_Mila command_list command.code src_op (operand_Type_Identifier src_op)
      dest_op (operand_Type_Identifier dest_op) IC
  else if command.code = CLR ∨ command.code = NOT ∨ command.code = INC ∨ command.code = DEC
      ∨ command.code = JMP ∨ command.code = BNE ∨ command.code = RED ∨ command.code = PRN
      ∨ command.code = JSR then
    let dest_op := (extract_Label line '\n').2
    generate_Mila command_list command.code [] NONE dest_op (operand_Type_Identifier dest_op) IC
  else if command.code = RTS ∨ command.code = STOP then
    generate_Mila command_list command.code [] NONE [] NONE IC
  else (command_list, IC)

/-! ## First pass: validation (Functions.c, First_Passage_Errors.c) -/

/-- The words that `Reserved_Words_Check` compares with: mnemonics, registers,
directives and the macro keywords. -/
def reserved_words : List (List Char) :=
  commands_table.map (fun c => c.name) ++ registers ++
    [".data".toList, ".string".toList, ".entry".toList, ".extern".toList,
     "macr".toList, "endmacr".toList]

/-- `Reserved_Words_Check(line, error_message, line_count)`: a final newline is removed,
then the name is compared with every reserved word. -/
def Reserved_Words_Check (line : List Char) : Nat :=
  let label := if line.getLast? = some '\n' then line.dropLast else line
  if reserved_words.contains label then FALSE else TRUE

/-- `examine_Label(label, line_counter)`. The loop over the characters stops at a newline. -/
def examine_Label (label : List Char) : Nat :=
  match label with
  | [] => FALSE
  | c :: _ =>
    if isdigit c then FALSE
    else if (label.takeWhile (fun x => x != '\n')).all
        (fun x => isdigit x || isupper x || islower x) then
      TRUE + Reserved_Words_Check label
    else FALSE

/-- `Zero_Op_Examine(line, command_code, line_counter)`. -/
def Zero_Op_Examine (line : List Char) : Nat :=
  if line.length > 1 ∧ line.head? ≠ some '\n' then FALSE else TRUE

/-- `Examine_Operand(operand, type_op, line_counter)`. -/
def Examine_Operand (operand : List Char) (type_op : Int) : Nat :=
  if type_op = NUMBER then
    let r1 :=
      match operand.drop 1 with
      | c :: _ => if c ≠ '-' ∧ c ≠ '+' ∧ !isdigit c then FALSE else TRUE
      | [] => TRUE
    let r2 := if (operand.drop 2).all isdigit then r1 else FALSE
    if r2 = TRUE then
      (if atoi (operand.drop 1) ≥ MAX_VALUE_FOR_12_BITS ∨ atoi (operand.drop 1) ≤ MIN_VALUE_FOR_12_BITS
       then FALSE else TRUE)
    else r2
  else if type_op = LABEL then TRUE + examine_Label operand
  else TRUE

/-- `Single_Op_Examine(line, command_code, line_counter, registers)`. -/
def Single_Op_Examine (line : List Char) (command_code : Int) : Nat :=
  let operand := (extract_Label line '\n').2
  let op_type := operand_Type_Identifier operand
  let result := TRUE + Examine_Operand operand op_type
  if command_code = CLR ∨ command_code = NOT ∨ command_code = INC ∨ command_code = DEC
      ∨ command_code = RED then
    (if op_type ≠ REGISTER ∧ op_type ≠ LABEL ∧ op_type ≠ POINTER then FALSE else result)
  else if command_code = JMP ∨ command_code = BNE ∨ command_code = JSR then
    (if op_type ≠ LABEL ∧ op_type ≠ POINTER then FALSE else result)
  else if command_code = PRN then
    (if op_type = NO_OP then FALSE else result)
  else if command_code = NO_OP then FALSE
  else result

/-- Two commas next to each other somewhere in the string. -/
def has_double_comma : List Char → Bool
  | a :: b :: rest => (a == ',' && b == ',') || has_double_comma (b :: rest)
  | _ => false

/-- `Double_Op_Examine(line, command_code, line_counter, registers)`. `before` is the byte
that precedes `line` in the line buffer (the last letter of the mnemonic): the code reads
it as `line[strlen(line) - 2]` when `line` has one byte, and as the first byte of
`line + length` when the first `extract_Label` returns `ERROR`. -/
def Double_Op_Examine (before : Char) (line : List Char) (command_code : Int) : Nat :=
  if line.length < 1 then FALSE
  else
    let r0 :=
      if line.head? = some ',' ∨ (before :: line).get? (line.length - 1) = some ','
      then TRUE + FALSE else TRUE
    if has_double_comma line then FALSE
    else
      let e1 := extract_Label line ','
      let op_src := e1.2
      let rest := if e1.1 < 0 then before :: line else line.drop e1.1.toNat
      let op_dest := (extract_Label rest '\n').2
      let op_src_type := operand_Type_Identifier op_src
      let op_dest_type := operand_Type_Identifier op_dest
      let result := r0 + Examine_Operand op_src op_src_type + Examine_Operand op_dest op_dest_type
      if command_code = MOV ∨ command_code = ADD ∨ command_code = SUB then
        (if op_src_type = NO_OP ∨ op_dest_type = NUMBER ∨ op_dest_type = NO_OP
         then FALSE else result)
      else if command_code = CMP then
        (if op_src_type = NO_OP ∨ op_dest_type = NO_OP then FALSE else result)
      else if command_code = LEA then
        (if op_src_type ≠ LABEL ∨ op_dest_type = NUMBER ∨ op_dest_type = NO_OP
         then FALSE else result)
      else result

/-- `Command_Examine(command, line, line_counter, registers)`, where `line` points just
behind the mnemonic. -/
def Command_Examine (command : COMMAND) (line : List Char) : Nat :=
  if command.code ≥ RTS then TRUE + Zero_Op_Examine line
  else if command.code ≤ LEA then
    TRUE + Double_Op_Examine (command.name.getLastD 'v') line command.code
  else TRUE + Single_Op_Examine line command.code

/-- `String_Examine(line, line_counter)`. -/
def String_Examine (line : List Char) : Nat :=
  if line.length < MIN_STR_SIZE then FALSE
  else
    let r1 :=
      if line.head? ≠ some (Char.ofNat 34) ∨ line.get? (line.length - 2) ≠ some (Char.ofNat 34)
      then FALSE else TRUE
    if ((line.take (line.length - 1)).drop 1).all (fun c => decide (c.toNat ≤ MAX_ASCII_VALUE))
    then r1 else FALSE

/-- `Valid_Num_Examine(char_num, line_counter)`. -/
def Valid_Num_Examine (char_num : List Char) : Nat :=
  let r := if char_num = [] then FALSE else TRUE
  let body :=
    match char_num with
    | [] => []
    | c :: cs => if c = '-' ∨ c = '+' then cs else c :: cs
  if (body.takeWhile (fun c => c != '\n')).all isdigit then r else FALSE

/-- The token loop of `Data_Examine`. -/
def Data_Examine_loop : List (List Char) → Nat → Nat
  | [], result => result
  | char_num :: rest, result =>
    let r1 := result + Valid_Num_Examine char_num
    let r2 :=
      if r1 = TRUE then
        (if atoi char_num ≥ MAX_VALUE_FOR_15_BITS ∨ atoi char_num ≤ MIN_VALUE_FOR_15_BITS
         then FALSE else r1)
      else r1
    Data_Examine_loop rest r2

/-- `Data_Examine(line, line_counter)`. The scan for doubled commas runs from the second
byte to the first newline behind it (to the end of the string when there is none). -/
def Data_Examine (line : List Char) : Nat :=
  if line.length < MIN_DATA_SIZE then FALSE
  else
    let r1 :=
      if line.head? = some ',' ∨ line.get? (line.length - 2) = some ',' then FALSE else TRUE
    let r2 :=
      if has_double_comma (line.take 1 ++ (line.drop 1).takeWhile (fun c => c != '\n'))
      then FALSE else r1
    Data_Examine_loop (strtok line [',']) r2

/-- `Extern_Examine(line, line_counter, assembler, registers)`. -/
def Extern_Examine (line : List Char) (assembler : ASSEMBLER_TABLE) : Nat :=
  let e := extract_Label line '\n'
  if e.1 = ERROR then FALSE
  else
    let label := e.2
    let r1 := if operand_Type_Identifier label ≠ LABEL then FALSE else TRUE + examine_Label label
    if r1 = TRUE then
      (if assembler.label_head.any (fun l => label = l.label)
          ∨ assembler.entry_head.any (fun l => label = l.label) then FALSE else r1)
    else r1

/-- `Entry_Examine(line, line_counter, assembler, registers)`. -/
def Entry_Examine (line : List Char) (assembler : ASSEMBLER_TABLE) : Nat :=
  let e := extract_Label line '\n'
  if e.1 = ERROR then FALSE
  else
    let label := e.2
    let r1 := if operand_Type_Identifier label ≠ LABEL then FALSE else TRUE + examine_Label label
    if r1 = TRUE then
      (if assembler.extern_head.any (fun l => label = l.label) then FALSE else r1)
    else r1

/-! ## Emitter (Translation_Unit.c) -/

/-- `print_dec_to_file_in_octal(binary_code, addr, fp_file)`: the text written, that is
`"0%d\t%05o\n"` of the address and of the word with bit 15 cleared. -/
def print_dec_to_file_in_octal (binary_code : Nat) (addr : Int) : List Char :=
  ['0'] ++ fmt_d addr ++ ['\t'] ++ fmt_05o (binary_code % 32768) ++ ['\n']

/-- `process_ob_file(instruction_list, command_list, ob_file, IC, DC)`: the text of the
object file. -/
def process_ob_file (instruction_list : List MACHINE_CODE_INSTRUCTION)
    (command_list : List MACHINE_CODE_COMMAND) (IC DC : Int) : List Char :=
  ['\n', '\t'] ++ fmt_d (IC - 100) ++ [' '] ++ fmt_d (DC - 1) ++ ['\n']
    ++ (command_list.map (fun c => print_dec_to_file_in_octal c.mila c.addr)).flatten
    ++ (instruction_list.map
          (fun i => print_dec_to_file_in_octal i.mila (i.addr + IC - 1))).flatten

/-- The lines written for one name and its address list by `process_ent_file` and
`process_ext_file`: `"%s\t0%d\n"` followed by a space, once per address. -/
def site_lines (label : List Char) (addr_list : List Int) : List Char :=
  (addr_list.map (fun a => label ++ ['\t', '0'] ++ fmt_d a ++ ['\n', ' '])).flatten

/-- `process_ent_file(ent_list, ent_file)`: the text of the entry file, or `none` when the
file is removed because nothing was written. -/
def process_ent_file (ent_list : List ENTRY_LIST) : Option (List Char) :=
  if ent_list.all (fun e => e.addr_list.isEmpty) then none
  else some (ent_list.map (fun e => site_lines e.label e.addr_list)).flatten

/-- `process_ext_file(ext_list, ext_file)`: the text of the externals file, or `none` when
the file is removed because nothing was written. -/
def process_ext_file (ext_list : List EXTERN_LIST) : Option (List Char) :=
  if ext_list.all (fun e => e.addr_list.isEmpty) then none
  else some (ext_list.map (fun e => site_lines e.label e.addr_list)).flatten

/-- The three artifacts of one translation unit. -/
structure ARTIFACTS where
  ob : List Char
  ent : Option (List Char)
  ext : Option (List Char)
deriving DecidableEq, Repr

/-- `translationunit(assembler, file_name, IC, DC)`. -/
def translationunit (assembler : ASSEMBLER_TABLE) (IC DC : Int) : ARTIFACTS :=
  { ob := process_ob_file assembler.instruction_head assembler.command_head IC DC
    ent := process_ent_file assembler.entry_head
    ext := process_ext_file assembler.extern_head }

/-! ## Second pass (Second_Pass.c) -/

/-- `add_addr_to_list(addr_list, addr)`: appends at the end. -/
def add_addr_to_list (addr_list : List Int) (addr : Int) : List Int := addr_list ++ [addr]

/-- `Check_If_Label_Exist(head_label, head_extern, addr, label)`: `TRUE` when the name is in
the label list or in the extern list, else `FALSE` (and the line is printed). -/
def Check_If_Label_Exist (head_label : List LABEL_LIST) ( head_extern : List EXTERN_LIST)
    (label : List Char) : Nat :=
  let r1 := head_label.foldl (fun r l => if l.label = label then TRUE else r) FALSE
  head_extern.foldl (fun r e => if e.label = label then TRUE else r) r1

/-- The inner loop of `Second_Pass` over the label list for one marked word: every node
with the operand's name overwrites the word with `R | (addr << 3)`. -/
def resolve_in_labels : List LABEL_LIST → List Char → Nat → Nat
  | [], _, mila => mila
  | l :: rest, label, mila =>
    resolve_in_labels rest label
      (if l.label = label then (R ||| shift_Bits l.addr 3) % 65536 else mila)

/-- The inner loop of `Second_Pass` over the extern list for one marked word: every node
with the operand's name overwrites the word with `E` and receives the word's address. -/
def resolve_in_externs : List EXTERN_LIST → List Char → Int → Nat → Nat × List EXTERN_LIST
  | [], _, _, mila => (mila, [])
  | e :: rest, label, addr, mila =>
    if e.label = label then
      let r := resolve_in_externs rest label addr E
      (r.1, { e with addr_list := add_addr_to_list e.addr_list addr } :: r.2)
    else
      let r := resolve_in_externs rest label addr mila
      (r.1, e :: r.2)

/-- State of the first loop of `Second_Pass`: the words already visited, the extern list,
`error_flag`, and the printed "Label is not defined" lines (address and name). -/
structure SP_LOOP where
  commands : List MACHINE_CODE_COMMAND
  externs : List EXTERN_LIST
  error_flag : Nat
  undefined : List (Int × List Char)
deriving DecidableEq, Repr

/-- The first loop of `Second_Pass`, over the code image. -/
def Second_Pass_loop (labels : List LABEL_LIST) : List MACHINE_CODE_COMMAND → SP_LOOP → SP_LOOP
  | [], s => s
  | c :: rest, s =>
    if c.mila = MARK_FOR_SECOND_PASS then
      let found := Check_If_Label_Exist labels s.externs c.label
      let m1 := resolve_in_labels labels c.label c.mila
      let r := resolve_in_externs s.externs c.label c.addr m1
      Second_Pass_loop labels rest
        { commands := s.commands ++ [{ c with mila := r.1 }]
          externs := r.2
          error_flag := s.error_flag + found
          undefined := if found = FALSE then s.undefined ++ [(c.addr, c.label)] else s.undefined }
    else
      Second_Pass_loop labels rest { s with commands := s.commands ++ [c] }

/-- The second loop of `Second_Pass`: for every label, every entry node of that name
receives the label's address. -/
def Second_Pass_entries : List LABEL_LIST → List ENTRY_LIST → List ENTRY_LIST
  | [], entries => entries
  | l :: rest, entries =>
    Second_Pass_entries rest
      (entries.map (fun e =>
        if e.label = l.label then { e with addr_list := add_addr_to_list e.addr_list l.addr }
        else e))

/-- Result of `Second_Pass`: the tables afterwards, `error_flag`, the names reported as
undefined, and the artifacts when `translationunit` is called. -/
structure SECOND_PASS_RESULT where
  table : ASSEMBLER_TABLE
  error_flag : Nat
  undefined : List (Int × List Char)
  emitted : Option ARTIFACTS
deriving DecidableEq, Repr

/-- `Second_Pass(assembler_table, file_name, IC, DC)`. -/
def Second_Pass (assembler_table : ASSEMBLER_TABLE) (IC DC : Int) : SECOND_PASS_RESULT :=
  let s := Second_Pass_loop assembler_table.label_head assembler_table.command_head
    { commands := [], externs := assembler_table.extern_head, error_flag := TRUE, undefined := [] }
  let table : ASSEMBLER_TABLE :=
    { assembler_table with
      command_head := s.commands
      extern_head := s.externs
      entry_head := Second_Pass_entries assembler_table.label_head assembler_table.entry_head }
  { table := table
    error_flag := s.error_flag
    undefined := s.undefined
    emitted := if s.error_flag = TRUE then some (translationunit table IC DC) else none }

/-! ## First pass driver (First_Passage.c) -/

/-- One call `fgets(line, n + 1, fptr)`: the bytes read (at most `n`, up to and including
a newline) and the rest of the file. -/
def fgets : Nat → List Char → List Char × List Char
  | 0, s => ([], s)
  | _ + 1, [] => ([], [])
  | n + 1, c :: cs =>
    if c = '\n' then ([c], cs)
    else
      let r := fgets n cs
      (c :: r.1, r.2)

/-- The successive lines that the loop `while (fgets(line, MAX_FILE_LINE_LENGTH, fptr))`
sees, each as a C string (cut at a NUL byte). -/
def read_lines : Nat → List Char → List (List Char)
  | 0, _ => []
  | _ + 1, [] => []
  | fuel + 1, c :: cs =>
    let r := fgets (MAX_FILE_LINE_LENGTH - 1) (c :: cs)
    r.1.takeWhile (fun x => x != Char.ofNat 0) :: read_lines fuel r.2

/-- The local variables of `firstpass` that live across lines. -/
structure FIRSTPASS_STATE where
  table : ASSEMBLER_TABLE
  IC : Int
  DC : Int
  type : Int
  error_flag : Nat
deriving DecidableEq, Repr

/-- What the end of the loop body of `firstpass` keeps for the next line: the tables, the
counters, `type`, and `error_flag += error`. -/
def firstpass_next (s : FIRSTPASS_STATE) (type : Int) (t : ASSEMBLER_TABLE) (IC DC : Int)
    (error : Nat) : FIRSTPASS_STATE :=
  { table := t, IC := IC, DC := DC, type := type, error_flag := s.error_flag + error }

/-- The label of the line is appended to the label list when the line has one. -/
def firstpass_label (t : ASSEMBLER_TABLE) (label_skip : Int) (label : List Char)
    (address : Int) : ASSEMBLER_TABLE :=
  if label_skip ≠ NO_LABEL
  then { t with label_head := insert_Label_List t.label_head label address } else t

/-- `case IS_ENTRY` of the `switch` in `firstpass`. -/
def firstpass_case_IS_ENTRY (s : FIRSTPASS_STATE) (line label : List Char)
    (label_skip skip : Int) (error0 : Nat) : FIRSTPASS_STATE :=
  let t1 := firstpass_label s.table label_skip label (s.IC + s.DC)
  let error := error0 + Entry_Examine (line.drop (label_skip.toNat + ".entry".length)) t1
  let t2 := if error = TRUE
    then { t1 with entry_head := insert_Entry_List t1.entry_head (line.drop skip.toNat) } else t1
  firstpass_next s IS_ENTRY t2 s.IC s.DC error

/-- `case IS_EXTERN` of the `switch` in `firstpass`. -/
def firstpass_case_IS_EXTERN (s : FIRSTPASS_STATE) (line label : List Char)
    (label_skip skip : Int) (error0 : Nat) : FIRSTPASS_STATE :=
  let t1 := firstpass_label s.table label_skip label (s.IC + s.DC)
  let error := error0 + Extern_Examine (line.drop (label_skip.toNat + ".extern".length)) t1
  let t2 := if error = TRUE
    then { t1 with extern_head := insert_Extern_List t1.extern_head (line.drop skip.toNat) }
    else t1
  firstpass_next s IS_EXTERN t2 s.IC s.DC error

/-- `case IS_STRING` of the `switch` in `firstpass`. -/
def firstpass_case_IS_STRING (s : FIRSTPASS_STATE) (line label : List Char)
    (label_skip skip : Int) (error0 : Nat) : FIRSTPASS_STATE :=
  let t1 := firstpass_label s.table label_skip label (s.IC + s.DC - 1)
  let error := error0 + String_Examine (line.drop (label_skip.toNat + ".string".length))
  if error = TRUE then
    let r := extract_String t1.instruction_head (line.drop skip.toNat) s.DC
    firstpass_next s IS_STRING { t1 with instruction_head := r.1 } s.IC r.2 error
  else firstpass_next s IS_STRING t1 s.IC s.DC error

/-- `case IS_DATA` of the `switch` in `firstpass`. -/
def firstpass_case_IS_DATA (s : FIRSTPASS_STATE) (line label : List Char)
    (label_skip skip : Int) (error0 : Nat) : FIRSTPASS_STATE :=
  let t1 := firstpass_label s.table label_skip label (s.IC + s.DC - 1)
  let error := error0 + Data_Examine (line.drop (label_skip.toNat + ".data".length))
  if error = TRUE then
    let r := extract_Data t1.instruction_head (line.drop skip.toNat) s.DC
    firstpass_next s IS_DATA { t1 with instruction_head := r.1 } s.IC r.2 error
  else firstpass_next s IS_DATA t1 s.IC s.DC error

/-- `case IS_COMMAND` of the `switch` in `firstpass`, for the matched command. -/
def firstpass_case_IS_COMMAND (s : FIRSTPASS_STATE) (line label : List Char)
    (label_skip skip : Int) (command : COMMAND) (error0 : Nat) : FIRSTPASS_STATE :=
  let t1 := firstpass_label s.table label_skip label s.IC
  let error := error0 + Command_Examine command (line.drop (label_skip.toNat + command.name.length))
  if error = TRUE then
    let r := convert_Command t1.command_head (line.drop skip.toNat) command s.IC
    firstpass_next s IS_COMMAND { t1 with command_head := r.1 } r.2 s.DC error
  else firstpass_next s IS_COMMAND t1 s.IC s.DC error

/-- The `switch (type)` of `firstpass`. `case IS_ERROR` and `default` change no table
(`default` prints "undefined instruction" for a line that is not empty). -/
def firstpass_switch (s : FIRSTPASS_STATE) (line label : List Char) (label_skip skip : Int)
    (type : Int) (command : Option COMMAND) (error0 : Nat) : FIRSTPASS_STATE :=
  if type = IS_ENTRY then firstpass_case_IS_ENTRY s line label label_skip skip error0
  else if type = IS_EXTERN then firstpass_case_IS_EXTERN s line label label_skip skip error0
  else if type = IS_STRING then firstpass_case_IS_STRING s line label label_skip skip error0
  else if type = IS_DATA then firstpass_case_IS_DATA s line label label_skip skip error0
  else if type = IS_COMMAND then
    match command with
    | some cmd => firstpass_case_IS_COMMAND s line label label_skip skip cmd error0
    | none => firstpass_next s type s.table s.IC s.DC error0
  else firstpass_next s type s.table s.IC s.DC error0

/-- The body of the `while` loop of `firstpass` for one line: label extraction and check,
classification of the rest of the line, then the `switch`. -/
def firstpass_line (s : FIRSTPASS_STATE) (line : List Char) : FIRSTPASS_STATE :=
  let e := extract_Label line ':'
  let skip0 := e.1
  let label := e.2
  let has_label : Bool := decide (skip0 ≠ NO_LABEL ∧ skip0 ≠ ERROR)
  let error0 := if has_label then TRUE + examine_Label label else TRUE
  let type0 := if has_label && decide (error0 ≥ FALSE) then IS_ERROR else s.type
  let classify : Bool := decide (error0 = TRUE ∧ skip0 ≠ ERROR)
  let g := get_Line_Type (line.drop skip0.toNat)
  let label_skip : Int := if classify then skip0 else 0
  let type := if classify then g.1 else type0
  let skip : Int := if classify then skip0 + g.2.1 else skip0
  let command := if classify then g.2.2 else none
  firstpass_switch s line label label_skip skip type command error0

/-- The state of `firstpass` before the first line: empty tables, `IC = 100`, `DC = 1`. -/
def firstpass_init : FIRSTPASS_STATE :=
  { table := { label_head := [], entry_head := [], extern_head := [], command_head := [],
               instruction_head := [] }
    IC := 100, DC := 1, type := 0, error_flag := TRUE }

/-- The `while` loop of `firstpass` over the text of the `.am` file. -/
def firstpass_loop (file : List Char) : FIRSTPASS_STATE :=
  (read_lines file.length file).foldl firstpass_line firstpass_init

/-- `firstpass(assembler, file_name, file_name_no_ending)` on the text of the `.am` file:
the state after the last line, and the result of `Second_Pass` when it is called. -/
def firstpass (file : List Char) : FIRSTPASS_STATE × Option SECOND_PASS_RESULT :=
  let s := firstpass_loop file
  (s, if s.error_flag = TRUE then some (Second_Pass s.table s.IC s.DC) else none)

/-! ## Auxiliary definitions used in the statements -/

/-- The node that the first loop of `Second_Pass` leaves for a node of the code image,
in terms of the label list and of the names in the extern list. -/
def second_pass_word (labels : List LABEL_LIST) (extern_names : List (List Char))
    (c : MACHINE_CODE_COMMAND) : MACHINE_CODE_COMMAND :=
  if c.mila = MARK_FOR_SECOND_PASS then
    { c with mila := if c.label ∈ extern_names then E
                     else resolve_in_labels labels c.label c.mila }
  else c

/-- The addresses of the marked words of the code image with operand name `name`,
in code order. -/
def pending_sites (cs : List MACHINE_CODE_COMMAND) (name : List Char) : List Int :=
  (cs.filter (fun c => decide (c.mila = MARK_FOR_SECOND_PASS) && decide (c.label = name))).map
    (fun c => c.addr)

/-- The marked words whose operand name is neither a label nor an extern. -/
def unresolved (labels : List LABEL_LIST) (extern_names : List (List Char))
    (cs : List MACHINE_CODE_COMMAND) : List MACHINE_CODE_COMMAND :=
  cs.filter (fun c => decide (c.mila = MARK_FOR_SECOND_PASS)
    && !decide (c.label ∈ labels.map (fun l => l.label)) && !decide (c.label ∈ extern_names))

/-! ## Example `.am` texts

`Pre_Proc` writes every source line through `remove_white_spaces` and adds a final empty
line, so `mov EXT, r1` reaches `firstpass` as `movEXT,r1`. -/

/-- The `.am` text of `LOOP: inc r1` / `jmp LOOP` / `stop`. -/
def example_loop_file : List Char := "LOOP:incr1\njmpLOOP\nstop\n\n".toList

/-- The `.am` text of `X: mov r1, r2` / `X: stop` / `jmp X`. -/
def example_redefined_file : List Char := "X:movr1,r2\nX:stop\njmpX\n\n".toList

/-- The `.am` text of `.extern EXT` / `mov EXT, r1` / `stop`. -/
def example_extern_file : List Char := ".externEXT\nmovEXT,r1\nstop\n\n".toList

/-- Register form: the operand types `REGISTER` and `POINTER`. -/
def register_form (type : Int) : Bool := decide (type = REGISTER) || decide (type = POINTER)

/-- Number of extension words that the specification assigns to an opcode and a pair of
operand types. -/
def extension_words (command_code type_src type_dest : Int) : Nat :=
  if command_code ≥ RTS then 0
  else if command_code ≤ LEA then
    (if register_form type_src && register_form type_dest then 1 else 2)
  else 1

/-- The one-hot masks that the specification gives for the addressing modes:
Immediate 1, Direct 2, RegIndirect 4, RegDirect 8. -/
def one_hot_mask (type : Int) : Nat :=
  if type = NUMBER then 1
  else if type = LABEL then 2
  else if type = POINTER then 4
  else if type = REGISTER then 8
  else 0

/-- The operand types that stand for an addressing mode. -/
def is_mode (type : Int) : Prop :=
  type = NUMBER ∨ type = LABEL ∨ type = POINTER ∨ type = REGISTER

/-- The text of a register operand: `rk`, or `*rk` when `indirect`. -/
def register_text (indirect : Bool) (k : Nat) : List Char :=
  (if indirect then ['*'] else []) ++ ['r', Char.ofNat ('0'.toNat + k)]

/-- Reading of the 12-bit field of an immediate word as a signed number. -/
def sign_extend_12 (f : Nat) : Int := if f ≥ 2048 then (f : Int) - 4096 else (f : Int)

/-- The operand text `#k` for an integer `k`, written the way `printf("%d")` writes it. -/
def immediate_text (k : Int) : List Char := '#' :: fmt_d k

/-- The `.am` text of `MAIN: mov #3, r4` / `stop`. -/
def example_minimal_file : List Char := "MAIN:mov#3,r4\nstop\n\n".toList

/-- A word of the code image as the first pass leaves it: marked for the second pass, or
tagged `A` in its low three bits. -/
def first_pass_word (w : Nat) : Prop := w = MARK_FOR_SECOND_PASS ∨ w % 8 = A

/-- The words that one call of `generate_Mila` appends, as a list on their own. -/
def new_words_ok (IC : Int) (new : List MACHINE_CODE_COMMAND) : Prop :=
  new.map (fun c => c.addr) = (List.range new.length).map (fun (i : Nat) => IC + (i : Int))
    ∧ ∀ c ∈ new, first_pass_word c.mila

/-- The nodes that one directive appends to the data image, as a list on their own:
their addresses count up from the value of `DC` before the directive. -/
def new_data_ok (DC : Int) (new : List MACHINE_CODE_INSTRUCTION) : Prop :=
  new.map (fun c => c.addr) = (List.range new.length).map (fun (i : Nat) => DC + (i : Int))

/-- One line of the first pass appends `new` to the code image: `IC` grows by the number
of new words, their addresses count up from the old `IC`, and each is marked or tagged. -/
def code_step (s s1 : FIRSTPASS_STATE) : Prop :=
  ∃ new : List MACHINE_CODE_COMMAND,
    s1.table.command_head = s.table.command_head ++ new
      ∧ s1.IC = s.IC + (new.length : Int)
      ∧ new_words_ok s.IC new

/-- One line of the first pass appends `new` to the data image: `DC` grows by the number
of new words and their addresses count up from the old `DC`. -/
def data_step (s s1 : FIRSTPASS_STATE) : Prop :=
  ∃ new : List MACHINE_CODE_INSTRUCTION,
    s1.table.instruction_head = s.table.instruction_head ++ new
      ∧ s1.DC = s.DC + (new.length : Int)
      ∧ new_data_ok s.DC new

/-- Invariant of the loop of `firstpass`: the code image holds the addresses
`100, 101, ...` in order and `IC` is the next one, every code word is marked or tagged `A`;
the data image holds the addresses `1, 2, ...` in order and `DC` is the next one. -/
def firstpass_inv (s : FIRSTPASS_STATE) : Prop :=
  new_words_ok 100 s.table.command_head
    ∧ s.IC = 100 + (s.table.command_head.length : Int)
    ∧ new_data_ok 1 s.table.instruction_head
    ∧ s.DC = 1 + (s.table.instruction_head.length : Int)

/-- The `.am` text of `A: .data 5,-3` / `B: .string "ab"` / `stop`. -/
def example_data_file : List Char :=
  "A:.data5,-3\nB:.string".toList ++ [Char.ofNat 34, 'a', 'b', Char.ofNat 34]
    ++ "\nstop\n\n".toList

/-- The `.am` text of `.entry A` / `A: .data 5,-3` / `mov A, r1` / `stop`. -/
def example_data_use_file : List Char := ".entryA\nA:.data5,-3\nmovA,r1\nstop\n\n".toList

/-- The `.am` text of `n` lines `stop` followed by `L: jmp L`: the label `L` stands at
address `100 + n`. -/
def example_long_file (n : Nat) : List Char :=
  (List.replicate n "stop\n".toList).flatten ++ "L:jmpL\n\n".toList

/-! ## Definitions used in the statements on output lines, operands and directives -/

/-- Whether a byte is one of the octal digits `0` .. `7`. -/
def is_octal_digit (c : Char) : Bool := decide ('0'.toNat ≤ c.toNat) && decide (c.toNat ≤ '7'.toNat)

/-- The number that a string of octal digits denotes, most significant digit first. -/
def octal_value (ds : List Char) : Nat :=
  ds.foldl (fun acc c => acc * 8 + (c.toNat - '0'.toNat)) 0

/-- The addresses of the nodes of the label list that carry the name `N`, in list order. -/
def label_addresses (labels : List LABEL_LIST) (N : List Char) : List Int :=
  (labels.filter (fun l => decide (l.label = N))).map (fun l => l.addr)

/-- Every node of the entry list still has an empty address list. -/
def entries_fresh (t : ASSEMBLER_TABLE) : Prop := ∀ e ∈ t.entry_head, e.addr_list = []

/-- The `.am` text of `X: stop` / `.entry X` / `X: stop`: the name `X` is defined twice. -/
def example_entry_file : List Char := "X:stop\n.entryX\nX:stop\n\n".toList

/-- A well-formed signed decimal: an optional `+` or `-`, then at least one decimal digit,
and nothing else. -/
def signed_decimal (t : List Char) : Bool :=
  match t with
  | [] => false
  | c :: cs =>
    if c = '-' ∨ c = '+' then !cs.isEmpty && cs.all isdigit else (c :: cs).all isdigit

/-- The value fits the type `int` (32 bits), so that `atoi` is defined on its text. -/
def fits_int (n : Int) : Prop := -2147483648 ≤ n ∧ n ≤ 2147483647

/-- The legality matrix of the specification, by opcode and operand types: mov/add/sub
take any source and a destination other than Immediate; cmp any source and destination;
lea a Direct source and a destination other than Immediate; clr/not/inc/dec/red a Direct,
RegDirect or RegIndirect operand; jmp/bne/jsr a Direct or RegIndirect operand; prn any
operand. The source type is not looked at for the opcodes with one operand. -/
def matrix_permits (command_code type_src type_dest : Int) : Bool :=
  if command_code = MOV ∨ command_code = ADD ∨ command_code = SUB then
    decide (type_dest ≠ NUMBER)
  else if command_code = CMP then true
  else if command_code = LEA then decide (type_src = LABEL ∧ type_dest ≠ NUMBER)
  else if command_code = CLR ∨ command_code = NOT ∨ command_code = INC ∨ command_code = DEC
      ∨ command_code = RED then
    decide (type_dest = LABEL ∨ type_dest = REGISTER ∨ type_dest = POINTER)
  else if command_code = JMP ∨ command_code = BNE ∨ command_code = JSR then
    decide (type_dest = LABEL ∨ type_dest = POINTER)
  else if command_code = PRN then true
  else false

/-- An operand text that the code takes for well formed: it fits the operand buffer, holds
no comma and no newline, `operand_Type_Identifier` gives it an addressing mode, and
`Examine_Operand` accepts it for that mode. -/
def operand_ok (t : List Char) : Prop :=
  t.length < MAX_LABEL_SIZE ∧ ',' ∉ t ∧ '\n' ∉ t ∧ is_mode (operand_Type_Identifier t)
    ∧ Examine_Operand t (operand_Type_Identifier t) = TRUE

/-- The text behind the mnemonic: `src,dest` and a newline for the opcodes with two
operands, `dest` and a newline for the opcodes with one. -/
def operand_text (command_code : Int) (src dest : List Char) : List Char :=
  if command_code ≤ LEA then src ++ ',' :: (dest ++ ['\n']) else dest ++ ['\n']

/-- The text of a comma-separated list behind `.data` as it stands in the `.am` file:
every item of `init` followed by a comma, then the last item, then the newline. -/
def data_list_text (init : List (List Char)) (last : List Char) : List Char :=
  (init.map (fun t => t ++ [','])).flatten ++ (last ++ ['\n'])

/-- The values accepted by the range check of `Data_Examine`. -/
def in_data_range (v : Int) : Prop := -16384 < v ∧ v < 32767

/-- The `.am` text of the single line `.string "a:b"` (no label). -/
def example_colon_string_file : List Char :=
  ".string".toList ++ [Char.ofNat 34] ++ "a:b".toList ++ [Char.ofNat 34] ++ "\n\n".toList

/-- The `.am` text of the single line `L: .string "a:b"`. -/
def example_labelled_colon_string_file : List Char :=
  "L:".toList ++ example_colon_string_file

/-- The operand of a `.string` directive in the `.am` file: the characters of `s` between
two double quotes, then the newline. -/
def string_operand (s : List Char) : List Char :=
  Char.ofNat 34 :: (s ++ [Char.ofNat 34, '\n'])

/-- An ASCII letter. -/
def is_letter (c : Char) : Bool := isupper c || islower c

/-- The reserved words as the specification lists them: the 16 mnemonics, the registers
`r0` .. `r7`, the four directives, and the two macro keywords. -/
def spec_reserved_words : List (List Char) :=
  ["mov", "cmp", "add", "sub", "lea", "clr", "not", "inc", "dec", "jmp", "bne", "red", "prn",
   "jsr", "rts", "stop", "r0", "r1", "r2", "r3", "r4", "r5", "r6", "r7",
   ".data", ".string", ".entry", ".extern", "macr", "endmacr"].map String.toList

/-- The contract of the specification for a label name: not empty, starts with an ASCII
letter, consists of ASCII letters and digits only, and is no reserved word. -/
def label_name_ok (t : List Char) : Bool :=
  !t.isEmpty && (t.head?.map is_letter == some true)
    && t.all (fun c => is_letter c || isdigit c) && !spec_reserved_words.contains t

/-- The `.am` text of `.extern N` / `N: stop` / `jmp N`. -/
def example_extern_then_label_file : List Char := ".externN\nN:stop\njmpN\n\n".toList

/-- The `.am` text of `N: stop` / `.extern N` / `jmp N`. -/
def example_label_then_extern_file : List Char := "N:stop\n.externN\njmpN\n\n".toList

/-- The `.am` text of `hello` / `stop`. -/
def example_undefined_file : List Char := "hello\nstop\n\n".toList

/-- Whether the `default` case of the `switch` in `firstpass` prints "undefined
instruction" for the line: the type of the line is none of the `case` labels, and
`line[0] != '\n'`. -/
def firstpass_prints_undefined (s : FIRSTPASS_STATE) (line : List Char) : Bool :=
  let type := (firstpass_line s line).type
  decide (type ≠ IS_ENTRY ∧ type ≠ IS_EXTERN ∧ type ≠ IS_STRING ∧ type ≠ IS_DATA
      ∧ type ≠ IS_COMMAND ∧ type ≠ IS_ERROR)
    && decide (line.head? ≠ some '\n')

/-- The `.am` line of the directive `.entry N`. -/
def entry_line (N : List Char) : List Char := ".entry".toList ++ (N ++ ['\n'])

/-- The `.am` line of the directive `.extern N`. -/
def extern_line (N : List Char) : List Char := ".extern".toList ++ (N ++ ['\n'])

/-- The name that `Entry_Examine`, `Extern_Examine`, `insert_Entry_List` and
`insert_Extern_List` read from the operand `N` of a directive. -/
def directive_name (N : List Char) : List Char := (extract_Label (N ++ ['\n']) '\n').2

/-- From one line of the first pass to the next, `error_flag` does not decrease and the
entry list and the extern list only receive new nodes at their end. -/
def firstpass_grows (s s1 : FIRSTPASS_STATE) : Prop :=
  s.error_flag ≤ s1.error_flag
    ∧ (∃ x, s1.table.entry_head = s.table.entry_head ++ x)
    ∧ (∃ y, s1.table.extern_head = s.table.extern_head ++ y)

/-! ## Pre-processor (Pre_Proc.c, Pre_Proc_Error_Handler.c)

`Pre_Proc` keeps the macro list in the assembler table and the content list under
construction in its local pointer `head_content`. Two macro nodes may point to the same
content list, so the content lists are kept in a store: a pointer to the first node of a
content list is the index of that list in the store, and `NULL` is `none`. The two nested
`fgets` loops of `Pre_Proc` are one step function on the lines of the source, with a flag
that tells whether control is inside the inner loop. -/

def MACRO_DECLARATION : Int := 1
def END_MACR : Int := 2
def EMPTY_LINE : Int := 3
def MACRO_CALL : Int := 4

/-- Node of the macro list: the name as `strcpy` stored it and the pointer to the content
list. -/
structure MACRO_LIST where
  macro_name : List Char
  head_content : Option Nat
deriving DecidableEq, Repr

/-- `add_to_macro_list(&head, macro_name, head_content)`: the new node goes to the end. -/
def add_to_macro_list (head : List MACRO_LIST) (macro_name : List Char)
    (head_content : Option Nat) : List MACRO_LIST :=
  head ++ [⟨macro_name, head_content⟩]

/-- `add_content_to_list(&head_content, line_to_add)`: with a `NULL` pointer a new list of
one node is made and the pointer set to it, otherwise the node goes to the end of the list
that the pointer names. Returns the store and the pointer. -/
def add_content_to_list (store : List (List (List Char))) (head_content : Option Nat)
    (line_to_add : List Char) : List (List (List Char)) × Option Nat :=
  match head_content with
  | none => (store ++ [[line_to_add]], some store.length)
  | some p => (store.set p (store.getD p [] ++ [line_to_add]), some p)

/-- Number of bytes that the quotation block of `remove_white_spaces` copies behind an
opening quote, `rest` being the text behind that quote: the search `while (k > i && ...)`
runs backwards from the end of the line and stops at the last quote behind the first byte
of `rest`; the block copies up to and including that quote, and nothing when there is
none. -/
def quote_copy_length (rest : List Char) : Nat :=
  match rest with
  | [] => 0
  | _ :: tl =>
    let p := tl.reverse.dropWhile (fun x => x != Char.ofNat 34)
    if p.isEmpty then 0 else p.length + 1

/-- The `for` loop of `remove_white_spaces`, one pass per unit of fuel: the quotation
block, then the test for `;` (which writes a newline and ends the loop), then the copy of
a byte that is neither a space nor a tab. -/
def remove_white_spaces_loop : Nat → List Char → List Char
  | 0, _ => []
  | _ + 1, [] => []
  | fuel + 1, c :: cs =>
    let n := if c = Char.ofNat 34 then quote_copy_length cs else 0
    let quoted := if c = Char.ofNat 34 then c :: cs.take n else []
    let rest := if c = Char.ofNat 34 then cs.drop n else c :: cs
    match rest with
    | [] => quoted
    | d :: ds =>
      if d = ';' then quoted ++ ['\n']
      else (if d ≠ ' ' ∧ d ≠ '\t' then quoted ++ [d] else quoted)
        ++ remove_white_spaces_loop fuel ds

/-- `remove_white_spaces(line)`. Every pass of the loop consumes a byte, so the length of
the line is enough fuel. -/
def remove_white_spaces (line : List Char) : List Char :=
  remove_white_spaces_loop line.length line

/-- The bytes that the loop of `remove_white_spaces` writes to `new_line`, in the order of
the write index `j` (every write is `new_line[j] = ...; j++`). It is the loop of
`remove_white_spaces_loop` with the writes of the terminator kept: behind a quotation
block that ends the line, and behind a `;` (which sets `i = strlen(line)`), the test
`line[i] != ' ' && line[i] != '\t'` reads the terminator of the line and copies it. -/
def remove_white_spaces_writes : Nat → List Char → List Char
  | 0, _ => []
  | _ + 1, [] => []
  | fuel + 1, c :: cs =>
    let n := if c = Char.ofNat 34 then quote_copy_length cs else 0
    let quoted := if c = Char.ofNat 34 then c :: cs.take n else []
    let rest := if c = Char.ofNat 34 then cs.drop n else c :: cs
    match rest with
    | [] => quoted ++ [Char.ofNat 0]
    | d :: ds =>
      if d = ';' then quoted ++ ['\n', Char.ofNat 0]
      else (if d ≠ ' ' ∧ d ≠ '\t' then quoted ++ [d] else quoted)
        ++ remove_white_spaces_writes fuel ds

/-- The value of the write index `j` behind the loop of `remove_white_spaces`, which is
the position of the final `new_line[j] = '\0'`. -/
def remove_white_spaces_j (line : List Char) : Nat :=
  (remove_white_spaces_writes line.length line).length

/-- `find_macro(head, name_to_find)`: the first node whose name is `name_to_find`. -/
def find_macro (head : List MACRO_LIST) (name_to_find : List Char) : Option MACRO_LIST :=
  head.find? (fun m => decide (m.macro_name = name_to_find))

/-- `line_type(line, head, line_clean)`. -/
def line_type (line : List Char) (head : List MACRO_LIST) (line_clean : List Char) : Int :=
  if starts_with line "macr".toList then MACRO_DECLARATION
  else if starts_with line "endmacr".toList then END_MACR
  else if line.head? = none ∨ line.head? = some '\n' then EMPTY_LINE
  else if ( find_macro head line_clean).isSome then MACRO_CALL
  else NONE

/-- `End_Macr_Check(line, line_count)`. -/
def End_Macr_Check (line : List Char) : Nat :=
  if line.head? ≠ some '\n' then FALSE else TRUE

/-- `Macro_Name_Check(line, head, line_count)`. The loop over the characters runs up to
the first newline; in a name without a newline it reads the NUL behind the name, which is
none of the permitted characters. -/
def Macro_Name_Check (line : List Char) (head : List MACRO_LIST) : Nat :=
  if line.head? = some '\n' then FALSE
  else if line.length ≥ MAX_LABEL_SIZE then FALSE
  else
    let r1 := if (line.head?.map isdigit).getD false then FALSE else TRUE
    let r2 :=
      if (line.takeWhile (fun x => x != '\n')).all
            (fun x => isupper x || islower x || isdigit x || x == '_') ∧ '\n' ∈ line
      then r1 else FALSE
    if head.any (fun m => decide (m.macro_name = line)) then FALSE
    else r2 + Reserved_Words_Check line

/-- The variables of `Pre_Proc` that live across lines: the macro list of the table, the
store of content lists, the locals `head_content`, `macro_name`, `error_flag` and
`final_result`, whether control is inside the inner loop of `case MACRO_DECLARATION`, and
the text written to the `.am` file so far. -/
structure PRE_PROC_STATE where
  macro_head : List MACRO_LIST
  store : List (List (List Char))
  head_content : Option Nat
  macro_name : List Char
  in_definition : Bool
  error_flag : Nat
  final_result : Nat
  am : List Char
deriving DecidableEq, Repr

/-- The lines of the content list that the pointer `head_content` names, in list order. -/
def content_lines (store : List (List (List Char))) (head_content : Option Nat) :
    List (List Char) :=
  match head_content with
  | none => []
  | some p => store.getD p []

/-- End of a pass through the outer loop: `macro_name` is cleared and `error_flag` set
back to `TRUE`. -/
def Pre_Proc_next (s : PRE_PROC_STATE) : PRE_PROC_STATE :=
  { s with macro_name := [], error_flag := TRUE }

/-- The code behind the inner loop of `case MACRO_DECLARATION`: the macro is added when no
error occurred, and the pass through the outer loop ends. -/
def Pre_Proc_close (s : PRE_PROC_STATE) : PRE_PROC_STATE :=
  Pre_Proc_next
    { s with
      macro_head :=
        if s.error_flag = TRUE then add_to_macro_list s.macro_head s.macro_name s.head_content
        else s.macro_head
      in_definition := false }

/-- One pass through the inner loop of `case MACRO_DECLARATION`, for the line that `fgets`
read: an `endmacr` line is checked and leaves the loop, every other line is added to the
content list when no error occurred. -/
def Pre_Proc_macro_line (s : PRE_PROC_STATE) (line : List Char) : PRE_PROC_STATE :=
  let line_clean := remove_white_spaces line
  let type := line_type line_clean s.macro_head line_clean
  if type = END_MACR then
    let error_flag := s.error_flag + End_Macr_Check (line_clean.drop "endmacr".length)
    Pre_Proc_close
      { s with
        error_flag := error_flag
        final_result := if error_flag ≥ FALSE then FALSE else s.final_result }
  else if s.error_flag = TRUE then
    let r := add_content_to_list s.store s.head_content line_clean
    { s with store := r.1, head_content := r.2 }
  else s

/-- One pass through the outer loop of `Pre_Proc` up to the inner loop, for the line that
`fgets` read. `case MACRO_CALL` writes the content list of the macro and leaves
`head_content` at `NULL`; the `switch` has no case for `END_MACR`. -/
def Pre_Proc_outer_line (s : PRE_PROC_STATE) (line : List Char) : PRE_PROC_STATE :=
  let line_clean := remove_white_spaces line
  let type := line_type line_clean s.macro_head line_clean
  if type = MACRO_DECLARATION then
    let error_flag :=
      s.error_flag + Macro_Name_Check (line_clean.drop "macr".length) s.macro_head
    { s with
      error_flag := error_flag
      final_result := if error_flag ≥ FALSE then FALSE else s.final_result
      macro_name := if error_flag = TRUE then line_clean.drop "macr".length else s.macro_name
      in_definition := true }
  else if type = MACRO_CALL then
    match find_macro s.macro_head line_clean with
    | some head_macro =>
      Pre_Proc_next
        { s with
          am := s.am ++ (content_lines s.store head_macro.head_content).flatten
          head_content := none }
    | none => Pre_Proc_next s
  else if type = NONE then Pre_Proc_next { s with am := s.am ++ line_clean }
  else Pre_Proc_next s

/-- The step of `Pre_Proc` for one line of the source. -/
def Pre_Proc_line (s : PRE_PROC_STATE) (line : List Char) : PRE_PROC_STATE :=
  if s.in_definition then Pre_Proc_macro_line s line else Pre_Proc_outer_line s line

/-- The locals of `Pre_Proc` and the macro list before the first line. -/
def Pre_Proc_init : PRE_PROC_STATE :=
  { macro_head := [], store := [], head_content := none, macro_name := [], in_definition := false,
    error_flag := TRUE, final_result := TRUE, am := [] }

/-- End of the source: when it comes inside the inner loop, the code behind that loop still
runs. -/
def Pre_Proc_end (s : PRE_PROC_STATE) : PRE_PROC_STATE :=
  if s.in_definition then Pre_Proc_close s else s

/-- The loops of `Pre_Proc` over the lines that `fgets` reads. -/
def Pre_Proc_lines (lines : List (List Char)) : PRE_PROC_STATE :=
  Pre_Proc_end (lines.foldl Pre_Proc_line Pre_Proc_init)

/-- The text of the `.am` file when `Pre_Proc` closes it: what the loop wrote and the final
newline. -/
def Pre_Proc_am (s : PRE_PROC_STATE) : List Char := s.am ++ ['\n']

/-- What `Pre_Proc` leaves: the final state, the `.am` file (`none` when it was removed)
and the result of `firstpass` (`none` when it was not called). -/
structure PRE_PROC_RESULT where
  state : PRE_PROC_STATE
  am : Option (List Char)
  first : Option (FIRSTPASS_STATE × Option SECOND_PASS_RESULT)
deriving DecidableEq, Repr

/-- The code of `Pre_Proc` from the outer loop on, when that loop runs at least once:
the loops over the lines, the final newline, the removal of the `.am` file when
`final_result` is `FALSE`, and the call of `firstpass` when it is `TRUE`. -/
def Pre_Proc_result (file : List Char) : PRE_PROC_RESULT :=
  let s := Pre_Proc_lines (read_lines file.length file)
  { state := s
    am := if s.final_result = FALSE then none else some (Pre_Proc_am s)
    first := if s.final_result = TRUE then some (firstpass (Pre_Proc_am s)) else none }

/-- `Pre_Proc(head_table, file_name)` for a file name of valid length and the text `file`
of the `.as` file. The local `line_clean` is declared without a value; every pass through
the outer loop assigns it and leaves it at `NULL`, and `free(line_clean)` follows the loop.
When the first `fgets` reads no line (the source is empty) the loop never runs and `free`
gets the pointer as it was declared: the behaviour is undefined, and the result is
`none`. -/
def Pre_Proc (file : List Char) : Option PRE_PROC_RESULT :=
  if (read_lines file.length file).isEmpty then none else some (Pre_Proc_result file)

/-! ## Definitions used in the statements on macros -/

/-- The trimmed text of the line begins with neither `macr` nor `endmacr`. -/
def plain_line (line : List Char) : Bool :=
  !starts_with (remove_white_spaces line) "macr".toList
    && !starts_with (remove_white_spaces line) "endmacr".toList

/-- The text that a line outside a macro definition adds to the `.am` file when its
trimmed text begins with neither `macr` nor `endmacr`: nothing for an empty line, the
content of the macro for a call, the trimmed text otherwise. -/
def outer_text (head : List MACRO_LIST) (store : List (List (List Char)))
    (line : List Char) : List Char :=
  let t := remove_white_spaces line
  if t.head? = none ∨ t.head? = some '\n' then []
  else
    match find_macro head t with
    | some m => (content_lines store m.head_content).flatten
    | none => t

/-- The pointer is `NULL` or names a list of the store. -/
def pointer_ok (store : List (List (List Char))) (head_content : Option Nat) : Bool :=
  match head_content with
  | none => true
  | some p => decide (p < store.length)

/-- The trimmed text of a line that is not empty after trimming, and nothing otherwise. -/
def copied_text (line : List Char) : List Char :=
  let t := remove_white_spaces line
  if t.head? = none ∨ t.head? = some '\n' then [] else t

/-- The text that the specification puts in the `.am` file for a line behind the
definition of the macro `N` with the body lines `body`: the trimmed body lines for a call,
the trimmed line otherwise. -/
def expanded_text (N : List Char) (body : List (List Char)) (line : List Char) : List Char :=
  if remove_white_spaces line = N ++ ['\n'] then (body.map remove_white_spaces).flatten
  else copied_text line

/-- The names of the macro table with the lines of their content lists. -/
def macro_table (s : PRE_PROC_STATE) : List (List Char × List (List Char)) :=
  s.macro_head.map (fun m => (m.macro_name, content_lines s.store m.head_content))

/-- The source S2 of the specification: `macr GREET` / `prn #7` / `endmacr` / `GREET` /
`stop`. -/
def example_greet_source : List Char := "macr GREET\nprn #7\nendmacr\nGREET\nstop\n".toList

/-- A macro with the name `macro1`, which `Macro_Name_Check` accepts, and a call of it. -/
def example_macro1_source : List Char :=
  "macr macro1\nprn #7\nendmacr\nmacro1\nstop\n".toList

/-- A label with the name of a macro: `macr GREET` / `prn #7` / `endmacr` /
`GREET: stop`. -/
def example_label_macro_source : List Char :=
  "macr GREET\nprn #7\nendmacr\nGREET: stop\n".toList

/-- Two macros defined one after the other, then called. -/
def example_two_macros_source : List Char :=
  "macr A\ninc r1\nendmacr\nmacr B\ndec r2\nendmacr\nA\nB\nstop\n".toList

/-- Two macros with a call of the first between the definitions. -/
def example_call_between_source : List Char :=
  "macr A\ninc r1\nendmacr\nA\nmacr B\ndec r2\nendmacr\nA\nB\nstop\n".toList

/-- A macro with the name `endmacro`, which `Macro_Name_Check` accepts, used as a line of
the body of `B`. -/
def example_endmacro_source : List Char :=
  "macr endmacro\ninc r1\nendmacr\nmacr B\nendmacro\nstop\nendmacr\nB\n".toList

/-- The macro `GREET` and a line with text behind its name. -/
def example_call_text_source : List Char :=
  "macr GREET\nprn #7\nendmacr\nGREET r1\nstop\n".toList

/-- The state of `Pre_Proc` behind `macr A` / `inc r1` / `endmacr` / `A` / `macr B`:
inside the definition of `B`, with `A` in the macro table. -/
def example_inside_B : PRE_PROC_STATE :=
  ["macr A\n".toList, "inc r1\n".toList, "endmacr\n".toList, "A\n".toList,
    "macr B\n".toList].foldl Pre_Proc_line Pre_Proc_init

/-- A macro whose body holds the name of an earlier macro, and a call of it. -/
def example_nested_source : List Char :=
  "macr A\ninc r1\nendmacr\nA\nmacr B\nA\nstop\nendmacr\nB\n".toList

/-- The state of `Pre_Proc` behind `macr GREET` / `prn #7` / `endmacr`. -/
def example_after_GREET : PRE_PROC_STATE :=
  ["macr GREET\n".toList, "prn #7\n".toList, "endmacr\n".toList].foldl Pre_Proc_line
    Pre_Proc_init

/-! ## Definitions used in the statements on trimming, macro names and the second pass -/

/-- The loop of `remove_white_spaces` on a text in which no quotation block is opened:
spaces and tabs are dropped up to the first `;`, which is written as a newline and ends
the text. -/
def strip_plain : List Char → List Char
  | [] => []
  | d :: ds =>
    if d = ';' then ['\n']
    else (if d ≠ ' ' ∧ d ≠ '\t' then [d] else []) ++ strip_plain ds

/-- The result of `remove_white_spaces` by recursion on the line, without fuel: behind the
first double quote that the loop meets no further quotation block is opened. -/
def trimmed : List Char → List Char
  | [] => []
  | c :: cs =>
    if c = Char.ofNat 34 then
      c :: (cs.take (quote_copy_length cs) ++ strip_plain (cs.drop (quote_copy_length cs)))
    else if c = ';' then ['\n']
    else (if c ≠ ' ' ∧ c ≠ '\t' then [c] else []) ++ trimmed cs

/-- The text with every space and tab deleted. -/
def delete_blanks (l : List Char) : List Char :=
  l.filter (fun d => decide (d ≠ ' ' ∧ d ≠ '\t'))

/-- A prefix with two double quotes and no `;`: `.string "a"`. -/
def example_quoted_start : List Char :=
  ".string ".toList ++ [Char.ofNat 34] ++ "a".toList ++ [Char.ofNat 34]

/-- A comment text with two double quotes: ` say "hi"` and a newline. -/
def example_quoted_comment : List Char :=
  " say ".toList ++ [Char.ofNat 34] ++ "hi".toList ++ [Char.ofNat 34] ++ "\n".toList

/-- A line of 80 bytes: 79 letters and a `;`. -/
def example_full_line : List Char := List.replicate 79 'a' ++ [';']

/-- A line of 80 bytes: 79 letters and a double quote. -/
def example_full_quote_line : List Char := List.replicate 79 'a' ++ [Char.ofNat 34]

/-- A character of a macro name: an ASCII letter, a digit or `_`. -/
def is_macro_char (c : Char) : Bool := is_letter c || isdigit c || c == '_'

/-- The condition of the specification on a macro name `N`, given the stored names of the
earlier macros (each with its newline): not empty, first an ASCII letter, then letters,
digits and `_` only, no reserved word, no earlier macro. -/
def spec_macro_name_ok (N : List Char) (earlier : List (List Char)) : Bool :=
  !N.isEmpty && (N.head?.map is_letter == some true) && N.all is_macro_char
    && !spec_reserved_words.contains N && !earlier.contains (N ++ ['\n'])

/-- The condition that `Macro_Name_Check` tests: as `spec_macro_name_ok`, but the first
character may also be `_` (it must not be a digit). -/
def macro_name_ok (N : List Char) (earlier : List (List Char)) : Bool :=
  !N.isEmpty && (N.head?.map (fun c => is_letter c || c == '_') == some true)
    && N.all is_macro_char && !spec_reserved_words.contains N
    && !earlier.contains (N ++ ['\n'])

/-- A macro name of 31 letters. -/
def example_name_31 : List Char := List.replicate 31 'a'

/-- The source `macr` with a name of 31 letters / `stop` / `endmacr`. -/
def example_name_31_source : List Char :=
  "macr ".toList ++ example_name_31 ++ "\nstop\nendmacr\n".toList

/-- Among the words of the instruction that starts at `IC`, exactly the extension words of
a Direct operand (not the first word, operand type `LABEL`) are marked for the second
pass. -/
def direct_words_ok (IC : Int) (new : List MACHINE_CODE_COMMAND) : Prop :=
  ∀ c ∈ new, (c.mila = MARK_FOR_SECOND_PASS ↔ c.addr ≠ IC ∧ c.type = LABEL)

/-- One line of the first pass appends `new` to the code image, and among these words
exactly the extension words of a Direct operand are marked. -/
def mark_step (s s1 : FIRSTPASS_STATE) : Prop :=
  ∃ new : List MACHINE_CODE_COMMAND,
    s1.table.command_head = s.table.command_head ++ new ∧ direct_words_ok s.IC new

/-- The words that the line appends to the code image in the state `s`. -/
def line_words (s : FIRSTPASS_STATE) (line : List Char) : List MACHINE_CODE_COMMAND :=
  (firstpass_line s line).table.command_head.drop s.table.command_head.length

/-- The table without the entry nodes named `N`. -/
def without_entry (t : ASSEMBLER_TABLE) (N : List Char) : ASSEMBLER_TABLE :=
  { t with entry_head := t.entry_head.filter (fun e => decide (e.label ≠ N)) }

/-- The `.am` text of `.entry N` / `stop`, where `N` is defined nowhere. -/
def example_unresolved_entry_file : List Char := ".entryN\nstop\n\n".toList

/-- A line as `fgets` delivers it when the source line fits the buffer: at most 80 bytes,
no NUL, and one newline, at the end. -/
def whole_line (l : List Char) : Prop :=
  l.length ≤ 80 ∧ Char.ofNat 0 ∉ l ∧ ∃ b, l = b ++ ['\n'] ∧ '\n' ∉ b

/-! ## Definitions used in the statement on operand modes -/

/-- The registers as the specification names them: `r0` .. `r7`. -/
def spec_registers : List (List Char) :=
  ["r0", "r1", "r2", "r3", "r4", "r5", "r6", "r7"].map String.toList

/-- The operand classifier of the specification (section 4.5): a token that starts with
`#` is Immediate when the rest is a signed decimal in [-2047, 2048); `*rk` is RegIndirect
and `rk` is RegDirect for `k` in 0..7 (every other token that starts with `*` is no
operand); every other token is Direct when it passes the identifier rule for labels
(not empty, starts with a letter, letters and digits only, at most 31 characters, no
reserved word). The result is the operand type of the mode, `none` for a token that is no
operand. -/
def spec_operand_mode (t : List Char) : Option Int :=
  match t with
  | [] => none
  | c :: rest =>
    if c = '#' then
      (if signed_decimal rest = true ∧ -2047 ≤ atoi rest ∧ atoi rest < 2048 then some NUMBER
       else none)
    else if c = '*' then (if spec_registers.contains rest then some POINTER else none)
    else if spec_registers.contains (c :: rest) then some REGISTER
    else if label_name_ok (c :: rest) = true ∧ (c :: rest).length ≤ 31 then some LABEL
    else none

/-- The two kinds of operand on which the code departs from the classifier of the
specification: a token that begins with `r` and is no register (`operand_Type_Identifier`
looks such a token up among the registers only) and the immediate `-2047`
(`Examine_Operand` refuses the lower limit of the range). -/
def operand_misjudged (t : List Char) : Bool :=
  match t with
  | [] => false
  | c :: rest =>
    (c == 'r' && !spec_registers.contains (c :: rest))
      || (c == '#' && decide (atoi rest = -2047))

/-! ## Properties of the second pass -/

theorem foldl_found_labels (label : List Char) (ls : List LABEL_LIST) (r0 : Nat) :
    ls.foldl (fun r l => if l.label = label then TRUE else r) r0
      = if label ∈ ls.map (fun l => l.label) then TRUE else r0 := by
  induction ls generalizing r0 with
  | nil => simp
  | cons l rest ih =>
    simp only [List.foldl_cons, ih, List.map_cons, List.mem_cons]
    by_cases h : l.label = label
    · simp [h]
    · have h' : ¬ label = l.label := fun e => h e.symm
      simp [h, h']

theorem foldl_found_externs (label : List Char) (es : List EXTERN_LIST) (r0 : Nat) :
    es.foldl (fun r e => if e.label = label then TRUE else r) r0
      = if label ∈ es.map (fun e => e.label) then TRUE else r0 := by
  induction es generalizing r0 with
  | nil => simp
  | cons e rest ih =>
    simp only [List.foldl_cons, ih, List.map_cons, List.mem_cons]
    by_cases h : e.label = label
    · simp [h]
    · have h' : ¬ label = e.label := fun e => h e.symm
      simp [h, h']

theorem Check_If_Label_Exist_eq (ls : List LABEL_LIST) (es : List EXTERN_LIST)
    (label : List Char) :
    Check_If_Label_Exist ls es label
      = if label ∈ ls.map (fun l => l.label) ∨ label ∈ es.map (fun e => e.label)
        then TRUE else FALSE := by
  unfold Check_If_Label_Exist
  simp only [foldl_found_labels, foldl_found_externs]
  by_cases h1 : label ∈ ls.map (fun l => l.label) <;>
    by_cases h2 : label ∈ es.map (fun e => e.label) <;> simp [h1, h2]

theorem resolve_in_labels_absent (ls : List LABEL_LIST) (label : List Char) (mila : Nat)
    (h : label ∉ ls.map (fun l => l.label)) : resolve_in_labels ls label mila = mila := by
  induction ls generalizing mila with
  | nil => rfl
  | cons l rest ih =>
    simp only [List.map_cons, List.mem_cons, not_or] at h
    have h1 : ¬ l.label = label := fun e => h.1 e.symm
    simp [resolve_in_labels, h1, ih mila h.2]

theorem resolve_in_labels_present (ls : List LABEL_LIST) (label : List Char) (mila : Nat)
    (h : label ∈ ls.map (fun l => l.label)) :
    ∃ l ∈ ls, l.label = label ∧
      resolve_in_labels ls label mila = (R ||| shift_Bits l.addr 3) % 65536 := by
  induction ls generalizing mila with
  | nil => simp at h
  | cons l rest ih =>
    by_cases hr : label ∈ rest.map (fun l => l.label)
    · obtain ⟨l', hl', hlab, heq⟩ := ih (if l.label = label then (R ||| shift_Bits l.addr 3) % 65536 else mila) hr
      exact ⟨l', List.mem_cons_of_mem _ hl', hlab, by simpa [resolve_in_labels] using heq⟩
    · have hl : l.label = label := by
        simp only [List.map_cons, List.mem_cons] at h
        rcases h with h | h
        · exact h.symm
        · exact absurd h hr
      refine ⟨l, List.mem_cons_self _ _, hl, ?_⟩
      simp [resolve_in_labels, hl, resolve_in_labels_absent rest label _ hr]

theorem resolve_in_externs_fst (es : List EXTERN_LIST) (label : List Char) (addr : Int)
    (mila : Nat) :
    (resolve_in_externs es label addr mila).1
      = if label ∈ es.map (fun e => e.label) then E else mila := by
  induction es generalizing mila with
  | nil => simp [resolve_in_externs]
  | cons e rest ih =>
    by_cases h : e.label = label
    · simp [resolve_in_externs, h, ih]
    · have h' : ¬ label = e.label := fun e => h e.symm
      simp [resolve_in_externs, h, h', ih]

theorem resolve_in_externs_snd (es : List EXTERN_LIST) (label : List Char) (addr : Int)
    (mila : Nat) :
    (resolve_in_externs es label addr mila).2
      = es.map (fun e => if e.label = label
          then { e with addr_list := e.addr_list ++ [addr] } else e) := by
  induction es generalizing mila with
  | nil => simp [resolve_in_externs]
  | cons e rest ih =>
    by_cases h : e.label = label
    · simp [resolve_in_externs, h, ih, add_addr_to_list]
    · simp [resolve_in_externs, h, ih]

theorem extern_names_after_site (es : List EXTERN_LIST) (label : List Char) (addr : Int) :
    (es.map (fun e => if e.label = label
        then ({ e with addr_list := e.addr_list ++ [addr] } : EXTERN_LIST) else e)).map
      (fun e => e.label) = es.map (fun e => e.label) := by
  rw [List.map_map]
  apply List.map_congr_left
  intro e _
  by_cases h : e.label = label <;> simp [h]

theorem unresolved_cons (labels : List LABEL_LIST) (extern_names : List (List Char))
    (c : MACHINE_CODE_COMMAND) (rest : List MACHINE_CODE_COMMAND) :
    unresolved labels extern_names (c :: rest)
      = if c.mila = MARK_FOR_SECOND_PASS ∧ c.label ∉ labels.map (fun l => l.label)
            ∧ c.label ∉ extern_names
        then c :: unresolved labels extern_names rest
        else unresolved labels extern_names rest := by
  unfold unresolved
  rw [List.filter_cons]
  by_cases h0 : c.mila = MARK_FOR_SECOND_PASS <;>
    by_cases h1 : c.label ∈ labels.map (fun l => l.label) <;>
    by_cases h2 : c.label ∈ extern_names <;> simp only [h0, h1, h2] <;> simp

theorem Second_Pass_loop_eq (labels : List LABEL_LIST) (cs : List MACHINE_CODE_COMMAND)
    (s : SP_LOOP) :
    Second_Pass_loop labels cs s =
      { commands := s.commands ++ cs.map (second_pass_word labels (s.externs.map (fun e => e.label)))
        externs := s.externs.map
          (fun e => { e with addr_list := e.addr_list ++ pending_sites cs e.label })
        error_flag := s.error_flag
          + (unresolved labels (s.externs.map (fun e => e.label)) cs).length
        undefined := s.undefined
          ++ (unresolved labels (s.externs.map (fun e => e.label)) cs).map
              (fun c => (c.addr, c.label)) } := by
  induction cs generalizing s with
  | nil =>
    simp [Second_Pass_loop, pending_sites, unresolved]
  | cons c rest ih =>
    by_cases hc : c.mila = MARK_FOR_SECOND_PASS
    · rw [Second_Pass_loop, if_pos hc, ih]
      simp only [resolve_in_externs_fst, resolve_in_externs_snd, extern_names_after_site,
        Check_If_Label_Exist_eq, unresolved_cons]
      have hw : second_pass_word labels (s.externs.map (fun e => e.label)) c
          = { c with mila := if c.label ∈ s.externs.map (fun e => e.label) then E
                else resolve_in_labels labels c.label c.mila } := by
        simp [second_pass_word, hc]
      congr 1
      · simp [hw]
      · rw [List.map_map]
        apply List.map_congr_left
        intro e _
        by_cases h : e.label = c.label
        · simp [h, pending_sites, hc, List.filter_cons]
        · have h' : ¬ c.label = e.label := fun x => h x.symm
          simp [h, h', pending_sites, hc, List.filter_cons]
      · by_cases h1 : c.label ∈ labels.map (fun l => l.label) <;>
          by_cases h2 : c.label ∈ s.externs.map (fun e => e.label) <;>
          simp only [h1, h2, hc] <;> simp [TRUE, FALSE, Nat.add_assoc, Nat.add_comm]
      · by_cases h1 : c.label ∈ labels.map (fun l => l.label) <;>
          by_cases h2 : c.label ∈ s.externs.map (fun e => e.label) <;>
          simp only [h1, h2, hc] <;> simp [TRUE, FALSE]
    · rw [Second_Pass_loop, if_neg hc, ih]
      have hw : second_pass_word labels (s.externs.map (fun e => e.label)) c = c := by
        simp [second_pass_word, hc]
      congr 1
      · simp [hw]
      · apply List.map_congr_left
        intro e _
        simp [pending_sites, hc, List.filter_cons]
      · simp [unresolved_cons, hc]
      · simp [unresolved_cons, hc]

theorem Second_Pass_command_head (t : ASSEMBLER_TABLE) (IC DC : Int) :
    (Second_Pass t IC DC).table.command_head
      = t.command_head.map
          (second_pass_word t.label_head (t.extern_head.map (fun e => e.label))) := by
  simp [Second_Pass, Second_Pass_loop_eq]

theorem Second_Pass_extern_head (t : ASSEMBLER_TABLE) (IC DC : Int) :
    (Second_Pass t IC DC).table.extern_head
      = t.extern_head.map
          (fun e => { e with addr_list := e.addr_list ++ pending_sites t.command_head e.label }) := by
  simp [Second_Pass, Second_Pass_loop_eq]

theorem Second_Pass_error_flag (t : ASSEMBLER_TABLE) (IC DC : Int) :
    (Second_Pass t IC DC).error_flag
      = (unresolved t.label_head (t.extern_head.map (fun e => e.label)) t.command_head).length := by
  simp [Second_Pass, Second_Pass_loop_eq, TRUE]

theorem Second_Pass_undefined (t : ASSEMBLER_TABLE) (IC DC : Int) :
    (Second_Pass t IC DC).undefined
      = (unresolved t.label_head (t.extern_head.map (fun e => e.label)) t.command_head).map
          (fun c => (c.addr, c.label)) := by
  simp [Second_Pass, Second_Pass_loop_eq]

theorem Second_Pass_emitted (t : ASSEMBLER_TABLE) (IC DC : Int) :
    (Second_Pass t IC DC).emitted
      = if (Second_Pass t IC DC).error_flag = TRUE
        then some (translationunit (Second_Pass t IC DC).table IC DC) else none := by
  simp [Second_Pass]

theorem mem_unresolved (labels : List LABEL_LIST) (extern_names : List (List Char))
    (cs : List MACHINE_CODE_COMMAND) (c : MACHINE_CODE_COMMAND) :
    c ∈ unresolved labels extern_names cs ↔
      c ∈ cs ∧ c.mila = MARK_FOR_SECOND_PASS ∧ c.label ∉ labels.map (fun l => l.label)
        ∧ c.label ∉ extern_names := by
  simp [unresolved, List.mem_filter, and_assoc]

theorem resolve_in_labels_agree (ls : List LABEL_LIST) (label : List Char) (mila : Nat)
    (a : Int) (hdef : ∃ l ∈ ls, l.label = label)
    (hsame : ∀ l ∈ ls, l.label = label → l.addr = a) :
    resolve_in_labels ls label mila = (R ||| shift_Bits a 3) % 65536 := by
  have hmem : label ∈ ls.map (fun l => l.label) := by
    obtain ⟨l, hl, hlab⟩ := hdef
    exact List.mem_map.mpr ⟨l, hl, hlab⟩
  obtain ⟨l, hl, hlab, heq⟩ := resolve_in_labels_present ls label mila hmem
  rw [heq, hsame l hl hlab]

theorem shift_Bits_three_small (a : Int) (h0 : 0 ≤ a) (h1 : a < 8192) :
    (R ||| shift_Bits a 3) % 65536 = 2 ||| (a.toNat <<< 3) := by
  have hs : shift_Bits a 3 = a.toNat <<< 3 := by
    unfold shift_Bits toU16
    have e1 : (a % 65536).toNat = a.toNat := by omega
    have e2 : ((3 : Int) % 65536).toNat = 3 := by decide
    rw [e1, e2, Nat.shiftLeft_eq]
    have : a.toNat < 8192 := by omega
    omega
  rw [hs]
  apply Nat.mod_eq_of_lt
  have h2 : a.toNat <<< 3 < 2 ^ 16 := by
    rw [Nat.shiftLeft_eq]
    have : a.toNat < 8192 := by omega
    omega
  have h3 : (2 : Nat) < 2 ^ 16 := by norm_num
  exact Nat.or_lt_two_pow h3 h2

/-- C1 (amended): if every node of the label list named `L` carries the address `a`, at
least one such node exists, and no node of the extern list is named `L`, then every word
of the code image that is marked (value 0) with operand name `L` holds
`(R | (a << 3)) mod 2^16` after `Second_Pass`, at the same position and with address, name
and type unchanged; for `0 ≤ a < 8192` this value is `2 | (a << 3)`. -/
theorem C1_label_word_resolved (t : ASSEMBLER_TABLE) (IC DC : Int) (L : List Char) (a : Int)
    (hdef : ∃ l ∈ t.label_head, l.label = L)
    (hsame : ∀ l ∈ t.label_head, l.label = L → l.addr = a)
    (hext : ∀ e ∈ t.extern_head, e.label ≠ L)
    (i : Nat) (c : MACHINE_CODE_COMMAND) (hc : t.command_head.get? i = some c)
    (hpend : c.mila = MARK_FOR_SECOND_PASS) (hname : c.label = L) :
    (Second_Pass t IC DC).table.command_head.get? i
        = some { c with mila := (R ||| shift_Bits a 3) % 65536 }
      ∧ (0 ≤ a → a < 8192 → (R ||| shift_Bits a 3) % 65536 = 2 ||| (a.toNat <<< 3)) := by
  refine ⟨?_, shift_Bits_three_small a⟩
  rw [Second_Pass_command_head]
  simp only [List.get?_eq_getElem?, List.getElem?_map] at hc ⊢
  rw [hc]
  have hnot : c.label ∉ t.extern_head.map (fun e => e.label) := by
    intro hmem
    obtain ⟨e, he, hlab⟩ := List.mem_map.mp hmem
    exact hext e he (hlab.trans hname)
  simp only [Option.map_some', second_pass_word, if_pos hpend, if_neg hnot]
  rw [resolve_in_labels_agree t.label_head c.label c.mila a (hname ▸ hdef)
    (fun l hl hlab => hsame l hl (hlab.trans hname))]

set_option maxRecDepth 100000 in
/-- Witness of C1 (amended) on the `.am` text `LOOP:incr1 / jmpLOOP / stop`: the label list
holds `LOOP` once, at 100, the word at 103 is marked for `LOOP`, and `Second_Pass` leaves
`2 | (100 << 3) = 802` there. -/
theorem C1_label_word_resolved_witness :
    (firstpass_loop example_loop_file).table.label_head = [⟨"LOOP".toList, 100⟩]
      ∧ (firstpass_loop example_loop_file).table.command_head.get? 3
          = some ⟨103, MARK_FOR_SECOND_PASS, "LOOP".toList, LABEL⟩
      ∧ (Second_Pass (firstpass_loop example_loop_file).table 105 1).table.command_head.get? 3
          = some ⟨103, 802, "LOOP".toList, LABEL⟩ :=
  ⟨by decide, by decide,
    (C1_label_word_resolved (firstpass_loop example_loop_file).table 105 1 "LOOP".toList 100
      (by decide) (by decide) (by decide) 3 ⟨103, MARK_FOR_SECOND_PASS, "LOOP".toList, LABEL⟩
      (by decide) (by decide) (by decide)).1⟩

/-- C2: a marked word whose operand name is in the extern list and not in the label list
holds exactly `E = 1` after `Second_Pass`; every node of the extern list receives, behind
the addresses it already had, the addresses of the marked words with its name, one per
word and in code order, and the address of this word is among those of its name. -/
theorem C2_extern_word_and_sites (t : ASSEMBLER_TABLE) (IC DC : Int)
    (i : Nat) (c : MACHINE_CODE_COMMAND) (hc : t.command_head.get? i = some c)
    (hpend : c.mila = MARK_FOR_SECOND_PASS)
    (hext : ∃ e ∈ t.extern_head, e.label = c.label)
    (hloc : ∀ l ∈ t.label_head, l.label ≠ c.label) :
    (Second_Pass t IC DC).table.command_head.get? i = some { c with mila := E }
      ∧ (Second_Pass t IC DC).table.extern_head
          = t.extern_head.map (fun e =>
              { e with addr_list := e.addr_list ++ pending_sites t.command_head e.label })
      ∧ c.addr ∈ pending_sites t.command_head c.label := by
  have _ := hloc
  refine ⟨?_, Second_Pass_extern_head t IC DC, ?_⟩
  · rw [Second_Pass_command_head]
    simp only [List.get?_eq_getElem?, List.getElem?_map] at hc ⊢
    rw [hc]
    have hmem : c.label ∈ t.extern_head.map (fun e => e.label) := by
      obtain ⟨e, he, hlab⟩ := hext
      exact List.mem_map.mpr ⟨e, he, hlab⟩
    simp only [Option.map_some', second_pass_word, if_pos hpend, if_pos hmem]
  · have hcm : c ∈ t.command_head := List.get?_mem hc
    simp only [pending_sites, List.mem_map, List.mem_filter]
    exact ⟨c, ⟨hcm, by simp [hpend]⟩, rfl⟩

set_option maxRecDepth 100000 in
/-- Witness of C2 on the `.am` text `.externEXT / movEXT,r1 / stop`: the word at 101 is
marked for `EXT`, `Second_Pass` writes 1 there, and the extern node `EXT` holds the site
101, which `process_ext_file` prints. -/
theorem C2_extern_word_and_sites_witness :
    (firstpass_loop example_extern_file).table.command_head.get? 1
        = some ⟨101, MARK_FOR_SECOND_PASS, "EXT".toList, LABEL⟩
      ∧ (Second_Pass (firstpass_loop example_extern_file).table 104 1).table.command_head.get? 1
        = some ⟨101, 1, "EXT".toList, LABEL⟩
      ∧ (Second_Pass (firstpass_loop example_extern_file).table 104 1).table.extern_head
        = [⟨"EXT".toList, [101]⟩]
      ∧ (firstpass example_extern_file).2.bind (fun r => r.emitted.bind (fun a => a.ext))
        = some "EXT\t0101\n ".toList := by
  have h := C2_extern_word_and_sites (firstpass_loop example_extern_file).table 104 1 1
    ⟨101, MARK_FOR_SECOND_PASS, "EXT".toList, LABEL⟩ (by decide) (by decide) (by decide)
    (by decide)
  refine ⟨by decide, h.1, ?_, by decide⟩
  rw [h.2.1]
  decide

theorem Second_Pass_error_flag_zero_iff (t : ASSEMBLER_TABLE) (IC DC : Int) :
    (Second_Pass t IC DC).error_flag = TRUE ↔
      ∀ c ∈ t.command_head, c.mila = MARK_FOR_SECOND_PASS →
        c.label ∈ t.label_head.map (fun l => l.label)
          ∨ c.label ∈ t.extern_head.map (fun e => e.label) := by
  rw [Second_Pass_error_flag]
  show List.length _ = 0 ↔ _
  rw [List.length_eq_zero, List.eq_nil_iff_forall_not_mem]
  constructor
  · intro h c hc hp
    by_contra hcon
    rw [not_or] at hcon
    exact h c ((mem_unresolved _ _ _ _).mpr ⟨hc, hp, hcon.1, hcon.2⟩)
  · intro h c hc
    obtain ⟨h1, h2, h3, h4⟩ := (mem_unresolved _ _ _ _).mp hc
    rcases h c h1 h2 with h5 | h5
    · exact h3 h5
    · exact h4 h5

theorem Second_Pass_emitted_isSome_iff (t : ASSEMBLER_TABLE) (IC DC : Int) :
    (Second_Pass t IC DC).emitted.isSome ↔
      ∀ c ∈ t.command_head, c.mila = MARK_FOR_SECOND_PASS →
        c.label ∈ t.label_head.map (fun l => l.label)
          ∨ c.label ∈ t.extern_head.map (fun e => e.label) := by
  rw [← Second_Pass_error_flag_zero_iff t IC DC, Second_Pass_emitted]
  by_cases h : (Second_Pass t IC DC).error_flag = TRUE <;> simp [h]

theorem Second_Pass_emitted_some (t : ASSEMBLER_TABLE) (IC DC : Int) (a : ARTIFACTS)
    (ha : (Second_Pass t IC DC).emitted = some a) :
    a = translationunit (Second_Pass t IC DC).table IC DC := by
  rw [Second_Pass_emitted] at ha
  by_cases h : (Second_Pass t IC DC).error_flag = TRUE
  · rw [if_pos h] at ha
    exact (Option.some.inj ha).symm
  · rw [if_neg h] at ha
    exact absurd ha (by simp)

/-- C3: `Second_Pass` calls `translationunit` exactly when the operand name of every marked
word is in the label list or in the extern list; a marked word whose name is in neither is
reported by `Check_If_Label_Exist` with its address and name and then nothing is emitted;
only such words are reported; what is emitted is `translationunit` of the resolved tables. -/
theorem C3_emitter_iff_all_resolved (t : ASSEMBLER_TABLE) (IC DC : Int) :
    ((Second_Pass t IC DC).emitted.isSome ↔
        ∀ c ∈ t.command_head, c.mila = MARK_FOR_SECOND_PASS →
          c.label ∈ t.label_head.map (fun l => l.label)
            ∨ c.label ∈ t.extern_head.map (fun e => e.label))
      ∧ (∀ c ∈ t.command_head, c.mila = MARK_FOR_SECOND_PASS →
          c.label ∉ t.label_head.map (fun l => l.label) →
          c.label ∉ t.extern_head.map (fun e => e.label) →
          (c.addr, c.label) ∈ (Second_Pass t IC DC).undefined
            ∧ (Second_Pass t IC DC).emitted = none)
      ∧ (∀ u ∈ (Second_Pass t IC DC).undefined, ∃ c ∈ t.command_head,
          c.mila = MARK_FOR_SECOND_PASS ∧ c.label ∉ t.label_head.map (fun l => l.label)
            ∧ c.label ∉ t.extern_head.map (fun e => e.label) ∧ u = (c.addr, c.label))
      ∧ (∀ a, (Second_Pass t IC DC).emitted = some a →
          a = translationunit (Second_Pass t IC DC).table IC DC) := by
  have hem := Second_Pass_emitted t IC DC
  have hund := Second_Pass_undefined t IC DC
  have hzero := Second_Pass_error_flag_zero_iff t IC DC
  refine ⟨Second_Pass_emitted_isSome_iff t IC DC, ?_, ?_, Second_Pass_emitted_some t IC DC⟩
  · intro c hc hp h1 h2
    have hmem : c ∈ unresolved t.label_head (t.extern_head.map (fun e => e.label))
        t.command_head := (mem_unresolved _ _ _ _).mpr ⟨hc, hp, h1, h2⟩
    constructor
    · rw [hund]
      exact List.mem_map.mpr ⟨c, hmem, rfl⟩
    · rw [hem, if_neg]
      intro h0
      have := hzero.mp h0 c hc hp
      rcases this with h5 | h5
      · exact h1 h5
      · exact h2 h5
  · intro u hu
    rw [hund] at hu
    obtain ⟨c, hc, rfl⟩ := List.mem_map.mp hu
    obtain ⟨h1, h2, h3, h4⟩ := (mem_unresolved _ _ _ _).mp hc
    exact ⟨c, h1, h2, h3, h4, rfl⟩

/-- C4: `generate_Mila` appends the instruction word and then as many extension words as
the specification says: none for `rts` and `stop`, one when both operands of a two-operand
opcode are register-form, else two for a two-operand and one for a one-operand opcode; `IC`
grows by one plus that number. -/
theorem C4_extension_word_count (command_list : List MACHINE_CODE_COMMAND)
    (command_code : Int) (src_op : List Char) (type_src : Int) (dest_op : List Char)
    (type_dest : Int) (IC : Int) :
    ∃ first rest,
      (generate_Mila command_list command_code src_op type_src dest_op type_dest IC).1
          = command_list ++ first :: rest
        ∧ rest.length = extension_words command_code type_src type_dest
        ∧ (generate_Mila command_list command_code src_op type_src dest_op type_dest IC).2
          = IC + 1 + (extension_words command_code type_src type_dest : Nat) := by
  unfold generate_Mila extension_words
  by_cases h1 : command_code ≥ RTS
  · simp only [h1, if_true, insert_Command_List]
    exact ⟨_, [], rfl, rfl, by simp⟩
  · by_cases h2 : command_code ≤ LEA
    · by_cases h3 : (type_src = REGISTER ∨ type_src = POINTER)
          ∧ (type_dest = POINTER ∨ type_dest = REGISTER)
      · have h4 : (register_form type_src && register_form type_dest) = true := by
          rcases h3 with ⟨a | a, b | b⟩ <;> simp [register_form, a, b]
        simp only [h1, h2, h3, h4, if_true, if_false, insert_Command_List, and_self]
        exact ⟨_, [_], List.append_assoc _ _ _, rfl, by simp; ring⟩
      · have h4 : (register_form type_src && register_form type_dest) = false := by
          simp only [register_form, Bool.and_eq_false_imp, Bool.or_eq_true, decide_eq_true_eq,
            Bool.or_eq_false_iff, decide_eq_false_iff_not]
          intro hs
          by_contra hd
          apply h3
          refine ⟨hs, ?_⟩
          by_cases hr : type_dest = REGISTER
          · exact Or.inr hr
          · left
            by_contra hp
            exact hd ⟨hr, hp⟩
        simp only [h1, h2, h3, h4, if_true, if_false, insert_Command_List]
        exact ⟨_, [_, _], by rw [List.append_assoc, List.append_assoc]; rfl, rfl, by simp; ring⟩
    · simp only [h1, h2, if_false, insert_Command_List]
      exact ⟨_, [_], List.append_assoc _ _ _, rfl, by simp; ring⟩

theorem generate_Mila_append (command_list : List MACHINE_CODE_COMMAND)
    (command_code : Int) (src_op : List Char) (type_src : Int) (dest_op : List Char)
    (type_dest : Int) (IC : Int) :
    (generate_Mila command_list command_code src_op type_src dest_op type_dest IC).1
      = command_list ++ (generate_Mila [] command_code src_op type_src dest_op type_dest IC).1 := by
  unfold generate_Mila
  by_cases h1 : command_code ≥ RTS
  · simp [h1, insert_Command_List]
  · by_cases h2 : command_code ≤ LEA
    · by_cases h3 : (type_src = REGISTER ∨ type_src = POINTER)
          ∧ (type_dest = POINTER ∨ type_dest = REGISTER)
      · simp only [h1, h2, h3, if_true, if_false, insert_Command_List, and_self]
        simp
      · simp only [h1, h2, h3, if_true, if_false, insert_Command_List]
        simp
    · simp only [h1, h2, if_false, insert_Command_List]
      simp

theorem generate_Mila_first_word (command_list : List MACHINE_CODE_COMMAND)
    (command_code : Int) (src_op : List Char) (type_src : Int) (dest_op : List Char)
    (type_dest : Int) (IC : Int) :
    ((generate_Mila command_list command_code src_op type_src dest_op type_dest IC).1.get?
        command_list.length).map (fun c => c.mila)
      = some (if command_code ≥ RTS then A ||| shift_Bits command_code OPCODE
              else if command_code ≤ LEA then
                A ||| shift_Bits MASK128 type_src ||| shift_Bits MASK8 type_dest
                  ||| shift_Bits command_code OPCODE
              else A ||| shift_Bits MASK8 type_dest ||| shift_Bits command_code OPCODE) := by
  rw [generate_Mila_append, List.get?_eq_getElem?, List.getElem?_append_right (le_refl _),
    Nat.sub_self]
  unfold generate_Mila
  by_cases h1 : command_code ≥ RTS
  · simp [h1, insert_Command_List]
  · by_cases h2 : command_code ≤ LEA
    · by_cases h3 : (type_src = REGISTER ∨ type_src = POINTER)
          ∧ (type_dest = POINTER ∨ type_dest = REGISTER)
      · simp only [h1, h2, h3, if_true, if_false, insert_Command_List, and_self]
        simp
      · simp only [h1, h2, h3, if_true, if_false, insert_Command_List]
        simp
    · simp only [h1, h2, if_false, insert_Command_List]
      simp

/-- C5: for an opcode `c` in `0..15` and operand types that are addressing modes, the first
word that `generate_Mila` appends has `A` in bits 0-2, `c` in bits 11-14, the one-hot mask
of the destination mode in bits 3-6 (zero for `rts` and `stop`), the one-hot mask of the
source mode in bits 7-10 (zero unless the opcode has two operands), and nothing above
bit 14. -/
theorem C5_instruction_word_layout (command_list : List MACHINE_CODE_COMMAND)
    (c : Int) (hc0 : 0 ≤ c) (hc15 : c ≤ 15) (src_op : List Char) (type_src : Int)
    (dest_op : List Char) (type_dest : Int) (IC : Int)
    (hsrc : c ≤ LEA → is_mode type_src) (hdest : c < RTS → is_mode type_dest) :
    ∃ w : Nat,
      ((generate_Mila command_list c src_op type_src dest_op type_dest IC).1.get?
          command_list.length).map (fun x => x.mila) = some w
        ∧ w % 8 = A
        ∧ w / 2048 % 16 = c.toNat
        ∧ w / 8 % 16 = (if c < RTS then one_hot_mask type_dest else 0)
        ∧ w / 128 % 16 = (if c ≤ LEA then one_hot_mask type_src else 0)
        ∧ w / 32768 = 0 := by
  refine ⟨_, generate_Mila_first_word command_list c src_op type_src dest_op type_dest IC, ?_⟩
  by_cases h1 : c ≥ RTS
  · have h1' : ¬ c < RTS := not_lt.mpr h1
    have h2 : ¬ c ≤ LEA := by unfold LEA; unfold RTS at h1; omega
    simp only [h1, h1', h2, if_true, if_false]
    unfold RTS at h1
    interval_cases c <;> decide
  · have h1' : c < RTS := not_le.mp h1
    by_cases h2 : c ≤ LEA
    · simp only [h1, h1', h2, if_true, if_false]
      unfold LEA at h2
      rcases hsrc h2 with hs | hs | hs | hs <;> rcases hdest h1' with hd | hd | hd | hd <;>
        subst hs <;> subst hd <;> interval_cases c <;> decide
    · simp only [h1, h1', h2, if_true, if_false]
      unfold RTS at h1'
      unfold LEA at h2
      rcases hdest h1' with hd | hd | hd | hd <;>
        subst hd <;> interval_cases c <;> decide

theorem register_text_type (k : Nat) (hk : k ≤ 7) (p : Bool) :
    operand_Type_Identifier (register_text p k) = if p then POINTER else REGISTER := by
  interval_cases k <;> cases p <;> decide

theorem register_text_value (k : Nat) (hk : k ≤ 7) (p : Bool) :
    get_Operand_Value (if p then POINTER else REGISTER) (register_text p k) = (k : Int) := by
  interval_cases k <;> cases p <;> decide

theorem register_pair_word (s d : Nat) (hs : s ≤ 7) (hd : d ≤ 7) :
    A ||| shift_Bits (d : Int) 3 ||| shift_Bits (s : Int) 6 = 4 ||| (s <<< 6) ||| (d <<< 3) := by
  interval_cases s <;> interval_cases d <;> decide

/-- C6: for a two-operand opcode whose operands are the register texts `rs`/`*rs` and
`rd`/`*rd` with `s, d ≤ 7`, exactly one word follows the instruction word, and it is
`4 | (s << 6) | (d << 3)`: tag `A`, `d` in bits 3-5, `s` in bits 6-8, nothing else. -/
theorem C6_register_pair_extension (command_list : List MACHINE_CODE_COMMAND)
    (c : Int) (hc0 : 0 ≤ c) (hc4 : c ≤ LEA) (s d : Nat) (hs : s ≤ 7) (hd : d ≤ 7)
    (ps pd : Bool) (IC : Int) :
    ((generate_Mila command_list c (register_text ps s)
          (operand_Type_Identifier (register_text ps s)) (register_text pd d)
          (operand_Type_Identifier (register_text pd d)) IC).1.drop (command_list.length + 1)
        = [⟨IC + 1, 4 ||| (s <<< 6) ||| (d <<< 3), [], NONE⟩])
      ∧ (4 ||| (s <<< 6) ||| (d <<< 3)) % 8 = A
      ∧ (4 ||| (s <<< 6) ||| (d <<< 3)) / 8 % 8 = d
      ∧ (4 ||| (s <<< 6) ||| (d <<< 3)) / 64 % 8 = s
      ∧ (4 ||| (s <<< 6) ||| (d <<< 3)) / 512 = 0 := by
  have _ := hc0
  refine ⟨?_, ?_⟩
  · rw [generate_Mila_append, register_text_type s hs, register_text_type d hd]
    have h1 : ¬ c ≥ RTS := by unfold RTS; unfold LEA at hc4; omega
    have h3 : ((if ps = true then POINTER else REGISTER) = REGISTER
          ∨ (if ps = true then POINTER else REGISTER) = POINTER)
        ∧ ((if pd = true then POINTER else REGISTER) = POINTER
          ∨ (if pd = true then POINTER else REGISTER) = REGISTER) := by
      cases ps <;> cases pd <;> decide
    unfold generate_Mila
    simp only [h1, hc4, h3, if_true, if_false, insert_Command_List, and_self,
      register_text_value s hs, register_text_value d hd, register_pair_word s d hs hd]
    simp
  · interval_cases s <;> interval_cases d <;> decide

theorem digit_char (d : Nat) (hd : d < 10) :
    isdigit (Char.ofNat ('0'.toNat + d)) = true
      ∧ (Char.ofNat ('0'.toNat + d)).toNat - '0'.toNat = d
      ∧ isspace (Char.ofNat ('0'.toNat + d)) = false
      ∧ Char.ofNat ('0'.toNat + d) ≠ '-' ∧ Char.ofNat ('0'.toNat + d) ≠ '+' := by
  interval_cases d <;> decide

theorem atoi_digits_fmt_u_aux (fuel : Nat) :
    ∀ (n : Nat) (acc : List Char), n < fuel →
      ∃ k : Nat, ∀ a : Nat,
        atoi_digits a (fmt_u_aux fuel n acc) = atoi_digits (a * 10 ^ k + n) acc := by
  induction fuel with
  | zero => intro n acc h; omega
  | succ fuel ih =>
    intro n acc h
    have hd := digit_char (n % 10) (Nat.mod_lt _ (by norm_num))
    by_cases h0 : n / 10 = 0
    · refine ⟨1, fun a => ?_⟩
      have hn : n % 10 = n := by omega
      simp only [fmt_u_aux, h0, if_true, atoi_digits, hd.1, hd.2.1]
      rw [hn, pow_one]
    · obtain ⟨k, hk⟩ := ih (n / 10) (Char.ofNat ('0'.toNat + n % 10) :: acc) (by omega)
      refine ⟨k + 1, fun a => ?_⟩
      simp only [fmt_u_aux, h0, if_false]
      rw [hk a]
      simp only [atoi_digits, hd.1, hd.2.1, if_true]
      congr 1
      have := Nat.div_add_mod n 10
      rw [pow_succ]
      ring_nf
      omega

theorem atoi_digits_fmt_u (n : Nat) : atoi_digits 0 (fmt_u n) = n := by
  obtain ⟨k, hk⟩ := atoi_digits_fmt_u_aux (n + 1) n [] (Nat.lt_succ_self n)
  unfold fmt_u
  rw [hk 0]
  simp [atoi_digits]

theorem fmt_u_aux_head_of_acc (fuel : Nat) :
    ∀ (n : Nat) (acc : List Char),
      (∃ d rest, d < 10 ∧ acc = Char.ofNat ('0'.toNat + d) :: rest) →
      ∃ d rest, d < 10 ∧ fmt_u_aux fuel n acc = Char.ofNat ('0'.toNat + d) :: rest := by
  induction fuel with
  | zero => intro n acc h; simpa [fmt_u_aux] using h
  | succ fuel ih =>
    intro n acc _
    by_cases h0 : n / 10 = 0
    · exact ⟨n % 10, acc, Nat.mod_lt _ (by norm_num), by simp [fmt_u_aux, h0]⟩
    · obtain ⟨d, rest, hd, he⟩ := ih (n / 10) (Char.ofNat ('0'.toNat + n % 10) :: acc)
        ⟨n % 10, acc, Nat.mod_lt _ (by norm_num), rfl⟩
      exact ⟨d, rest, hd, by simp only [fmt_u_aux, h0, if_false]; exact he⟩

theorem fmt_u_head (n : Nat) :
    ∃ d rest, d < 10 ∧ fmt_u n = Char.ofNat ('0'.toNat + d) :: rest := by
  unfold fmt_u
  by_cases h0 : n / 10 = 0
  · exact ⟨n % 10, [], Nat.mod_lt _ (by norm_num), by simp [fmt_u_aux, h0]⟩
  · obtain ⟨d, rest, hd, he⟩ := fmt_u_aux_head_of_acc n (n / 10)
      [Char.ofNat ('0'.toNat + n % 10)] ⟨n % 10, [], Nat.mod_lt _ (by norm_num), rfl⟩
    exact ⟨d, rest, hd, by simp only [fmt_u_aux, h0, if_false]; exact he⟩

theorem atoi_fmt_u (n : Nat) : atoi (fmt_u n) = (n : Int) := by
  obtain ⟨d, rest, hd, he⟩ := fmt_u_head n
  have hc := digit_char d hd
  have h := atoi_digits_fmt_u n
  rw [he] at h
  unfold atoi
  rw [he, List.dropWhile_cons_of_neg (by rw [hc.2.2.1]; decide)]
  simp only [atoi_signed, hc.2.2.2.1, hc.2.2.2.2, if_false]
  rw [h]

theorem atoi_fmt_d (k : Int) : atoi (fmt_d k) = k := by
  unfold fmt_d
  by_cases hk : k < 0
  · rw [if_pos hk]
    unfold atoi
    rw [List.dropWhile_cons_of_neg (by decide)]
    simp only [atoi_signed, if_true, atoi_digits_fmt_u]
    omega
  · rw [if_neg hk, atoi_fmt_u]
    omega

theorem immediate_word_fields (k : Int) (hlo : -2047 ≤ k) (hhi : k ≤ 2047) :
    (A ||| shift_Bits k 3) % 8 = A
      ∧ sign_extend_12 ((A ||| shift_Bits k 3) / 8 % 4096) = k := by
  have hs : shift_Bits k 3 = 2 ^ 3 * ((k % 65536).toNat % 8192) := by
    unfold shift_Bits toU16
    have e2 : ((3 : Int) % 65536).toNat = 3 := by decide
    rw [e2, Nat.shiftLeft_eq]
    omega
  have hw : A ||| shift_Bits k 3 = 2 ^ 3 * ((k % 65536).toNat % 8192) + 4 := by
    rw [hs, Nat.lor_comm]
    exact (Nat.mul_add_lt_is_or (by decide) _).symm
  rw [hw]
  unfold sign_extend_12 A
  constructor
  · omega
  · split_ifs with h <;> omega

theorem immediate_text_type (k : Int) : operand_Type_Identifier (immediate_text k) = NUMBER := by
  unfold operand_Type_Identifier immediate_text
  simp only
  rw [if_neg (by decide), if_neg (by decide), if_neg (by decide)]
  simp

theorem immediate_text_value (k : Int) : get_Operand_Value NUMBER (immediate_text k) = k := by
  unfold get_Operand_Value immediate_text
  rw [if_neg (by decide), if_neg (by decide), if_pos rfl]
  exact atoi_fmt_d k

/-- C7: for `-2047 ≤ k ≤ 2047` the extension word that `generate_Mila` appends for the operand
text `#k`, be it the operand of `prn`, the source of a two-operand opcode beside any
destination, or its destination beside any source (a register source included: the shared
word of a register pair needs a register destination), is one word `w` with `w mod 8 = A`
whose bits 3-14, read as a signed 12-bit number, give back `k`. -/
theorem C7_immediate_round_trip (k : Int) (hlo : -2047 ≤ k) (hhi : k ≤ 2047)
    (command_list : List MACHINE_CODE_COMMAND) (IC : Int) :
    ∃ w : Nat,
      (generate_Mila command_list PRN [] NONE (immediate_text k)
          (operand_Type_Identifier (immediate_text k)) IC).1.get? (command_list.length + 1)
        = some ⟨IC + 1, w, immediate_text k, NUMBER⟩
      ∧ (∀ (c : Int) (dest_op : List Char) (type_dest : Int), c ≤ LEA →
          (generate_Mila command_list c (immediate_text k)
              (operand_Type_Identifier (immediate_text k)) dest_op type_dest IC).1.get?
            (command_list.length + 1) = some ⟨IC + 1, w, immediate_text k, NUMBER⟩)
      ∧ (∀ (c : Int) (src_op : List Char) (type_src : Int), c ≤ LEA →
          (generate_Mila command_list c src_op type_src (immediate_text k)
              (operand_Type_Identifier (immediate_text k)) IC).1.get?
            (command_list.length + 2) = some ⟨IC + 2, w, immediate_text k, NUMBER⟩)
      ∧ w % 8 = A
      ∧ sign_extend_12 (w / 8 % 4096) = k := by
  refine ⟨A ||| shift_Bits k 3, ?_, ?_, ?_, immediate_word_fields k hlo hhi⟩
  · rw [generate_Mila_append, List.get?_eq_getElem?,
      List.getElem?_append_right (Nat.le_add_right _ _), Nat.add_sub_cancel_left,
      immediate_text_type]
    unfold generate_Mila
    rw [if_neg (by decide), if_neg (by decide)]
    simp only [insert_Command_List, immediate_text_value]
    rw [if_neg (by decide)]
    rfl
  · intro c dest_op type_dest hc
    have h1 : ¬ c ≥ RTS := by unfold RTS; unfold LEA at hc; omega
    rw [generate_Mila_append, List.get?_eq_getElem?,
      List.getElem?_append_right (Nat.le_add_right _ _), Nat.add_sub_cancel_left,
      immediate_text_type]
    unfold generate_Mila
    rw [if_neg h1, if_pos hc]
    have h3 : ¬ ((NUMBER = REGISTER ∨ NUMBER = POINTER)
        ∧ (type_dest = POINTER ∨ type_dest = REGISTER)) := by
      intro h
      exact absurd h.1 (by decide)
    simp only [insert_Command_List, immediate_text_value, h3, if_false]
    simp [show ¬ NUMBER = LABEL by decide]
  · intro c src_op type_src hc
    have h1 : ¬ c ≥ RTS := by unfold RTS; unfold LEA at hc; omega
    rw [generate_Mila_append, List.get?_eq_getElem?,
      List.getElem?_append_right (Nat.le_add_right _ _), Nat.add_sub_cancel_left,
      immediate_text_type]
    unfold generate_Mila
    rw [if_neg h1, if_pos hc]
    have h3 : ¬ ((type_src = REGISTER ∨ type_src = POINTER)
        ∧ (NUMBER = POINTER ∨ NUMBER = REGISTER)) := by
      intro h
      exact absurd h.2 (by decide)
    simp only [insert_Command_List, immediate_text_value, h3, if_false]
    simp [show ¬ NUMBER = LABEL by decide]

/-- Witness of C5 for `mov #3, r4`. -/
theorem C5_instruction_word_layout_witness :
    (0 ≤ MOV ∧ MOV ≤ 15 ∧ is_mode NUMBER ∧ is_mode REGISTER)
      ∧ ∃ w : Nat,
        ((generate_Mila [] MOV "#3".toList NUMBER "r4".toList REGISTER 100).1.get?
            ([] : List MACHINE_CODE_COMMAND).length).map (fun x => x.mila) = some w
          ∧ w % 8 = A
          ∧ w / 2048 % 16 = MOV.toNat
          ∧ w / 8 % 16 = (if MOV < RTS then one_hot_mask REGISTER else 0)
          ∧ w / 128 % 16 = (if MOV ≤ LEA then one_hot_mask NUMBER else 0)
          ∧ w / 32768 = 0 :=
  ⟨⟨by decide, by decide, Or.inl rfl, Or.inr (Or.inr (Or.inr rfl))⟩,
    C5_instruction_word_layout [] MOV (by decide) (by decide) "#3".toList NUMBER "r4".toList
      REGISTER 100 (fun _ => Or.inl rfl) (fun _ => Or.inr (Or.inr (Or.inr rfl)))⟩

/-- Witness of C6 for `mov r1, *r2`. -/
theorem C6_register_pair_extension_witness :
    (0 ≤ MOV ∧ MOV ≤ LEA ∧ 1 ≤ 7 ∧ 2 ≤ 7)
      ∧ (generate_Mila [] MOV (register_text false 1)
            (operand_Type_Identifier (register_text false 1)) (register_text true 2)
            (operand_Type_Identifier (register_text true 2)) 100).1.drop
          (([] : List MACHINE_CODE_COMMAND).length + 1)
        = [⟨100 + 1, 4 ||| (1 <<< 6) ||| (2 <<< 3), [], NONE⟩] :=
  ⟨by decide,
    (C6_register_pair_extension [] MOV (by decide) (by decide) 1 2 (by decide) (by decide)
      false true 100).1⟩

set_option maxRecDepth 100000 in
/-- Witness of C7 for `k = 3`, with the first pass on `MAIN: mov #3, r4` / `stop`: the word
at 101 is `4 | (3 << 3)`; for `cmp r1, #3` the word at 102 is the same word. -/
theorem C7_immediate_round_trip_witness :
    (-2047 ≤ (3 : Int) ∧ (3 : Int) ≤ 2047)
      ∧ (∃ w : Nat,
          (generate_Mila [] PRN [] NONE (immediate_text 3)
              (operand_Type_Identifier (immediate_text 3)) 100).1.get? 1
            = some ⟨101, w, immediate_text 3, NUMBER⟩
          ∧ (generate_Mila [] CMP "r1".toList REGISTER (immediate_text 3)
              (operand_Type_Identifier (immediate_text 3)) 100).1.get? 2
            = some ⟨102, w, immediate_text 3, NUMBER⟩
          ∧ w % 8 = A ∧ sign_extend_12 (w / 8 % 4096) = 3)
      ∧ (firstpass_loop example_minimal_file).table.command_head.get? 1
          = some ⟨101, 4 ||| (3 <<< 3), immediate_text 3, NUMBER⟩
      ∧ Command_Examine ⟨"cmp".toList, CMP⟩ "r1,#3\n".toList = TRUE
      ∧ (firstpass_loop "cmpr1,#3\nstop\n\n".toList).table.command_head.get? 2
          = some ⟨102, 4 ||| (3 <<< 3), immediate_text 3, NUMBER⟩ := by
  obtain ⟨w, h1, _, h3, h4, h5⟩ := C7_immediate_round_trip 3 (by decide) (by decide) [] 100
  exact ⟨by decide, ⟨w, h1, h3 CMP "r1".toList REGISTER (by decide), h4, h5⟩, by decide,
    by decide, by decide⟩

/-! ## Invariants of the first pass -/

theorem lor_mod_eight (a b : Nat) : (a ||| b) % 8 = (a % 8) ||| (b % 8) := by
  apply Nat.eq_of_testBit_eq
  intro i
  have h8 : (8 : Nat) = 2 ^ 3 := by norm_num
  rw [h8]
  simp only [Nat.testBit_mod_two_pow, Nat.testBit_or]
  cases decide (i < 3) <;> simp

theorem shift_Bits_mod_eight (num steps : Int)
    (h : toU16 num % 8 = 0 ∨ 3 ≤ toU16 steps) : shift_Bits num steps % 8 = 0 := by
  unfold shift_Bits
  rw [Nat.shiftLeft_eq]
  have key : 8 ∣ toU16 num * 2 ^ toU16 steps := by
    rcases h with h | h
    · exact Dvd.dvd.mul_right (Nat.dvd_of_mod_eq_zero h) _
    · apply Dvd.dvd.mul_left
      have : (8 : Nat) = 2 ^ 3 := by norm_num
      rw [this]
      exact Nat.pow_dvd_pow 2 h
  obtain ⟨m, hm⟩ := key
  rw [hm]
  omega

theorem tag_A_lor (x : Nat) (h : x % 8 = 0) : (A ||| x) % 8 = A := by
  rw [lor_mod_eight, h]
  decide

theorem lor_mod_eight_zero (x y : Nat) (hx : x % 8 = 0) (hy : y % 8 = 0) :
    (x ||| y) % 8 = 0 := by
  rw [lor_mod_eight, hx, hy]
  decide

theorem toU16_three : (3 : Nat) ≤ toU16 3 := by decide
theorem toU16_six : (3 : Nat) ≤ toU16 6 := by decide
theorem toU16_OPCODE : (3 : Nat) ≤ toU16 OPCODE := by decide
theorem toU16_MASK8 : toU16 MASK8 % 8 = 0 := by decide
theorem toU16_MASK128 : toU16 MASK128 % 8 = 0 := by decide

theorem operand_word_ok (v : Int) : first_pass_word (A ||| shift_Bits v 3) :=
  Or.inr (tag_A_lor _ (shift_Bits_mod_eight v 3 (Or.inr toU16_three)))

theorem operand_word_ok6 (v : Int) : first_pass_word (A ||| shift_Bits v 6) :=
  Or.inr (tag_A_lor _ (shift_Bits_mod_eight v 6 (Or.inr toU16_six)))

theorem generate_Mila_spec (command_list : List MACHINE_CODE_COMMAND)
    (command_code : Int) (src_op : List Char) (type_src : Int) (dest_op : List Char)
    (type_dest : Int) (IC : Int) :
    ∃ new : List MACHINE_CODE_COMMAND,
      (generate_Mila command_list command_code src_op type_src dest_op type_dest IC).1
          = command_list ++ new
        ∧ (generate_Mila command_list command_code src_op type_src dest_op type_dest IC).2
          = IC + (new.length : Int)
        ∧ new_words_ok IC new := by
  have hop : shift_Bits command_code OPCODE % 8 = 0 :=
    shift_Bits_mod_eight _ _ (Or.inr toU16_OPCODE)
  have h8 : shift_Bits MASK8 type_dest % 8 = 0 := shift_Bits_mod_eight _ _ (Or.inl toU16_MASK8)
  have h128 : shift_Bits MASK128 type_src % 8 = 0 :=
    shift_Bits_mod_eight _ _ (Or.inl toU16_MASK128)
  have hv3 : ∀ v : Int, shift_Bits v 3 % 8 = 0 := fun v =>
    shift_Bits_mod_eight v 3 (Or.inr toU16_three)
  have hv6 : ∀ v : Int, shift_Bits v 6 % 8 = 0 := fun v =>
    shift_Bits_mod_eight v 6 (Or.inr toU16_six)
  refine ⟨(generate_Mila [] command_code src_op type_src dest_op type_dest IC).1,
    generate_Mila_append _ _ _ _ _ _ _, ?_, ?_, ?_⟩
  · unfold generate_Mila
    by_cases h1 : command_code ≥ RTS
    · simp [h1, insert_Command_List]
    · by_cases h2 : command_code ≤ LEA
      · by_cases h3 : (type_src = REGISTER ∨ type_src = POINTER)
            ∧ (type_dest = POINTER ∨ type_dest = REGISTER)
        · simp only [h1, h2, h3, if_true, if_false, insert_Command_List, and_self]
          simp
        · simp only [h1, h2, h3, if_true, if_false, insert_Command_List]
          simp
      · simp only [h1, h2, if_false, insert_Command_List]
        simp
  · unfold generate_Mila
    by_cases h1 : command_code ≥ RTS
    · simp [h1, insert_Command_List, List.range_succ]
    · by_cases h2 : command_code ≤ LEA
      · by_cases h3 : (type_src = REGISTER ∨ type_src = POINTER)
            ∧ (type_dest = POINTER ∨ type_dest = REGISTER)
        · simp only [h1, h2, h3, if_true, if_false, insert_Command_List, and_self]
          simp [List.range_succ]
        · simp only [h1, h2, h3, if_true, if_false, insert_Command_List]
          simp [List.range_succ]
      · simp only [h1, h2, if_false, insert_Command_List]
        simp [List.range_succ]
  · unfold generate_Mila
    by_cases h1 : command_code ≥ RTS
    · intro c hc
      simp only [h1, if_true, insert_Command_List, List.nil_append, List.mem_singleton] at hc
      subst hc
      exact Or.inr (tag_A_lor _ hop)
    · by_cases h2 : command_code ≤ LEA
      · have hw0 : first_pass_word (A ||| shift_Bits MASK128 type_src
            ||| shift_Bits MASK8 type_dest ||| shift_Bits command_code OPCODE) := by
          right
          rw [Nat.lor_assoc, Nat.lor_assoc]
          exact tag_A_lor _ (lor_mod_eight_zero _ _ h128 (lor_mod_eight_zero _ _ h8 hop))
        by_cases h3 : (type_src = REGISTER ∨ type_src = POINTER)
            ∧ (type_dest = POINTER ∨ type_dest = REGISTER)
        · intro c hc
          simp only [h1, h2, h3, if_true, if_false, insert_Command_List, and_self,
            List.nil_append, List.mem_append, List.mem_singleton] at hc
          rcases hc with hc | hc
          · subst hc; exact hw0
          · subst hc
            right
            show (A ||| shift_Bits _ 3 ||| shift_Bits _ 6) % 8 = A
            rw [Nat.lor_assoc]
            exact tag_A_lor _ (lor_mod_eight_zero _ _ (hv3 _) (hv6 _))
        · intro c hc
          simp only [h1, h2, h3, if_true, if_false, insert_Command_List,
            List.nil_append, List.mem_append, List.mem_singleton] at hc
          rcases hc with (hc | hc) | hc
          · subst hc; exact hw0
          · subst hc
            show first_pass_word (if type_src = LABEL then MARK_FOR_SECOND_PASS else _)
            split_ifs
            · exact Or.inl rfl
            · exact operand_word_ok _
            · exact operand_word_ok6 _
          · subst hc
            show first_pass_word (if type_dest = LABEL then MARK_FOR_SECOND_PASS else _)
            split_ifs
            · exact Or.inl rfl
            · exact operand_word_ok _
      · intro c hc
        simp only [h1, h2, if_false, insert_Command_List,
          List.nil_append, List.mem_append, List.mem_singleton] at hc
        rcases hc with hc | hc
        · subst hc
          right
          show (A ||| shift_Bits MASK8 type_dest ||| shift_Bits command_code OPCODE) % 8 = A
          rw [Nat.lor_assoc]
          exact tag_A_lor _ (lor_mod_eight_zero _ _ h8 hop)
        · subst hc
          show first_pass_word (if type_dest = LABEL then MARK_FOR_SECOND_PASS else _)
          split_ifs
          · exact Or.inl rfl
          · exact operand_word_ok _

theorem convert_Command_spec (command_list : List MACHINE_CODE_COMMAND) (line : List Char)
    (command : COMMAND) (IC : Int) :
    ∃ new : List MACHINE_CODE_COMMAND,
      (convert_Command command_list line command IC).1 = command_list ++ new
        ∧ (convert_Command command_list line command IC).2 = IC + (new.length : Int)
        ∧ new_words_ok IC new := by
  unfold convert_Command
  split_ifs
  · exact generate_Mila_spec _ _ _ _ _ _ _
  · exact generate_Mila_spec _ _ _ _ _ _ _
  · exact generate_Mila_spec _ _ _ _ _ _ _
  · exact ⟨[], by simp, by simp, by simp [new_words_ok]⟩

theorem new_data_ok_cons (DC : Int) (x : MACHINE_CODE_INSTRUCTION)
    (rest : List MACHINE_CODE_INSTRUCTION) (hx : x.addr = DC) (h : new_data_ok (DC + 1) rest) :
    new_data_ok DC (x :: rest) := by
  unfold new_data_ok at h ⊢
  rw [List.length_cons, List.range_succ_eq_map, List.map_cons, List.map_cons, h, hx]
  simp only [List.map_map, Nat.cast_zero, add_zero, List.cons.injEq, true_and]
  apply List.map_congr_left
  intro i _
  simp only [Function.comp, Nat.succ_eq_add_one, Nat.cast_add, Nat.cast_one]
  ring

theorem extract_String_loop_spec (cs : List Char) :
    ∀ (l : List MACHINE_CODE_INSTRUCTION) (address : Int),
      ∃ new : List MACHINE_CODE_INSTRUCTION,
        (extract_String_loop cs l address).1 = l ++ new
          ∧ (extract_String_loop cs l address).2 = address + (new.length : Int)
          ∧ new_data_ok address new := by
  induction cs with
  | nil => intro l address; exact ⟨[], by simp [extract_String_loop], by simp [extract_String_loop], by simp [new_data_ok]⟩
  | cons c cs ih =>
    intro l address
    obtain ⟨new, h1, h2, h3⟩ := ih (add_to_instruction_list l address (c.toNat % 65536)) (address + 1)
    refine ⟨⟨address, c.toNat % 65536⟩ :: new, ?_, ?_, new_data_ok_cons _ _ _ rfl h3⟩
    · rw [extract_String_loop, h1]
      simp [add_to_instruction_list]
    · rw [extract_String_loop, h2]
      simp only [List.length_cons, Nat.cast_add, Nat.cast_one]
      ring

theorem extract_Data_loop_spec (toks : List (List Char)) :
    ∀ (l : List MACHINE_CODE_INSTRUCTION) (address : Int),
      ∃ new : List MACHINE_CODE_INSTRUCTION,
        (extract_Data_loop toks l address).1 = l ++ new
          ∧ (extract_Data_loop toks l address).2 = address + (new.length : Int)
          ∧ new_data_ok address new := by
  induction toks with
  | nil => intro l address; exact ⟨[], by simp [extract_Data_loop], by simp [extract_Data_loop], by simp [new_data_ok]⟩
  | cons c cs ih =>
    intro l address
    obtain ⟨new, h1, h2, h3⟩ := ih (add_to_instruction_list l address (toU16 (atoi c))) (address + 1)
    refine ⟨⟨address, toU16 (atoi c)⟩ :: new, ?_, ?_, new_data_ok_cons _ _ _ rfl h3⟩
    · rw [extract_Data_loop, h1]
      simp [add_to_instruction_list]
    · rw [extract_Data_loop, h2]
      simp only [List.length_cons, Nat.cast_add, Nat.cast_one]
      ring

theorem new_data_ok_append (DC : Int) (a b : List MACHINE_CODE_INSTRUCTION)
    (ha : new_data_ok DC a) (hb : new_data_ok (DC + (a.length : Int)) b) :
    new_data_ok DC (a ++ b) := by
  unfold new_data_ok at *
  rw [List.map_append, List.length_append, List.range_add, List.map_append, ha, hb]
  congr 1
  rw [List.map_map]
  apply List.map_congr_left
  intro i _
  simp only [Function.comp, Nat.cast_add]
  ring

theorem extract_String_spec (l : List MACHINE_CODE_INSTRUCTION) (line : List Char)
    (address : Int) :
    ∃ new : List MACHINE_CODE_INSTRUCTION,
      (extract_String l line address).1 = l ++ new
        ∧ (extract_String l line address).2 = address + (new.length : Int)
        ∧ new_data_ok address new := by
  unfold extract_String
  split_ifs
  · exact ⟨[], by simp, by simp, by simp [new_data_ok]⟩
  · obtain ⟨new, h1, h2, h3⟩ :=
      extract_String_loop_spec ((line.take (line.length - 2)).drop 1) l address
    refine ⟨new ++ [⟨address + (new.length : Int), 0⟩], ?_, ?_, ?_⟩
    · simp only [h1, h2, add_to_instruction_list, List.append_assoc]
    · simp only [h2, List.length_append, List.length_singleton, Nat.cast_add, Nat.cast_one]
      ring
    · apply new_data_ok_append _ _ _ h3
      simp [new_data_ok, List.range_succ]

theorem extract_Data_spec (l : List MACHINE_CODE_INSTRUCTION) (line : List Char)
    (address : Int) :
    ∃ new : List MACHINE_CODE_INSTRUCTION,
      (extract_Data l line address).1 = l ++ new
        ∧ (extract_Data l line address).2 = address + (new.length : Int)
        ∧ new_data_ok address new :=
  extract_Data_loop_spec _ l address

theorem firstpass_label_command_head (t : ASSEMBLER_TABLE) (label_skip : Int)
    (label : List Char) (address : Int) :
    (firstpass_label t label_skip label address).command_head = t.command_head := by
  unfold firstpass_label
  split_ifs <;> rfl

theorem firstpass_label_instruction_head (t : ASSEMBLER_TABLE) (label_skip : Int)
    (label : List Char) (address : Int) :
    (firstpass_label t label_skip label address).instruction_head = t.instruction_head := by
  unfold firstpass_label
  split_ifs <;> rfl

theorem code_step_same (s s1 : FIRSTPASS_STATE)
    (h1 : s1.table.command_head = s.table.command_head) (h2 : s1.IC = s.IC) :
    code_step s s1 :=
  ⟨[], by simp [h1], by simp [h2], by simp [new_words_ok]⟩

theorem data_step_same (s s1 : FIRSTPASS_STATE)
    (h1 : s1.table.instruction_head = s.table.instruction_head) (h2 : s1.DC = s.DC) :
    data_step s s1 :=
  ⟨[], by simp [h1], by simp [h2], by simp [new_data_ok]⟩

theorem firstpass_case_IS_ENTRY_step (s : FIRSTPASS_STATE) (line label : List Char)
    (label_skip skip : Int) (error0 : Nat) :
    code_step s (firstpass_case_IS_ENTRY s line label label_skip skip error0)
      ∧ data_step s (firstpass_case_IS_ENTRY s line label label_skip skip error0) := by
  unfold firstpass_case_IS_ENTRY
  dsimp only
  constructor
  · apply code_step_same
    · split_ifs <;> simp [firstpass_next, firstpass_label_command_head]
    · rfl
  · apply data_step_same
    · split_ifs <;> simp [firstpass_next, firstpass_label_instruction_head]
    · rfl

theorem firstpass_case_IS_EXTERN_step (s : FIRSTPASS_STATE) (line label : List Char)
    (label_skip skip : Int) (error0 : Nat) :
    code_step s (firstpass_case_IS_EXTERN s line label label_skip skip error0)
      ∧ data_step s (firstpass_case_IS_EXTERN s line label label_skip skip error0) := by
  unfold firstpass_case_IS_EXTERN
  dsimp only
  constructor
  · apply code_step_same
    · split_ifs <;> simp [firstpass_next, firstpass_label_command_head]
    · rfl
  · apply data_step_same
    · split_ifs <;> simp [firstpass_next, firstpass_label_instruction_head]
    · rfl

theorem firstpass_case_IS_STRING_step (s : FIRSTPASS_STATE) (line label : List Char)
    (label_skip skip : Int) (error0 : Nat) :
    code_step s (firstpass_case_IS_STRING s line label label_skip skip error0)
      ∧ data_step s (firstpass_case_IS_STRING s line label label_skip skip error0) := by
  unfold firstpass_case_IS_STRING
  dsimp only
  split_ifs
  · constructor
    · exact code_step_same _ _ (by simp [firstpass_next, firstpass_label_command_head]) rfl
    · have h := extract_String_spec s.table.instruction_head (line.drop skip.toNat) s.DC
      simpa [data_step, firstpass_next, firstpass_label_instruction_head] using h
  · constructor
    · exact code_step_same _ _ (by simp [firstpass_next, firstpass_label_command_head]) rfl
    · exact data_step_same _ _ (by simp [firstpass_next, firstpass_label_instruction_head]) rfl

theorem firstpass_case_IS_DATA_step (s : FIRSTPASS_STATE) (line label : List Char)
    (label_skip skip : Int) (error0 : Nat) :
    code_step s (firstpass_case_IS_DATA s line label label_skip skip error0)
      ∧ data_step s (firstpass_case_IS_DATA s line label label_skip skip error0) := by
  unfold firstpass_case_IS_DATA
  dsimp only
  split_ifs
  · constructor
    · exact code_step_same _ _ (by simp [firstpass_next, firstpass_label_command_head]) rfl
    · have h := extract_Data_spec s.table.instruction_head (line.drop skip.toNat) s.DC
      simpa [data_step, firstpass_next, firstpass_label_instruction_head] using h
  · constructor
    · exact code_step_same _ _ (by simp [firstpass_next, firstpass_label_command_head]) rfl
    · exact data_step_same _ _ (by simp [firstpass_next, firstpass_label_instruction_head]) rfl

theorem firstpass_case_IS_COMMAND_step (s : FIRSTPASS_STATE) (line label : List Char)
    (label_skip skip : Int) (command : COMMAND) (error0 : Nat) :
    code_step s (firstpass_case_IS_COMMAND s line label label_skip skip command error0)
      ∧ data_step s (firstpass_case_IS_COMMAND s line label label_skip skip command error0) := by
  unfold firstpass_case_IS_COMMAND
  dsimp only
  split_ifs
  · constructor
    · have h := convert_Command_spec s.table.command_head (line.drop skip.toNat) command s.IC
      simpa [code_step, firstpass_next, firstpass_label_command_head] using h
    · exact data_step_same _ _ (by simp [firstpass_next, firstpass_label_instruction_head]) rfl
  · constructor
    · exact code_step_same _ _ (by simp [firstpass_next, firstpass_label_command_head]) rfl
    · exact data_step_same _ _ (by simp [firstpass_next, firstpass_label_instruction_head]) rfl

theorem firstpass_switch_step (s : FIRSTPASS_STATE) (line label : List Char)
    (label_skip skip : Int) (type : Int) (command : Option COMMAND) (error0 : Nat) :
    code_step s (firstpass_switch s line label label_skip skip type command error0)
      ∧ data_step s (firstpass_switch s line label label_skip skip type command error0) := by
  have hsame : code_step s (firstpass_next s type s.table s.IC s.DC error0)
      ∧ data_step s (firstpass_next s type s.table s.IC s.DC error0) :=
    ⟨code_step_same _ _ rfl rfl, data_step_same _ _ rfl rfl⟩
  unfold firstpass_switch
  split_ifs
  · exact firstpass_case_IS_ENTRY_step _ _ _ _ _ _
  · exact firstpass_case_IS_EXTERN_step _ _ _ _ _ _
  · exact firstpass_case_IS_STRING_step _ _ _ _ _ _
  · exact firstpass_case_IS_DATA_step _ _ _ _ _ _
  · cases command with
    | none => exact hsame
    | some cmd => exact firstpass_case_IS_COMMAND_step _ _ _ _ _ _ _
  · exact hsame

theorem firstpass_line_step (s : FIRSTPASS_STATE) (line : List Char) :
    code_step s (firstpass_line s line) ∧ data_step s (firstpass_line s line) := by
  unfold firstpass_line
  exact firstpass_switch_step _ _ _ _ _ _ _ _

theorem new_words_ok_append (IC : Int) (a b : List MACHINE_CODE_COMMAND)
    (ha : new_words_ok IC a) (hb : new_words_ok (IC + (a.length : Int)) b) :
    new_words_ok IC (a ++ b) := by
  unfold new_words_ok at *
  constructor
  · rw [List.map_append, List.length_append, List.range_add, List.map_append, ha.1, hb.1]
    congr 1
    rw [List.map_map]
    apply List.map_congr_left
    intro i _
    simp only [Function.comp, Nat.cast_add]
    ring
  · intro c hc
    rcases List.mem_append.mp hc with h | h
    · exact ha.2 c h
    · exact hb.2 c h

theorem firstpass_inv_step (s s1 : FIRSTPASS_STATE) (h : firstpass_inv s)
    (hc : code_step s s1) (hd : data_step s s1) : firstpass_inv s1 := by
  obtain ⟨h1, h2, h3, h4⟩ := h
  obtain ⟨nc, c1, c2, c3⟩ := hc
  obtain ⟨nd, d1, d2, d3⟩ := hd
  refine ⟨?_, ?_, ?_, ?_⟩
  · rw [c1]
    exact new_words_ok_append _ _ _ h1 (h2 ▸ c3)
  · rw [c1, c2, h2, List.length_append, Nat.cast_add]
    ring
  · rw [d1]
    exact new_data_ok_append _ _ _ h3 (h4 ▸ d3)
  · rw [d1, d2, h4, List.length_append, Nat.cast_add]
    ring

theorem firstpass_inv_foldl (lines : List (List Char)) :
    ∀ s : FIRSTPASS_STATE, firstpass_inv s → firstpass_inv (lines.foldl firstpass_line s) := by
  induction lines with
  | nil => intro s h; exact h
  | cons line rest ih =>
    intro s h
    rw [List.foldl_cons]
    exact ih _ (firstpass_inv_step s _ h (firstpass_line_step s line).1
      (firstpass_line_step s line).2)

theorem firstpass_inv_init : firstpass_inv firstpass_init := by
  refine ⟨⟨rfl, ?_⟩, rfl, rfl, rfl⟩
  intro c hc
  exact absurd hc (List.not_mem_nil c)

theorem firstpass_loop_inv (file : List Char) : firstpass_inv (firstpass_loop file) :=
  firstpass_inv_foldl _ _ firstpass_inv_init

theorem second_pass_word_addr (labels : List LABEL_LIST) (names : List (List Char))
    (c : MACHINE_CODE_COMMAND) : (second_pass_word labels names c).addr = c.addr := by
  unfold second_pass_word
  split_ifs <;> rfl

theorem resolved_label_tag (a : Int) : (R ||| shift_Bits a 3) % 65536 % 8 = R := by
  have h : (R ||| shift_Bits a 3) % 8 = R := by
    rw [lor_mod_eight, shift_Bits_mod_eight a 3 (Or.inr toU16_three)]
    decide
  omega

/-- C8: when `firstpass` hands the tables to `Second_Pass` and `Second_Pass` emits, every
word of the code image afterwards has its low three bits equal to `E`, `R` or `A`. -/
theorem C8_tag_is_A_R_or_E (file : List Char) (r : SECOND_PASS_RESULT)
    (hfirst : (firstpass file).2 = some r) (hsecond : r.emitted.isSome = true) :
    ∀ c ∈ r.table.command_head, c.mila % 8 = E ∨ c.mila % 8 = R ∨ c.mila % 8 = A := by
  have hr : r = Second_Pass (firstpass_loop file).table (firstpass_loop file).IC
      (firstpass_loop file).DC := by
    unfold firstpass at hfirst
    dsimp only at hfirst
    split_ifs at hfirst
    · exact (Option.some.inj hfirst).symm
  subst hr
  have hall := (Second_Pass_emitted_isSome_iff (firstpass_loop file).table
    (firstpass_loop file).IC (firstpass_loop file).DC).mp hsecond
  have hinv := (firstpass_loop_inv file).1.2
  intro c hc
  rw [Second_Pass_command_head] at hc
  obtain ⟨c0, hc0, rfl⟩ := List.mem_map.mp hc
  unfold second_pass_word
  by_cases hp : c0.mila = MARK_FOR_SECOND_PASS
  · rw [if_pos hp]
    by_cases he : c0.label ∈ (firstpass_loop file).table.extern_head.map (fun e => e.label)
    · left
      simp only [if_pos he]
      decide
    · right; left
      simp only [if_neg he]
      have hl : c0.label ∈ (firstpass_loop file).table.label_head.map (fun l => l.label) := by
        rcases hall c0 hc0 hp with h | h
        · exact h
        · exact absurd h he
      obtain ⟨l, _, _, heq⟩ := resolve_in_labels_present _ _ c0.mila hl
      rw [heq]
      exact resolved_label_tag l.addr
  · rw [if_neg hp]
    right; right
    rcases hinv c0 hc0 with h | h
    · exact absurd h hp
    · exact h

theorem map_eq_zipWith {X : Type} (g : Nat → Int → List Char) (f : X → Nat) (a : X → Int)
    (l : List X) :
    l.map (fun c => g (f c) (a c)) = List.zipWith g (l.map f) (l.map a) := by
  induction l with
  | nil => rfl
  | cons x rest ih =>
    rw [List.map_cons, List.map_cons, List.map_cons, List.zipWith_cons_cons, ih]

theorem firstpass_accepted (file : List Char) (r : SECOND_PASS_RESULT)
    (hfirst : (firstpass file).2 = some r) :
    r = Second_Pass (firstpass_loop file).table (firstpass_loop file).IC
      (firstpass_loop file).DC := by
  unfold firstpass at hfirst
  dsimp only at hfirst
  split_ifs at hfirst
  · exact (Option.some.inj hfirst).symm

theorem Second_Pass_instruction_head (t : ASSEMBLER_TABLE) (IC DC : Int) :
    (Second_Pass t IC DC).table.instruction_head = t.instruction_head := by
  unfold Second_Pass
  rfl

/-- C9: when both passes accept, the object file is the header with the number `c` of code
words and the number `d` of data words in decimal, then the code words in order at the
addresses `100, ..., 100 + c - 1`, then the data words in order at the addresses
`100 + c, ..., 100 + c + d - 1`. -/
theorem C9_object_file_layout (file : List Char) (r : SECOND_PASS_RESULT) (a : ARTIFACTS)
    (hfirst : (firstpass file).2 = some r) (hemit : r.emitted = some a) :
    a.ob = ['\n', '\t'] ++ fmt_d (r.table.command_head.length : Int) ++ [' ']
        ++ fmt_d (r.table.instruction_head.length : Int) ++ ['\n']
        ++ (List.zipWith
              (fun (w : Nat) (i : Nat) => print_dec_to_file_in_octal w (100 + (i : Int)))
              (r.table.command_head.map (fun c => c.mila))
              (List.range r.table.command_head.length)).flatten
        ++ (List.zipWith
              (fun (w : Nat) (i : Nat) => print_dec_to_file_in_octal w
                (100 + (r.table.command_head.length : Int) + (i : Int)))
              (r.table.instruction_head.map (fun c => c.mila))
              (List.range r.table.instruction_head.length)).flatten := by
  have hr := firstpass_accepted file r hfirst
  subst hr
  obtain ⟨⟨hca, _⟩, hIC, hda, hDC⟩ := firstpass_loop_inv file
  have ha := Second_Pass_emitted_some (firstpass_loop file).table (firstpass_loop file).IC
    (firstpass_loop file).DC a hemit
  subst ha
  have hlen : (Second_Pass (firstpass_loop file).table (firstpass_loop file).IC
      (firstpass_loop file).DC).table.command_head.length
        = (firstpass_loop file).table.command_head.length := by
    rw [Second_Pass_command_head, List.length_map]
  have haddr : (Second_Pass (firstpass_loop file).table (firstpass_loop file).IC
      (firstpass_loop file).DC).table.command_head.map (fun c => c.addr)
        = (List.range (firstpass_loop file).table.command_head.length).map
            (fun (i : Nat) => (100 : Int) + (i : Int)) := by
    rw [Second_Pass_command_head, List.map_map, ← hca]
    apply List.map_congr_left
    intro c _
    exact second_pass_word_addr _ _ c
  unfold new_data_ok at hda
  simp only [translationunit, process_ob_file]
  rw [hlen, Second_Pass_instruction_head]
  have hz1 : (Second_Pass (firstpass_loop file).table (firstpass_loop file).IC
        (firstpass_loop file).DC).table.command_head.map
          (fun c => print_dec_to_file_in_octal c.mila c.addr)
      = List.zipWith (fun w ad => print_dec_to_file_in_octal w ad)
          ((Second_Pass (firstpass_loop file).table (firstpass_loop file).IC
            (firstpass_loop file).DC).table.command_head.map (fun c => c.mila))
          ((Second_Pass (firstpass_loop file).table (firstpass_loop file).IC
            (firstpass_loop file).DC).table.command_head.map (fun c => c.addr)) :=
    map_eq_zipWith _ _ _ _
  have hz2 : (firstpass_loop file).table.instruction_head.map
        (fun i => print_dec_to_file_in_octal i.mila (i.addr + (firstpass_loop file).IC - 1))
      = List.zipWith (fun w ad => print_dec_to_file_in_octal w ad)
          ((firstpass_loop file).table.instruction_head.map (fun c => c.mila))
          ((firstpass_loop file).table.instruction_head.map
            (fun c => c.addr + (firstpass_loop file).IC - 1)) :=
    map_eq_zipWith _ _ _ _
  rw [hz1, haddr, List.zipWith_map_right, hz2]
  have hd2 : (firstpass_loop file).table.instruction_head.map
        (fun c => c.addr + (firstpass_loop file).IC - 1)
      = (List.range (firstpass_loop file).table.instruction_head.length).map
          (fun (i : Nat) =>
            (100 : Int) + ((firstpass_loop file).table.command_head.length : Int) + (i : Int)) := by
    have : (firstpass_loop file).table.instruction_head.map
        (fun c => c.addr + (firstpass_loop file).IC - 1)
        = ((firstpass_loop file).table.instruction_head.map (fun i => i.addr)).map
            (fun x => x + (firstpass_loop file).IC - 1) := by
      rw [List.map_map]; rfl
    rw [this, hda, List.map_map]
    apply List.map_congr_left
    intro i _
    simp only [Function.comp, hIC]
    ring
  rw [hd2, List.zipWith_map_right]
  have e1 : (firstpass_loop file).IC - 100
      = ((firstpass_loop file).table.command_head.length : Int) := by rw [hIC]; ring
  have e2 : (firstpass_loop file).DC - 1
      = ((firstpass_loop file).table.instruction_head.length : Int) := by rw [hDC]; ring
  rw [e1, e2]

set_option maxRecDepth 100000 in
/-- Witness of C8 on the `.am` text `.externEXT / movEXT,r1 / stop`: both passes accept it
and the four code words carry the tags `A, E, A, A`. -/
theorem C8_tag_is_A_R_or_E_witness :
    (firstpass example_extern_file).2
        = some (Second_Pass (firstpass_loop example_extern_file).table 104 1)
      ∧ (Second_Pass (firstpass_loop example_extern_file).table 104 1).emitted.isSome = true
      ∧ (Second_Pass (firstpass_loop example_extern_file).table 104 1).table.command_head.map
          (fun c => c.mila % 8) = [4, 1, 4, 4]
      ∧ ∀ c ∈ (Second_Pass (firstpass_loop example_extern_file).table 104 1).table.command_head,
          c.mila % 8 = E ∨ c.mila % 8 = R ∨ c.mila % 8 = A :=
  ⟨by decide, by decide, by decide,
    C8_tag_is_A_R_or_E example_extern_file
      (Second_Pass (firstpass_loop example_extern_file).table 104 1) (by decide) (by decide)⟩

set_option maxRecDepth 100000 in
/-- Witness of C9 on `A: .data 5,-3` / `B: .string "ab"` / `stop`: the header is `1 5`, the
code word stands at 100 and the five data words at 101 .. 105. -/
theorem C9_object_file_layout_witness :
    (firstpass example_data_file).2
        = some (Second_Pass (firstpass_loop example_data_file).table 101 6)
      ∧ (Second_Pass (firstpass_loop example_data_file).table 101 6).emitted
        = some (translationunit
            (Second_Pass (firstpass_loop example_data_file).table 101 6).table 101 6)
      ∧ (translationunit
            (Second_Pass (firstpass_loop example_data_file).table 101 6).table 101 6).ob
        = "\n\t1 5\n0100\t74004\n0101\t00005\n0102\t77775\n0103\t00141\n0104\t00142\n0105\t00000\n".toList :=
  ⟨by decide, by decide,
    (C9_object_file_layout example_data_file
      (Second_Pass (firstpass_loop example_data_file).table 101 6)
      (translationunit (Second_Pass (firstpass_loop example_data_file).table 101 6).table 101 6)
      (by decide) (by decide)).trans (by decide)⟩

set_option maxRecDepth 100000 in
/-- C10 fails on the code. For `A: .data 5,-3` / `B: .string "ab"` / `stop` the first pass
ends with `IC = 101` and the label list `A -> 100`, `B -> 102`, while `process_ob_file`
writes the first word of `A` (5) at 101 and the first word of `B` (octal 141) at 103. For
`.entry A` / `A: .data 5,-3` / `mov A, r1` / `stop` the label list holds `A -> 100`, the
`R` word at 101 is `2 | (100 << 3) = 802`, the entry site is 100, and the data word 5 is
written at 104. -/
theorem C10_data_label_not_relocated :
    ((firstpass_loop example_data_file).table.label_head
        = [⟨"A".toList, 100⟩, ⟨"B".toList, 102⟩]
      ∧ (firstpass_loop example_data_file).IC = 101
      ∧ (firstpass example_data_file).2.bind (fun r => r.emitted.map (fun a => a.ob))
        = some "\n\t1 5\n0100\t74004\n0101\t00005\n0102\t77775\n0103\t00141\n0104\t00142\n0105\t00000\n".toList)
    ∧ ((firstpass_loop example_data_use_file).table.label_head = [⟨"A".toList, 100⟩]
      ∧ (firstpass_loop example_data_use_file).IC = 104
      ∧ (firstpass example_data_use_file).2.bind
          (fun r => r.emitted.map (fun a => (a.ob, a.ent)))
        = some ("\n\t4 2\n0100\t00504\n0101\t01442\n0102\t00014\n0103\t74004\n0104\t00005\n0105\t77775\n".toList,
            some "A\t0100\n ".toList)) := by
  decide

/-! ## The recursion bounds of the model are never reached -/

theorem fgets_rest_length (n : Nat) : ∀ s : List Char, (fgets n s).2.length ≤ s.length := by
  induction n with
  | zero => intro s; simp [fgets]
  | succ n ih =>
    intro s
    cases s with
    | nil => simp [fgets]
    | cons c cs =>
      by_cases h : c = '\n'
      · simp [fgets, h]
      · have := ih cs
        simp only [fgets, h, if_false, List.length_cons]
        omega

theorem fgets_rest_length_cons (n : Nat) (c : Char) (cs : List Char) :
    (fgets (n + 1) (c :: cs)).2.length ≤ cs.length := by
  by_cases h : c = '\n'
  · simp [fgets, h]
  · simp only [fgets, h, if_false]
    exact fgets_rest_length n cs

/-- More fuel does not change the lines that `read_lines` returns: the fuel used by
`firstpass_loop`, the length of the file, is enough to read the file to its end. -/
theorem read_lines_fuel (fuel : Nat) :
    ∀ file : List Char, file.length ≤ fuel →
      read_lines fuel file = read_lines file.length file := by
  induction fuel using Nat.strong_induction_on with
  | _ fuel ih =>
    intro file hlen
    cases file with
    | nil => cases fuel <;> simp [read_lines]
    | cons c cs =>
      cases fuel with
      | zero => simp at hlen
      | succ fuel =>
        have hrest : (fgets 80 (c :: cs)).2.length ≤ cs.length := fgets_rest_length_cons 79 c cs
        simp only [List.length_cons] at hlen
        have h1 := ih fuel (Nat.lt_succ_self fuel) (fgets 80 (c :: cs)).2 (by omega)
        have h2 : read_lines cs.length (fgets 80 (c :: cs)).2
            = read_lines (fgets 80 (c :: cs)).2.length (fgets 80 (c :: cs)).2 := by
          rcases Nat.lt_or_ge cs.length (fuel + 1) with hlt | hge
          · exact ih cs.length hlt _ hrest
          · omega
        simp only [read_lines, List.length_cons, MAX_FILE_LINE_LENGTH]
        rw [h1, h2]

/-- More fuel does not change the tokens that `strtok_all` returns: the fuel used by
`strtok`, the length of the string plus one, is enough to reach its end. -/
theorem strtok_all_fuel (delims : List Char) (fuel : Nat) :
    ∀ s : List Char, s.length < fuel →
      strtok_all fuel delims s = strtok_all (s.length + 1) delims s := by
  induction fuel using Nat.strong_induction_on with
  | _ fuel ih =>
    intro s hlen
    cases fuel with
    | zero => omega
    | succ fuel =>
      have hdrop : (s.dropWhile (fun c => delims.contains c)).length ≤ s.length :=
        (List.dropWhile_suffix _).length_le
      rw [strtok_all, strtok_all]
      cases hd : s.dropWhile (fun c => delims.contains c) with
      | nil => rfl
      | cons c cs =>
        rw [hd] at hdrop
        simp only [List.length_cons] at hdrop
        simp only
        have hrest : ((c :: cs).drop
            (((c :: cs).takeWhile (fun x => !delims.contains x)).length + 1)).length
              < s.length := by
          rw [List.length_drop, List.length_cons]
          omega
        have h1 := ih fuel (Nat.lt_succ_self fuel) _ (Nat.lt_of_lt_of_le hrest (by omega))
        have h2 := ih s.length (by omega) _ hrest
        rw [h1, h2]

theorem firstpass_line_stop (s : FIRSTPASS_STATE) :
    firstpass_line s "stop\n".toList
      = { table := { s.table with
                     command_head := s.table.command_head ++ [⟨s.IC, 30724, [], NONE⟩] }
          IC := s.IC + 1, DC := s.DC, type := IS_COMMAND, error_flag := s.error_flag + 0 } := by
  rfl

theorem firstpass_line_jmp_L (s : FIRSTPASS_STATE) :
    firstpass_line s "L:jmpL\n".toList
      = { table := { s.table with
                     label_head := s.table.label_head ++ [⟨"L".toList, s.IC⟩]
                     command_head := s.table.command_head
                       ++ [⟨s.IC, 18452, [], NONE⟩]
                       ++ [⟨s.IC + 1, MARK_FOR_SECOND_PASS, "L".toList, LABEL⟩] }
          IC := s.IC + 2, DC := s.DC, type := IS_COMMAND, error_flag := s.error_flag + 0 } := by
  rfl

theorem firstpass_line_empty (s : FIRSTPASS_STATE) :
    firstpass_line s "\n".toList
      = { s with type := UNDEFINED_INSTRUCTION, error_flag := s.error_flag + 0 } := by
  rfl

theorem read_lines_stop (fuel : Nat) (rest : List Char) :
    read_lines (fuel + 1) ("stop\n".toList ++ rest)
      = "stop\n".toList :: read_lines fuel rest := by
  rfl

theorem read_lines_stops (n fuel : Nat) (rest : List Char) :
    read_lines (n + fuel) ((List.replicate n "stop\n".toList).flatten ++ rest)
      = List.replicate n "stop\n".toList ++ read_lines fuel rest := by
  induction n with
  | zero => simp
  | succ n ih =>
    rw [List.replicate_succ, List.flatten_cons, List.append_assoc,
      show n + 1 + fuel = (n + fuel) + 1 by omega, read_lines_stop, ih]
    rfl

theorem example_long_file_length (n : Nat) :
    (example_long_file n).length = n + (4 * n + 8) := by
  unfold example_long_file
  induction n with
  | zero => rfl
  | succ n ih =>
    rw [List.replicate_succ, List.flatten_cons, List.append_assoc, List.length_append, ih]
    simp only [String.toList, List.length_cons, List.length_nil]
    omega

theorem read_lines_example_long_file (n : Nat) :
    read_lines (example_long_file n).length (example_long_file n)
      = List.replicate n "stop\n".toList ++ ["L:jmpL\n".toList, "\n".toList] := by
  rw [example_long_file_length]
  unfold example_long_file
  rw [read_lines_stops, read_lines_fuel (4 * n + 8) _ (by simp)]
  rfl

theorem firstpass_stops (n : Nat) :
    ∀ s : FIRSTPASS_STATE,
      ((List.replicate n "stop\n".toList).foldl firstpass_line s).table.label_head
          = s.table.label_head
        ∧ ((List.replicate n "stop\n".toList).foldl firstpass_line s).table.extern_head
          = s.table.extern_head
        ∧ ((List.replicate n "stop\n".toList).foldl firstpass_line s).table.command_head.length
          = s.table.command_head.length + n
        ∧ ((List.replicate n "stop\n".toList).foldl firstpass_line s).IC = s.IC + (n : Int)
        ∧ ((List.replicate n "stop\n".toList).foldl firstpass_line s).error_flag
          = s.error_flag := by
  induction n with
  | zero => intro s; simp
  | succ n ih =>
    intro s
    rw [List.replicate_succ, List.foldl_cons, firstpass_line_stop]
    obtain ⟨h1, h2, h3, h4, h5⟩ := ih
      { table := { s.table with
                   command_head := s.table.command_head ++ [⟨s.IC, 30724, [], NONE⟩] }
        IC := s.IC + 1, DC := s.DC, type := IS_COMMAND, error_flag := s.error_flag + 0 }
    refine ⟨h1, h2, ?_, ?_, h5⟩
    · rw [h3]
      simp only [List.length_append, List.length_singleton]
      omega
    · rw [h4]
      push_cast
      ring

theorem firstpass_loop_example_long_file (n : Nat) :
    firstpass_loop (example_long_file n)
      = firstpass_line
          (firstpass_line
            ((List.replicate n "stop\n".toList).foldl firstpass_line firstpass_init)
            "L:jmpL\n".toList)
          "\n".toList := by
  unfold firstpass_loop
  rw [read_lines_example_long_file, List.foldl_append]
  rfl

theorem firstpass_example_long_file (n : Nat) :
    (firstpass (example_long_file n)).1.table.label_head = [⟨"L".toList, 100 + (n : Int)⟩]
      ∧ (firstpass (example_long_file n)).1.table.command_head.get? (n + 1)
          = some ⟨100 + (n : Int) + 1, MARK_FOR_SECOND_PASS, "L".toList, LABEL⟩
      ∧ (firstpass (example_long_file n)).2.map (fun r => r.table.command_head.get? (n + 1))
          = some (some ⟨100 + (n : Int) + 1, (R ||| shift_Bits (100 + (n : Int)) 3) % 65536,
              "L".toList, LABEL⟩) := by
  obtain ⟨h1, h2, h3, h4, h5⟩ := firstpass_stops n firstpass_init
  have h1a : ((List.replicate n "stop\n".toList).foldl firstpass_line
      firstpass_init).table.label_head = [] := h1
  have h2a : ((List.replicate n "stop\n".toList).foldl firstpass_line
      firstpass_init).table.extern_head = [] := h2
  have h3a : ((List.replicate n "stop\n".toList).foldl firstpass_line
      firstpass_init).table.command_head.length = n := by
    rw [h3]
    exact Nat.zero_add n
  have h4a : ((List.replicate n "stop\n".toList).foldl firstpass_line
      firstpass_init).IC = 100 + (n : Int) := h4
  have h5a : ((List.replicate n "stop\n".toList).foldl firstpass_line
      firstpass_init).error_flag = 0 := h5
  have hl : (firstpass_loop (example_long_file n)).table.label_head
      = [⟨"L".toList, 100 + (n : Int)⟩] := by
    rw [firstpass_loop_example_long_file, firstpass_line_empty, firstpass_line_jmp_L]
    simp only [h1a, h4a]
    rfl
  have he : (firstpass_loop (example_long_file n)).table.extern_head = [] := by
    rw [firstpass_loop_example_long_file, firstpass_line_empty, firstpass_line_jmp_L]
    exact h2a
  have hc : (firstpass_loop (example_long_file n)).table.command_head.get? (n + 1)
      = some ⟨100 + (n : Int) + 1, MARK_FOR_SECOND_PASS, "L".toList, LABEL⟩ := by
    rw [firstpass_loop_example_long_file, firstpass_line_empty, firstpass_line_jmp_L]
    simp only [h4a]
    have hlen : (((List.replicate n "stop\n".toList).foldl firstpass_line
        firstpass_init).table.command_head
          ++ [(⟨100 + (n : Int), 18452, [], NONE⟩ : MACHINE_CODE_COMMAND)]).length
          = n + 1 := by
      rw [List.length_append, h3a]
      rfl
    rw [List.get?_eq_getElem?, List.getElem?_append_right (by rw [hlen]), hlen, Nat.sub_self]
    rfl
  have hf : (firstpass_loop (example_long_file n)).error_flag = TRUE := by
    rw [firstpass_loop_example_long_file, firstpass_line_empty, firstpass_line_jmp_L]
    simp only [h5a]
    rfl
  refine ⟨hl, hc, ?_⟩
  unfold firstpass
  simp only [hf, if_true, Option.map_some', Second_Pass_command_head, List.get?_eq_getElem?,
    List.getElem?_map]
  rw [List.get?_eq_getElem?] at hc
  rw [hc, he, hl]
  simp only [Option.map_some', second_pass_word, if_true, List.map_nil, List.not_mem_nil,
    if_false, resolve_in_labels]

set_option maxRecDepth 100000 in
/-- C1 fails as stated. (a) For the `.am` text `X:movr1,r2 / X:stop / jmpX` both passes run:
the first pass records `X` at address 100 as the label of an instruction line (and again at
102), the word at 104 is left marked for `X`, and after `Second_Pass` it is
`818 = 2 | (102 << 3)`, not `2 | (100 << 3) = 802`. (b) For 8092 lines `stop` followed by
`L: jmp L` both passes run: the first pass records `L` at address 8192, the word at 8193 is
left marked for `L`, and after `Second_Pass` it is `2`, not `2 | (8192 << 3)`: the shifted
address does not fit the 16-bit word. -/
theorem C1_counterexample :
    ((⟨"X".toList, 100⟩ : LABEL_LIST) ∈ (firstpass example_redefined_file).1.table.label_head
      ∧ (firstpass example_redefined_file).1.table.command_head.get? 4
          = some ⟨104, MARK_FOR_SECOND_PASS, "X".toList, LABEL⟩
      ∧ (firstpass example_redefined_file).2.map (fun r => r.table.command_head.get? 4)
          = some (some ⟨104, 818, "X".toList, LABEL⟩)
      ∧ (818 : Nat) ≠ 2 ||| (100 <<< 3))
    ∧ ((⟨"L".toList, 8192⟩ : LABEL_LIST)
          ∈ (firstpass (example_long_file 8092)).1.table.label_head
      ∧ (firstpass (example_long_file 8092)).1.table.command_head.get? 8093
          = some ⟨8193, MARK_FOR_SECOND_PASS, "L".toList, LABEL⟩
      ∧ (firstpass (example_long_file 8092)).2.map (fun r => r.table.command_head.get? 8093)
          = some (some ⟨8193, 2, "L".toList, LABEL⟩)
      ∧ (2 : Nat) ≠ 2 ||| (8192 <<< 3)) := by
  refine ⟨by decide, ?_⟩
  obtain ⟨h1, h2, h3⟩ := firstpass_example_long_file 8092
  refine ⟨?_, ?_, ?_, by decide⟩
  · rw [h1]
    decide
  · rw [h2]
    decide
  · rw [h3]
    decide

/-! ## The lines of the object file -/

theorem octal_char (d : Nat) (hd : d < 8) :
    is_octal_digit (Char.ofNat ('0'.toNat + d)) = true
      ∧ (Char.ofNat ('0'.toNat + d)).toNat - '0'.toNat = d := by
  interval_cases d <;> decide

theorem octal_value_append (ds : List Char) (c : Char) :
    octal_value (ds ++ [c]) = octal_value ds * 8 + (c.toNat - '0'.toNat) := by
  simp [octal_value, List.foldl_append]

theorem octal_value_zeros (k : Nat) (ds : List Char) :
    octal_value (List.replicate k '0' ++ ds) = octal_value ds := by
  induction k with
  | zero => simp
  | succ k ih =>
    rw [List.replicate_succ, List.cons_append]
    unfold octal_value at ih ⊢
    rw [List.foldl_cons]
    simpa using ih

theorem fmt_o_aux_spec (fuel : Nat) :
    ∀ (n : Nat) (acc : List Char), n < fuel →
      ∃ ds : List Char, fmt_o_aux fuel n acc = ds ++ acc ∧ ds.all is_octal_digit = true
        ∧ octal_value ds = n ∧ 1 ≤ ds.length ∧ ∀ k, 1 ≤ k → n < 8 ^ k → ds.length ≤ k := by
  induction fuel with
  | zero => intro n acc h; omega
  | succ fuel ih =>
    intro n acc h
    have hd := octal_char (n % 8) (Nat.mod_lt _ (by norm_num))
    by_cases h0 : n / 8 = 0
    · have hn : n % 8 = n := by omega
      refine ⟨[Char.ofNat ('0'.toNat + n % 8)], ?_, ?_, ?_, ?_, ?_⟩
      · simp only [fmt_o_aux, h0, if_true, List.singleton_append]
      · simp only [List.all_cons, List.all_nil, hd.1, Bool.and_self]
      · simp only [octal_value, List.foldl_cons, List.foldl_nil]
        rw [hd.2]; omega
      · exact Nat.le_refl 1
      · intro k hk _; exact hk
    · obtain ⟨ds, he, hall, hv, hl, hk⟩ :=
        ih (n / 8) (Char.ofNat ('0'.toNat + n % 8) :: acc) (by omega)
      refine ⟨ds ++ [Char.ofNat ('0'.toNat + n % 8)], ?_, ?_, ?_, ?_, ?_⟩
      · simp only [fmt_o_aux, h0, if_false]
        rw [he, List.append_assoc, List.singleton_append]
      · rw [List.all_append, hall]
        simp only [List.all_cons, List.all_nil, hd.1, Bool.and_self]
      · rw [octal_value_append, hv, hd.2]; omega
      · rw [List.length_append]; omega
      · intro k hk1 hlt
        have h2 : 2 ≤ k := by
          by_contra hc
          have : k = 1 := by omega
          subst this
          rw [pow_one] at hlt; omega
        have := hk (k - 1) (by omega) (by
          have hp : 8 ^ k = 8 ^ (k - 1) * 8 := by
            rw [← pow_succ]; congr 1; omega
          rw [hp] at hlt
          exact Nat.div_lt_of_lt_mul (by rw [Nat.mul_comm]; exact hlt))
        rw [List.length_append, List.length_singleton]; omega

theorem fmt_05o_spec (n : Nat) (hn : n < 32768) :
    (fmt_05o n).length = 5 ∧ (fmt_05o n).all is_octal_digit = true
      ∧ octal_value (fmt_05o n) = n := by
  obtain ⟨ds, he, hall, hv, hl, hk⟩ := fmt_o_aux_spec (n + 1) n [] (Nat.lt_succ_self n)
  have h5 : ds.length ≤ 5 := hk 5 (by norm_num) (by norm_num; exact hn)
  have hz : is_octal_digit '0' = true := by decide
  simp only [List.append_nil] at he
  unfold fmt_05o
  simp only [he]
  refine ⟨by simp; omega, ?_, by rw [octal_value_zeros, hv]⟩
  simp [List.all_append, hall, hz]

/-- C11: for every word `w` and address `a` the line written by `print_dec_to_file_in_octal`
is the character `0`, then `a` in decimal, then a tab, then exactly five octal digits whose
value is `w mod 2^15` (bit 15 is cleared, zeros pad on the left), then a newline. -/
theorem C11_octal_line_format (w : Nat) (a : Int) :
    ∃ ds : List Char,
      print_dec_to_file_in_octal w a = ['0'] ++ fmt_d a ++ ['\t'] ++ ds ++ ['\n']
        ∧ ds.length = 5 ∧ ds.all is_octal_digit = true
        ∧ octal_value ds = w % 2 ^ 15 ∧ atoi (fmt_d a) = a := by
  have h := fmt_05o_spec (w % 32768) (Nat.mod_lt _ (by norm_num))
  exact ⟨fmt_05o (w % 32768), rfl, h.1, h.2.1, by rw [h.2.2]; norm_num, atoi_fmt_d a⟩

/-! ## Entry sites collected by the second pass -/

theorem Second_Pass_entries_spec (labels : List LABEL_LIST) :
    ∀ entries : List ENTRY_LIST,
      Second_Pass_entries labels entries
        = entries.map (fun e =>
            ({ label := e.label, addr_list := e.addr_list ++ label_addresses labels e.label }
              : ENTRY_LIST)) := by
  induction labels with
  | nil =>
    intro entries
    simp [Second_Pass_entries, label_addresses]
  | cons l rest ih =>
    intro entries
    rw [Second_Pass_entries, ih, List.map_map]
    apply List.map_congr_left
    intro e _
    by_cases h : e.label = l.label
    · have h2 : l.label = e.label := h.symm
      simp [Function.comp, h, label_addresses, add_addr_to_list, List.filter_cons]
    · have h2 : ¬ l.label = e.label := fun hc => h hc.symm
      simp [Function.comp, h, h2, label_addresses, List.filter_cons]

theorem Second_Pass_entry_head (t : ASSEMBLER_TABLE) (IC DC : Int) :
    (Second_Pass t IC DC).table.entry_head = Second_Pass_entries t.label_head t.entry_head := by
  unfold Second_Pass; rfl

theorem Second_Pass_label_head (t : ASSEMBLER_TABLE) (IC DC : Int) :
    (Second_Pass t IC DC).table.label_head = t.label_head := by
  unfold Second_Pass; rfl

theorem firstpass_label_entry_head (t : ASSEMBLER_TABLE) (label_skip : Int)
    (label : List Char) (address : Int) :
    (firstpass_label t label_skip label address).entry_head = t.entry_head := by
  unfold firstpass_label
  split_ifs <;> rfl

theorem entries_fresh_insert (l : List ENTRY_LIST) (line : List Char)
    (h : ∀ e ∈ l, e.addr_list = []) : ∀ e ∈ insert_Entry_List l line, e.addr_list = [] := by
  intro e he
  unfold insert_Entry_List at he
  rcases List.mem_append.mp he with h1 | h1
  · exact h e h1
  · rw [List.mem_singleton.mp h1]

theorem firstpass_switch_entries_fresh (s : FIRSTPASS_STATE) (line label : List Char)
    (label_skip skip : Int) (type : Int) (command : Option COMMAND) (error0 : Nat)
    (h : entries_fresh s.table) :
    entries_fresh (firstpass_switch s line label label_skip skip type command error0).table := by
  unfold entries_fresh at *
  unfold firstpass_switch
  split_ifs
  · unfold firstpass_case_IS_ENTRY
    dsimp only [firstpass_next]
    split_ifs
    · exact entries_fresh_insert _ _ (by rw [firstpass_label_entry_head]; exact h)
    · rw [firstpass_label_entry_head]; exact h
  · unfold firstpass_case_IS_EXTERN
    dsimp only [firstpass_next]
    split_ifs <;> (try dsimp only) <;> (rw [firstpass_label_entry_head]; exact h)
  · unfold firstpass_case_IS_STRING
    dsimp only [firstpass_next]
    split_ifs <;> (try dsimp only) <;> (rw [firstpass_label_entry_head]; exact h)
  · unfold firstpass_case_IS_DATA
    dsimp only [firstpass_next]
    split_ifs <;> (try dsimp only) <;> (rw [firstpass_label_entry_head]; exact h)
  · cases command with
    | none => exact h
    | some cmd =>
      unfold firstpass_case_IS_COMMAND
      dsimp only [firstpass_next]
      split_ifs <;> (try dsimp only) <;> (rw [firstpass_label_entry_head]; exact h)
  · exact h

theorem firstpass_foldl_entries_fresh (lines : List (List Char)) :
    ∀ s : FIRSTPASS_STATE, entries_fresh s.table →
      entries_fresh (lines.foldl firstpass_line s).table := by
  induction lines with
  | nil => intro s h; exact h
  | cons line rest ih =>
    intro s h
    rw [List.foldl_cons]
    apply ih
    unfold firstpass_line
    exact firstpass_switch_entries_fresh _ _ _ _ _ _ _ _ h

/-- The table that `firstpass` hands to `Second_Pass` has empty address lists in all its
entry nodes. -/
theorem firstpass_loop_entries_fresh (file : List Char) :
    entries_fresh (firstpass_loop file).table := by
  unfold firstpass_loop
  apply firstpass_foldl_entries_fresh
  intro e he
  simp [firstpass_init] at he

/-- C14: after `Second_Pass` on a table whose entry nodes have no address yet (as the
first pass leaves them), the entry list has the same names in the same order, and the
address list of the node named `N` is exactly the list of the addresses of the label-list
nodes named `N`, in label-list order; the label list itself is unchanged. -/
theorem C14_entry_sites (t : ASSEMBLER_TABLE) (IC DC : Int) (hfresh : entries_fresh t) :
    (Second_Pass t IC DC).table.entry_head
        = t.entry_head.map (fun e =>
            ({ label := e.label, addr_list := label_addresses t.label_head e.label }
              : ENTRY_LIST))
      ∧ (Second_Pass t IC DC).table.label_head = t.label_head := by
  refine ⟨?_, Second_Pass_label_head t IC DC⟩
  rw [Second_Pass_entry_head, Second_Pass_entries_spec]
  apply List.map_congr_left
  intro e he
  rw [hfresh e he, List.nil_append]

set_option maxRecDepth 100000 in
/-- Witness of C14 on `X: stop` / `.entry X` / `X: stop`: the entry node `X` receives the
addresses 100 and 101 of the two label nodes `X`, in that order. -/
theorem C14_entry_sites_witness :
    (firstpass example_entry_file).2
        = some (Second_Pass (firstpass_loop example_entry_file).table 102 1)
      ∧ (Second_Pass (firstpass_loop example_entry_file).table 102 1).table.entry_head
        = [{ label := "X".toList, addr_list := [100, 101] }] :=
  ⟨by decide,
    (C14_entry_sites (firstpass_loop example_entry_file).table 102 1
      (firstpass_loop_entries_fresh example_entry_file)).1.trans (by decide)⟩

/-! ## Immediate operands -/

theorem signed_decimal_cons (c : Char) (cs : List Char) :
    signed_decimal (c :: cs)
      = if c = '-' ∨ c = '+' then !cs.isEmpty && cs.all isdigit else (c :: cs).all isdigit :=
  rfl

theorem isdigit_not_sign (c : Char) (h : isdigit c = true) : c ≠ '-' ∧ c ≠ '+' := by
  constructor
  · intro hc; rw [hc] at h; revert h; decide
  · intro hc; rw [hc] at h; revert h; decide

/-- On a well-formed signed decimal the syntax checks of `Examine_Operand` pass, and the
result depends on the range check alone. -/
theorem Examine_Operand_signed_decimal (t : List Char) (ht : signed_decimal t = true) :
    Examine_Operand ('#' :: t) NUMBER
      = if atoi t ≥ MAX_VALUE_FOR_12_BITS ∨ atoi t ≤ MIN_VALUE_FOR_12_BITS
        then FALSE else TRUE := by
  cases t with
  | nil => simp [signed_decimal] at ht
  | cons c cs =>
    rw [signed_decimal_cons] at ht
    by_cases hs : c = '-' ∨ c = '+'
    · rw [if_pos hs] at ht
      have hcs : cs.all isdigit = true := by
        simp only [Bool.and_eq_true] at ht; exact ht.2
      have h1 : ¬ (c ≠ '-' ∧ c ≠ '+' ∧ (!isdigit c) = true) := by
        rintro ⟨h1, h2, _⟩; rcases hs with h | h
        · exact h1 h
        · exact h2 h
      simp only [Examine_Operand, if_true, List.drop_succ_cons, List.drop_zero, h1, if_false,
        hcs]
    · rw [if_neg hs] at ht
      rw [List.all_cons, Bool.and_eq_true] at ht
      have h1 : ¬ (c ≠ '-' ∧ c ≠ '+' ∧ (!isdigit c) = true) := by
        rintro ⟨_, _, h3⟩; rw [ht.1] at h3; exact absurd h3 (by decide)
      simp only [Examine_Operand, if_true, List.drop_succ_cons, List.drop_zero, h1, if_false,
        ht.2]

/-- What the syntax checks of `Examine_Operand` let through behind the `#`: a well-formed
signed decimal, or nothing, or a lone sign. -/
theorem Examine_Operand_number_syntax (t : List Char)
    (h : Examine_Operand ('#' :: t) NUMBER = TRUE) :
    signed_decimal t = true ∨ t = [] ∨ t = ['+'] ∨ t = ['-'] := by
  cases t with
  | nil => exact Or.inr (Or.inl rfl)
  | cons c cs =>
    simp only [Examine_Operand, if_true, List.drop_succ_cons, List.drop_zero] at h
    by_cases hcs : cs.all isdigit = true
    · by_cases h1 : c ≠ '-' ∧ c ≠ '+' ∧ (!isdigit c) = true
      · simp [hcs, h1, TRUE, FALSE] at h
      · by_cases hs : c = '-' ∨ c = '+'
        · cases cs with
          | nil =>
            rcases hs with hc | hc
            · exact Or.inr (Or.inr (Or.inr (by rw [hc])))
            · exact Or.inr (Or.inr (Or.inl (by rw [hc])))
          | cons d ds =>
            left
            rw [signed_decimal_cons, if_pos hs, hcs]; rfl
        · left
          have hd : isdigit c = true := by
            by_contra hc
            exact h1 ⟨fun x => hs (Or.inl x), fun x => hs (Or.inr x), by simpa using hc⟩
          rw [signed_decimal_cons, if_neg hs, List.all_cons, hd, hcs]; rfl
    · simp [hcs, TRUE, FALSE] at h

/-- The range check of `Examine_Operand`: for a well-formed signed decimal `t` whose value
`n` fits an `int`, the operand `#t` is accepted if and only if `-2047 < n < 2048`. -/
theorem Examine_Operand_range (t : List Char) (ht : signed_decimal t = true)
    (_hint : fits_int (atoi t)) :
    Examine_Operand ('#' :: t) NUMBER = TRUE ↔ (-2047 < atoi t ∧ atoi t < 2048) := by
  rw [Examine_Operand_signed_decimal t ht]
  simp only [MAX_VALUE_FOR_12_BITS, MIN_VALUE_FOR_12_BITS, TRUE, FALSE]
  constructor
  · intro h
    by_contra hc
    rw [if_pos (by omega)] at h
    exact absurd h (by decide)
  · intro h
    rw [if_neg (by omega)]

set_option maxRecDepth 100000 in
/-- C17 fails on the code at the lower limit. `MIN_VALUE_FOR_12_BITS` is -2047 and the
range check refuses `num <= MIN_VALUE_FOR_12_BITS`, so the value that the constant names
as the minimum is itself refused: `-2047` is a well-formed signed decimal with
`-2047 <= -2047 < 2048`, and `Examine_Operand` gives `FALSE` for `#-2047`, `Command_Examine`
refuses `prn #-2047`, and the first pass rejects the line. At the upper limit the code
does what the claim says (`#2047` is accepted, `#2048` refused). For every well-formed
signed decimal that fits an `int` the operand is accepted exactly when `-2047 < n < 2048`. -/
theorem C17_minimum_refused :
    MIN_VALUE_FOR_12_BITS = -2047
      ∧ signed_decimal "-2047".toList = true
      ∧ atoi "-2047".toList = -2047
      ∧ operand_Type_Identifier "#-2047".toList = NUMBER
      ∧ Examine_Operand "#-2047".toList NUMBER = FALSE
      ∧ Command_Examine ⟨"prn".toList, PRN⟩ "#-2047\n".toList = FALSE
      ∧ (firstpass "prn#-2047\n\n".toList).1.error_flag ≠ TRUE
      ∧ Examine_Operand "#-2046".toList NUMBER = TRUE
      ∧ Examine_Operand "#2047".toList NUMBER = TRUE
      ∧ Examine_Operand "#2048".toList NUMBER = FALSE
      ∧ ∀ t : List Char, signed_decimal t = true → fits_int (atoi t) →
          (Examine_Operand ('#' :: t) NUMBER = TRUE ↔ (-2047 < atoi t ∧ atoi t < 2048)) :=
  ⟨by decide, by decide, by decide, by decide, by decide, by decide, by decide, by decide,
    by decide, by decide, Examine_Operand_range⟩

set_option maxRecDepth 100000 in
/-- C19 fails on the code. The tokens `#`, `#+` and `#-` are classified `NUMBER` and
`Examine_Operand` accepts each of them: the sign-or-digit check is skipped or passes, the
digit loop has nothing to look at, and `atoi` gives 0, which is in range. The first pass
accepts `prn #` and encodes the operand as the immediate 0 (word `A`). Apart from these
three tokens, an accepted `#t` has a well-formed signed decimal `t`. -/
theorem C19_bare_hash_accepted :
    (operand_Type_Identifier "#".toList = NUMBER ∧ Examine_Operand "#".toList NUMBER = TRUE)
      ∧ (operand_Type_Identifier "#+".toList = NUMBER
          ∧ Examine_Operand "#+".toList NUMBER = TRUE)
      ∧ (operand_Type_Identifier "#-".toList = NUMBER
          ∧ Examine_Operand "#-".toList NUMBER = TRUE)
      ∧ signed_decimal "".toList = false ∧ signed_decimal "+".toList = false
      ∧ signed_decimal "-".toList = false
      ∧ (firstpass "prn#\n\n".toList).1.error_flag = TRUE
      ∧ (firstpass "prn#\n\n".toList).1.table.command_head.map (fun c => (c.addr, c.mila))
          = [(100, 24588), (101, 4)]
      ∧ ∀ t : List Char, Examine_Operand ('#' :: t) NUMBER = TRUE →
          signed_decimal t = true ∨ t = [] ∨ t = ['+'] ∨ t = ['-'] :=
  ⟨by decide, by decide, by decide, by decide, by decide, by decide, by decide, by decide,
    Examine_Operand_number_syntax⟩

/-! ## Classification of operands -/

/-- What `operand_Type_Identifier` returns, by the first byte of the token. -/
theorem operand_Type_Identifier_spec :
    (∀ rest : List Char, operand_Type_Identifier ('#' :: rest) = NUMBER)
      ∧ (∀ rest : List Char, operand_Type_Identifier ('*' :: rest)
          = if registers.contains rest then POINTER else NO_OP)
      ∧ (∀ rest : List Char, operand_Type_Identifier ('r' :: rest)
          = if registers.contains ('r' :: rest) then REGISTER else NO_OP)
      ∧ (∀ (c : Char) (rest : List Char), (isupper c = true ∨ islower c = true) → c ≠ 'r' →
          operand_Type_Identifier (c :: rest) = LABEL) := by
  refine ⟨fun rest => ?_, fun rest => ?_, fun rest => ?_, fun c rest hc hr => ?_⟩
  · simp [operand_Type_Identifier, isdigit, isupper, islower]
  · simp [operand_Type_Identifier, isdigit, isupper, islower]
  · simp [operand_Type_Identifier, isdigit, isupper, islower]
  · have h1 : c ≠ '*' := by
      rintro rfl; revert hc; decide
    have h2 : c ≠ '#' := by
      rintro rfl; revert hc; decide
    have h3 : (!isdigit c && !isupper c && !islower c && c != '*' && c != '#') = false := by
      rcases hc with h | h <;> simp [h]
    simp only [operand_Type_Identifier, h3, hr, h1, h2, if_false, Bool.false_eq_true]

set_option maxRecDepth 100000 in
/-- C16 fails on the code for identifiers that begin with the letter `r`. The token
`result` is no register, and `case 'r'` of `operand_Type_Identifier` leaves the initial
value `NO_OP` instead of `LABEL`; `examine_Label` accepts `result` as a label name, so
`result: stop` / `jmp result` defines the label and is refused at the `jmp`, while the same
two lines with the name `xesult` are accepted. The other parts of the claim hold: `#...`
is `NUMBER`, `*rk` is `POINTER` and every other `*...` is `NO_OP`, `rk` is `REGISTER`, and
a token that starts with a letter other than `r` is `LABEL`. -/
theorem C16_r_identifier_not_label :
    operand_Type_Identifier "result".toList = NO_OP
      ∧ NO_OP ≠ LABEL
      ∧ examine_Label "result".toList = TRUE
      ∧ (firstpass "result:stop\njmpresult\n\n".toList).1.error_flag ≠ TRUE
      ∧ (firstpass "xesult:stop\njmpxesult\n\n".toList).1.error_flag = TRUE
      ∧ registers = ["r0", "r1", "r2", "r3", "r4", "r5", "r6", "r7"].map String.toList
      ∧ (∀ rest : List Char, operand_Type_Identifier ('#' :: rest) = NUMBER)
      ∧ (∀ rest : List Char, operand_Type_Identifier ('*' :: rest)
          = if registers.contains rest then POINTER else NO_OP)
      ∧ (∀ rest : List Char, operand_Type_Identifier ('r' :: rest)
          = if registers.contains ('r' :: rest) then REGISTER else NO_OP)
      ∧ (∀ (c : Char) (rest : List Char), (isupper c = true ∨ islower c = true) → c ≠ 'r' →
          operand_Type_Identifier (c :: rest) = LABEL) :=
  ⟨by decide, by decide, by decide, by decide, by decide, by decide,
    operand_Type_Identifier_spec⟩

/-! ## Commas between two operands -/

theorem Double_Op_Examine_double_comma (before : Char) (line : List Char) (command_code : Int)
    (h : has_double_comma line = true) : Double_Op_Examine before line command_code = FALSE := by
  unfold Double_Op_Examine
  split_ifs <;> rfl

theorem Double_Op_Examine_bad_comma (before : Char) (line : List Char) (command_code : Int)
    (h : line.head? = some ',' ∨ (before :: line).get? (line.length - 1) = some ',') :
    Double_Op_Examine before line command_code ≠ TRUE := by
  unfold Double_Op_Examine
  simp only [if_pos h]
  split_ifs <;> simp [TRUE, FALSE]

set_option maxRecDepth 100000 in
/-- C20 fails on the code for an operand text without a comma. For `mov X` the operand
text `X` has no comma; the first `extract_Label` finds no delimiter and returns 0, which
is not looked at, the source operand is read as `X` with the newline, the destination
operand as `X`, both pass as labels, and `Double_Op_Examine` returns `TRUE`; the first pass
accepts the line. The other parts of the claim hold: a doubled comma gives `FALSE`, and a
comma at the start or just before the last byte gives a result other than `TRUE`. -/
theorem C20_no_comma_accepted :
    ',' ∉ "X\n".toList
      ∧ Double_Op_Examine 'v' "X\n".toList MOV = TRUE
      ∧ Command_Examine ⟨"mov".toList, MOV⟩ "X\n".toList = TRUE
      ∧ (firstpass "movX\n\n".toList).1.error_flag = TRUE
      ∧ (∀ (before : Char) (line : List Char) (command_code : Int),
          has_double_comma line = true → Double_Op_Examine before line command_code = FALSE)
      ∧ (∀ (before : Char) (line : List Char) (command_code : Int),
          Double_Op_Examine before (',' :: line) command_code ≠ TRUE)
      ∧ (∀ (before c : Char) (body : List Char) (command_code : Int),
          Double_Op_Examine before (body ++ [',', c]) command_code ≠ TRUE) := by
  refine ⟨by decide, by decide, by decide, by decide, Double_Op_Examine_double_comma,
    fun before line command_code =>
      Double_Op_Examine_bad_comma before _ command_code (Or.inl rfl),
    fun before c body command_code =>
      Double_Op_Examine_bad_comma before _ command_code (Or.inr ?_)⟩
  have h : (before :: (body ++ [',', c])) = (before :: body) ++ [',', c] := rfl
  rw [h, List.get?_eq_getElem?, List.getElem?_append_right (by simp)]
  simp

/-! ## Operand modes per opcode -/

theorem extract_Label_scan_delimiter (d : Char) (rest : List Char) :
    ∀ (t : List Char) (n : Nat), d ∉ t → t.length < n →
      extract_Label_scan n (t ++ d :: rest) d = (t, true) := by
  intro t
  induction t with
  | nil =>
    intro n _ hn
    obtain ⟨m, rfl⟩ : ∃ m, n = m + 1 := ⟨n - 1, by simp at hn; omega⟩
    simp [extract_Label_scan]
  | cons c cs ih =>
    intro n hd hn
    obtain ⟨m, rfl⟩ : ∃ m, n = m + 1 := ⟨n - 1, by simp at hn; omega⟩
    have hc : c ≠ d := fun h => hd (by rw [h]; exact List.mem_cons_self _ _)
    have hcs : d ∉ cs := fun h => hd (List.mem_cons_of_mem _ h)
    have := ih m hcs (by simp at hn; omega)
    simp [extract_Label_scan, hc, this]

theorem extract_Label_delimiter (d : Char) (t rest : List Char) (hd : d ∉ t)
    (hn : t.length < MAX_LABEL_SIZE) :
    extract_Label (t ++ d :: rest) d = ((t.length : Int) + 1, t) := by
  unfold extract_Label
  rw [extract_Label_scan_delimiter d rest t MAX_LABEL_SIZE hd hn]
  rfl

theorem has_double_comma_cons_ne (x : Char) (l : List Char) (hx : x ≠ ',') :
    has_double_comma (x :: l) = has_double_comma l := by
  cases l with
  | nil => rfl
  | cons b r => simp [has_double_comma, hx]

theorem has_double_comma_no_comma (l : List Char) (h : ',' ∉ l) :
    has_double_comma l = false := by
  induction l with
  | nil => rfl
  | cons x l ih =>
    rw [has_double_comma_cons_ne x l (fun hx => h (by rw [hx]; exact List.mem_cons_self _ _))]
    exact ih (fun hm => h (List.mem_cons_of_mem _ hm))

theorem has_double_comma_comma_cons (c : Char) (l : List Char) (hc : c ≠ ',') :
    has_double_comma (',' :: c :: l) = has_double_comma (c :: l) := by
  simp [has_double_comma, hc]

theorem has_double_comma_append (a : List Char) (c : Char) (b : List Char) (ha : ',' ∉ a)
    (hc : c ≠ ',') :
    has_double_comma (a ++ ',' :: c :: b) = has_double_comma (c :: b) := by
  induction a with
  | nil => exact has_double_comma_comma_cons c b hc
  | cons x a ih =>
    rw [List.cons_append,
      has_double_comma_cons_ne x _ (fun hx => ha (by rw [hx]; exact List.mem_cons_self _ _))]
    exact ih (fun hm => ha (List.mem_cons_of_mem _ hm))

theorem operand_ok_ne_nil (t : List Char) (h : operand_ok t) : t ≠ [] := by
  rintro rfl
  have := h.2.2.2.1
  revert this
  unfold is_mode
  decide

/-- The byte before the final newline of `prefix ++ dest ++ newline` is the last byte of
`dest`, which is no comma. -/
theorem before_newline_ne_comma (p dest : List Char) (hne : dest ≠ []) (hc : ',' ∉ dest) :
    (p ++ (dest ++ ['\n'])).get? ((p ++ dest).length - 1) ≠ some ',' := by
  obtain ⟨init, z, rfl⟩ : ∃ init z, dest = init ++ [z] :=
    ⟨dest.dropLast, dest.getLast hne, (List.dropLast_append_getLast hne).symm⟩
  have hz : z ≠ ',' := fun h => hc (by rw [h]; simp)
  have h1 : p ++ (init ++ [z] ++ ['\n']) = (p ++ init) ++ [z, '\n'] := by simp
  have h2 : (p ++ (init ++ [z])).length - 1 = (p ++ init).length := by simp
  rw [h1, h2, List.get?_eq_getElem?, List.getElem?_append_right (Nat.le_refl _)]
  simp [hz]

theorem Double_Op_Examine_operands (before : Char) (src dest : List Char) (command_code : Int)
    (hs : operand_ok src) (hd : operand_ok dest) :
    Double_Op_Examine before (src ++ ',' :: (dest ++ ['\n'])) command_code
      = if command_code = MOV ∨ command_code = ADD ∨ command_code = SUB then
          (if operand_Type_Identifier src = NO_OP ∨ operand_Type_Identifier dest = NUMBER
              ∨ operand_Type_Identifier dest = NO_OP then FALSE else TRUE)
        else if command_code = CMP then
          (if operand_Type_Identifier src = NO_OP ∨ operand_Type_Identifier dest = NO_OP
           then FALSE else TRUE)
        else if command_code = LEA then
          (if operand_Type_Identifier src ≠ LABEL ∨ operand_Type_Identifier dest = NUMBER
              ∨ operand_Type_Identifier dest = NO_OP then FALSE else TRUE)
        else TRUE := by
  have hsne := operand_ok_ne_nil src hs
  have hdne := operand_ok_ne_nil dest hd
  obtain ⟨hs1, hs2, _, _, hs5⟩ := hs
  obtain ⟨hd1, hd2, hd3, _, hd5⟩ := hd
  obtain ⟨c, cs, rfl⟩ : ∃ c cs, src = c :: cs := List.exists_cons_of_ne_nil hsne
  obtain ⟨e, es, rfl⟩ : ∃ e es, dest = e :: es := List.exists_cons_of_ne_nil hdne
  have hc : c ≠ ',' := fun h => hs2 (by rw [h]; exact List.mem_cons_self _ _)
  have he : e ≠ ',' := fun h => hd2 (by rw [h]; exact List.mem_cons_self _ _)
  have hlen : ¬ (c :: cs ++ ',' :: (e :: es ++ ['\n'])).length < 1 := by simp
  have hhead : (c :: cs ++ ',' :: (e :: es ++ ['\n'])).head? ≠ some ',' := by simp [hc]
  have hlast : (before :: (c :: cs ++ ',' :: (e :: es ++ ['\n']))).get?
      ((c :: cs ++ ',' :: (e :: es ++ ['\n'])).length - 1) ≠ some ',' := by
    have h := before_newline_ne_comma (before :: (c :: cs ++ [','])) (e :: es) hdne hd2
    have e1 : before :: (c :: cs ++ ',' :: (e :: es ++ ['\n']))
        = (before :: (c :: cs ++ [','])) ++ (e :: es ++ ['\n']) := by simp
    have e2 : (c :: cs ++ ',' :: (e :: es ++ ['\n'])).length - 1
        = ((before :: (c :: cs ++ [','])) ++ (e :: es)).length - 1 := by
      simp; omega
    rw [e1, e2]; exact h
  have hdc : has_double_comma (c :: cs ++ ',' :: (e :: es ++ ['\n'])) = false := by
    have h := has_double_comma_append (c :: cs) e (es ++ ['\n']) hs2 he
    rw [List.cons_append e es] 
    rw [h]
    apply has_double_comma_no_comma
    intro hm
    rcases List.mem_append.mp (by simpa using hm : ',' ∈ (e :: es) ++ ['\n']) with h1 | h1
    · exact hd2 h1
    · simp at h1
  have hx1 := extract_Label_delimiter ',' (c :: cs) (e :: es ++ ['\n']) hs2 hs1
  have hx2 := extract_Label_delimiter '\n' (e :: es) [] hd3 hd1
  have hdrop : (c :: cs ++ ',' :: (e :: es ++ ['\n'])).drop (((c :: cs).length : Int) + 1).toNat
      = e :: es ++ ['\n'] := by
    have : (((c :: cs).length : Int) + 1).toNat = (c :: cs ++ [',']).length := by
      simp; omega
    rw [this]
    have e1 : c :: cs ++ ',' :: (e :: es ++ ['\n']) = (c :: cs ++ [',']) ++ (e :: es ++ ['\n']) := by
      simp
    rw [e1, List.drop_left]
  have hneg : ¬ (((c :: cs).length : Int) + 1 < 0) := by
    have : (0 : Int) ≤ ((c :: cs).length : Int) := Int.natCast_nonneg _
    omega
  unfold Double_Op_Examine
  simp only [if_neg hlen, hdc, Bool.false_eq_true, if_false, hx1, if_neg hneg, hdrop, hx2, hs5,
    hd5, if_neg (not_or.mpr ⟨hhead, hlast⟩)]
  simp only [TRUE, Nat.add_zero]

theorem Single_Op_Examine_operand (dest : List Char) (command_code : Int)
    (hd : operand_ok dest) :
    Single_Op_Examine (dest ++ ['\n']) command_code
      = if command_code = CLR ∨ command_code = NOT ∨ command_code = INC ∨ command_code = DEC
            ∨ command_code = RED then
          (if operand_Type_Identifier dest ≠ REGISTER ∧ operand_Type_Identifier dest ≠ LABEL
              ∧ operand_Type_Identifier dest ≠ POINTER then FALSE else TRUE)
        else if command_code = JMP ∨ command_code = BNE ∨ command_code = JSR then
          (if operand_Type_Identifier dest ≠ LABEL ∧ operand_Type_Identifier dest ≠ POINTER
           then FALSE else TRUE)
        else if command_code = PRN then
          (if operand_Type_Identifier dest = NO_OP then FALSE else TRUE)
        else if command_code = NO_OP then FALSE
        else TRUE := by
  obtain ⟨hd1, _, hd3, _, hd5⟩ := hd
  have hx2 := extract_Label_delimiter '\n' dest [] hd3 hd1
  unfold Single_Op_Examine
  simp only [hx2, hd5]
  simp only [TRUE, Nat.add_zero]

theorem two_operand_matrix (before : Char) (src dest : List Char) (command_code : Int)
    (h0 : 0 ≤ command_code) (h4 : command_code ≤ 4) (hs : operand_ok src)
    (hd : operand_ok dest) :
    TRUE + Double_Op_Examine before (src ++ ',' :: (dest ++ ['\n'])) command_code = TRUE
      ↔ matrix_permits command_code (operand_Type_Identifier src)
          (operand_Type_Identifier dest) = true := by
  rw [Double_Op_Examine_operands before src dest command_code hs hd]
  have ms := hs.2.2.2.1
  have md := hd.2.2.2.1
  generalize operand_Type_Identifier src = ts at ms ⊢
  generalize operand_Type_Identifier dest = td at md ⊢
  unfold is_mode at ms md
  interval_cases command_code <;>
    rcases ms with rfl | rfl | rfl | rfl <;> rcases md with rfl | rfl | rfl | rfl <;> decide

theorem one_operand_matrix (src dest : List Char) (command_code : Int)
    (h5 : 5 ≤ command_code) (h13 : command_code ≤ 13) (hd : operand_ok dest) :
    TRUE + Single_Op_Examine (dest ++ ['\n']) command_code = TRUE
      ↔ matrix_permits command_code (operand_Type_Identifier src)
          (operand_Type_Identifier dest) = true := by
  rw [Single_Op_Examine_operand dest command_code hd]
  have md := hd.2.2.2.1
  generalize operand_Type_Identifier src = ts
  generalize operand_Type_Identifier dest = td at md ⊢
  unfold is_mode at md
  interval_cases command_code <;> rcases md with rfl | rfl | rfl | rfl <;>
    simp [matrix_permits, MOV, CMP, ADD, SUB, LEA, CLR, NOT, INC, DEC, JMP, BNE, RED, PRN, JSR,
      NUMBER, LABEL, POINTER, REGISTER, NO_OP, TRUE, FALSE]

/-- The `switch` of `Command_Examine` on the opcode: for every opcode that takes operands
and every operand text made of operands that `Examine_Operand` accepts (two of them joined
by one comma for mov, cmp, add, sub and lea; one for the others), `Command_Examine` accepts
the text if and only if the legality matrix permits the operand types that
`operand_Type_Identifier` gives. -/
theorem Command_Examine_matrix (cmd : COMMAND) (src dest : List Char)
    (hcmd : cmd ∈ commands_table) (hops : cmd.code < RTS)
    (hs : cmd.code ≤ LEA → operand_ok src) (hd : operand_ok dest) :
    Command_Examine cmd (operand_text cmd.code src dest) = TRUE
      ↔ matrix_permits cmd.code (operand_Type_Identifier src)
          (operand_Type_Identifier dest) = true := by
  have hrange : 0 ≤ cmd.code ∧ cmd.code ≤ 13 := by
    simp only [commands_table, List.mem_cons, List.mem_singleton, List.not_mem_nil,
      or_false] at hcmd
    rcases hcmd with h | h | h | h | h | h | h | h | h | h | h | h | h | h | h | h <;>
      rw [h] at hops ⊢ <;> first | decide | exact absurd hops (by decide)
  by_cases h2 : cmd.code ≤ LEA
  · have hn : ¬ cmd.code ≥ RTS := by unfold RTS at *; unfold LEA at h2; omega
    unfold Command_Examine operand_text
    rw [if_neg hn, if_pos h2, if_pos h2]
    exact two_operand_matrix _ src dest cmd.code hrange.1 h2 (hs h2) hd
  · have hn : ¬ cmd.code ≥ RTS := by unfold RTS at *; omega
    unfold Command_Examine operand_text
    rw [if_neg hn, if_neg h2, if_neg h2]
    exact one_operand_matrix src dest cmd.code (by unfold LEA at h2; omega) hrange.2 hd

/-! ## The `.data` directive -/

theorem strtok_all_token (fuel : Nat) (delims tok rest : List Char) (d : Char)
    (hne : tok ≠ []) (htok : ∀ x ∈ tok, x ∉ delims)
    (hd : d ∈ delims) :
    strtok_all (fuel + 1) delims (tok ++ d :: rest) = tok :: strtok_all fuel delims rest := by
  obtain ⟨c, cs, rfl⟩ := List.exists_cons_of_ne_nil hne
  have hc : c ∉ delims := htok c (List.mem_cons_self _ _)
  have htake : (c :: cs ++ d :: rest).takeWhile (fun x => !delims.contains x) = c :: cs := by
    rw [List.takeWhile_append_of_pos (fun a ha => by simp [htok a ha])]
    simp [List.takeWhile, hd]
  rw [strtok_all]
  rw [List.cons_append, List.dropWhile_cons_of_neg (by simp [hc])]
  simp only
  rw [← List.cons_append, htake]
  congr 2
  have : (c :: cs).length + 1 = (c :: cs ++ [d]).length := by simp
  rw [this]
  have e : c :: cs ++ d :: rest = (c :: cs ++ [d]) ++ rest := by simp
  rw [e, List.drop_left]

theorem strtok_nil (delims : List Char) : strtok [] delims = [] := by
  simp [strtok, strtok_all]

theorem strtok_token (delims tok rest : List Char) (d : Char)
    (hne : tok ≠ []) (htok : ∀ x ∈ tok, x ∉ delims)
    (hd : d ∈ delims) :
    strtok (tok ++ d :: rest) delims = tok :: strtok rest delims := by
  unfold strtok
  rw [strtok_all_token _ delims tok rest d hne htok hd]
  congr 1
  exact strtok_all_fuel delims _ rest (by simp; omega)

theorem strtok_single (delims tok : List Char)
    (hne : tok ≠ []) (htok : ∀ x ∈ tok, x ∉ delims) :
    strtok tok delims = [tok] := by
  obtain ⟨c, cs, rfl⟩ := List.exists_cons_of_ne_nil hne
  have hc : c ∉ delims := htok c (List.mem_cons_self _ _)
  have htake : (c :: cs).takeWhile (fun x => !delims.contains x) = c :: cs := by
    rw [List.takeWhile_eq_self_iff]
    intro a ha; simp [htok a ha]
  unfold strtok
  rw [strtok_all, List.dropWhile_cons_of_neg (by simp [hc])]
  simp only
  rw [htake, List.drop_eq_nil_of_le (by simp)]
  cases (c :: cs).length <;> simp [strtok_all]

/-- The tokens of a list text: `strtok` with the delimiters of `extract_Data` returns the
items, and with the delimiter of `Data_Examine` the items with the newline left on the
last one. -/
theorem strtok_data_list_text (init : List (List Char)) (last : List Char)
    (hne : ∀ t ∈ init ++ [last], t ≠ [])
    (hc : ∀ t ∈ init ++ [last], ',' ∉ t ∧ '\n' ∉ t) :
    strtok (data_list_text init last) ",\n".toList = init ++ [last]
      ∧ strtok (data_list_text init last) [','] = init ++ [last ++ ['\n']] := by
  induction init with
  | nil =>
    have hl := hc last (by simp)
    have hn := hne last (by simp)
    constructor
    · simp only [data_list_text, List.map_nil, List.flatten_nil, List.nil_append]
      rw [strtok_token _ last [] '\n' hn (fun x hx => by
        have h1 : x ≠ ',' := fun h => hl.1 (h ▸ hx)
        have h2 : x ≠ '\n' := fun h => hl.2 (h ▸ hx)
        simp [h1, h2]) (by decide), strtok_nil]
    · simp only [data_list_text, List.map_nil, List.flatten_nil, List.nil_append]
      exact strtok_single _ _ (by simp) (fun x hx => by
        rcases List.mem_append.mp hx with h | h
        · have h1 : x ≠ ',' := fun h' => hl.1 (h' ▸ h)
          simp [h1]
        · simp at h; rw [h]; decide)
  | cons t init ih =>
    have ht := hc t (by simp)
    have hn := hne t (by simp)
    have ih' := ih (fun u hu => hne u (by
        rcases List.mem_append.mp hu with h | h
        · exact List.mem_append_left _ (List.mem_cons_of_mem _ h)
        · exact List.mem_append_right _ h))
      (fun u hu => hc u (by
        rcases List.mem_append.mp hu with h | h
        · exact List.mem_append_left _ (List.mem_cons_of_mem _ h)
        · exact List.mem_append_right _ h))
    have e : data_list_text (t :: init) last = t ++ ',' :: data_list_text init last := by
      simp [data_list_text]
    rw [e]
    constructor
    · rw [strtok_token _ t _ ',' hn (fun x hx => by
        have h1 : x ≠ ',' := fun h => ht.1 (h ▸ hx)
        have h2 : x ≠ '\n' := fun h => ht.2 (h ▸ hx)
        simp [h1, h2]) (by decide), ih'.1]
      rfl
    · rw [strtok_token _ t _ ',' hn (fun x hx => by
        have h1 : x ≠ ',' := fun h => ht.1 (h ▸ hx)
        simp [h1]) (by decide), ih'.2]
      rfl

theorem extract_Data_loop_words (toks : List (List Char)) :
    ∀ (l : List MACHINE_CODE_INSTRUCTION) (address : Int),
      ∃ new : List MACHINE_CODE_INSTRUCTION,
        extract_Data_loop toks l address = (l ++ new, address + (toks.length : Int))
          ∧ new.map (fun w => w.mila) = toks.map (fun t => toU16 (atoi t))
          ∧ new_data_ok address new := by
  induction toks with
  | nil =>
    intro l address
    exact ⟨[], by simp [extract_Data_loop], rfl, by simp [new_data_ok]⟩
  | cons c cs ih =>
    intro l address
    obtain ⟨new, h1, h2, h3⟩ :=
      ih (add_to_instruction_list l address (toU16 (atoi c))) (address + 1)
    refine ⟨⟨address, toU16 (atoi c)⟩ :: new, ?_, ?_, new_data_ok_cons _ _ _ rfl h3⟩
    · rw [extract_Data_loop, h1]
      simp only [add_to_instruction_list, List.append_assoc, List.singleton_append,
        List.length_cons, Nat.cast_add, Nat.cast_one, Prod.mk.injEq, true_and]
      ring
    · rw [List.map_cons, List.map_cons, h2]

theorem signed_decimal_chars (t : List Char) (h : signed_decimal t = true) :
    t ≠ [] ∧ ∀ x ∈ t, x = '-' ∨ x = '+' ∨ isdigit x = true := by
  cases t with
  | nil => simp [signed_decimal] at h
  | cons c cs =>
    refine ⟨by simp, ?_⟩
    rw [signed_decimal_cons] at h
    by_cases hs : c = '-' ∨ c = '+'
    · rw [if_pos hs, Bool.and_eq_true, List.all_eq_true] at h
      intro x hx
      rcases List.mem_cons.mp hx with rfl | hx
      · rcases hs with hs | hs
        · exact Or.inl hs
        · exact Or.inr (Or.inl hs)
      · exact Or.inr (Or.inr (h.2 x hx))
    · rw [if_neg hs, List.all_eq_true] at h
      intro x hx
      exact Or.inr (Or.inr (h x hx))

theorem signed_decimal_no_separator (t : List Char) (h : signed_decimal t = true) :
    ',' ∉ t ∧ '\n' ∉ t := by
  have hc := (signed_decimal_chars t h).2
  constructor
  · intro hm
    rcases hc _ hm with h1 | h1 | h1 <;> revert h1 <;> decide
  · intro hm
    rcases hc _ hm with h1 | h1 | h1 <;> revert h1 <;> decide

theorem signed_decimals_tokens (ts : List (List Char))
    (hwf : ∀ t ∈ ts, signed_decimal t = true) :
    (∀ t ∈ ts, t ≠ []) ∧ ∀ t ∈ ts, ',' ∉ t ∧ '\n' ∉ t :=
  ⟨fun t ht => (signed_decimal_chars t (hwf t ht)).1,
    fun t ht => signed_decimal_no_separator t (hwf t ht)⟩

theorem toU16_mod_15 (v : Int) : toU16 v % 2 ^ 15 = (v % 2 ^ 15).toNat := by
  unfold toU16
  omega

/-- C13: for every `.data` list of well-formed signed decimals `v1,...,vn` that
`Data_Examine` accepts, `extract_Data` appends exactly `n` data words in source order, the
i-th with the value `vi mod 2^16` at the address `DC + i - 1`, and `DC` grows by `n`; the
five octal digits printed for the word of `vi` have the value `vi mod 2^15`. -/
theorem C13_data_emission (l : List MACHINE_CODE_INSTRUCTION) (init : List (List Char))
    (last : List Char) (DC : Int)
    (hwf : ∀ t ∈ init ++ [last], signed_decimal t = true)
    (_hacc : Data_Examine (data_list_text init last) = TRUE) :
    ∃ new : List MACHINE_CODE_INSTRUCTION,
      extract_Data l (data_list_text init last) DC
          = (l ++ new, DC + ((init ++ [last]).length : Int))
        ∧ new.length = (init ++ [last]).length
        ∧ new.map (fun w => w.mila) = (init ++ [last]).map (fun t => toU16 (atoi t) )
        ∧ new.map (fun w => w.addr)
            = (List.range new.length).map (fun (i : Nat) => DC + (i : Int))
        ∧ ∀ w ∈ new, ∀ a : Int, ∃ t ∈ init ++ [last], ∃ ds : List Char,
            w.mila = toU16 (atoi t)
              ∧ print_dec_to_file_in_octal w.mila a = ['0'] ++ fmt_d a ++ ['\t'] ++ ds ++ ['\n']
              ∧ ds.length = 5 ∧ octal_value ds = (atoi t % 2 ^ 15).toNat := by
  have htok := signed_decimals_tokens _ hwf
  obtain ⟨new, h1, h2, h3⟩ := extract_Data_loop_words (init ++ [last]) l DC
  refine ⟨new, ?_, ?_, h2, h3, ?_⟩
  · unfold extract_Data
    rw [(strtok_data_list_text init last htok.1 htok.2).1]
    exact h1
  · have := congrArg List.length h2
    simpa using this
  · intro w hw a
    have hm : w.mila ∈ (init ++ [last]).map (fun t => toU16 (atoi t)) := by
      rw [← h2]; exact List.mem_map_of_mem _ hw
    obtain ⟨t, ht, hte⟩ := List.mem_map.mp hm
    have h5 := fmt_05o_spec (w.mila % 32768) (Nat.mod_lt _ (by norm_num))
    refine ⟨t, ht, fmt_05o (w.mila % 32768), hte.symm, rfl, h5.1, ?_⟩
    rw [h5.2.2, ← hte]
    exact toU16_mod_15 (atoi t)

set_option maxRecDepth 100000 in
/-- Witness of C13 on `.data 5,-3` with `DC = 1`: the words 5 and 65533 are appended at
the addresses 1 and 2, `DC` becomes 3, and the word of -3 is printed as `77775`. -/
theorem C13_data_emission_witness :
    Data_Examine (data_list_text ["5".toList] "-3".toList) = TRUE
      ∧ data_list_text ["5".toList] "-3".toList = "5,-3\n".toList
      ∧ extract_Data [] "5,-3\n".toList 1 = ([⟨1, 5⟩, ⟨2, 65533⟩], 3)
      ∧ print_dec_to_file_in_octal 65533 102 = "0102\t77775\n".toList
      ∧ ∃ new : List MACHINE_CODE_INSTRUCTION,
          extract_Data [] (data_list_text ["5".toList] "-3".toList) 1
              = ([] ++ new, 1 + ((["5".toList] ++ ["-3".toList]).length : Int))
            ∧ new.length = (["5".toList] ++ ["-3".toList]).length :=
  ⟨by decide, by decide, by decide, by decide,
    (C13_data_emission [] ["5".toList] "-3".toList 1 (by decide) (by decide)).imp
      (fun _ h => ⟨h.1, h.2.1⟩)⟩

theorem isdigit_ne_newline (x : Char) (h : isdigit x = true) : x ≠ '\n' := by
  rintro rfl; revert h; decide

theorem isdigit_not_space (x : Char) (h : isdigit x = true) : isspace x = false := by
  have h1 : 48 ≤ x.toNat := by
    simp only [isdigit, Bool.and_eq_true, decide_eq_true_eq] at h; exact h.1
  have ne : ∀ y : Char, y.toNat < 48 → x ≠ y := fun y hy hxy => by rw [hxy] at h1; omega
  have e1 := ne ' ' (by decide)
  have e2 := ne '\t' (by decide)
  have e3 := ne '\n' (by decide)
  have e4 := ne (Char.ofNat 11) (by decide)
  have e5 := ne (Char.ofNat 12) (by decide)
  have e6 := ne '\r' (by decide)
  simp [isspace, e1, e2, e3, e4, e5, e6]

theorem takeWhile_digits (ds tl : List Char) (h : ds.all isdigit = true)
    (htl : tl = [] ∨ tl = ['\n']) :
    (ds ++ tl).takeWhile (fun c => c != '\n') = ds := by
  rw [List.all_eq_true] at h
  rw [List.takeWhile_append_of_pos (fun a ha => by simp [isdigit_ne_newline a (h a ha)])]
  rcases htl with rfl | rfl <;> simp [List.takeWhile]

theorem atoi_digits_tail (ds tl : List Char) (h : ds.all isdigit = true)
    (htl : tl = [] ∨ tl = ['\n']) :
    ∀ acc : Nat, atoi_digits acc (ds ++ tl) = atoi_digits acc ds := by
  induction ds with
  | nil =>
    intro acc
    rcases htl with rfl | rfl
    · rfl
    · simp [atoi_digits, isdigit]
  | cons d ds ih =>
    intro acc
    rw [List.all_cons, Bool.and_eq_true] at h
    simp only [List.cons_append, atoi_digits, h.1, if_true]
    exact ih h.2 _

/-- A well-formed signed decimal, alone or with the newline of the line behind it, passes
`Valid_Num_Examine`, and `atoi` reads the same value from both. -/
theorem signed_decimal_token (t tl : List Char) (h : signed_decimal t = true)
    (htl : tl = [] ∨ tl = ['\n']) :
    Valid_Num_Examine (t ++ tl) = TRUE ∧ atoi (t ++ tl) = atoi t := by
  cases t with
  | nil => simp [signed_decimal] at h
  | cons c cs =>
    rw [signed_decimal_cons] at h
    by_cases hs : c = '-' ∨ c = '+'
    · rw [if_pos hs, Bool.and_eq_true] at h
      have hsp : isspace c = false := by rcases hs with rfl | rfl <;> decide
      constructor
      · simp only [Valid_Num_Examine, List.cons_append, if_pos hs,
          takeWhile_digits cs tl h.2 htl, h.2, if_true]
        simp
      · unfold atoi
        rw [List.cons_append, List.dropWhile_cons_of_neg (by simp [hsp]),
          List.dropWhile_cons_of_neg (by simp [hsp])]
        simp only [atoi_signed, atoi_digits_tail cs tl h.2 htl]
        rcases hs with hc | hc
        · rw [if_pos hc, if_pos hc]
        · have hm : c ≠ '-' := by rw [hc]; decide
          rw [if_neg hm, if_neg hm, if_pos hc, if_pos hc]
    · rw [if_neg hs] at h
      have hd : isdigit c = true := by
        rw [List.all_cons, Bool.and_eq_true] at h; exact h.1
      have hsp : isspace c = false := isdigit_not_space c hd
      constructor
      · have e := takeWhile_digits (c :: cs) tl h htl
        simp only [Valid_Num_Examine, List.cons_append, if_neg hs]
        rw [List.cons_append] at e
        rw [e, h]
        simp
      · unfold atoi
        rw [List.cons_append, List.dropWhile_cons_of_neg (by simp [hsp]),
          List.dropWhile_cons_of_neg (by simp [hsp])]
        have e := atoi_digits_tail (c :: cs) tl h htl 0
        rw [List.cons_append] at e
        simp only [atoi_signed, hs, not_or.mp hs, if_false, e]

theorem Data_Examine_loop_valid (toks : List (List Char))
    (hv : ∀ t ∈ toks, Valid_Num_Examine t = TRUE) :
    ∀ result : Nat, Data_Examine_loop toks result = TRUE
      ↔ result = TRUE ∧ ∀ t ∈ toks, in_data_range (atoi t) := by
  induction toks with
  | nil => intro result; simp [Data_Examine_loop]
  | cons t toks ih =>
    intro result
    have ht := hv t (List.mem_cons_self _ _)
    rw [Data_Examine_loop]
    simp only [ht]
    rw [ih (fun u hu => hv u (List.mem_cons_of_mem _ hu))]
    simp only [List.mem_cons, forall_eq_or_imp, TRUE, FALSE, Nat.add_zero, in_data_range,
      MAX_VALUE_FOR_15_BITS, MIN_VALUE_FOR_15_BITS]
    by_cases hr : result = 0
    · subst hr
      by_cases hrange : atoi t ≥ 32767 ∨ atoi t ≤ -16384
      · simp only [if_true, if_pos hrange]
        constructor
        · intro h; exact absurd h.1 (by decide)
        · intro h; omega
      · simp only [if_true, if_neg hrange]
        constructor
        · intro h; exact ⟨trivial, by omega, h.2⟩
        · intro h; exact ⟨trivial, h.2.2⟩
    · simp only [if_neg hr]
      constructor
      · intro h; exact absurd h.1 hr
      · intro h; exact absurd h.1 hr

/-- The items of a list text followed by their commas, without the last item. -/
theorem data_list_text_eq (init : List (List Char)) (last : List Char) :
    data_list_text init last
      = ((init.map (fun t => t ++ [','])).flatten ++ last) ++ ['\n'] := by
  simp [data_list_text]

theorem data_list_body_mem (init : List (List Char)) (last : List Char) (x : Char)
    (hx : x ∈ (init.map (fun t => t ++ [','])).flatten ++ last) :
    x = ',' ∨ ∃ t ∈ init ++ [last], x ∈ t := by
  rcases List.mem_append.mp hx with h | h
  · obtain ⟨u, hu, hxu⟩ := List.mem_flatten.mp h
    obtain ⟨t, ht, rfl⟩ := List.mem_map.mp hu
    rcases List.mem_append.mp hxu with h1 | h1
    · exact Or.inr ⟨t, List.mem_append_left _ ht, h1⟩
    · exact Or.inl (List.mem_singleton.mp h1)
  · exact Or.inr ⟨last, by simp, h⟩

theorem data_list_body_head (init : List (List Char)) (last : List Char)
    (hne : ∀ t ∈ init ++ [last], t ≠ [])
    (hc : ∀ t ∈ init ++ [last], ',' ∉ t ∧ '\n' ∉ t) :
    ∃ x tl, (init.map (fun t => t ++ [','])).flatten ++ last = x :: tl ∧ x ≠ ',' := by
  cases init with
  | nil =>
    obtain ⟨x, tl, hl⟩ := List.exists_cons_of_ne_nil (hne last (by simp))
    refine ⟨x, tl, by simpa using hl, fun h => (hc last (by simp)).1 ?_⟩
    rw [hl, ← h]; exact List.mem_cons_self _ _
  | cons t init =>
    obtain ⟨x, tl, hl⟩ := List.exists_cons_of_ne_nil (hne t (by simp))
    refine ⟨x, tl ++ [','] ++ ((init.map (fun t => t ++ [','])).flatten ++ last), ?_,
      fun h => (hc t (by simp)).1 ?_⟩
    · simp [hl]
    · rw [hl, ← h]; exact List.mem_cons_self _ _

theorem data_list_body_no_double_comma (init : List (List Char)) (last : List Char)
    (hne : ∀ t ∈ init ++ [last], t ≠ [])
    (hc : ∀ t ∈ init ++ [last], ',' ∉ t ∧ '\n' ∉ t) :
    has_double_comma ((init.map (fun t => t ++ [','])).flatten ++ last) = false := by
  induction init with
  | nil =>
    simp only [List.map_nil, List.flatten_nil, List.nil_append]
    exact has_double_comma_no_comma last (hc last (by simp)).1
  | cons t init ih =>
    have hne' : ∀ u ∈ init ++ [last], u ≠ [] := fun u hu => hne u (by
      rcases List.mem_append.mp hu with h | h
      · exact List.mem_append_left _ (List.mem_cons_of_mem _ h)
      · exact List.mem_append_right _ h)
    have hc' : ∀ u ∈ init ++ [last], ',' ∉ u ∧ '\n' ∉ u := fun u hu => hc u (by
      rcases List.mem_append.mp hu with h | h
      · exact List.mem_append_left _ (List.mem_cons_of_mem _ h)
      · exact List.mem_append_right _ h)
    obtain ⟨x, tl, hx, hxc⟩ := data_list_body_head init last hne' hc'
    have e : ((t :: init).map (fun t => t ++ [','])).flatten ++ last
        = t ++ ',' :: ((init.map (fun t => t ++ [','])).flatten ++ last) := by
      simp
    rw [e, hx, has_double_comma_append t x tl (hc t (by simp)).1 hxc, ← hx]
    exact ih hne' hc'

/-- The checks of `Data_Examine` that come before the token loop pass on a list text of
items that are not empty and hold no comma and no newline. -/
theorem Data_Examine_data_list_text (init : List (List Char)) (last : List Char)
    (hne : ∀ t ∈ init ++ [last], t ≠ [])
    (hc : ∀ t ∈ init ++ [last], ',' ∉ t ∧ '\n' ∉ t) :
    Data_Examine (data_list_text init last)
      = Data_Examine_loop (init ++ [last ++ ['\n']]) TRUE := by
  obtain ⟨x, tl, hx, hxc⟩ := data_list_body_head init last hne hc
  have hbody : ∀ y ∈ x :: tl, y ≠ '\n' := by
    intro y hy hyn
    rw [← hx] at hy
    rcases data_list_body_mem init last y hy with h | ⟨t, ht, hyt⟩
    · rw [hyn] at h; exact absurd h (by decide)
    · exact (hc t ht).2 (hyn ▸ hyt)
  have hline : data_list_text init last = x :: (tl ++ ['\n']) := by
    rw [data_list_text_eq, hx]; rfl
  have hlast := before_newline_ne_comma ((init.map (fun t => t ++ [','])).flatten) last
    (hne last (by simp)) (hc last (by simp)).1
  have hlen : ¬ (data_list_text init last).length < MIN_DATA_SIZE := by
    rw [hline]
    have : tl ++ ['\n'] ≠ [] := by simp
    simp [MIN_DATA_SIZE]
  have hhead : (data_list_text init last).head? ≠ some ',' := by
    rw [hline]; simp [hxc]
  have hget : (data_list_text init last).get? ((data_list_text init last).length - 2)
      ≠ some ',' := by
    have e : (data_list_text init last).length - 2
        = ((init.map (fun t => t ++ [','])).flatten ++ last).length - 1 := by
      rw [data_list_text_eq, List.length_append]; simp
    rw [e]
    exact hlast
  have htw : (data_list_text init last).take 1
      ++ ((data_list_text init last).drop 1).takeWhile (fun c => c != '\n')
        = (init.map (fun t => t ++ [','])).flatten ++ last := by
    rw [hline, hx]
    simp only [List.take_succ_cons, List.take_zero, List.drop_succ_cons, List.drop_zero,
      List.singleton_append]
    rw [List.takeWhile_append_of_pos (fun a ha => by
      simp [hbody a (List.mem_cons_of_mem _ ha)])]
    simp [List.takeWhile]
  have hdc := data_list_body_no_double_comma init last hne hc
  unfold Data_Examine
  rw [if_neg hlen, htw, hdc]
  simp only [if_neg (not_or.mpr ⟨hhead, hget⟩), Bool.false_eq_true, if_false]
  rw [(strtok_data_list_text init last hne hc).2]

/-- The range check of `Data_Examine`: for a list of well-formed signed decimals whose
values fit an `int`, the list text is accepted if and only if every value `v` satisfies
`-16384 < v < 32767`. -/
theorem Data_Examine_range (init : List (List Char)) (last : List Char)
    (hwf : ∀ t ∈ init ++ [last], signed_decimal t = true)
    (_hint : ∀ t ∈ init ++ [last], fits_int (atoi t)) :
    Data_Examine (data_list_text init last) = TRUE
      ↔ ∀ t ∈ init ++ [last], -16384 < atoi t ∧ atoi t < 32767 := by
  have htok := signed_decimals_tokens _ hwf
  have hlast := signed_decimal_token last ['\n'] (hwf last (by simp)) (Or.inr rfl)
  rw [Data_Examine_data_list_text init last htok.1 htok.2,
    Data_Examine_loop_valid _ (fun t ht => by
      rcases List.mem_append.mp ht with h | h
      · have := (signed_decimal_token t [] (hwf t (List.mem_append_left _ h)) (Or.inl rfl)).1
        rwa [List.append_nil] at this
      · rw [List.mem_singleton.mp h]; exact hlast.1)]
  simp only [true_and, in_data_range, List.mem_append, List.mem_singleton]
  constructor
  · intro h t ht
    rcases ht with ht | ht
    · exact h t (Or.inl ht)
    · have := h (last ++ ['\n']) (Or.inr rfl)
      rw [hlast.2] at this
      rw [ht]; exact this
  · intro h t ht
    rcases ht with ht | ht
    · exact h t (Or.inl ht)
    · rw [ht, hlast.2]; exact h last (Or.inr rfl)

set_option maxRecDepth 100000 in
/-- C18 fails on the code at both limits. `MAX_VALUE_FOR_15_BITS` is 32767 and
`MIN_VALUE_FOR_15_BITS` is -16384, the largest and the smallest value of the claim's
range, and the range check refuses `num >= MAX_VALUE_FOR_15_BITS` and
`num <= MIN_VALUE_FOR_15_BITS`: `Data_Examine` gives `FALSE` for `.data 32767` and for
`.data -16384`, and the first pass rejects both lines, while 32766 and -16383 are
accepted. For every list of well-formed signed decimals that fit an `int` the list is
accepted exactly when every value satisfies `-16384 < v < 32767`. -/
theorem C18_limits_refused :
    MAX_VALUE_FOR_15_BITS = 32767 ∧ MIN_VALUE_FOR_15_BITS = -16384
      ∧ signed_decimal "32767".toList = true ∧ atoi "32767".toList = 32767
      ∧ signed_decimal "-16384".toList = true ∧ atoi "-16384".toList = -16384
      ∧ Data_Examine (data_list_text [] "32767".toList) = FALSE
      ∧ Data_Examine (data_list_text [] "-16384".toList) = FALSE
      ∧ (firstpass ".data32767\n\n".toList).1.error_flag ≠ TRUE
      ∧ (firstpass ".data-16384\n\n".toList).1.error_flag ≠ TRUE
      ∧ Data_Examine (data_list_text ["32766".toList] "-16383".toList) = TRUE
      ∧ ∀ (init : List (List Char)) (last : List Char),
          (∀ t ∈ init ++ [last], signed_decimal t = true) →
          (∀ t ∈ init ++ [last], fits_int (atoi t)) →
          (Data_Examine (data_list_text init last) = TRUE
            ↔ ∀ t ∈ init ++ [last], -16384 < atoi t ∧ atoi t < 32767) :=
  ⟨by decide, by decide, by decide, by decide, by decide, by decide, by decide, by decide,
    by decide, by decide, by decide, Data_Examine_range⟩

/-! ## The `.string` directive -/

theorem extract_Label_scan_absent (d : Char) :
    ∀ (n : Nat) (l : List Char), d ∉ l.take n → (extract_Label_scan n l d).2 = false := by
  intro n
  induction n with
  | zero => intro l _; rfl
  | succ n ih =>
    intro l h
    cases l with
    | nil => rfl
    | cons c cs =>
      have hc : c ≠ d := fun e => h (by rw [e]; simp)
      have hcs : d ∉ cs.take n := fun e => h (by simp [List.take_succ_cons, e])
      simp only [extract_Label_scan, hc, ne_eq, not_false_eq_true, if_true]
      exact ih cs hcs

theorem extract_Label_no_colon (line : List Char) (h : ':' ∉ line.take MAX_LABEL_SIZE) :
    (extract_Label line ':').1 = 0 := by
  unfold extract_Label
  simp [extract_Label_scan_absent ':' MAX_LABEL_SIZE line h]

theorem get_Line_Type_string (rest : List Char) :
    get_Line_Type (".string".toList ++ rest) = (IS_STRING, 7, none) := by
  simp [get_Line_Type, starts_with, commands_table, List.find?, List.isPrefixOf]
  rfl

theorem String_Examine_string_operand (s : List Char) (h : ∀ c ∈ s, c.toNat ≤ 127) :
    String_Examine (string_operand s) = TRUE := by
  have hlen : (string_operand s).length = s.length + 3 := by simp [string_operand]
  have h1 : ¬ (string_operand s).length < MIN_STR_SIZE := by rw [hlen]; simp [MIN_STR_SIZE]
  have h2 : (string_operand s).head? = some (Char.ofNat 34) := rfl
  have h3 : (string_operand s).get? ((string_operand s).length - 2) = some (Char.ofNat 34) := by
    have e : string_operand s = (Char.ofNat 34 :: s) ++ [Char.ofNat 34, '\n'] := rfl
    rw [hlen, e, List.get?_eq_getElem?, List.getElem?_append_right (by simp)]
    simp
  have h4 : ((string_operand s).take ((string_operand s).length - 1)).drop 1
      = s ++ [Char.ofNat 34] := by
    have e : string_operand s = (Char.ofNat 34 :: (s ++ [Char.ofNat 34])) ++ ['\n'] := by
      simp [string_operand]
    have e2 : (string_operand s).length - 1 = (Char.ofNat 34 :: (s ++ [Char.ofNat 34])).length := by
      rw [hlen]; simp
    rw [e2, e, List.take_left]
    rfl
  unfold String_Examine
  rw [if_neg h1, h4]
  simp only [h2, h3, ne_eq, not_true_eq_false, or_self, if_false]
  rw [if_pos]
  rw [List.all_append, Bool.and_eq_true]
  constructor
  · rw [List.all_eq_true]
    intro c hc
    simpa [MAX_ASCII_VALUE] using h c hc
  · decide

theorem extract_String_loop_words (cs : List Char) :
    ∀ (l : List MACHINE_CODE_INSTRUCTION) (address : Int),
      ∃ new : List MACHINE_CODE_INSTRUCTION,
        extract_String_loop cs l address = (l ++ new, address + (cs.length : Int))
          ∧ new.map (fun w => w.mila) = cs.map (fun c => c.toNat % 65536)
          ∧ new_data_ok address new := by
  induction cs with
  | nil =>
    intro l address
    exact ⟨[], by simp [extract_String_loop], rfl, by simp [new_data_ok]⟩
  | cons c cs ih =>
    intro l address
    obtain ⟨new, h1, h2, h3⟩ :=
      ih (add_to_instruction_list l address (c.toNat % 65536)) (address + 1)
    refine ⟨⟨address, c.toNat % 65536⟩ :: new, ?_, ?_, new_data_ok_cons _ _ _ rfl h3⟩
    · rw [extract_String_loop, h1]
      simp only [add_to_instruction_list, List.append_assoc, List.singleton_append,
        List.length_cons, Nat.cast_add, Nat.cast_one, Prod.mk.injEq, true_and]
      ring
    · rw [List.map_cons, List.map_cons, h2]

/-- The words that `extract_String` appends for the operand `"s"`: the codes of the
characters of `s` in order, then 0, at the addresses `address`, `address + 1`, ... -/
theorem extract_String_string_operand (l : List MACHINE_CODE_INSTRUCTION) (s : List Char)
    (address : Int) (h : ∀ c ∈ s, c.toNat ≤ 127) :
    ∃ new : List MACHINE_CODE_INSTRUCTION,
      extract_String l (string_operand s) address
          = (l ++ new, address + (s.length : Int) + 1)
        ∧ new.map (fun w => w.mila) = s.map (fun c => c.toNat) ++ [0]
        ∧ new_data_ok address new := by
  have hlen : (string_operand s).length = s.length + 3 := by simp [string_operand]
  have h2 : (string_operand s).head? = some (Char.ofNat 34) := rfl
  have h4 : ((string_operand s).take ((string_operand s).length - 2)).drop 1 = s := by
    have e : string_operand s = (Char.ofNat 34 :: s) ++ [Char.ofNat 34, '\n'] := rfl
    have e2 : (string_operand s).length - 2 = (Char.ofNat 34 :: s).length := by
      rw [hlen]; simp
    rw [e2, e, List.take_left]
    rfl
  obtain ⟨new, h5, h6, h7⟩ := extract_String_loop_words s l address
  refine ⟨new ++ [⟨address + (s.length : Int), 0⟩], ?_, ?_, ?_⟩
  · unfold extract_String
    simp only [h2, ne_eq, not_true_eq_false, if_false, h4, h5, add_to_instruction_list,
      List.append_assoc]
  · rw [List.map_append, h6]
    congr 1
    apply List.map_congr_left
    intro c hc
    have := h c hc
    omega
  · have hn : new.length = s.length := by
      have := congrArg List.length h6
      simpa using this
    apply new_data_ok_append _ _ _ h7
    simp [new_data_ok, List.range_succ, hn]

/-- A `.string` line without a label and without a colon among its first 32 bytes: the
first pass accepts it and appends the codes of the characters and a final 0. -/
theorem firstpass_line_string (st : FIRSTPASS_STATE) (s : List Char)
    (h127 : ∀ c ∈ s, c.toNat ≤ 127)
    (hcolon : ':' ∉ (".string".toList ++ string_operand s).take MAX_LABEL_SIZE) :
    ∃ new : List MACHINE_CODE_INSTRUCTION,
      firstpass_line st (".string".toList ++ string_operand s)
          = { table := { st.table with
                         instruction_head := st.table.instruction_head ++ new }
              IC := st.IC, DC := st.DC + (s.length : Int) + 1, type := IS_STRING
              error_flag := st.error_flag + TRUE }
        ∧ new.map (fun w => w.mila) = s.map (fun c => c.toNat) ++ [0]
        ∧ new_data_ok st.DC new := by
  obtain ⟨new, h1, h2, h3⟩ :=
    extract_String_string_operand st.table.instruction_head s st.DC h127
  refine ⟨new, ?_, h2, h3⟩
  have hx := extract_Label_no_colon _ hcolon
  have hg := get_Line_Type_string (string_operand s)
  have hse := String_Examine_string_operand s h127
  unfold firstpass_line
  simp only [hx, NO_LABEL, ERROR, ne_eq, not_true_eq_false, false_and, decide_False,
    Bool.false_eq_true, if_false, Bool.false_and, TRUE, true_and, Int.toNat_zero, List.drop_zero,
    hg, decide_True, if_true, zero_add]
  have hd7 : (".string".toList ++ string_operand s).drop (Int.toNat 7) = string_operand s := by
    have : Int.toNat 7 = ".string".toList.length := rfl
    rw [this, List.drop_left]
  have hd7b : (".string".toList ++ string_operand s).drop (0 + ".string".length)
      = string_operand s := by
    have : 0 + ".string".length = ".string".toList.length := rfl
    rw [this, List.drop_left]
  simp only [firstpass_switch, IS_STRING, IS_ENTRY, IS_EXTERN, firstpass_case_IS_STRING,
    firstpass_label, NO_LABEL, Int.toNat_zero, hd7, hd7b, hse, TRUE, h1, firstpass_next]
  have hd7c : List.drop ".string".length
      ('.' :: 's' :: 't' :: 'r' :: 'i' :: 'n' :: 'g' :: string_operand s) = string_operand s :=
    rfl
  simp [hd7c, hse, h1, TRUE]

/-- A `.string` line behind a label that `examine_Label` accepts: the first pass accepts
the line, stores the label, and appends the codes of the characters and a final 0. -/
theorem firstpass_line_labelled_string (st : FIRSTPASS_STATE) (label s : List Char)
    (h127 : ∀ c ∈ s, c.toNat ≤ 127) (hlabel : examine_Label label = TRUE)
    (hcolon : ':' ∉ label) (hlen : label.length < MAX_LABEL_SIZE) :
    ∃ new : List MACHINE_CODE_INSTRUCTION,
      firstpass_line st (label ++ ':' :: (".string".toList ++ string_operand s))
          = { table := { st.table with
                         label_head :=
                           insert_Label_List st.table.label_head label (st.IC + st.DC - 1)
                         instruction_head := st.table.instruction_head ++ new }
              IC := st.IC, DC := st.DC + (s.length : Int) + 1, type := IS_STRING
              error_flag := st.error_flag + TRUE }
        ∧ new.map (fun w => w.mila) = s.map (fun c => c.toNat) ++ [0]
        ∧ new_data_ok st.DC new := by
  obtain ⟨new, h1, h2, h3⟩ :=
    extract_String_string_operand st.table.instruction_head s st.DC h127
  refine ⟨new, ?_, h2, h3⟩
  have hx := extract_Label_delimiter ':' label (".string".toList ++ string_operand s) hcolon hlen
  have hg := get_Line_Type_string (string_operand s)
  have hse := String_Examine_string_operand s h127
  have hpos : (0 : Int) ≤ (label.length : Int) := Int.natCast_nonneg _
  have hn0 : ¬ ((label.length : Int) + 1 = 0) := by omega
  have hn1 : ¬ ((label.length : Int) + 1 = -1) := by omega
  have ht : ((label.length : Int) + 1).toNat = (label ++ [':']).length := by
    simp
  have e : label ++ ':' :: (".string".toList ++ string_operand s)
      = (label ++ [':']) ++ (".string".toList ++ string_operand s) := by simp
  have hdrop : (label ++ ':' :: (".string".toList ++ string_operand s)).drop
      ((label.length : Int) + 1).toNat = ".string".toList ++ string_operand s := by
    rw [ht, e, List.drop_left]
  have hdrop2 : (label ++ ':' :: (".string".toList ++ string_operand s)).drop
      (((label.length : Int) + 1).toNat + ".string".length) = string_operand s := by
    rw [← List.drop_drop, hdrop]; rfl
  have hdrop3 : (label ++ ':' :: (".string".toList ++ string_operand s)).drop
      ((label.length : Int) + 1 + 7).toNat = string_operand s := by
    have : ((label.length : Int) + 1 + 7).toNat
        = ((label.length : Int) + 1).toNat + ".string".length := by
      have : ".string".length = 7 := rfl
      omega
    rw [this, ← List.drop_drop, hdrop]; rfl
  unfold firstpass_line
  simp only [hx, NO_LABEL, ERROR, ne_eq, hn0, hn1, not_false_eq_true, and_self, decide_True,
    if_true, hlabel, TRUE, Nat.add_zero, Bool.true_and, FALSE, hdrop, hg]
  simp only [firstpass_switch, IS_STRING, IS_ENTRY, IS_EXTERN, firstpass_case_IS_STRING,
    firstpass_label, NO_LABEL, hdrop2, hdrop3, hse, TRUE, h1, firstpass_next]
  have hdrop4 : (label ++ ':' :: '.' :: 's' :: 't' :: 'r' :: 'i' :: 'n' :: 'g' :: string_operand s).drop
      ((label.length : Int) + 1 + 7).toNat = string_operand s := hdrop3
  simp [hn0, hdrop4, h1]

set_option maxRecDepth 100000 in
/-- C12 fails on the code for a line without a label whose string holds a colon. In
`.string "a:b"` the three characters have codes up to 127 and `String_Examine` accepts the
operand, yet `firstpass` first looks for a colon in the line, takes `.string"a` for a
label, `examine_Label` refuses it, and the line is rejected: no data word is appended and
`DC` stays 1. The same directive behind a label, `L: .string "a:b"`, is accepted and
appends the four words 97, 58, 98, 0 with `DC` growing to 5. On every other line the
claim holds: a `.string` line without a label and without a colon among its first 32
bytes, and a `.string` line behind a label that `examine_Label` accepts, is accepted and
appends the codes of the characters in order and a final 0, with `DC` growing by `n + 1`. -/
theorem C12_colon_in_string_rejected :
    String_Examine (string_operand "a:b".toList) = TRUE
      ∧ (extract_Label (".string".toList ++ string_operand "a:b".toList) ':').2
          = ".string".toList ++ [Char.ofNat 34, 'a']
      ∧ examine_Label (".string".toList ++ [Char.ofNat 34, 'a']) = FALSE
      ∧ (firstpass example_colon_string_file).1.error_flag ≠ TRUE
      ∧ (firstpass example_colon_string_file).1.table.instruction_head = []
      ∧ (firstpass example_colon_string_file).1.DC = 1
      ∧ (firstpass example_labelled_colon_string_file).1.error_flag = TRUE
      ∧ (firstpass example_labelled_colon_string_file).1.table.instruction_head
          = [⟨1, 97⟩, ⟨2, 58⟩, ⟨3, 98⟩, ⟨4, 0⟩]
      ∧ (firstpass example_labelled_colon_string_file).1.DC = 5
      ∧ (∀ (st : FIRSTPASS_STATE) (s : List Char), (∀ c ∈ s, c.toNat ≤ 127) →
          ':' ∉ (".string".toList ++ string_operand s).take MAX_LABEL_SIZE →
          ∃ new : List MACHINE_CODE_INSTRUCTION,
            firstpass_line st (".string".toList ++ string_operand s)
                = { table := { st.table with
                               instruction_head := st.table.instruction_head ++ new }
                    IC := st.IC, DC := st.DC + (s.length : Int) + 1, type := IS_STRING
                    error_flag := st.error_flag + TRUE }
              ∧ new.map (fun w => w.mila) = s.map (fun c => c.toNat) ++ [0]
              ∧ new_data_ok st.DC new)
      ∧ (∀ (st : FIRSTPASS_STATE) (label s : List Char), (∀ c ∈ s, c.toNat ≤ 127) →
          examine_Label label = TRUE → ':' ∉ label → label.length < MAX_LABEL_SIZE →
          ∃ new : List MACHINE_CODE_INSTRUCTION,
            firstpass_line st (label ++ ':' :: (".string".toList ++ string_operand s))
                = { table := { st.table with
                               label_head :=
                                 insert_Label_List st.table.label_head label (st.IC + st.DC - 1)
                               instruction_head := st.table.instruction_head ++ new }
                    IC := st.IC, DC := st.DC + (s.length : Int) + 1, type := IS_STRING
                    error_flag := st.error_flag + TRUE }
              ∧ new.map (fun w => w.mila) = s.map (fun c => c.toNat) ++ [0]
              ∧ new_data_ok st.DC new) :=
  ⟨by decide, by decide, by decide, by decide, by decide, by decide, by decide, by decide,
    by decide, firstpass_line_string, firstpass_line_labelled_string⟩

/-! ## Label names -/

theorem reserved_words_eq : reserved_words = spec_reserved_words := by decide

theorem takeWhile_no_newline (l : List Char) (h : '\n' ∉ l) :
    l.takeWhile (fun x => x != '\n') = l := by
  rw [List.takeWhile_eq_self_iff]
  intro a ha
  have : a ≠ '\n' := fun e => h (e ▸ ha)
  simp [this]

theorem Reserved_Words_Check_no_newline (l : List Char) (h : '\n' ∉ l) :
    Reserved_Words_Check l = if spec_reserved_words.contains l then FALSE else TRUE := by
  have hl : l.getLast? ≠ some '\n' := by
    intro e
    exact h (List.mem_of_getLast?_eq_some e)
  unfold Reserved_Words_Check
  simp only [hl, if_false, reserved_words_eq]

/-- C21 (amended): for every string of at most 31 characters that holds no newline,
`examine_Label` accepts the string if and only if it is not empty, starts with an ASCII
letter, consists of ASCII letters and digits only, and is none of the reserved words. -/
theorem C21_label_accepted_iff (label : List Char) (_hlen : label.length ≤ 31)
    (hnl : '\n' ∉ label) :
    examine_Label label = TRUE ↔ label_name_ok label = true := by
  cases label with
  | nil => simp [examine_Label, label_name_ok, TRUE, FALSE]
  | cons c cs =>
    have htw := takeWhile_no_newline (c :: cs) hnl
    have hr := Reserved_Words_Check_no_newline (c :: cs) hnl
    have hall : (c :: cs).all (fun x => isdigit x || isupper x || islower x)
        = (c :: cs).all (fun x => is_letter x || isdigit x) := by
      congr 1
      funext x
      unfold is_letter
      cases isdigit x <;> cases isupper x <;> cases islower x <;> rfl
    simp only [examine_Label, htw, hr, hall, label_name_ok, List.isEmpty_cons, Bool.not_false,
      Bool.true_and, List.head?_cons, Option.map_some']
    by_cases hd : isdigit c = true
    · have hlet : is_letter c = false := by
        have h1 : 48 ≤ c.toNat ∧ c.toNat ≤ 57 := by
          simpa [isdigit] using hd
        simp [is_letter, isupper, islower]
        omega
      simp [hd, hlet, TRUE, FALSE]
    · have hd' : isdigit c = false := by simpa using hd
      by_cases ha : (c :: cs).all (fun x => is_letter x || isdigit x) = true
      · have hc : is_letter c = true := by
          rw [List.all_cons, Bool.and_eq_true] at ha
          simpa [hd'] using ha.1
        by_cases hres : spec_reserved_words.contains (c :: cs) = true
        · simp [hd', ha, hc, hres, TRUE, FALSE]
        · simp [hd', ha, hc, hres, TRUE, FALSE]
      · simp [hd', ha, TRUE, FALSE]

/-- Witness of C21: `LOOP1` is accepted; `1LOOP`, `LO_OP`, `mov` and the empty string are
refused. -/
theorem C21_label_accepted_iff_witness :
    (examine_Label "LOOP1".toList = TRUE ↔ label_name_ok "LOOP1".toList = true)
      ∧ examine_Label "LOOP1".toList = TRUE
      ∧ examine_Label "1LOOP".toList = FALSE
      ∧ examine_Label "LO_OP".toList = FALSE
      ∧ examine_Label "mov".toList = FALSE
      ∧ examine_Label [] = FALSE :=
  ⟨C21_label_accepted_iff "LOOP1".toList (by decide) (by decide), by decide, by decide,
    by decide, by decide, by decide⟩

/-- C21 as stated fails on the code: the string `X` followed by a newline has two
characters, the second is neither a letter nor a digit, and `examine_Label` accepts it,
because its loop over the characters stops at a newline and `Reserved_Words_Check` removes
a final newline; `mov` followed by a newline is refused as the reserved word `mov`. The
first pass hands such a string to `examine_Label` for the line `mov X`. -/
theorem C21_counterexample :
    "X\n".toList.length ≤ 31
      ∧ label_name_ok "X\n".toList = false
      ∧ examine_Label "X\n".toList = TRUE
      ∧ examine_Label "mov\n".toList = FALSE
      ∧ (extract_Label "X\n".toList ',').2 = "X\n".toList := by
  decide

/-! ## Names defined twice -/

set_option maxRecDepth 100000 in
/-- C22 fails on the code. For `X: mov r1, r2` / `X: stop` / `jmp X` the first pass ends
with `error_flag = TRUE`: no line is rejected, the label list handed to `Second_Pass`
holds `X` twice (at 100 and at 102), `Second_Pass` runs and the object file is emitted.
The function `compare_With_Other_Lists`, which looks for the name in the label list, is
never called. -/
theorem C22_redefinition_accepted :
    (firstpass example_redefined_file).1.error_flag = TRUE
      ∧ (firstpass example_redefined_file).1.table.label_head
          = [⟨"X".toList, 100⟩, ⟨"X".toList, 102⟩]
      ∧ (firstpass example_redefined_file).2
          = some (Second_Pass (firstpass_loop example_redefined_file).table 105 1)
      ∧ (Second_Pass (firstpass_loop example_redefined_file).table 105 1).table.label_head
          = [⟨"X".toList, 100⟩, ⟨"X".toList, 102⟩]
      ∧ (Second_Pass (firstpass_loop example_redefined_file).table 105 1).emitted.map
          (fun a => a.ob)
          = some "\n\t5 0\n0100\t02104\n0101\t00124\n0102\t74004\n0103\t44024\n0104\t01462\n".toList := by
  decide

set_option maxRecDepth 100000 in
/-- C24 fails on the code when the `.extern` line comes first. For `.extern N` /
`N: stop` / `jmp N` the first pass ends with `error_flag = TRUE`, with `N` both in the
extern list and in the label list, `Second_Pass` runs and emits the object file and the
externals file. With the label first (`N: stop` / `.extern N` / `jmp N`) `Extern_Examine`
finds `N` in the label list and the source is rejected, as the claim says. -/
theorem C24_extern_before_label_accepted :
    (firstpass example_extern_then_label_file).1.error_flag = TRUE
      ∧ (firstpass example_extern_then_label_file).1.table.label_head = [⟨"N".toList, 100⟩]
      ∧ (firstpass example_extern_then_label_file).1.table.extern_head = [⟨"N".toList, []⟩]
      ∧ (firstpass example_extern_then_label_file).2
          = some (Second_Pass (firstpass_loop example_extern_then_label_file).table 103 1)
      ∧ (Second_Pass (firstpass_loop example_extern_then_label_file).table 103 1).emitted
          = some { ob := "\n\t3 0\n0100\t74004\n0101\t44024\n0102\t00001\n".toList
                   ent := none
                   ext := some "N\t0102\n ".toList }
      ∧ (firstpass example_label_then_extern_file).1.error_flag ≠ TRUE
      ∧ (firstpass example_label_then_extern_file).2 = none := by
  decide

/-! ## Lines that are no instruction -/

theorem firstpass_switch_undefined (s : FIRSTPASS_STATE) (line label : List Char)
    (label_skip skip : Int) (type : Int) (command : Option COMMAND) (error0 : Nat)
    (h : (firstpass_switch s line label label_skip skip type command error0).type
      = UNDEFINED_INSTRUCTION) :
    type = UNDEFINED_INSTRUCTION
      ∧ firstpass_switch s line label label_skip skip type command error0
        = firstpass_next s type s.table s.IC s.DC error0 := by
  unfold firstpass_switch at h ⊢
  split_ifs at h ⊢ with h1 h2 h3 h4 h5
  · exfalso
    unfold firstpass_case_IS_ENTRY at h
    exact (by decide : IS_ENTRY ≠ UNDEFINED_INSTRUCTION) h
  · exfalso
    unfold firstpass_case_IS_EXTERN at h
    exact (by decide : IS_EXTERN ≠ UNDEFINED_INSTRUCTION) h
  · exfalso
    unfold firstpass_case_IS_STRING at h
    simp only [firstpass_next] at h
    split_ifs at h <;> exact (by decide : IS_STRING ≠ UNDEFINED_INSTRUCTION) h
  · exfalso
    unfold firstpass_case_IS_DATA at h
    simp only [firstpass_next] at h
    split_ifs at h <;> exact (by decide : IS_DATA ≠ UNDEFINED_INSTRUCTION) h
  · cases command with
    | none => exact ⟨h, rfl⟩
    | some cmd =>
      exfalso
      simp only [firstpass_case_IS_COMMAND, firstpass_next] at h
      split_ifs at h <;> exact (by decide : IS_COMMAND ≠ UNDEFINED_INSTRUCTION) h
  · exact ⟨h, rfl⟩

theorem firstpass_prelude_error (has_label : Bool) (ex : Nat) (e1 g1 stype : Int)
    (h : (if decide ((if has_label then TRUE + ex else TRUE) = TRUE ∧ e1 ≠ ERROR) then g1
          else if has_label && decide ((if has_label then TRUE + ex else TRUE) ≥ FALSE)
            then IS_ERROR else stype) = UNDEFINED_INSTRUCTION) :
    (if has_label then TRUE + ex else TRUE) = TRUE := by
  cases has_label with
  | false => rfl
  | true =>
    by_cases hex : ex = 0
    · simp [hex, TRUE]
    · exfalso
      have h1 : ¬ (TRUE + ex = TRUE) := by simp only [TRUE]; omega
      have h2 : TRUE + ex ≥ FALSE := by simp only [TRUE, FALSE]; omega
      simp only [if_true, h1, false_and, decide_False, Bool.false_eq_true, if_false, h2,
        decide_True, Bool.and_self] at h
      exact (by decide : IS_ERROR ≠ UNDEFINED_INSTRUCTION) h

/-- A line that the first pass takes for an undefined instruction changes nothing but the
type: no table changes and `error_flag` stays as it was. -/
theorem firstpass_line_undefined (s : FIRSTPASS_STATE) (line : List Char)
    (h : (firstpass_line s line).type = UNDEFINED_INSTRUCTION) :
    firstpass_line s line
      = { s with type := UNDEFINED_INSTRUCTION, error_flag := s.error_flag + TRUE } := by
  unfold firstpass_line at h ⊢
  have hsw := firstpass_switch_undefined _ _ _ _ _ _ _ _ h
  rw [hsw.2]
  have herr := firstpass_prelude_error _ _ _ _ _ hsw.1
  simp only [firstpass_next]
  rw [hsw.1, herr]

/-- A line without a colon among its first 32 bytes that `get_Line_Type` takes for none of
the directives and commands is an undefined instruction. -/
theorem firstpass_line_type_undefined (s : FIRSTPASS_STATE) (line : List Char)
    (hcolon : ':' ∉ line.take MAX_LABEL_SIZE)
    (hg : (get_Line_Type line).1 = UNDEFINED_INSTRUCTION) :
    (firstpass_line s line).type = UNDEFINED_INSTRUCTION := by
  have hx := extract_Label_no_colon line hcolon
  unfold firstpass_line
  simp only [hx, NO_LABEL, ERROR, ne_eq, not_true_eq_false, false_and, decide_False,
    Bool.false_eq_true, if_false, Bool.false_and, TRUE, true_and, Int.toNat_zero, List.drop_zero,
    hg, decide_True, if_true, zero_add]
  simp [firstpass_switch, UNDEFINED_INSTRUCTION, IS_ENTRY, IS_EXTERN, IS_STRING, IS_DATA,
    IS_COMMAND, firstpass_next]

set_option maxRecDepth 100000 in
/-- C25 fails on the code. The line `hello` is no opcode line and no directive line; the
`default` case of the `switch` in `firstpass` prints "undefined instruction" for it and
does not set `error`, so for `hello` / `stop` the first pass ends with `error_flag = TRUE`,
`Second_Pass` runs and the object file is emitted. The same holds for every line: a line
that the first pass takes for an undefined instruction leaves `error_flag` and the tables
as they were. -/
theorem C25_undefined_instruction_accepted :
    (get_Line_Type "hello\n".toList).1 = UNDEFINED_INSTRUCTION
      ∧ firstpass_prints_undefined firstpass_init "hello\n".toList = true
      ∧ (firstpass_line firstpass_init "hello\n".toList).error_flag = TRUE
      ∧ (firstpass example_undefined_file).1.error_flag = TRUE
      ∧ (firstpass example_undefined_file).2
          = some (Second_Pass (firstpass_loop example_undefined_file).table 101 1)
      ∧ (Second_Pass (firstpass_loop example_undefined_file).table 101 1).emitted
          = some { ob := "\n\t1 0\n0100\t74004\n".toList, ent := none, ext := none }
      ∧ (∀ (s : FIRSTPASS_STATE) (line : List Char),
          ':' ∉ line.take MAX_LABEL_SIZE →
          (get_Line_Type line).1 = UNDEFINED_INSTRUCTION →
          firstpass_line s line
            = { s with type := UNDEFINED_INSTRUCTION, error_flag := s.error_flag + TRUE })
      ∧ (∀ (s : FIRSTPASS_STATE) (line : List Char),
          (firstpass_line s line).type = UNDEFINED_INSTRUCTION →
          firstpass_line s line
            = { s with type := UNDEFINED_INSTRUCTION, error_flag := s.error_flag + TRUE }) :=
  ⟨by decide, by decide, by decide, by decide, by decide, by decide,
    fun s line hc hg =>
      firstpass_line_undefined s line (firstpass_line_type_undefined s line hc hg),
    firstpass_line_undefined⟩

/-! ## A name declared both `.entry` and `.extern` -/

theorem firstpass_label_extern_head (t : ASSEMBLER_TABLE) (label_skip : Int)
    (label : List Char) (address : Int) :
    (firstpass_label t label_skip label address).extern_head = t.extern_head := by
  unfold firstpass_label
  split_ifs <;> rfl

theorem firstpass_switch_grows (s : FIRSTPASS_STATE) (line label : List Char)
    (label_skip skip : Int) (type : Int) (command : Option COMMAND) (error0 : Nat) :
    firstpass_grows s (firstpass_switch s line label label_skip skip type command error0) := by
  have hsame : ∀ (ty : Int) (e : Nat),
      firstpass_grows s (firstpass_next s ty s.table s.IC s.DC e) :=
    fun ty e => ⟨Nat.le_add_right _ _, ⟨[], by simp [firstpass_next]⟩,
      ⟨[], by simp [firstpass_next]⟩⟩
  unfold firstpass_switch
  split_ifs
  · unfold firstpass_case_IS_ENTRY
    refine ⟨Nat.le_add_right _ _, ?_, ?_⟩
    · dsimp only [firstpass_next]
      split_ifs
      · exact ⟨[⟨(extract_Label (line.drop skip.toNat) '\n').2, []⟩],
          by simp only [insert_Entry_List, firstpass_label_entry_head]⟩
      · exact ⟨[], by simp [firstpass_label_entry_head]⟩
    · dsimp only [firstpass_next]
      split_ifs <;> exact ⟨[], by simp [firstpass_label_extern_head]⟩
  · unfold firstpass_case_IS_EXTERN
    refine ⟨Nat.le_add_right _ _, ?_, ?_⟩
    · dsimp only [firstpass_next]
      split_ifs <;> exact ⟨[], by simp [firstpass_label_entry_head]⟩
    · dsimp only [firstpass_next]
      split_ifs
      · exact ⟨[⟨(extract_Label (line.drop skip.toNat) '\n').2, []⟩],
          by simp only [insert_Extern_List, firstpass_label_extern_head]⟩
      · exact ⟨[], by simp [firstpass_label_extern_head]⟩
  · unfold firstpass_case_IS_STRING
    dsimp only
    split_ifs <;>
      exact ⟨Nat.le_add_right _ _, ⟨[], by simp [firstpass_next, firstpass_label_entry_head]⟩,
        ⟨[], by simp [firstpass_next, firstpass_label_extern_head]⟩⟩
  · unfold firstpass_case_IS_DATA
    dsimp only
    split_ifs <;>
      exact ⟨Nat.le_add_right _ _, ⟨[], by simp [firstpass_next, firstpass_label_entry_head]⟩,
        ⟨[], by simp [firstpass_next, firstpass_label_extern_head]⟩⟩
  · cases command with
    | none => exact hsame _ _
    | some cmd =>
      unfold firstpass_case_IS_COMMAND
      dsimp only
      split_ifs <;>
        exact ⟨Nat.le_add_right _ _, ⟨[], by simp [firstpass_next, firstpass_label_entry_head]⟩,
          ⟨[], by simp [firstpass_next, firstpass_label_extern_head]⟩⟩
  · exact hsame _ _

theorem firstpass_line_grows (s : FIRSTPASS_STATE) (line : List Char) :
    firstpass_grows s (firstpass_line s line) := by
  unfold firstpass_line
  exact firstpass_switch_grows _ _ _ _ _ _ _ _

theorem firstpass_foldl_grows (lines : List (List Char)) :
    ∀ s : FIRSTPASS_STATE, firstpass_grows s (lines.foldl firstpass_line s) := by
  induction lines with
  | nil => intro s; exact ⟨Nat.le_refl _, ⟨[], by simp⟩, ⟨[], by simp⟩⟩
  | cons line rest ih =>
    intro s
    rw [List.foldl_cons]
    obtain ⟨a1, ⟨x1, b1⟩, ⟨y1, c1⟩⟩ := firstpass_line_grows s line
    obtain ⟨a2, ⟨x2, b2⟩, ⟨y2, c2⟩⟩ := ih (firstpass_line s line)
    exact ⟨Nat.le_trans a1 a2, ⟨x1 ++ x2, by rw [b2, b1, List.append_assoc]⟩,
      ⟨y1 ++ y2, by rw [c2, c1, List.append_assoc]⟩⟩

theorem examine_Label_dot (rest : List Char) : examine_Label ('.' :: rest) = FALSE := by
  simp [examine_Label, isdigit, isupper, islower, List.takeWhile]

theorem extract_Label_colon (line : List Char) :
    extract_Label line ':'
      = if (extract_Label_scan MAX_LABEL_SIZE line ':').2
        then (((extract_Label_scan MAX_LABEL_SIZE line ':').1.length : Int) + 1,
              (extract_Label_scan MAX_LABEL_SIZE line ':').1)
        else (0, (extract_Label_scan MAX_LABEL_SIZE line ':').1) := by
  unfold extract_Label
  simp

theorem extract_Label_scan_dot (cs : List Char) :
    (extract_Label_scan MAX_LABEL_SIZE ('.' :: cs) ':').1
      = '.' :: (extract_Label_scan 31 cs ':').1 := by
  simp [MAX_LABEL_SIZE, extract_Label_scan]

/-- A line that starts with a dot and has a colon among its first 32 bytes: the bytes
before the colon are taken for a label, `examine_Label` refuses them, and the line adds 1
to `error_flag` without touching a table. -/
theorem firstpass_line_dot_colon (s : FIRSTPASS_STATE) (cs : List Char)
    (h : (extract_Label_scan MAX_LABEL_SIZE ('.' :: cs) ':').2 = true) :
    (firstpass_line s ('.' :: cs)).error_flag = s.error_flag + 1 := by
  have hx := extract_Label_colon ('.' :: cs)
  rw [if_pos h, extract_Label_scan_dot] at hx
  have hpos : (0 : Int) ≤ ((('.' :: (extract_Label_scan 31 cs ':').1).length : Nat) : Int) :=
    Int.natCast_nonneg _
  have hn0 : ¬ (((('.' :: (extract_Label_scan 31 cs ':').1).length : Nat) : Int) + 1 = 0) := by
    omega
  have hn1 : ¬ (((('.' :: (extract_Label_scan 31 cs ':').1).length : Nat) : Int) + 1 = -1) := by
    omega
  unfold firstpass_line
  simp only [hx, NO_LABEL, ERROR, ne_eq, hn0, hn1, not_false_eq_true, and_self, decide_True,
    if_true, examine_Label_dot, TRUE, FALSE, Nat.zero_add, Bool.true_and]
  simp [firstpass_switch, IS_ERROR, IS_ENTRY, IS_EXTERN, IS_STRING, IS_DATA, IS_COMMAND,
    firstpass_next]

theorem get_Line_Type_entry (rest : List Char) :
    get_Line_Type (".entry".toList ++ rest) = (IS_ENTRY, 6, none) := by
  simp [get_Line_Type, starts_with, List.isPrefixOf]
  rfl

theorem get_Line_Type_extern (rest : List Char) :
    get_Line_Type (".extern".toList ++ rest) = (IS_EXTERN, 7, none) := by
  simp [get_Line_Type, starts_with, List.isPrefixOf]
  rfl

/-- A `.entry` line without a colon among its first 32 bytes is handled by
`case IS_ENTRY` with no label. -/
theorem firstpass_line_entry_no_colon (s : FIRSTPASS_STATE) (N : List Char)
    (h : (extract_Label_scan MAX_LABEL_SIZE (entry_line N) ':').2 = false) :
    firstpass_line s (entry_line N)
      = firstpass_next s IS_ENTRY
          (if TRUE + Entry_Examine (N ++ ['\n']) s.table = TRUE
           then { s.table with
                  entry_head := insert_Entry_List s.table.entry_head (N ++ ['\n']) }
           else s.table)
          s.IC s.DC (TRUE + Entry_Examine (N ++ ['\n']) s.table) := by
  have hx := extract_Label_colon (entry_line N)
  rw [h] at hx
  simp only [Bool.false_eq_true, if_false] at hx
  have hg := get_Line_Type_entry (N ++ ['\n'])
  have hd : (entry_line N).drop (Int.toNat (0 + 6)) = N ++ ['\n'] := by
    have : Int.toNat (0 + 6) = ".entry".toList.length := rfl
    rw [this]; unfold entry_line; rw [List.drop_left]
  have hd2 : (entry_line N).drop (Int.toNat 0 + ".entry".length) = N ++ ['\n'] := by
    have : Int.toNat 0 + ".entry".length = ".entry".toList.length := rfl
    rw [this]; unfold entry_line; rw [List.drop_left]
  unfold firstpass_line
  simp only [hx, NO_LABEL, ERROR, ne_eq, not_true_eq_false, false_and, decide_False,
    Bool.false_eq_true, if_false, Bool.false_and, TRUE, true_and, Int.toNat_zero, List.drop_zero]
  have hg2 : get_Line_Type (entry_line N) = (IS_ENTRY, 6, none) := hg
  have h01 : ¬ ((0 : Int) = -1) := by decide
  simp only [hg2, h01, not_false_eq_true, decide_True, if_true]
  simp only [firstpass_switch, if_true, firstpass_case_IS_ENTRY, firstpass_label, NO_LABEL,
    ne_eq, not_true_eq_false, if_false, hd, hd2, TRUE]
  have hd3 : (entry_line N).drop ((0 : Int) + ((6 : Nat) : Int)).toNat = N ++ ['\n'] := hd
  rw [hd3]

/-- A `.extern` line without a colon among its first 32 bytes is handled by
`case IS_EXTERN` with no label. -/
theorem firstpass_line_extern_no_colon (s : FIRSTPASS_STATE) (N : List Char)
    (h : (extract_Label_scan MAX_LABEL_SIZE (extern_line N) ':').2 = false) :
    firstpass_line s (extern_line N)
      = firstpass_next s IS_EXTERN
          (if TRUE + Extern_Examine (N ++ ['\n']) s.table = TRUE
           then { s.table with
                  extern_head := insert_Extern_List s.table.extern_head (N ++ ['\n']) }
           else s.table)
          s.IC s.DC (TRUE + Extern_Examine (N ++ ['\n']) s.table) := by
  have hx := extract_Label_colon (extern_line N)
  rw [h] at hx
  simp only [Bool.false_eq_true, if_false] at hx
  have hg := get_Line_Type_extern (N ++ ['\n'])
  have hd : (extern_line N).drop (Int.toNat (0 + 7)) = N ++ ['\n'] := by
    have : Int.toNat (0 + 7) = ".extern".toList.length := rfl
    rw [this]; unfold extern_line; rw [List.drop_left]
  have hd2 : (extern_line N).drop (Int.toNat 0 + ".extern".length) = N ++ ['\n'] := by
    have : Int.toNat 0 + ".extern".length = ".extern".toList.length := rfl
    rw [this]; unfold extern_line; rw [List.drop_left]
  unfold firstpass_line
  simp only [hx, NO_LABEL, ERROR, ne_eq, not_true_eq_false, false_and, decide_False,
    Bool.false_eq_true, if_false, Bool.false_and, TRUE, true_and, Int.toNat_zero, List.drop_zero]
  have hg2 : get_Line_Type (extern_line N) = (IS_EXTERN, 7, none) := hg
  have h01 : ¬ ((0 : Int) = -1) := by decide
  have h12 : ¬ (IS_EXTERN = IS_ENTRY) := by decide
  simp only [hg2, h01, not_false_eq_true, decide_True, if_true]
  simp only [firstpass_switch, h12, if_true, if_false, firstpass_case_IS_EXTERN, firstpass_label,
    NO_LABEL, ne_eq, not_true_eq_false, hd, hd2, TRUE]
  have hd3 : (extern_line N).drop ((0 : Int) + ((7 : Nat) : Int)).toNat = N ++ ['\n'] := hd
  rw [hd3]

/-- The guard of `Entry_Examine` on the extern list: a name that is in the extern list is
refused. -/
theorem Entry_Examine_extern_name (N : List Char) (t : ASSEMBLER_TABLE)
    (h : directive_name N ∈ t.extern_head.map (fun e => e.label)) :
    Entry_Examine (N ++ ['\n']) t ≠ TRUE := by
  obtain ⟨e, he, hl⟩ := List.mem_map.mp h
  have hany : t.extern_head.any (fun l => decide ((extract_Label (N ++ ['\n']) '\n').2 = l.label))
      = true := by
    rw [List.any_eq_true]
    exact ⟨e, he, by simpa [directive_name] using hl.symm⟩
  unfold Entry_Examine
  simp only [hany, if_true]
  split_ifs <;> simp_all [TRUE, FALSE]

/-- The guard of `Extern_Examine` on the entry list: a name that is in the entry list is
refused. -/
theorem Extern_Examine_entry_name (N : List Char) (t : ASSEMBLER_TABLE)
    (h : directive_name N ∈ t.entry_head.map (fun e => e.label)) :
    Extern_Examine (N ++ ['\n']) t ≠ TRUE := by
  obtain ⟨e, he, hl⟩ := List.mem_map.mp h
  have hany : t.entry_head.any (fun l => decide ((extract_Label (N ++ ['\n']) '\n').2 = l.label))
      = true := by
    rw [List.any_eq_true]
    exact ⟨e, he, by simpa [directive_name] using hl.symm⟩
  unfold Extern_Examine
  simp only [hany, or_true, if_true]
  split_ifs <;> simp_all [TRUE, FALSE]

/-- One `.entry N` line: afterwards the run is marked failed by this line or `N` is in
the entry list; when `N` is in the extern list the line marks the run failed. -/
theorem entry_line_step (s : FIRSTPASS_STATE) (N : List Char) :
    (s.error_flag < (firstpass_line s (entry_line N)).error_flag
        ∨ directive_name N ∈ (firstpass_line s (entry_line N)).table.entry_head.map
            (fun e => e.label))
      ∧ (directive_name N ∈ s.table.extern_head.map (fun e => e.label) →
          s.error_flag < (firstpass_line s (entry_line N)).error_flag) := by
  by_cases hscan : (extract_Label_scan MAX_LABEL_SIZE (entry_line N) ':').2 = true
  · have h := firstpass_line_dot_colon s ("entry".toList ++ (N ++ ['\n'])) hscan
    have e : entry_line N = '.' :: ("entry".toList ++ (N ++ ['\n'])) := rfl
    rw [e, h]
    exact ⟨Or.inl (Nat.lt_succ_self _), fun _ => Nat.lt_succ_self _⟩
  · have hscan' : (extract_Label_scan MAX_LABEL_SIZE (entry_line N) ':').2 = false := by
      simpa using hscan
    rw [firstpass_line_entry_no_colon s N hscan']
    simp only [firstpass_next, TRUE, Nat.zero_add]
    constructor
    · by_cases hex : Entry_Examine (N ++ ['\n']) s.table = 0
      · right
        simp [hex, insert_Entry_List, directive_name]
      · left; omega
    · intro hmem
      have := Entry_Examine_extern_name N s.table hmem
      simp only [TRUE] at this
      omega

/-- One `.extern N` line: afterwards the run is marked failed by this line or `N` is in
the extern list; when `N` is in the entry list the line marks the run failed. -/
theorem extern_line_step (s : FIRSTPASS_STATE) (N : List Char) :
    (s.error_flag < (firstpass_line s (extern_line N)).error_flag
        ∨ directive_name N ∈ (firstpass_line s (extern_line N)).table.extern_head.map
            (fun e => e.label))
      ∧ (directive_name N ∈ s.table.entry_head.map (fun e => e.label) →
          s.error_flag < (firstpass_line s (extern_line N)).error_flag) := by
  by_cases hscan : (extract_Label_scan MAX_LABEL_SIZE (extern_line N) ':').2 = true
  · have h := firstpass_line_dot_colon s ("extern".toList ++ (N ++ ['\n'])) hscan
    have e : extern_line N = '.' :: ("extern".toList ++ (N ++ ['\n'])) := rfl
    rw [e, h]
    exact ⟨Or.inl (Nat.lt_succ_self _), fun _ => Nat.lt_succ_self _⟩
  · have hscan' : (extract_Label_scan MAX_LABEL_SIZE (extern_line N) ':').2 = false := by
      simpa using hscan
    rw [firstpass_line_extern_no_colon s N hscan']
    simp only [firstpass_next, TRUE, Nat.zero_add]
    constructor
    · by_cases hex : Extern_Examine (N ++ ['\n']) s.table = 0
      · right
        simp [hex, insert_Extern_List, directive_name]
      · left; omega
    · intro hmem
      have := Extern_Examine_entry_name N s.table hmem
      simp only [TRUE] at this
      omega

theorem entry_line_ne_extern_line (N : List Char) : entry_line N ≠ extern_line N := by
  intro h
  have h2 : (entry_line N).get? 2 = (extern_line N).get? 2 := by rw [h]
  exact absurd h2 (by simp [entry_line, extern_line])

/-- Once `N` is in the entry list, a later `.extern N` line marks the run failed. -/
theorem later_extern_line_fails (N : List Char) (lines : List (List Char)) :
    ∀ s : FIRSTPASS_STATE, extern_line N ∈ lines →
      directive_name N ∈ s.table.entry_head.map (fun e => e.label) →
      s.error_flag < (lines.foldl firstpass_line s).error_flag := by
  induction lines with
  | nil => intro s h; exact absurd h (List.not_mem_nil _)
  | cons line rest ih =>
    intro s hx hmem
    rw [List.foldl_cons]
    rcases List.mem_cons.mp hx with hl | hr
    · rw [← hl]
      exact Nat.lt_of_lt_of_le ((extern_line_step s N).2 hmem) (firstpass_foldl_grows rest _).1
    · obtain ⟨a1, ⟨x1, b1⟩, _⟩ := firstpass_line_grows s line
      have hmem2 : directive_name N ∈ (firstpass_line s line).table.entry_head.map
          (fun e => e.label) := by
        rw [b1, List.map_append]; exact List.mem_append_left _ hmem
      exact Nat.lt_of_le_of_lt a1 (ih _ hr hmem2)

/-- Once `N` is in the extern list, a later `.entry N` line marks the run failed. -/
theorem later_entry_line_fails (N : List Char) (lines : List (List Char)) :
    ∀ s : FIRSTPASS_STATE, entry_line N ∈ lines →
      directive_name N ∈ s.table.extern_head.map (fun e => e.label) →
      s.error_flag < (lines.foldl firstpass_line s).error_flag := by
  induction lines with
  | nil => intro s h; exact absurd h (List.not_mem_nil _)
  | cons line rest ih =>
    intro s hx hmem
    rw [List.foldl_cons]
    rcases List.mem_cons.mp hx with hl | hr
    · rw [← hl]
      exact Nat.lt_of_lt_of_le ((entry_line_step s N).2 hmem) (firstpass_foldl_grows rest _).1
    · obtain ⟨a1, _, ⟨y1, c1⟩⟩ := firstpass_line_grows s line
      have hmem2 : directive_name N ∈ (firstpass_line s line).table.extern_head.map
          (fun e => e.label) := by
        rw [c1, List.map_append]; exact List.mem_append_left _ hmem
      exact Nat.lt_of_le_of_lt a1 (ih _ hr hmem2)

/-- Lines holding both `.entry N` and `.extern N`, in either order, raise the error
count of the first pass. -/
theorem firstpass_foldl_entry_extern (N : List Char) (lines : List (List Char)) :
    ∀ s : FIRSTPASS_STATE, entry_line N ∈ lines → extern_line N ∈ lines →
      s.error_flag < (lines.foldl firstpass_line s).error_flag := by
  induction lines with
  | nil => intro s h; exact absurd h (List.not_mem_nil _)
  | cons line rest ih =>
    intro s he hx
    rw [List.foldl_cons]
    rcases List.mem_cons.mp he with hel | her
    · have hxr : extern_line N ∈ rest := by
        rcases List.mem_cons.mp hx with hxl | hxr
        · exact absurd (hel.trans hxl.symm) (entry_line_ne_extern_line N)
        · exact hxr
      rw [← hel]
      rcases (entry_line_step s N).1 with hlt | hmem
      · exact Nat.lt_of_lt_of_le hlt (firstpass_foldl_grows rest _).1
      · exact Nat.lt_of_le_of_lt (firstpass_line_grows s _).1
          (later_extern_line_fails N rest _ hxr hmem)
    · rcases List.mem_cons.mp hx with hxl | hxr
      · rw [← hxl]
        rcases (extern_line_step s N).1 with hlt | hmem
        · exact Nat.lt_of_lt_of_le hlt (firstpass_foldl_grows rest _).1
        · exact Nat.lt_of_le_of_lt (firstpass_line_grows s _).1
            (later_entry_line_fails N rest _ her hmem)
      · exact Nat.lt_of_le_of_lt (firstpass_line_grows s line).1 (ih _ her hxr)

/-- C23: for every name `N`, a source whose lines include both `.entry N` and `.extern N`,
in either order, is rejected by `firstpass`: the run is marked failed (`error_flag` is not
`TRUE`) and `Second_Pass` is not invoked; and the later directive is the one refused, because
`Entry_Examine` refuses a name of the extern list and `Extern_Examine` a name of the entry
list. -/
theorem C23_entry_extern_conflict (file N : List Char)
    (he : entry_line N ∈ read_lines file.length file)
    (hx : extern_line N ∈ read_lines file.length file) :
    (firstpass file).1.error_flag ≠ TRUE
      ∧ (firstpass file).2 = none
      ∧ (∀ t : ASSEMBLER_TABLE, directive_name N ∈ t.extern_head.map (fun e => e.label) →
          Entry_Examine (N ++ ['\n']) t ≠ TRUE)
      ∧ (∀ t : ASSEMBLER_TABLE, directive_name N ∈ t.entry_head.map (fun e => e.label) →
          Extern_Examine (N ++ ['\n']) t ≠ TRUE) := by
  have h := firstpass_foldl_entry_extern N _ firstpass_init he hx
  have hne : (firstpass_loop file).error_flag ≠ TRUE := by
    unfold firstpass_loop
    simp only [TRUE]
    omega
  refine ⟨hne, ?_, Entry_Examine_extern_name N, Extern_Examine_entry_name N⟩
  simp only [firstpass]
  rw [if_neg hne]

set_option maxRecDepth 100000 in
theorem C23_entry_extern_conflict_witness :
    ((firstpass ".entryN\n.externN\n\n".toList).1.error_flag ≠ TRUE
      ∧ (firstpass ".entryN\n.externN\n\n".toList).2 = none
      ∧ (∀ t : ASSEMBLER_TABLE, directive_name ['N'] ∈ t.extern_head.map (fun e => e.label) →
          Entry_Examine (['N'] ++ ['\n']) t ≠ TRUE)
      ∧ (∀ t : ASSEMBLER_TABLE, directive_name ['N'] ∈ t.entry_head.map (fun e => e.label) →
          Extern_Examine (['N'] ++ ['\n']) t ≠ TRUE))
    ∧ (firstpass ".externN\n.entryN\n\n".toList).1.error_flag = 1 :=
  ⟨C23_entry_extern_conflict ".entryN\n.externN\n\n".toList ['N'] (by decide) (by decide),
    by decide⟩

/-! ## The pre-processor -/

theorem line_type_plain (line : List Char) (head : List MACRO_LIST)
    (h1 : starts_with line "macr".toList = false)
    (h2 : starts_with line "endmacr".toList = false) :
    line_type line head line
      = if line.head? = none ∨ line.head? = some '\n' then EMPTY_LINE
        else if ( find_macro head line).isSome then MACRO_CALL else NONE := by
  unfold line_type
  rw [h1, h2]
  simp

/-- Outside a macro definition a line whose trimmed text begins with neither `macr` nor
`endmacr` leaves the macro list, the store and `final_result` as they are and adds
`outer_text` to the `.am` file. -/
theorem Pre_Proc_outer_plain (s : PRE_PROC_STATE) (line : List Char)
    (hin : s.in_definition = false) (hp : plain_line line = true) :
    (Pre_Proc_line s line).macro_head = s.macro_head
      ∧ (Pre_Proc_line s line).store = s.store
      ∧ (Pre_Proc_line s line).in_definition = false
      ∧ (Pre_Proc_line s line).final_result = s.final_result
      ∧ (Pre_Proc_line s line).am = s.am ++ outer_text s.macro_head s.store line
      ∧ (Pre_Proc_line s line).error_flag = TRUE
      ∧ ((Pre_Proc_line s line).head_content = s.head_content
          ∨ (Pre_Proc_line s line).head_content = none) := by
  have h1 : starts_with (remove_white_spaces line) "macr".toList = false := by
    unfold plain_line at hp
    simp only [Bool.and_eq_true, Bool.not_eq_true'] at hp
    exact hp.1
  have h2 : starts_with (remove_white_spaces line) "endmacr".toList = false := by
    unfold plain_line at hp
    simp only [Bool.and_eq_true, Bool.not_eq_true'] at hp
    exact hp.2
  have ht := line_type_plain (remove_white_spaces line) s.macro_head h1 h2
  unfold Pre_Proc_line
  rw [hin]
  simp only [Bool.false_eq_true, if_false]
  unfold Pre_Proc_outer_line outer_text
  simp only [ht]
  by_cases he : (remove_white_spaces line).head? = none
      ∨ (remove_white_spaces line).head? = some '\n'
  · simp only [he, if_true]
    simp [EMPTY_LINE, MACRO_DECLARATION, MACRO_CALL, NONE, Pre_Proc_next, hin]
  · simp only [he, if_false]
    cases hf : find_macro s.macro_head (remove_white_spaces line) with
    | none =>
      simp [MACRO_DECLARATION, MACRO_CALL, NONE, Pre_Proc_next, hin]
    | some m =>
      simp [MACRO_DECLARATION, MACRO_CALL, NONE, Pre_Proc_next, hin]

theorem Pre_Proc_outer_plain_foldl (lines : List (List Char)) :
    ∀ s : PRE_PROC_STATE, s.in_definition = false → (∀ l ∈ lines, plain_line l = true) →
      (lines.foldl Pre_Proc_line s).macro_head = s.macro_head
        ∧ (lines.foldl Pre_Proc_line s).store = s.store
        ∧ (lines.foldl Pre_Proc_line s).in_definition = false
        ∧ (lines.foldl Pre_Proc_line s).final_result = s.final_result
        ∧ (lines.foldl Pre_Proc_line s).am
            = s.am ++ (lines.map (outer_text s.macro_head s.store)).flatten
        ∧ (s.error_flag = TRUE → (lines.foldl Pre_Proc_line s).error_flag = TRUE)
        ∧ ((lines.foldl Pre_Proc_line s).head_content = s.head_content
            ∨ (lines.foldl Pre_Proc_line s).head_content = none) := by
  induction lines with
  | nil => intro s hin _; simp [hin]
  | cons l rest ih =>
    intro s hin hp
    obtain ⟨a1, a2, a3, a4, a5, a6, a7⟩ :=
      Pre_Proc_outer_plain s l hin (hp l (List.mem_cons_self _ _))
    obtain ⟨b1, b2, b3, b4, b5, b6, b7⟩ :=
      ih (Pre_Proc_line s l) a3 (fun x hx => hp x (List.mem_cons_of_mem _ hx))
    rw [List.foldl_cons]
    refine ⟨b1.trans a1, b2.trans a2, b3, b4.trans a4, ?_, fun _ => b6 a6, ?_⟩
    · rw [b5, a5, a1, a2, List.map_cons, List.flatten_cons, List.append_assoc]
    · rcases b7 with h | h
      · rcases a7 with g | g
        · exact Or.inl (h.trans g)
        · exact Or.inr (h.trans g)
      · exact Or.inr h

theorem add_content_to_list_spec (store : List (List (List Char))) (head_content : Option Nat)
    (line : List Char) (h : pointer_ok store head_content = true) :
    pointer_ok (add_content_to_list store head_content line).1
        (add_content_to_list store head_content line).2 = true
      ∧ content_lines (add_content_to_list store head_content line).1
          (add_content_to_list store head_content line).2
        = content_lines store head_content ++ [line] := by
  cases head_content with
  | none =>
    constructor
    · simp [add_content_to_list, pointer_ok]
    · simp [add_content_to_list, content_lines, List.getD_eq_getElem?_getD]
  | some p =>
    have hlt : p < store.length := by simpa [pointer_ok] using h
    constructor
    · simp [add_content_to_list, pointer_ok, hlt]
    · simp [add_content_to_list, content_lines, List.getD_eq_getElem?_getD, hlt]

theorem line_type_END_MACR (line : List Char) (head : List MACRO_LIST)
    (h : starts_with line "endmacr".toList = false) : line_type line head line ≠ END_MACR := by
  unfold line_type
  rw [h]
  simp only [Bool.false_eq_true, if_false]
  split_ifs <;> decide

/-- Inside a macro definition with no error so far, a line whose trimmed text does not
begin with `endmacr` is added, trimmed, to the content list that `head_content` names. -/
theorem Pre_Proc_body_line (s : PRE_PROC_STATE) (line : List Char)
    (hin : s.in_definition = true) (herr : s.error_flag = TRUE)
    (hne : starts_with (remove_white_spaces line) "endmacr".toList = false) :
    Pre_Proc_line s line
      = { s with
          store := (add_content_to_list s.store s.head_content (remove_white_spaces line)).1
          head_content :=
            (add_content_to_list s.store s.head_content (remove_white_spaces line)).2 } := by
  unfold Pre_Proc_line
  rw [hin]
  simp only [if_true]
  unfold Pre_Proc_macro_line
  simp only [line_type_END_MACR _ s.macro_head hne, if_false, herr, if_true]
  simp [hin]

theorem Pre_Proc_body_foldl (body : List (List Char)) :
    ∀ s : PRE_PROC_STATE, s.in_definition = true → s.error_flag = TRUE →
      pointer_ok s.store s.head_content = true →
      (∀ b ∈ body, starts_with (remove_white_spaces b) "endmacr".toList = false) →
      (body.foldl Pre_Proc_line s).macro_head = s.macro_head
        ∧ (body.foldl Pre_Proc_line s).macro_name = s.macro_name
        ∧ (body.foldl Pre_Proc_line s).in_definition = true
        ∧ (body.foldl Pre_Proc_line s).error_flag = TRUE
        ∧ (body.foldl Pre_Proc_line s).final_result = s.final_result
        ∧ (body.foldl Pre_Proc_line s).am = s.am
        ∧ pointer_ok (body.foldl Pre_Proc_line s).store
            (body.foldl Pre_Proc_line s).head_content = true
        ∧ content_lines (body.foldl Pre_Proc_line s).store
              (body.foldl Pre_Proc_line s).head_content
            = content_lines s.store s.head_content ++ body.map remove_white_spaces := by
  induction body with
  | nil => intro s hin herr hp _; simp [hin, herr, hp]
  | cons b rest ih =>
    intro s hin herr hp hb
    have hstep := Pre_Proc_body_line s b hin herr (hb b (List.mem_cons_self _ _))
    obtain ⟨c1, c2⟩ := add_content_to_list_spec s.store s.head_content
      (remove_white_spaces b) hp
    rw [List.foldl_cons, hstep]
    obtain ⟨b1, b2, b3, b4, b5, b6, b7, b8⟩ :=
      ih { s with
           store := (add_content_to_list s.store s.head_content (remove_white_spaces b)).1
           head_content :=
             (add_content_to_list s.store s.head_content (remove_white_spaces b)).2 }
        hin herr c1 (fun x hx => hb x (List.mem_cons_of_mem _ hx))
    refine ⟨b1, b2, b3, b4, b5, b6, b7, ?_⟩
    rw [b8, c2, List.map_cons, List.append_assoc]
    rfl

/-- Inside a macro definition with no error so far, the line `endmacr` adds the macro
with the name and the content pointer of the state and leaves the definition. -/
theorem Pre_Proc_endmacr_line (s : PRE_PROC_STATE) (line : List Char)
    (hin : s.in_definition = true) (herr : s.error_flag = TRUE)
    (hl : remove_white_spaces line = "endmacr\n".toList) :
    Pre_Proc_line s line
      = { s with
          macro_head := add_to_macro_list s.macro_head s.macro_name s.head_content
          in_definition := false
          macro_name := []
          error_flag := TRUE } := by
  unfold Pre_Proc_line
  rw [hin]
  simp only [if_true]
  unfold Pre_Proc_macro_line
  rw [hl]
  have ht : line_type "endmacr\n".toList s.macro_head "endmacr\n".toList = END_MACR := by
    simp [line_type, starts_with, List.isPrefixOf]
  have he : End_Macr_Check ("endmacr\n".toList.drop "endmacr".length) = TRUE := by decide
  simp only [ht, if_true, he, herr]
  simp [Pre_Proc_close, Pre_Proc_next, TRUE, FALSE]

/-- Outside a macro definition the line `macr N` with a name that `Macro_Name_Check`
accepts opens the definition of `N`. -/
theorem Pre_Proc_macr_line (s : PRE_PROC_STATE) (line N : List Char)
    (hin : s.in_definition = false) (herr : s.error_flag = TRUE)
    (hl : remove_white_spaces line = "macr".toList ++ (N ++ ['\n']))
    (hN : Macro_Name_Check (N ++ ['\n']) s.macro_head = TRUE) :
    Pre_Proc_line s line = { s with macro_name := N ++ ['\n'], in_definition := true } := by
  unfold Pre_Proc_line
  rw [hin]
  simp only [Bool.false_eq_true, if_false]
  unfold Pre_Proc_outer_line
  rw [hl]
  have ht : line_type ("macr".toList ++ (N ++ ['\n'])) s.macro_head
      ("macr".toList ++ (N ++ ['\n'])) = MACRO_DECLARATION := by
    simp [line_type, starts_with, List.isPrefixOf]
  have hd : ("macr".toList ++ (N ++ ['\n'])).drop "macr".length = N ++ ['\n'] := by
    have : "macr".length = "macr".toList.length := rfl
    rw [this, List.drop_left]
  simp only [ht, if_true, hd, hN, herr]
  cases s
  simp_all [TRUE, FALSE]

theorem outer_text_no_macros (line : List Char) : outer_text [] [] line = copied_text line := by
  simp [outer_text, copied_text, find_macro]

theorem Macro_Name_Check_head (line : List Char) (head : List MACRO_LIST)
    (h : Macro_Name_Check line head = TRUE) : line.head? ≠ some '\n' := by
  intro hh
  unfold Macro_Name_Check at h
  rw [if_pos hh] at h
  exact absurd h (by decide)

theorem outer_text_one_macro (N : List Char) (body : List (List Char))
    (store : List (List (List Char))) (hc : Option Nat) (head : List MACRO_LIST)
    (line : List Char) (hN : Macro_Name_Check (N ++ ['\n']) head = TRUE)
    (hcont : content_lines store hc = body.map remove_white_spaces) :
    outer_text [⟨N ++ ['\n'], hc⟩] store line = expanded_text N body line := by
  unfold outer_text expanded_text copied_text
  by_cases hl : remove_white_spaces line = N ++ ['\n']
  · have h1 := Macro_Name_Check_head _ _ hN
    have h2 : (N ++ ['\n']).head? ≠ none := by
      cases N <;> simp
    simp only [hl, h1, h2, or_self, if_false, if_true]
    simp [ find_macro, hcont]
  · have h3 : ¬ (N ++ ['\n'] = remove_white_spaces line) := fun h => hl h.symm
    simp only [hl, if_false]
    simp [ find_macro, h3]

theorem read_lines_ne_nil (file : List Char) (h : file ≠ []) :
    read_lines file.length file ≠ [] := by
  cases file with
  | nil => exact absurd rfl h
  | cons c cs => simp [read_lines]

theorem Pre_Proc_of_lines (file : List Char) (h : read_lines file.length file ≠ []) :
    Pre_Proc file = some (Pre_Proc_result file) := by
  unfold Pre_Proc
  rw [if_neg]
  simpa using h

/-- Expansion of one macro, with the lines set apart that the code takes for `macr` or
`endmacr` lines. Let the source consist of the lines `pre`, the line `macr N` with a name that
`Macro_Name_Check` accepts, the body lines `body`, the line `endmacr` and the lines `post`,
where no trimmed line of `pre` or `post` (the calls of `N` among them) begins with `macr`
or `endmacr` and no trimmed body line begins with `endmacr`. Then `Pre_Proc` reports no
error, the macro table holds `N` with the trimmed body lines, and the `.am` file consists
of the trimmed lines of `pre` that are not empty, then for each line of `post` the
trimmed body lines in order if the line is a call of `N` and the trimmed line itself if it
is not empty, and the final newline. The `macr` line, the body at its definition and the
`endmacr` line are not written. -/
theorem Pre_Proc_result_macro_expansion (file : List Char) (pre body post : List (List Char))
    (decl endl N : List Char)
    (hlines : read_lines file.length file = pre ++ decl :: (body ++ endl :: post))
    (hN : Macro_Name_Check (N ++ ['\n']) [] = TRUE)
    (hdecl : remove_white_spaces decl = "macr".toList ++ (N ++ ['\n']))
    (hend : remove_white_spaces endl = "endmacr\n".toList)
    (hbody : ∀ b ∈ body, starts_with (remove_white_spaces b) "endmacr".toList = false)
    (hpre : ∀ l ∈ pre, plain_line l = true)
    (hpost : ∀ l ∈ post, plain_line l = true) :
    (Pre_Proc_result file).state.final_result = TRUE
      ∧ macro_table (Pre_Proc_result file).state = [(N ++ ['\n'], body.map remove_white_spaces)]
      ∧ (Pre_Proc_result file).am
          = some ((pre.map copied_text).flatten
              ++ (post.map (expanded_text N body)).flatten ++ ['\n']) := by
  obtain ⟨a1, a2, a3, a4, a5, a6, a7⟩ := Pre_Proc_outer_plain_foldl pre Pre_Proc_init rfl hpre
  have a6 := a6 rfl
  have a7 : (pre.foldl Pre_Proc_line Pre_Proc_init).head_content = none := by
    rcases a7 with h | h
    · exact h
    · exact h
  have hN1 : Macro_Name_Check (N ++ ['\n']) (pre.foldl Pre_Proc_line Pre_Proc_init).macro_head
      = TRUE := by rw [a1]; exact hN
  have hs2 := Pre_Proc_macr_line (pre.foldl Pre_Proc_line Pre_Proc_init) decl N a3 a6 hdecl hN1
  have hp2 : pointer_ok
      ({ pre.foldl Pre_Proc_line Pre_Proc_init with
          macro_name := N ++ ['\n'], in_definition := true } : PRE_PROC_STATE).store
      ({ pre.foldl Pre_Proc_line Pre_Proc_init with
          macro_name := N ++ ['\n'], in_definition := true } : PRE_PROC_STATE).head_content
      = true := by
    show pointer_ok _ (pre.foldl Pre_Proc_line Pre_Proc_init).head_content = true
    rw [a7]
    rfl
  obtain ⟨b1, b2, b3, b4, b5, b6, _, b8⟩ := Pre_Proc_body_foldl body
    { pre.foldl Pre_Proc_line Pre_Proc_init with macro_name := N ++ ['\n'], in_definition := true }
    rfl a6 hp2 hbody
  have hs4 := Pre_Proc_endmacr_line _ endl b3 b4 hend
  obtain ⟨c1, c2, c3, c4, c5, _, _⟩ := Pre_Proc_outer_plain_foldl post _
    (show ({ body.foldl Pre_Proc_line
              { pre.foldl Pre_Proc_line Pre_Proc_init with
                macro_name := N ++ ['\n'], in_definition := true } with
            macro_head := add_to_macro_list _ _ _
            in_definition := false
            macro_name := []
            error_flag := TRUE } : PRE_PROC_STATE).in_definition = false from rfl) hpost
  have hfold : (read_lines file.length file).foldl Pre_Proc_line Pre_Proc_init
      = post.foldl Pre_Proc_line
          { body.foldl Pre_Proc_line
              { pre.foldl Pre_Proc_line Pre_Proc_init with
                macro_name := N ++ ['\n'], in_definition := true } with
            macro_head := add_to_macro_list
              (body.foldl Pre_Proc_line
                { pre.foldl Pre_Proc_line Pre_Proc_init with
                  macro_name := N ++ ['\n'], in_definition := true }).macro_head
              (body.foldl Pre_Proc_line
                { pre.foldl Pre_Proc_line Pre_Proc_init with
                  macro_name := N ++ ['\n'], in_definition := true }).macro_name
              (body.foldl Pre_Proc_line
                { pre.foldl Pre_Proc_line Pre_Proc_init with
                  macro_name := N ++ ['\n'], in_definition := true }).head_content
            in_definition := false
            macro_name := []
            error_flag := TRUE } := by
    rw [hlines, List.foldl_append, List.foldl_cons, hs2, List.foldl_append, List.foldl_cons, hs4]
  have hstate : (Pre_Proc_result file).state = (read_lines file.length file).foldl Pre_Proc_line
      Pre_Proc_init := by
    show Pre_Proc_end _ = _
    unfold Pre_Proc_end
    rw [hfold, c3]
    simp
  have hfin : (Pre_Proc_result file).state.final_result = TRUE := by
    rw [hstate, hfold, c4]
    show (body.foldl Pre_Proc_line _).final_result = TRUE
    rw [b5]
    exact a4
  have hcont : content_lines
      (body.foldl Pre_Proc_line
        { pre.foldl Pre_Proc_line Pre_Proc_init with
          macro_name := N ++ ['\n'], in_definition := true }).store
      (body.foldl Pre_Proc_line
        { pre.foldl Pre_Proc_line Pre_Proc_init with
          macro_name := N ++ ['\n'], in_definition := true }).head_content
      = body.map remove_white_spaces := by
    rw [b8]
    show content_lines (pre.foldl Pre_Proc_line Pre_Proc_init).store
      (pre.foldl Pre_Proc_line Pre_Proc_init).head_content ++ _ = _
    rw [a7]
    rfl
  have hmh : (body.foldl Pre_Proc_line
        { pre.foldl Pre_Proc_line Pre_Proc_init with
          macro_name := N ++ ['\n'], in_definition := true }).macro_head = [] := by
    rw [b1]; exact a1
  refine ⟨hfin, ?_, ?_⟩
  · unfold macro_table
    rw [hstate, hfold, c1, c2]
    show (add_to_macro_list _ _ _).map _ = _
    rw [hmh, b2]
    simp only [add_to_macro_list, List.nil_append, List.map_cons, List.map_nil]
    rw [hcont]
  · have ham : (Pre_Proc_result file).am = some ((Pre_Proc_result file).state.am ++ ['\n']) := by
      show (if (Pre_Proc_result file).state.final_result = FALSE then none else some _) = _
      rw [hfin]
      rfl
    rw [ham, hstate, hfold, c5]
    show some ((body.foldl Pre_Proc_line _).am ++ (post.map (outer_text (add_to_macro_list _ _ _)
      (body.foldl Pre_Proc_line _).store)).flatten ++ ['\n']) = _
    rw [b6, hmh, b2]
    show some ((pre.foldl Pre_Proc_line Pre_Proc_init).am ++ _ ++ ['\n']) = _
    rw [a5]
    have e1 : outer_text Pre_Proc_init.macro_head Pre_Proc_init.store = copied_text := by
      funext l; exact outer_text_no_macros l
    have e2 : (outer_text
          (add_to_macro_list []
            ({ pre.foldl Pre_Proc_line Pre_Proc_init with
               macro_name := N ++ ['\n'], in_definition := true } : PRE_PROC_STATE).macro_name
            (body.foldl Pre_Proc_line
              { pre.foldl Pre_Proc_line Pre_Proc_init with
                macro_name := N ++ ['\n'], in_definition := true }).head_content)
          (body.foldl Pre_Proc_line
              { pre.foldl Pre_Proc_line Pre_Proc_init with
                macro_name := N ++ ['\n'], in_definition := true }).store)
        = expanded_text N body := by
      funext l
      exact outer_text_one_macro N body _ _ [] l hN hcont
    rw [e1, e2]
    rfl

/-! ## Macros -/

theorem Pre_Proc_macro_expansion (file : List Char) (pre body post : List (List Char))
    (decl endl N : List Char)
    (hlines : read_lines file.length file = pre ++ decl :: (body ++ endl :: post))
    (hN : Macro_Name_Check (N ++ ['\n']) [] = TRUE)
    (hdecl : remove_white_spaces decl = "macr".toList ++ (N ++ ['\n']))
    (hend : remove_white_spaces endl = "endmacr\n".toList)
    (hbody : ∀ b ∈ body, starts_with (remove_white_spaces b) "endmacr".toList = false)
    (hpre : ∀ l ∈ pre, plain_line l = true)
    (hpost : ∀ l ∈ post, plain_line l = true) :
    (Pre_Proc file).map (fun r => r.state.final_result) = some TRUE
      ∧ (Pre_Proc file).map (fun r => macro_table r.state)
          = some [(N ++ ['\n'], body.map remove_white_spaces)]
      ∧ (Pre_Proc file).map (fun r => r.am)
          = some (some ((pre.map copied_text).flatten
              ++ (post.map (expanded_text N body)).flatten ++ ['\n'])) := by
  have hne : read_lines file.length file ≠ [] := by
    rw [hlines]
    simp
  obtain ⟨h1, h2, h3⟩ := Pre_Proc_result_macro_expansion file pre body post decl endl N hlines
    hN hdecl hend hbody hpre hpost
  rw [Pre_Proc_of_lines file hne]
  simp only [Option.map_some', h1, h2, h3]
  exact ⟨trivial, trivial, trivial⟩

set_option maxRecDepth 100000 in
/-- C27 fails on the code for a macro whose name begins with `macr`. The name `macro1` is
accepted by `Macro_Name_Check`, and for `macr macro1` / `prn #7` / `endmacr` / `macro1` /
`stop` the claim puts `prn#7` and `stop` in the `.am` file. `line_type` tests the trimmed
line for the first letters `macr` before it looks for a macro call, so the call line
`macro1` is taken for the declaration of a macro `o1`: no error is reported and neither
the body `prn#7` nor the line `stop` reaches the `.am` file, which holds the final newline
only. For the source S2 (`GREET`) the `.am` file is `prn#7` / `stop`, and in general: when
the source consists of the lines `pre`, the line `macr N` with a name that
`Macro_Name_Check` accepts, the body lines `body`, the line `endmacr` and the lines `post`,
where no trimmed line of `pre` or `post` (the calls of `N` among them) begins with `macr`
or `endmacr` and no trimmed body line begins with `endmacr`, `Pre_Proc` reports no error,
the macro table holds `N` with the trimmed body lines, and the `.am` file consists of the
trimmed lines of `pre` that are not empty, then for each line of `post` the trimmed body
lines in order if the line is a call of `N` and the trimmed line itself if it is not
empty, and the final newline. -/
theorem C27_macro_named_macro1_lost :
    Macro_Name_Check "macro1\n".toList [] = TRUE
      ∧ read_lines example_macro1_source.length example_macro1_source
          = ["macr macro1\n".toList, "prn #7\n".toList, "endmacr\n".toList,
             "macro1\n".toList, "stop\n".toList]
      ∧ (["macro1\n".toList, "stop\n".toList].map
            (expanded_text "macro1".toList ["prn #7\n".toList])).flatten
          = "prn#7\nstop\n".toList
      ∧ line_type "macro1\n".toList [⟨"macro1\n".toList, some 0⟩] "macro1\n".toList
          = MACRO_DECLARATION
      ∧ (Pre_Proc example_macro1_source).map (fun r => r.state.final_result) = some TRUE
      ∧ (Pre_Proc example_macro1_source).map (fun r => r.am) = some (some "\n".toList)
      ∧ (Pre_Proc example_greet_source).map (fun r => r.am)
          = some (some "prn#7\nstop\n\n".toList)
      ∧ (∀ (file : List Char) (pre body post : List (List Char)) (decl endl N : List Char),
          read_lines file.length file = pre ++ decl :: (body ++ endl :: post) →
          Macro_Name_Check (N ++ ['\n']) [] = TRUE →
          remove_white_spaces decl = "macr".toList ++ (N ++ ['\n']) →
          remove_white_spaces endl = "endmacr\n".toList →
          (∀ b ∈ body, starts_with (remove_white_spaces b) "endmacr".toList = false) →
          (∀ l ∈ pre, plain_line l = true) →
          (∀ l ∈ post, plain_line l = true) →
          (Pre_Proc file).map (fun r => r.state.final_result) = some TRUE
            ∧ (Pre_Proc file).map (fun r => macro_table r.state)
                = some [(N ++ ['\n'], body.map remove_white_spaces)]
            ∧ (Pre_Proc file).map (fun r => r.am)
                = some (some ((pre.map copied_text).flatten
                    ++ (post.map (expanded_text N body)).flatten ++ ['\n']))) :=
  ⟨by decide, by decide, by decide, by decide, by decide, by decide, by decide,
    Pre_Proc_macro_expansion⟩

set_option maxRecDepth 100000 in
/-- C26 fails on the code. For `macr GREET` / `prn #7` / `endmacr` / `GREET: stop` the
pre-processor records the macro `GREET` and writes `GREET:stop` to the `.am` file;
`examine_Label` accepts the label `GREET`, the first pass ends with `error_flag = TRUE`
and the label `GREET` at 100, and `Second_Pass` runs and emits the object file. The macro
list is looked at by `compare_With_Other_Lists` only, which is never called. -/
theorem C26_label_named_as_macro_accepted :
    (Pre_Proc example_label_macro_source).map (fun r => macro_table r.state)
        = some [("GREET\n".toList, ["prn#7\n".toList])]
      ∧ (Pre_Proc example_label_macro_source).map (fun r => r.am)
          = some (some "GREET:stop\n\n".toList)
      ∧ examine_Label "GREET".toList = TRUE
      ∧ (Pre_Proc example_label_macro_source).map
            (fun r => r.first.map (fun f => f.1.error_flag)) = some (some TRUE)
      ∧ (Pre_Proc example_label_macro_source).map
            (fun r => r.first.map (fun f => f.1.table.label_head))
          = some (some [⟨"GREET".toList, 100⟩])
      ∧ (Pre_Proc example_label_macro_source).map
            (fun r => r.first.map (fun f => f.2.map (fun o => o.emitted.map (fun a => a.ob))))
          = some (some (some (some "\n\t1 0\n0100\t74004\n".toList))) := by
  decide

theorem Pre_Proc_close_head_content (s : PRE_PROC_STATE) :
    (Pre_Proc_close s).head_content = s.head_content := rfl

theorem Pre_Proc_macro_line_END_MACR (s : PRE_PROC_STATE) (line : List Char)
    (hin : s.in_definition = true)
    (ht : line_type (remove_white_spaces line) s.macro_head (remove_white_spaces line)
      = END_MACR) :
    (Pre_Proc_line s line).head_content = s.head_content := by
  unfold Pre_Proc_line
  rw [hin]
  simp only [if_true]
  unfold Pre_Proc_macro_line
  simp only [ht, if_true]
  rw [Pre_Proc_close_head_content]

theorem Pre_Proc_outer_line_MACRO_DECLARATION (s : PRE_PROC_STATE) (line : List Char)
    (hin : s.in_definition = false)
    (ht : line_type (remove_white_spaces line) s.macro_head (remove_white_spaces line)
      = MACRO_DECLARATION) :
    (Pre_Proc_line s line).head_content = s.head_content := by
  unfold Pre_Proc_line
  rw [hin]
  simp only [Bool.false_eq_true, if_false]
  unfold Pre_Proc_outer_line
  simp only [ht, if_true]

set_option maxRecDepth 100000 in
/-- C28 fails on the code for macros defined one after the other. `Pre_Proc` never sets
its pointer `head_content` back to `NULL` behind a definition: neither the `endmacr` line
nor the next `macr` line changes it, so the lines of the second macro go to the content
list of the first and both nodes name that list. For `macr A` / `inc r1` / `endmacr` /
`macr B` / `dec r2` / `endmacr` / `A` / `B` / `stop` both macros hold `incr1`, `decr2` and
each call writes both lines. With a call of `A` between the definitions (the call leaves
the pointer at `NULL`) every macro holds its own lines. -/
theorem C28_consecutive_macros_share_content :
    (Pre_Proc example_two_macros_source).map (fun r => macro_table r.state)
        = some [("A\n".toList, ["incr1\n".toList, "decr2\n".toList]),
                ("B\n".toList, ["incr1\n".toList, "decr2\n".toList])]
      ∧ (Pre_Proc example_two_macros_source).map (fun r => r.am)
          = some (some "incr1\ndecr2\nincr1\ndecr2\nstop\n\n".toList)
      ∧ (Pre_Proc example_call_between_source).map (fun r => macro_table r.state)
          = some [("A\n".toList, ["incr1\n".toList]), ("B\n".toList, ["decr2\n".toList])]
      ∧ (Pre_Proc example_call_between_source).map (fun r => r.am)
          = some (some "incr1\nincr1\ndecr2\nstop\n\n".toList)
      ∧ (∀ (s : PRE_PROC_STATE) (line : List Char), s.in_definition = true →
          line_type (remove_white_spaces line) s.macro_head (remove_white_spaces line)
            = END_MACR →
          (Pre_Proc_line s line).head_content = s.head_content)
      ∧ (∀ (s : PRE_PROC_STATE) (line : List Char), s.in_definition = false →
          line_type (remove_white_spaces line) s.macro_head (remove_white_spaces line)
            = MACRO_DECLARATION →
          (Pre_Proc_line s line).head_content = s.head_content) :=
  ⟨by decide, by decide, by decide, by decide, Pre_Proc_macro_line_END_MACR,
    Pre_Proc_outer_line_MACRO_DECLARATION⟩

theorem add_content_to_list_grows (store : List (List (List Char)))
    (head_content : Option Nat) (line : List Char) (p : Nat) :
    ∃ x, (add_content_to_list store head_content line).1.getD p [] = store.getD p [] ++ x := by
  cases head_content with
  | none =>
    simp only [add_content_to_list, List.getD_eq_getElem?_getD]
    by_cases h : p < store.length
    · exact ⟨[], by simp [List.getElem?_append_left h]⟩
    · have h1 : store.length ≤ p := Nat.le_of_not_lt h
      exact ⟨([[line]][p - store.length]?).getD [], by
        rw [List.getElem?_append_right h1, List.getElem?_eq_none h1]; rfl⟩
  | some q =>
    simp only [add_content_to_list, List.getD_eq_getElem?_getD]
    by_cases hq : q = p
    · subst hq
      by_cases h : q < store.length
      · exact ⟨[line], by simp [h]⟩
      · have h1 : store.length ≤ q := Nat.le_of_not_lt h
        exact ⟨[], by simp [List.getElem?_set, h, List.getElem?_eq_none h1]⟩
    · exact ⟨[], by simp [List.getElem?_set, hq]⟩

theorem Pre_Proc_line_store (s : PRE_PROC_STATE) (line : List Char) :
    (Pre_Proc_line s line).store = s.store
      ∨ (Pre_Proc_line s line).store
          = (add_content_to_list s.store s.head_content (remove_white_spaces line)).1 := by
  unfold Pre_Proc_line Pre_Proc_macro_line Pre_Proc_outer_line
  simp only
  split_ifs
  all_goals first
    | exact Or.inl rfl
    | exact Or.inr rfl
    | (split <;> exact Or.inl rfl)

/-- A content list of the store only grows at its end. -/
theorem Pre_Proc_line_store_grows (s : PRE_PROC_STATE) (line : List Char) (p : Nat) :
    ∃ x, (Pre_Proc_line s line).store.getD p [] = s.store.getD p [] ++ x := by
  rcases Pre_Proc_line_store s line with h | h
  · exact ⟨[], by rw [h, List.append_nil]⟩
  · rw [h]
    exact add_content_to_list_grows _ _ _ _

theorem Pre_Proc_foldl_store_grows (lines : List (List Char)) (p : Nat) :
    ∀ s : PRE_PROC_STATE,
      ∃ x, (lines.foldl Pre_Proc_line s).store.getD p [] = s.store.getD p [] ++ x := by
  induction lines with
  | nil => intro s; exact ⟨[], by simp⟩
  | cons l rest ih =>
    intro s
    obtain ⟨x, hx⟩ := Pre_Proc_line_store_grows s l p
    obtain ⟨y, hy⟩ := ih (Pre_Proc_line s l)
    exact ⟨x ++ y, by rw [List.foldl_cons, hy, hx, List.append_assoc]⟩

theorem line_type_MACRO_CALL (line : List Char) (head : List MACRO_LIST)
    (h : line_type line head line = MACRO_CALL) : ( find_macro head line).isSome = true := by
  unfold line_type at h
  split_ifs at h with h1 h2 h3 h4
  · exact absurd h (by decide)
  · exact absurd h (by decide)
  · exact absurd h (by decide)
  · exact h4
  · exact absurd h (by decide)

/-- A macro call writes the lines of the content list of the macro, as they are stored. -/
theorem Pre_Proc_call_line (t : PRE_PROC_STATE) (call : List Char) (hin : t.in_definition = false)
    (ht : line_type (remove_white_spaces call) t.macro_head (remove_white_spaces call)
      = MACRO_CALL) :
    ∃ e, find_macro t.macro_head (remove_white_spaces call) = some e
      ∧ (Pre_Proc_line t call).am = t.am ++ (content_lines t.store e.head_content).flatten := by
  have hs := line_type_MACRO_CALL _ _ ht
  obtain ⟨e, he⟩ := Option.isSome_iff_exists.mp hs
  refine ⟨e, he, ?_⟩
  unfold Pre_Proc_line
  rw [hin]
  simp only [Bool.false_eq_true, if_false]
  unfold Pre_Proc_outer_line
  have h41 : ¬ (MACRO_CALL = MACRO_DECLARATION) := by decide
  simp only [ht, h41, if_false, if_true, he]
  rfl

theorem Pre_Proc_line_pointer_ok (s : PRE_PROC_STATE) (line : List Char)
    (h : pointer_ok s.store s.head_content = true) :
    pointer_ok (Pre_Proc_line s line).store (Pre_Proc_line s line).head_content = true := by
  have hadd := (add_content_to_list_spec s.store s.head_content (remove_white_spaces line) h).1
  unfold Pre_Proc_line Pre_Proc_macro_line Pre_Proc_outer_line
  simp only
  split_ifs
  all_goals first
    | exact h
    | exact hadd
    | (split <;> first | exact h | rfl)

/-- In every state that `Pre_Proc` reaches, `head_content` is `NULL` or names a list of the
store. -/
theorem Pre_Proc_foldl_pointer_ok (lines : List (List Char)) :
    ∀ s : PRE_PROC_STATE, pointer_ok s.store s.head_content = true →
      pointer_ok (lines.foldl Pre_Proc_line s).store (lines.foldl Pre_Proc_line s).head_content
        = true := by
  induction lines with
  | nil => intro s h; exact h
  | cons l rest ih =>
    intro s h
    rw [List.foldl_cons]
    exact ih _ (Pre_Proc_line_pointer_ok s l h)

/-- A macro name inside a definition, for inner names that do not begin with `endmacr`.
Let `s` be the state that
`Pre_Proc` reaches behind the lines `before`, inside the definition of a macro with no
error so far. A line whose trimmed text is the name of a macro of the table and does not
begin with `endmacr` is not expanded: nothing is written, the definition goes on, and the
trimmed line itself is added to the content list of the macro under definition, where it
stays whatever lines follow. A call of a macro writes the lines of its content list as
they are stored, with no look at the macro table. -/
theorem Pre_Proc_single_level (before : List (List Char)) (s : PRE_PROC_STATE)
    (line : List Char) (rest : List (List Char)) (m : MACRO_LIST)
    (hs : s = before.foldl Pre_Proc_line Pre_Proc_init)
    (hin : s.in_definition = true) (herr : s.error_flag = TRUE)
    (_hm : find_macro s.macro_head (remove_white_spaces line) = some m)
    (hne : starts_with (remove_white_spaces line) "endmacr".toList = false) :
    (Pre_Proc_line s line).in_definition = true
      ∧ (Pre_Proc_line s line).am = s.am
      ∧ content_lines (Pre_Proc_line s line).store (Pre_Proc_line s line).head_content
          = content_lines s.store s.head_content ++ [remove_white_spaces line]
      ∧ (∃ x, content_lines (rest.foldl Pre_Proc_line (Pre_Proc_line s line)).store
            (Pre_Proc_line s line).head_content
          = content_lines s.store s.head_content ++ [remove_white_spaces line] ++ x)
      ∧ (∀ (t : PRE_PROC_STATE) (call : List Char), t.in_definition = false →
          line_type (remove_white_spaces call) t.macro_head (remove_white_spaces call)
            = MACRO_CALL →
          ∃ e, find_macro t.macro_head (remove_white_spaces call) = some e
            ∧ (Pre_Proc_line t call).am
                = t.am ++ (content_lines t.store e.head_content).flatten) := by
  have hp : pointer_ok s.store s.head_content = true := by
    rw [hs]
    exact Pre_Proc_foldl_pointer_ok before Pre_Proc_init rfl
  have hstep := Pre_Proc_body_line s line hin herr hne
  obtain ⟨c1, c2⟩ := add_content_to_list_spec s.store s.head_content
    (remove_white_spaces line) hp
  have h3 : content_lines (Pre_Proc_line s line).store (Pre_Proc_line s line).head_content
      = content_lines s.store s.head_content ++ [remove_white_spaces line] := by
    rw [hstep]; exact c2
  refine ⟨by rw [hstep]; exact hin, by rw [hstep], h3, ?_, Pre_Proc_call_line⟩
  cases hh : (Pre_Proc_line s line).head_content with
  | none =>
    rw [hh] at h3
    exact absurd h3 (by simp [content_lines])
  | some p =>
    obtain ⟨x, hx⟩ := Pre_Proc_foldl_store_grows rest p (Pre_Proc_line s line)
    rw [hh] at h3
    refine ⟨x, ?_⟩
    simp only [content_lines] at h3 ⊢
    rw [hx, h3]

set_option maxRecDepth 100000 in
/-- C29 fails on the code for an inner macro whose name begins with `endmacr`. The name
`endmacro` is accepted by `Macro_Name_Check` and defined, but `line_type` tests the
trimmed line for the first letters `endmacr` before it looks at the macro table, so the
line `endmacro` in the body of `B` is taken for the `endmacr` line with text behind it:
for `macr endmacro` / `inc r1` / `endmacr` / `macr B` / `endmacro` / `stop` / `endmacr` /
`B` the line is not stored, `B` is not added to the macro table, the run is marked failed
and the `.am` file is removed. For `macr A` / `inc r1` / `endmacr` / `A` / `macr B` / `A` /
`stop` / `endmacr` / `B` the line `A` is stored in `B` and written as it is, and in
general: in a state `s` that `Pre_Proc` reaches behind the lines `before`, inside the
definition of a macro with no error so far, a line whose trimmed text is the name of a
macro of the table and does not begin with `endmacr` is not expanded: nothing is written,
the definition goes on, and the trimmed line itself is added to the content list of the
macro under definition, where it stays whatever lines follow; a call of a macro writes
the lines of its content list as they are stored, with no look at the macro table. -/
theorem C29_inner_endmacro_not_stored :
    Macro_Name_Check "endmacro\n".toList [] = TRUE
      ∧ line_type "endmacro\n".toList [⟨"endmacro\n".toList, some 0⟩] "endmacro\n".toList
          = END_MACR
      ∧ (Pre_Proc example_endmacro_source).map (fun r => macro_table r.state)
          = some [("endmacro\n".toList, ["incr1\n".toList])]
      ∧ (Pre_Proc example_endmacro_source).map (fun r => r.state.final_result) = some FALSE
      ∧ (Pre_Proc example_endmacro_source).map (fun r => r.am) = some none
      ∧ (Pre_Proc example_nested_source).map (fun r => macro_table r.state)
          = some [("A\n".toList, ["incr1\n".toList]),
                  ("B\n".toList, ["A\n".toList, "stop\n".toList])]
      ∧ (Pre_Proc example_nested_source).map (fun r => r.am)
          = some (some "incr1\nA\nstop\n\n".toList)
      ∧ find_macro example_inside_B.macro_head (remove_white_spaces "A\n".toList)
          = some ⟨"A\n".toList, some 0⟩
      ∧ (Pre_Proc_line example_inside_B "A\n".toList).am = example_inside_B.am
      ∧ content_lines (Pre_Proc_line example_inside_B "A\n".toList).store
            (Pre_Proc_line example_inside_B "A\n".toList).head_content
          = content_lines example_inside_B.store example_inside_B.head_content
              ++ ["A\n".toList]
      ∧ (∀ (before : List (List Char)) (s : PRE_PROC_STATE) (line : List Char)
          (rest : List (List Char)) (m : MACRO_LIST),
          s = before.foldl Pre_Proc_line Pre_Proc_init →
          s.in_definition = true → s.error_flag = TRUE →
          find_macro s.macro_head (remove_white_spaces line) = some m →
          starts_with (remove_white_spaces line) "endmacr".toList = false →
          (Pre_Proc_line s line).in_definition = true
            ∧ (Pre_Proc_line s line).am = s.am
            ∧ content_lines (Pre_Proc_line s line).store (Pre_Proc_line s line).head_content
                = content_lines s.store s.head_content ++ [remove_white_spaces line]
            ∧ (∃ x, content_lines (rest.foldl Pre_Proc_line (Pre_Proc_line s line)).store
                  (Pre_Proc_line s line).head_content
                = content_lines s.store s.head_content ++ [remove_white_spaces line] ++ x)
            ∧ (∀ (t : PRE_PROC_STATE) (call : List Char), t.in_definition = false →
                line_type (remove_white_spaces call) t.macro_head (remove_white_spaces call)
                  = MACRO_CALL →
                ∃ e, find_macro t.macro_head (remove_white_spaces call) = some e
                  ∧ (Pre_Proc_line t call).am
                      = t.am ++ (content_lines t.store e.head_content).flatten)) :=
  ⟨by decide, by decide, by decide, by decide, by decide, by decide, by decide, by decide,
    by decide, by decide, Pre_Proc_single_level⟩

/-- C30 as the code has it: `Pre_Proc` has no check for text behind a macro call. Outside
a macro definition, a line whose trimmed text is the name `N` of a macro followed by
further text, is the name of no macro and begins with neither `macr` nor `endmacr`, is an
ordinary line: its trimmed text is written to the `.am` file, and the macro table and
`final_result` stay as they are. -/
theorem C30_text_after_macro_name (s : PRE_PROC_STATE) (line N extra : List Char)
    (m : MACRO_LIST) (hin : s.in_definition = false)
    (_hm : find_macro s.macro_head (N ++ ['\n']) = some m)
    (hN : N.head? ≠ none ∧ N.head? ≠ some '\n')
    (hl : remove_white_spaces line = N ++ (extra ++ ['\n']))
    (_hx : extra ≠ [])
    (hnone : find_macro s.macro_head (remove_white_spaces line) = none)
    (hp : plain_line line = true) :
    (Pre_Proc_line s line).am = s.am ++ remove_white_spaces line
      ∧ (Pre_Proc_line s line).final_result = s.final_result
      ∧ (Pre_Proc_line s line).macro_head = s.macro_head
      ∧ (Pre_Proc_line s line).in_definition = false := by
  obtain ⟨a1, _, a3, a4, a5, _, _⟩ := Pre_Proc_outer_plain s line hin hp
  refine ⟨?_, a4, a1, a3⟩
  rw [a5]
  unfold outer_text
  have h1 : (remove_white_spaces line).head? = N.head? := by
    rw [hl]
    cases N with
    | nil => exact absurd rfl hN.1
    | cons c cs => rfl
  simp only [h1, hN.1, hN.2, or_self, if_false, hnone]

set_option maxRecDepth 100000 in
theorem C30_text_after_macro_name_witness :
    ((Pre_Proc_line example_after_GREET "GREET r1\n".toList).am
        = example_after_GREET.am ++ remove_white_spaces "GREET r1\n".toList
      ∧ (Pre_Proc_line example_after_GREET "GREET r1\n".toList).final_result
          = example_after_GREET.final_result
      ∧ (Pre_Proc_line example_after_GREET "GREET r1\n".toList).macro_head
          = example_after_GREET.macro_head
      ∧ (Pre_Proc_line example_after_GREET "GREET r1\n".toList).in_definition = false)
      ∧ example_after_GREET.final_result = TRUE
      ∧ remove_white_spaces "GREET r1\n".toList = "GREETr1\n".toList :=
  ⟨C30_text_after_macro_name example_after_GREET "GREET r1\n".toList "GREET".toList
      "r1".toList ⟨"GREET\n".toList, some 0⟩ (by decide) (by decide) (by decide) (by decide)
      (by decide) (by decide) (by decide),
    by decide, by decide⟩

set_option maxRecDepth 100000 in
/-- C30 as stated fails: for `macr GREET` / `prn #7` / `endmacr` / `GREET r1` / `stop`
the pre-processor records no error, keeps the `.am` file with the line `GREETr1` in it and
calls `firstpass`. -/
theorem C30_counterexample :
    (Pre_Proc example_call_text_source).map (fun r => macro_table r.state)
        = some [("GREET\n".toList, ["prn#7\n".toList])]
      ∧ (Pre_Proc example_call_text_source).map (fun r => r.state.final_result) = some TRUE
      ∧ (Pre_Proc example_call_text_source).map (fun r => r.am)
          = some (some "GREETr1\nstop\n\n".toList)
      ∧ (Pre_Proc example_call_text_source).map (fun r => r.first.isSome) = some true := by
  decide

/-! ## The text that `remove_white_spaces` returns -/

theorem quote_copy_length_zero (cs : List Char) (h : ∀ c ∈ cs.tail, c ≠ Char.ofNat 34) :
    quote_copy_length cs = 0 := by
  cases cs with
  | nil => rfl
  | cons d tl =>
    have hp : tl.reverse.dropWhile (fun x => x != Char.ofNat 34) = [] := by
      rw [List.dropWhile_eq_nil_iff]
      intro x hx
      have := h x (by simpa using hx)
      simp [this]
    simp [quote_copy_length, hp]

theorem quote_copy_length_split (a y : List Char) (ha : a ≠ [])
    (hy : ∀ c ∈ y, c ≠ Char.ofNat 34) :
    quote_copy_length (a ++ Char.ofNat 34 :: y) = a.length + 1 := by
  cases a with
  | nil => exact absurd rfl ha
  | cons d tl =>
    have hp : (tl ++ Char.ofNat 34 :: y).reverse.dropWhile (fun x => x != Char.ofNat 34)
        = Char.ofNat 34 :: tl.reverse := by
      rw [List.reverse_append, List.reverse_cons, List.append_assoc]
      rw [List.dropWhile_append_of_pos]
      · simp [List.dropWhile]
      · intro x hx
        have := hy x (by simpa using hx)
        simp [this]
    simp only [quote_copy_length, List.cons_append, hp]
    simp

/-- The two cases of the backward search for the closing quote. -/
theorem quote_copy_length_cases (cs : List Char) :
    (quote_copy_length cs = 0 ∧ ∀ c ∈ cs.tail, c ≠ Char.ofNat 34)
      ∨ ∃ a y, a ≠ [] ∧ cs = a ++ Char.ofNat 34 :: y ∧ (∀ c ∈ y, c ≠ Char.ofNat 34)
          ∧ quote_copy_length cs = a.length + 1 := by
  cases cs with
  | nil => exact Or.inl ⟨rfl, by simp⟩
  | cons d tl =>
    by_cases hq : ∀ c ∈ tl, c ≠ Char.ofNat 34
    · exact Or.inl ⟨quote_copy_length_zero _ hq, hq⟩
    · right
      push_neg at hq
      obtain ⟨x, hx, hxq⟩ := hq
      subst hxq
      have hsplit : tl = (tl.reverse.dropWhile (fun x => x != Char.ofNat 34)).reverse
          ++ (tl.reverse.takeWhile (fun x => x != Char.ofNat 34)).reverse := by
        rw [← List.reverse_append, List.takeWhile_append_dropWhile, List.reverse_reverse]
      have hne : tl.reverse.dropWhile (fun x => x != Char.ofNat 34) ≠ [] := by
        intro h
        rw [List.dropWhile_eq_nil_iff] at h
        have := h (Char.ofNat 34) (by simpa using hx)
        simp at this
      obtain ⟨q, p, hp⟩ := List.exists_cons_of_ne_nil hne
      have hq : q = Char.ofNat 34 := by
        have := List.head_dropWhile_not (fun x => x != Char.ofNat 34) tl.reverse hne
        simp only [hp, List.head_cons] at this
        simpa using this
      subst hq
      have hy : ∀ c ∈ (tl.reverse.takeWhile (fun x => x != Char.ofNat 34)).reverse,
          c ≠ Char.ofNat 34 := by
        intro c hc
        have := List.mem_takeWhile_imp (List.mem_reverse.mp hc)
        simpa using this
      have e : tl = p.reverse ++ Char.ofNat 34 ::
          (tl.reverse.takeWhile (fun x => x != Char.ofNat 34)).reverse := by
        have h2 := hsplit
        rw [hp, List.reverse_cons, List.append_assoc] at h2
        exact h2
      have e2 : d :: tl = (d :: p.reverse) ++ Char.ofNat 34 ::
          (tl.reverse.takeWhile (fun x => x != Char.ofNat 34)).reverse := by
        rw [List.cons_append]
        exact congrArg (List.cons d) e
      refine ⟨d :: p.reverse, _, by simp, e2, hy, ?_⟩
      rw [e2]
      exact quote_copy_length_split _ _ (by simp) hy

theorem remove_white_spaces_loop_plain (fuel : Nat) :
    ∀ l : List Char, l.length ≤ fuel → (∀ c ∈ l, c ≠ Char.ofNat 34) →
      remove_white_spaces_loop fuel l = strip_plain l := by
  induction fuel with
  | zero =>
    intro l hl _
    have : l = [] := List.eq_nil_of_length_eq_zero (Nat.le_zero.mp hl)
    subst this
    rfl
  | succ fuel ih =>
    intro l hl hq
    cases l with
    | nil => rfl
    | cons c cs =>
      have hc : c ≠ Char.ofNat 34 := hq c (List.mem_cons_self _ _)
      have hcs := ih cs (by simpa using hl) (fun x hx => hq x (List.mem_cons_of_mem _ hx))
      simp only [remove_white_spaces_loop, hc, if_false, strip_plain, hcs, List.nil_append]

/-- With enough fuel the loop of `remove_white_spaces` returns `trimmed`. -/
theorem remove_white_spaces_loop_eq (fuel : Nat) :
    ∀ l : List Char, l.length ≤ fuel → remove_white_spaces_loop fuel l = trimmed l := by
  induction fuel with
  | zero =>
    intro l hl
    have : l = [] := List.eq_nil_of_length_eq_zero (Nat.le_zero.mp hl)
    subst this
    rfl
  | succ fuel ih =>
    intro l hl
    cases l with
    | nil => rfl
    | cons c cs =>
      have hlen : cs.length ≤ fuel := by simpa using hl
      by_cases hc : c = Char.ofNat 34
      · simp only [remove_white_spaces_loop, hc, if_true, trimmed]
        have htail : ∀ x ∈ (cs.drop (quote_copy_length cs)).tail, x ≠ Char.ofNat 34 := by
          rcases quote_copy_length_cases cs with ⟨h0, ht⟩ | ⟨a, y, _, hcs, hy, hn⟩
          · rw [h0]; exact ht
          · rw [hn]
            have : (cs.drop (a.length + 1)) = y := by
              rw [hcs]
              have : a ++ Char.ofNat 34 :: y = (a ++ [Char.ofNat 34]) ++ y := by simp
              rw [this]
              have hl2 : a.length + 1 = (a ++ [Char.ofNat 34]).length := by simp
              rw [hl2, List.drop_left]
            rw [this]
            intro x hx
            exact hy x (List.mem_of_mem_tail hx)
        cases hrest : cs.drop (quote_copy_length cs) with
        | nil => simp [strip_plain]
        | cons d ds =>
          rw [hrest] at htail
          have hds : ds.length ≤ fuel := by
            have h1 : (cs.drop (quote_copy_length cs)).length ≤ cs.length := by
              rw [List.length_drop]; omega
            rw [hrest] at h1
            simp only [List.length_cons] at h1
            omega
          have hplain := remove_white_spaces_loop_plain fuel ds hds htail
          simp only [strip_plain, hplain]
          split_ifs <;> simp
      · have hcs := ih cs hlen
        simp only [remove_white_spaces_loop, hc, if_false, trimmed, hcs, List.nil_append]

theorem remove_white_spaces_eq (line : List Char) : remove_white_spaces line = trimmed line :=
  remove_white_spaces_loop_eq line.length line (Nat.le_refl _)

theorem trimmed_plain (l : List Char) (h : ∀ c ∈ l, c ≠ Char.ofNat 34) :
    trimmed l = strip_plain l := by
  induction l with
  | nil => rfl
  | cons c cs ih =>
    have hc : c ≠ Char.ofNat 34 := h c (List.mem_cons_self _ _)
    simp only [trimmed, hc, if_false, strip_plain,
      ih (fun x hx => h x (List.mem_cons_of_mem _ hx))]

/-- What `strip_plain` returns holds no space, no tab and no `;`, and every byte of it is a
byte of the text or the newline written for a `;`. -/
theorem strip_plain_mem (l : List Char) :
    ∀ c ∈ strip_plain l, c ≠ ' ' ∧ c ≠ '\t' ∧ c ≠ ';' ∧ (c ∈ l ∨ c = '\n') := by
  induction l with
  | nil => intro c hc; simp [strip_plain] at hc
  | cons d ds ih =>
    intro c hc
    simp only [strip_plain] at hc
    by_cases hd : d = ';'
    · simp only [hd, if_true, List.mem_singleton] at hc
      subst hc
      exact ⟨by decide, by decide, by decide, Or.inr rfl⟩
    · simp only [hd, if_false] at hc
      rcases List.mem_append.mp hc with h | h
      · by_cases hk : d ≠ ' ' ∧ d ≠ '\t'
        · simp only [hk, and_self, if_true, List.mem_singleton, ne_eq, not_false_eq_true] at h
          subst h
          exact ⟨hk.1, hk.2, hd, Or.inl (List.mem_cons_self _ _)⟩
        · rw [if_neg hk] at h
          exact absurd h (List.not_mem_nil _)
      · obtain ⟨a, b, c1, d1⟩ := ih c h
        exact ⟨a, b, c1, d1.imp (List.mem_cons_of_mem _) id⟩

theorem strip_plain_fixed (l : List Char) (h : ∀ c ∈ l, c ≠ ' ' ∧ c ≠ '\t' ∧ c ≠ ';') :
    strip_plain l = l := by
  induction l with
  | nil => rfl
  | cons d ds ih =>
    obtain ⟨a, b, c⟩ := h d (List.mem_cons_self _ _)
    simp only [strip_plain, c, if_false, a, b, ne_eq, not_false_eq_true, and_self, if_true,
      ih (fun x hx => h x (List.mem_cons_of_mem _ hx)), List.singleton_append]

theorem strip_plain_idem (l : List Char) : strip_plain (strip_plain l) = strip_plain l :=
  strip_plain_fixed _ (fun c hc => ⟨(strip_plain_mem l c hc).1, (strip_plain_mem l c hc).2.1,
    (strip_plain_mem l c hc).2.2.1⟩)

theorem strip_plain_no_quote (l : List Char) (h : ∀ c ∈ l, c ≠ Char.ofNat 34) :
    ∀ c ∈ strip_plain l, c ≠ Char.ofNat 34 := by
  intro c hc
  rcases (strip_plain_mem l c hc).2.2.2 with h1 | h1
  · exact h c h1
  · rw [h1]; decide

theorem strip_plain_tail_no_quote (cs : List Char) (h : ∀ c ∈ cs.tail, c ≠ Char.ofNat 34) :
    ∀ c ∈ (strip_plain cs).tail, c ≠ Char.ofNat 34 := by
  cases cs with
  | nil => intro c hc; simp [strip_plain] at hc
  | cons d tl =>
    have htl : ∀ c ∈ strip_plain tl, c ≠ Char.ofNat 34 := strip_plain_no_quote tl h
    intro c hc
    simp only [strip_plain] at hc
    split_ifs at hc with h1 h2
    · simp at hc
    · simp only [List.singleton_append, List.tail_cons] at hc
      exact htl c hc
    · simp only [List.nil_append] at hc
      exact htl c (List.mem_of_mem_tail hc)

theorem trimmed_quote (cs : List Char) :
    trimmed (Char.ofNat 34 :: cs)
      = Char.ofNat 34 :: (cs.take (quote_copy_length cs)
          ++ strip_plain (cs.drop (quote_copy_length cs))) := by
  simp [trimmed]

theorem take_drop_split (a y : List Char) (x : Char) :
    (a ++ x :: y).take (a.length + 1) = a ++ [x] ∧ (a ++ x :: y).drop (a.length + 1) = y := by
  have e : a ++ x :: y = (a ++ [x]) ++ y := by simp
  have hl : a.length + 1 = (a ++ [x]).length := by simp
  rw [e, hl, List.take_left, List.drop_left]
  exact ⟨rfl, rfl⟩

/-- Behind an opening quote the text that `remove_white_spaces` returns is returned
unchanged when it is trimmed again. -/
theorem trimmed_quote_idem (cs : List Char) :
    trimmed (trimmed (Char.ofNat 34 :: cs)) = trimmed (Char.ofNat 34 :: cs) := by
  rw [trimmed_quote]
  rcases quote_copy_length_cases cs with ⟨h0, ht⟩ | ⟨a, y, ha, hcs, hy, hn⟩
  · rw [h0, List.take_zero, List.drop_zero, List.nil_append, trimmed_quote,
      quote_copy_length_zero _ (strip_plain_tail_no_quote cs ht), List.take_zero, List.drop_zero,
      List.nil_append, strip_plain_idem]
  · have hsy := strip_plain_no_quote y hy
    rw [hn, hcs, (take_drop_split a y _).1, (take_drop_split a y _).2]
    have e : a ++ [Char.ofNat 34] ++ strip_plain y = a ++ Char.ofNat 34 :: strip_plain y := by
      simp
    rw [e, trimmed_quote, quote_copy_length_split a _ ha hsy,
      (take_drop_split a (strip_plain y) _).1, (take_drop_split a (strip_plain y) _).2,
      strip_plain_idem, e]

theorem trimmed_idem (l : List Char) : trimmed (trimmed l) = trimmed l := by
  induction l with
  | nil => rfl
  | cons c cs ih =>
    by_cases hc : c = Char.ofNat 34
    · subst hc
      exact trimmed_quote_idem cs
    · by_cases hs : c = ';'
      · subst hs
        have e : trimmed (';' :: cs) = ['\n'] := by simp [trimmed]
        rw [e]
        decide
      · by_cases hk : c ≠ ' ' ∧ c ≠ '\t'
        · have e : trimmed (c :: cs) = c :: trimmed cs := by
            simp only [trimmed, hc, hs, if_false, hk, ne_eq, not_false_eq_true, and_self, if_true,
              List.singleton_append]
          rw [e]
          simp only [trimmed, hc, hs, if_false, hk, ne_eq, not_false_eq_true, and_self, if_true,
            List.singleton_append, ih]
        · have e : trimmed (c :: cs) = trimmed cs := by
            simp only [trimmed, hc, hs, if_false, hk, List.nil_append]
          rw [e, ih]

theorem remove_white_spaces_idem (x : List Char) :
    remove_white_spaces (remove_white_spaces x) = remove_white_spaces x := by
  rw [remove_white_spaces_eq x, remove_white_spaces_eq, trimmed_idem]

/-- C34: `remove_white_spaces` is idempotent: trimming a trimmed line returns it
unchanged, for every line. -/
theorem C34_remove_white_spaces_idempotent (x : List Char) :
    remove_white_spaces (remove_white_spaces x) = remove_white_spaces x :=
  remove_white_spaces_idem x

/-! ## White space, quotations and comments -/

theorem delete_blanks_cons (d : Char) (ds : List Char) :
    delete_blanks (d :: ds)
      = (if d ≠ ' ' ∧ d ≠ '\t' then [d] else []) ++ delete_blanks ds := by
  unfold delete_blanks
  rw [List.filter_cons]
  by_cases hk : d ≠ ' ' ∧ d ≠ '\t'
  · rw [if_pos hk, if_pos (by simpa using hk)]
    rfl
  · rw [if_neg hk, if_neg (by simpa using hk)]
    rfl

theorem strip_plain_no_semicolon (l : List Char) (h : ';' ∉ l) :
    strip_plain l = delete_blanks l := by
  induction l with
  | nil => rfl
  | cons d ds ih =>
    have hd : d ≠ ';' := fun e => h (e ▸ List.mem_cons_self _ _)
    have hds : ';' ∉ ds := fun e => h (List.mem_cons_of_mem _ e)
    rw [delete_blanks_cons, ← ih hds]
    simp only [strip_plain, hd, if_false]

theorem strip_plain_semicolon (xs c : List Char) (h : ';' ∉ xs) :
    strip_plain (xs ++ ';' :: c) = strip_plain xs ++ ['\n'] := by
  induction xs with
  | nil => simp [strip_plain]
  | cons d ds ih =>
    have hd : d ≠ ';' := fun e => h (e ▸ List.mem_cons_self _ _)
    have hds : ';' ∉ ds := fun e => h (List.mem_cons_of_mem _ e)
    show strip_plain (d :: (ds ++ ';' :: c)) = _
    simp only [strip_plain, hd, if_false]
    rw [ih hds, List.append_assoc]

theorem trimmed_before_quote (pre rest : List Char) (hq : Char.ofNat 34 ∉ pre) (hs : ';' ∉ pre) :
    trimmed (pre ++ rest) = delete_blanks pre ++ trimmed rest := by
  induction pre with
  | nil => rfl
  | cons d ds ih =>
    have hd : d ≠ ';' := fun e => hs (e ▸ List.mem_cons_self _ _)
    have hdq : d ≠ Char.ofNat 34 := fun e => hq (e ▸ List.mem_cons_self _ _)
    have h1 := ih (fun e => hq (List.mem_cons_of_mem _ e)) (fun e => hs (List.mem_cons_of_mem _ e))
    show trimmed (d :: (ds ++ rest)) = _
    rw [delete_blanks_cons]
    simp only [trimmed, hd, hdq, if_false]
    rw [h1, List.append_assoc]

theorem delete_blanks_mem (l : List Char) : ∀ c ∈ delete_blanks l, c ≠ ' ' ∧ c ≠ '\t' := by
  intro c hc
  have := (List.mem_filter.mp hc).2
  simpa using this

/-- The quotation block: from an opening quote to the last quote behind it the text is
copied as it is, and behind that quote no further block is opened. -/
theorem trimmed_quoted (mid post : List Char) (hp : Char.ofNat 34 ∉ post) :
    trimmed (Char.ofNat 34 :: (mid ++ Char.ofNat 34 :: post))
      = Char.ofNat 34 :: (mid ++ Char.ofNat 34 :: strip_plain post) := by
  have hp2 : ∀ c ∈ post, c ≠ Char.ofNat 34 := fun c hc e => hp (e ▸ hc)
  rw [trimmed_quote]
  cases mid with
  | nil =>
    rw [List.nil_append, quote_copy_length_zero _ (by simpa using hp2)]
    simp [strip_plain]
  | cons m ms =>
    rw [quote_copy_length_split (m :: ms) post (by simp) hp2,
      (take_drop_split (m :: ms) post _).1, (take_drop_split (m :: ms) post _).2]
    simp

theorem trimmed_one_quote (post : List Char) (hp : Char.ofNat 34 ∉ post) :
    trimmed (Char.ofNat 34 :: post) = Char.ofNat 34 :: strip_plain post := by
  have hp2 : ∀ c ∈ post.tail, c ≠ Char.ofNat 34 :=
    fun c hc e => hp (e ▸ List.mem_of_mem_tail hc)
  rw [trimmed_quote, quote_copy_length_zero _ hp2]
  simp

/-- C35: let the line have no `;` before its first double quote. With two or more double
quotes, `pre` before the first and `post` behind the last, the result is `pre` with every
space and tab deleted, then the span from the first to the last double quote unchanged,
then the text that the loop makes of `post`, which holds no space and no tab (and is
`post` with every space and tab deleted when `post` has no `;`). With one double quote the
result is built in the same way around that quote. A line with no double quote and no `;`
becomes the same line with every space and tab deleted; a line with no double quote and a
`;` becomes the text before the `;` without spaces and tabs, and a newline. -/
theorem C35_whitespace_rule (pre mid post : List Char) (h1 : Char.ofNat 34 ∉ pre)
    (h2 : ';' ∉ pre) (h3 : Char.ofNat 34 ∉ post) :
    remove_white_spaces (pre ++ Char.ofNat 34 :: (mid ++ Char.ofNat 34 :: post))
        = delete_blanks pre ++ Char.ofNat 34 :: (mid ++ Char.ofNat 34 :: strip_plain post)
      ∧ remove_white_spaces (pre ++ Char.ofNat 34 :: post)
          = delete_blanks pre ++ Char.ofNat 34 :: strip_plain post
      ∧ remove_white_spaces pre = delete_blanks pre
      ∧ remove_white_spaces post = strip_plain post
      ∧ (∀ c ∈ delete_blanks pre, c ≠ ' ' ∧ c ≠ '\t')
      ∧ (∀ c ∈ strip_plain post, c ≠ ' ' ∧ c ≠ '\t')
      ∧ (';' ∉ post → strip_plain post = delete_blanks post) := by
  refine ⟨?_, ?_, ?_, ?_, delete_blanks_mem pre, ?_, strip_plain_no_semicolon post⟩
  · rw [remove_white_spaces_eq, trimmed_before_quote _ _ h1 h2, trimmed_quoted _ _ h3]
  · rw [remove_white_spaces_eq, trimmed_before_quote _ _ h1 h2, trimmed_one_quote _ h3]
  · have h := trimmed_before_quote pre [] h1 h2
    rw [List.append_nil] at h
    rw [remove_white_spaces_eq, h]
    simp [trimmed]
  · rw [remove_white_spaces_eq]
    exact trimmed_plain post (fun c hc e => h3 (e ▸ hc))
  · intro c hc
    exact ⟨(strip_plain_mem post c hc).1, (strip_plain_mem post c hc).2.1⟩

set_option maxRecDepth 100000 in
theorem C35_whitespace_rule_witness :
    (remove_white_spaces ("\t.string ".toList ++ Char.ofNat 34 ::
          ("a \tb".toList ++ Char.ofNat 34 :: " \n".toList))
        = delete_blanks "\t.string ".toList ++ Char.ofNat 34 ::
            ("a \tb".toList ++ Char.ofNat 34 :: strip_plain " \n".toList)
      ∧ remove_white_spaces ("\t.string ".toList ++ Char.ofNat 34 :: " \n".toList)
          = delete_blanks "\t.string ".toList ++ Char.ofNat 34 :: strip_plain " \n".toList
      ∧ remove_white_spaces "\t.string ".toList = delete_blanks "\t.string ".toList
      ∧ remove_white_spaces " \n".toList = strip_plain " \n".toList
      ∧ (∀ c ∈ delete_blanks "\t.string ".toList, c ≠ ' ' ∧ c ≠ '\t')
      ∧ (∀ c ∈ strip_plain " \n".toList, c ≠ ' ' ∧ c ≠ '\t')
      ∧ (';' ∉ " \n".toList → strip_plain " \n".toList = delete_blanks " \n".toList))
      ∧ delete_blanks "\t.string ".toList = ".string".toList
      ∧ strip_plain " \n".toList = "\n".toList :=
  ⟨C35_whitespace_rule "\t.string ".toList "a \tb".toList " \n".toList (by decide) (by decide)
      (by decide),
    by decide, by decide⟩

theorem trimmed_comment (p c : List Char) (hs : ';' ∉ p)
    (hq : Char.ofNat 34 ∉ p ∨ Char.ofNat 34 ∉ c) :
    trimmed (p ++ ';' :: c) = trimmed p ++ ['\n'] := by
  induction p with
  | nil => simp [trimmed]
  | cons x xs ih =>
    have hx : x ≠ ';' := fun e => hs (e ▸ List.mem_cons_self _ _)
    have hxs : ';' ∉ xs := fun e => hs (List.mem_cons_of_mem _ e)
    by_cases hxq : x = Char.ofNat 34
    · subst hxq
      have hc : Char.ofNat 34 ∉ c := by
        rcases hq with h | h
        · exact absurd (List.mem_cons_self _ _) h
        · exact h
      have hc2 : ∀ z ∈ c, z ≠ Char.ofNat 34 := fun z hz e => hc (e ▸ hz)
      rw [List.cons_append, trimmed_quote, trimmed_quote]
      rcases quote_copy_length_cases xs with ⟨h0, ht⟩ | ⟨a, y, ha, hcs, hy, hn⟩
      · have ht2 : ∀ z ∈ (xs ++ ';' :: c).tail, z ≠ Char.ofNat 34 := by
          cases xs with
          | nil => simpa using hc2
          | cons d tl =>
            intro z hz
            simp only [List.cons_append, List.tail_cons] at hz
            rcases List.mem_append.mp hz with h | h
            · exact ht z h
            · rcases List.mem_cons.mp h with h | h
              · rw [h]; decide
              · exact hc2 z h
        rw [h0, quote_copy_length_zero _ ht2, List.take_zero, List.drop_zero, List.take_zero,
          List.drop_zero, List.nil_append, List.nil_append, strip_plain_semicolon xs c hxs]
        rfl
      · have hy2 : ∀ z ∈ y ++ ';' :: c, z ≠ Char.ofNat 34 := by
          intro z hz
          rcases List.mem_append.mp hz with h | h
          · exact hy z h
          · rcases List.mem_cons.mp h with h | h
            · rw [h]; decide
            · exact hc2 z h
        have hys : ';' ∉ y := by
          intro e
          apply hxs
          rw [hcs]
          exact List.mem_append_right _ (List.mem_cons_of_mem _ e)
        have e1 : xs ++ ';' :: c = a ++ Char.ofNat 34 :: (y ++ ';' :: c) := by
          rw [hcs]; simp
        rw [hn, e1, quote_copy_length_split a _ ha hy2, (take_drop_split a (y ++ ';' :: c) _).1,
          (take_drop_split a (y ++ ';' :: c) _).2, hcs, (take_drop_split a y _).1,
          (take_drop_split a y _).2, strip_plain_semicolon y c hys]
        simp
    · have hq2 : Char.ofNat 34 ∉ xs ∨ Char.ofNat 34 ∉ c := by
        rcases hq with h | h
        · exact Or.inl (fun e => h (List.mem_cons_of_mem _ e))
        · exact Or.inr h
      show trimmed (x :: (xs ++ ';' :: c)) = _
      simp only [trimmed, hxq, hx, if_false]
      rw [ih hxs hq2, List.append_assoc]

/-- C36, with the double quotes of the comment taken into account. For every prefix `p`
without a `;` and all comment texts `c1` and `c2`, where `p` has no double quote or neither
comment has one, `remove_white_spaces` returns the same text for `p;c1` and for `p;c2`,
namely the trimmed `p` followed by a newline. -/
theorem C36_comment_cut (p c1 c2 : List Char) (hs : ';' ∉ p)
    (hq : Char.ofNat 34 ∉ p ∨ (Char.ofNat 34 ∉ c1 ∧ Char.ofNat 34 ∉ c2)) :
    remove_white_spaces (p ++ ';' :: c1) = remove_white_spaces (p ++ ';' :: c2)
      ∧ remove_white_spaces (p ++ ';' :: c1) = remove_white_spaces p ++ ['\n'] := by
  have h1 : remove_white_spaces (p ++ ';' :: c1) = remove_white_spaces p ++ ['\n'] := by
    rw [remove_white_spaces_eq, remove_white_spaces_eq,
      trimmed_comment p c1 hs (hq.imp id (fun h => h.1))]
  have h2 : remove_white_spaces (p ++ ';' :: c2) = remove_white_spaces p ++ ['\n'] := by
    rw [remove_white_spaces_eq, remove_white_spaces_eq,
      trimmed_comment p c2 hs (hq.imp id (fun h => h.2))]
  exact ⟨h1.trans h2.symm, h1⟩

set_option maxRecDepth 100000 in
theorem C36_comment_cut_witness :
    (remove_white_spaces (example_quoted_start ++ ';' :: " one\n".toList)
        = remove_white_spaces (example_quoted_start ++ ';' :: " two;\n".toList)
      ∧ remove_white_spaces (example_quoted_start ++ ';' :: " one\n".toList)
          = remove_white_spaces example_quoted_start ++ ['\n'])
      ∧ remove_white_spaces example_quoted_start
          = ".string".toList ++ [Char.ofNat 34] ++ "a".toList ++ [Char.ofNat 34] :=
  ⟨C36_comment_cut example_quoted_start " one\n".toList " two;\n".toList (by decide)
      (Or.inr ⟨by decide, by decide⟩),
    by decide⟩

set_option maxRecDepth 100000 in
/-- C36 as stated fails when the prefix holds a double quote and the comment holds one
too: the quotation block of `remove_white_spaces` runs from the first double quote to the
last double quote of the whole line, the comment included. The prefix `.string "a"` has no
`;` and two double quotes; with the comment ` one` the result is the trimmed prefix and a
newline, with the comment ` say "hi"` the `;` and the comment are copied into the
result. -/
theorem C36_counterexample :
    ';' ∉ example_quoted_start
      ∧ (example_quoted_start.filter (fun c => decide (c = Char.ofNat 34))).length = 2
      ∧ remove_white_spaces (example_quoted_start ++ ';' :: " one\n".toList)
          = ".string".toList ++ [Char.ofNat 34] ++ "a".toList ++ [Char.ofNat 34] ++ ['\n']
      ∧ remove_white_spaces (example_quoted_start ++ ';' :: example_quoted_comment)
          = ".string".toList ++ [Char.ofNat 34] ++ "a".toList ++ [Char.ofNat 34]
              ++ ';' :: example_quoted_comment
      ∧ remove_white_spaces (example_quoted_start ++ ';' :: example_quoted_comment)
          ≠ remove_white_spaces (example_quoted_start ++ ';' :: " one\n".toList) := by
  decide

/-! ## The output buffer of `remove_white_spaces` -/

/-- The string in the buffer, read up to the first NUL, is the text of
`remove_white_spaces_loop`. -/
theorem remove_white_spaces_writes_text (fuel : Nat) :
    ∀ l : List Char, (∀ c ∈ l, c ≠ Char.ofNat 0) →
      (remove_white_spaces_writes fuel l).takeWhile (fun x => x != Char.ofNat 0)
        = remove_white_spaces_loop fuel l := by
  induction fuel with
  | zero => intro l _; rfl
  | succ fuel ih =>
    intro l hl
    cases l with
    | nil => rfl
    | cons c cs =>
      have hc : c ≠ Char.ofNat 0 := hl c (List.mem_cons_self _ _)
      have hcs : ∀ x ∈ cs, x ≠ Char.ofNat 0 := fun x hx => hl x (List.mem_cons_of_mem _ hx)
      have hq : ∀ n, ∀ x ∈ (if c = Char.ofNat 34 then c :: cs.take n else []),
          (x != Char.ofNat 0) = true := by
        intro n x hx
        split_ifs at hx
        · rcases List.mem_cons.mp hx with h | h
          · simp [h, hc]
          · simp [hcs x (List.mem_of_mem_take h)]
        · simp at hx
      have hrest : ∀ x ∈ (if c = Char.ofNat 34 then cs.drop (if c = Char.ofNat 34 then
          quote_copy_length cs else 0) else c :: cs), x ≠ Char.ofNat 0 := by
        intro x hx
        split_ifs at hx
        · exact hcs x (List.mem_of_mem_drop hx)
        · exact hl x hx
      simp only [remove_white_spaces_writes, remove_white_spaces_loop]
      cases hr : (if c = Char.ofNat 34 then cs.drop (if c = Char.ofNat 34 then
          quote_copy_length cs else 0) else c :: cs) with
      | nil =>
        simp only
        rw [List.takeWhile_append_of_pos (hq _)]
        simp
      | cons d ds =>
        rw [hr] at hrest
        have hd : d ≠ Char.ofNat 0 := hrest d (List.mem_cons_self _ _)
        have hds : ∀ x ∈ ds, x ≠ Char.ofNat 0 := fun x hx => hrest x (List.mem_cons_of_mem _ hx)
        simp only
        by_cases hsemi : d = ';'
        · simp only [hsemi, if_true]
          rw [List.takeWhile_append_of_pos (hq _)]
          simp [List.takeWhile]
        · simp only [hsemi, if_false]
          by_cases hk : d ≠ ' ' ∧ d ≠ '\t'
          · simp only [hk, ne_eq, not_false_eq_true, and_self, if_true]
            rw [List.takeWhile_append_of_pos, ih ds hds]
            intro x hx
            rcases List.mem_append.mp hx with h | h
            · exact hq _ x h
            · simp only [List.mem_singleton] at h
              simp [h, hd]
          · simp only [hk, if_false]
            rw [List.takeWhile_append_of_pos (hq _), ih ds hds]

/-- The loop of `remove_white_spaces` writes at most one byte more than the line has. -/
theorem remove_white_spaces_writes_length (fuel : Nat) :
    ∀ l : List Char, (remove_white_spaces_writes fuel l).length ≤ l.length + 1 := by
  induction fuel with
  | zero => intro l; simp [remove_white_spaces_writes]
  | succ fuel ih =>
    intro l
    cases l with
    | nil => simp [remove_white_spaces_writes]
    | cons c cs =>
      simp only [remove_white_spaces_writes]
      by_cases hc : c = Char.ofNat 34
      · simp only [hc, if_true]
        have hsum : (cs.take (quote_copy_length cs)).length
            + (cs.drop (quote_copy_length cs)).length = cs.length := by
          rw [← List.length_append, List.take_append_drop]
        cases hr : cs.drop (quote_copy_length cs) with
        | nil =>
          rw [hr] at hsum
          simp only [List.length_append, List.length_cons, List.length_nil] at hsum ⊢
          omega
        | cons d ds =>
          rw [hr] at hsum
          have := ih ds
          simp only [List.length_cons] at hsum
          simp only
          split_ifs <;> simp only [List.length_append, List.length_cons, List.length_nil] <;> omega
      · simp only [hc, if_false]
        have := ih cs
        split_ifs <;> simp only [List.length_append, List.length_cons, List.length_nil] <;> omega

set_option maxRecDepth 100000 in
/-- C40 fails on the code. Behind a `;`, and behind a quotation block that ends the line,
the loop of `remove_white_spaces` copies the terminator of the line and advances `j` once
more. For the 80-byte line of 79 letters and a `;` the loop writes 81 bytes, the positions
0 to 80, and the final `new_line[j] = '\0'` goes to position 81, behind the 81-byte
buffer; the same holds for 79 letters and a double quote. For the line `a;` of 2 bytes
`j` ends at 3. In general `j` ends at no more than the length of the line plus one, so
the buffer holds every line of at most 79 bytes, and the bytes up to the first NUL are the
text that `remove_white_spaces` returns. -/
theorem C40_write_index_overruns :
    example_full_line.length = 80
      ∧ remove_white_spaces_j example_full_line = 81
      ∧ example_full_quote_line.length = 80
      ∧ remove_white_spaces_j example_full_quote_line = 81
      ∧ remove_white_spaces_j "a;".toList = 3
      ∧ (∀ line : List Char, remove_white_spaces_j line ≤ line.length + 1)
      ∧ (∀ line : List Char, (∀ c ∈ line, c ≠ Char.ofNat 0) →
          (remove_white_spaces_writes line.length line).takeWhile (fun x => x != Char.ofNat 0)
            = remove_white_spaces line) := by
  refine ⟨by decide, by decide, by decide, by decide, by decide, ?_, ?_⟩
  · intro line
    exact remove_white_spaces_writes_length _ _
  · intro line h
    exact remove_white_spaces_writes_text _ _ h

/-! ## Macro names -/

theorem Reserved_Words_Check_newline (N : List Char) :
    Reserved_Words_Check (N ++ ['\n'])
      = if spec_reserved_words.contains N then FALSE else TRUE := by
  have h1 : (N ++ ['\n']).getLast? = some '\n' := by
    exact List.getLast?_concat _
  unfold Reserved_Words_Check
  simp only [h1, if_true, List.dropLast_concat, reserved_words_eq]

theorem takeWhile_newline (N : List Char) (h : '\n' ∉ N) :
    (N ++ ['\n']).takeWhile (fun x => x != '\n') = N := by
  rw [List.takeWhile_append_of_pos]
  · simp [List.takeWhile]
  · intro a ha
    have : a ≠ '\n' := fun e => h (e ▸ ha)
    simp [this]

/-- The value of `Macro_Name_Check` on a name of at most 30 characters followed by its
newline. -/
theorem Macro_Name_Check_iff (N : List Char) (head : List MACRO_LIST) (hlen : N.length ≤ 30)
    (hnl : '\n' ∉ N) :
    Macro_Name_Check (N ++ ['\n']) head = TRUE
      ↔ macro_name_ok N (head.map (fun m => m.macro_name)) = true := by
  have hlen2 : ¬ ((N ++ ['\n']).length ≥ MAX_LABEL_SIZE) := by
    simp only [List.length_append, List.length_singleton, MAX_LABEL_SIZE]
    omega
  have hmem : '\n' ∈ N ++ ['\n'] := by simp
  have hany : head.any (fun m => decide (m.macro_name = N ++ ['\n']))
      = (head.map (fun m => m.macro_name)).contains (N ++ ['\n']) := by
    induction head with
    | nil => rfl
    | cons m ms ih =>
      simp only [List.any_cons, List.map_cons, List.contains_cons, ih]
      congr 1
      by_cases h : m.macro_name = N ++ ['\n']
      · simp [h]
      · have h2 : ¬ (N ++ ['\n'] = m.macro_name) := fun e => h e.symm
        simp [h, h2]
  have hall : (fun x => isupper x || islower x || isdigit x || x == '_') = is_macro_char := by
    funext x
    rfl
  cases N with
  | nil => simp [Macro_Name_Check, macro_name_ok, TRUE, FALSE]
  | cons c cs =>
    have hc : c ≠ '\n' := fun e => hnl (e ▸ List.mem_cons_self _ _)
    have hhead : ¬ ((c :: cs ++ ['\n']).head? = some '\n') := by simp [hc]
    have hh : (c :: cs ++ ['\n']).head? = some c := rfl
    have htw := takeWhile_newline (c :: cs) hnl
    unfold Macro_Name_Check
    rw [if_neg hhead, if_neg hlen2]
    simp only [htw, hmem, and_true, hany, Reserved_Words_Check_newline, hall, macro_name_ok,
      List.isEmpty_cons, Bool.not_false, Bool.true_and, hh, List.head?_cons,
      Option.map_some', Option.getD_some]
    have hdig : isdigit c = true → is_letter c = false ∧ (c == '_') = false := by
      intro hd
      have h1 : 48 ≤ c.toNat ∧ c.toNat ≤ 57 := by
        simpa [isdigit] using hd
      constructor
      · simp [is_letter, isupper, islower]
        omega
      · have : c ≠ '_' := by
          intro e
          rw [e] at h1
          revert h1
          decide
        simpa using this
    have hmc : is_macro_char c = (is_letter c || isdigit c || c == '_') := rfl
    rw [List.all_cons, hmc]
    generalize (List.map (fun m => m.macro_name) head).contains (c :: cs ++ ['\n']) = D
    generalize spec_reserved_words.contains (c :: cs) = Rv
    generalize cs.all is_macro_char = B
    revert hdig
    generalize is_letter c = L
    generalize isdigit c = G
    generalize (c == '_') = U
    intro hdig
    cases G with
    | true =>
      obtain ⟨h1, h2⟩ := hdig rfl
      subst h1
      subst h2
      cases D <;> cases Rv <;> cases B <;> decide
    | false =>
      cases D <;> cases Rv <;> cases B <;> cases L <;> cases U <;> decide

/-- A name of 31 characters or more is refused by the length test, whatever it is. -/
theorem Macro_Name_Check_long (N : List Char) (head : List MACRO_LIST) (hlen : 31 ≤ N.length) :
    Macro_Name_Check (N ++ ['\n']) head = FALSE := by
  have h2 : (N ++ ['\n']).length ≥ MAX_LABEL_SIZE := by
    simp only [List.length_append, List.length_singleton, MAX_LABEL_SIZE]
    omega
  unfold Macro_Name_Check
  by_cases h1 : (N ++ ['\n']).head? = some '\n'
  · rw [if_pos h1]
  · rw [if_neg h1, if_pos h2]

/-- C31, with the first character as the code tests it. For every candidate macro name
`N` of at most 30 characters (the text between `macr` and the newline of the trimmed
line) and every macro list, `Macro_Name_Check` accepts `N` if and only if `N` is not
empty, starts with an ASCII letter or `_`, consists of ASCII letters, digits and `_`
only, is no reserved word and is not the name of a macro of the list. -/
theorem C31_macro_name_accepted_iff (N : List Char) (head : List MACRO_LIST)
    (hlen : N.length ≤ 30) (hnl : '\n' ∉ N) :
    Macro_Name_Check (N ++ ['\n']) head = TRUE
      ↔ macro_name_ok N (head.map (fun m => m.macro_name)) = true :=
  Macro_Name_Check_iff N head hlen hnl

theorem C31_macro_name_accepted_iff_witness :
    (Macro_Name_Check ("GREET_2".toList ++ ['\n']) [⟨"A\n".toList, none⟩] = TRUE
        ↔ macro_name_ok "GREET_2".toList
            ([⟨"A\n".toList, none⟩].map (fun (m : MACRO_LIST) => m.macro_name)) = true)
      ∧ Macro_Name_Check "GREET_2\n".toList [⟨"A\n".toList, none⟩] = TRUE
      ∧ Macro_Name_Check "A\n".toList [⟨"A\n".toList, none⟩] = FALSE
      ∧ Macro_Name_Check "2GREET\n".toList [] = FALSE
      ∧ Macro_Name_Check "GR-EET\n".toList [] = FALSE
      ∧ Macro_Name_Check "mov\n".toList [] = FALSE
      ∧ Macro_Name_Check "\n".toList [] = FALSE :=
  ⟨C31_macro_name_accepted_iff "GREET_2".toList [⟨"A\n".toList, none⟩] (by decide) (by decide),
    by decide, by decide, by decide, by decide, by decide, by decide⟩

/-- C31 as stated fails for a name that starts with `_`: `_x` does not start with an
ASCII letter, and `Macro_Name_Check` accepts it, because the only test on the first
character is that it is no digit. -/
theorem C31_counterexample :
    "_x".toList.length ≤ 30
      ∧ spec_macro_name_ok "_x".toList [] = false
      ∧ Macro_Name_Check ("_x".toList ++ ['\n']) [] = TRUE
      ∧ (Pre_Proc "macr _x\nstop\nendmacr\n_x\n".toList).map (fun r => r.am)
          = some (some "stop\n\n".toList) := by
  decide

set_option maxRecDepth 100000 in
/-- C32 fails on the code for a name of exactly 31 characters. `Macro_Name_Check` compares
`strlen(line)` with `MAX_LABEL_SIZE = 32`, and `line` is the name together with the
newline of the line, so a name of 31 characters, valid otherwise, is refused and
`Pre_Proc` marks the run failed; every name of 31 characters or more is refused and the
names that can be accepted have at most 30 characters. A label of the same 31 characters
is accepted by the first pass. -/
theorem C32_name_of_31_refused :
    example_name_31.length = 31
      ∧ macro_name_ok example_name_31 [] = true
      ∧ Macro_Name_Check (example_name_31 ++ ['\n']) [] = FALSE
      ∧ (Pre_Proc example_name_31_source).map (fun r => r.state.final_result) = some FALSE
      ∧ (Pre_Proc example_name_31_source).map (fun r => r.am) = some none
      ∧ (firstpass (example_name_31 ++ ":stop\n\n".toList)).1.error_flag = TRUE
      ∧ (∀ (N : List Char) (head : List MACRO_LIST), 31 ≤ N.length →
          Macro_Name_Check (N ++ ['\n']) head = FALSE)
      ∧ (∀ (N : List Char) (head : List MACRO_LIST), N.length ≤ 30 → '\n' ∉ N →
          (Macro_Name_Check (N ++ ['\n']) head = TRUE
            ↔ macro_name_ok N (head.map (fun m => m.macro_name)) = true)) := by
  refine ⟨by decide, by decide, by decide, by decide, by decide, by decide,
    Macro_Name_Check_long, Macro_Name_Check_iff⟩

/-! ## The mark for the second pass -/

theorem tagged_ne_mark (w : Nat) (h : w % 8 = A) : w ≠ MARK_FOR_SECOND_PASS := by
  intro e
  rw [e] at h
  exact absurd h (by decide)

theorem operand_word_marked (IC a type : Int) (label : List Char) (w : Nat) (ha : a ≠ IC)
    (hw : w % 8 = A) :
    ((⟨a, if type = LABEL then MARK_FOR_SECOND_PASS else w, label, type⟩
        : MACHINE_CODE_COMMAND).mila = MARK_FOR_SECOND_PASS
      ↔ (⟨a, if type = LABEL then MARK_FOR_SECOND_PASS else w, label, type⟩
        : MACHINE_CODE_COMMAND).addr ≠ IC
        ∧ (⟨a, if type = LABEL then MARK_FOR_SECOND_PASS else w, label, type⟩
          : MACHINE_CODE_COMMAND).type = LABEL) := by
  show (if type = LABEL then MARK_FOR_SECOND_PASS else w) = MARK_FOR_SECOND_PASS
    ↔ a ≠ IC ∧ type = LABEL
  by_cases h : type = LABEL
  · simp [h, ha]
  · simp [h, tagged_ne_mark w hw]

theorem first_word_marked (IC type : Int) (label : List Char) (w : Nat) (hw : w % 8 = A) :
    ((⟨IC, w, label, type⟩ : MACHINE_CODE_COMMAND).mila = MARK_FOR_SECOND_PASS
      ↔ (⟨IC, w, label, type⟩ : MACHINE_CODE_COMMAND).addr ≠ IC
        ∧ (⟨IC, w, label, type⟩ : MACHINE_CODE_COMMAND).type = LABEL) := by
  show w = MARK_FOR_SECOND_PASS ↔ IC ≠ IC ∧ type = LABEL
  simp [tagged_ne_mark w hw]

/-- The words that `generate_Mila` appends for one instruction: exactly the extension
words of a Direct operand are marked. -/
theorem generate_Mila_marked (command_code : Int) (src_op : List Char) (type_src : Int)
    (dest_op : List Char) (type_dest : Int) (IC : Int) :
    direct_words_ok IC
      (generate_Mila [] command_code src_op type_src dest_op type_dest IC).1 := by
  have hop : shift_Bits command_code OPCODE % 8 = 0 :=
    shift_Bits_mod_eight _ _ (Or.inr toU16_OPCODE)
  have h8 : shift_Bits MASK8 type_dest % 8 = 0 := shift_Bits_mod_eight _ _ (Or.inl toU16_MASK8)
  have h128 : shift_Bits MASK128 type_src % 8 = 0 :=
    shift_Bits_mod_eight _ _ (Or.inl toU16_MASK128)
  have hv3 : ∀ v : Int, (A ||| shift_Bits v 3) % 8 = A := fun v =>
    tag_A_lor _ (shift_Bits_mod_eight v 3 (Or.inr toU16_three))
  have hv6 : ∀ v : Int, (A ||| shift_Bits v 6) % 8 = A := fun v =>
    tag_A_lor _ (shift_Bits_mod_eight v 6 (Or.inr toU16_six))
  have h1ne : IC + 1 ≠ IC := by omega
  have h2ne : IC + 2 ≠ IC := by omega
  unfold generate_Mila
  by_cases h1 : command_code ≥ RTS
  · intro c hc
    simp only [h1, if_true, insert_Command_List, List.nil_append, List.mem_singleton] at hc
    subst hc
    exact first_word_marked _ _ _ _ (tag_A_lor _ hop)
  · by_cases h2 : command_code ≤ LEA
    · have hw0 : (A ||| shift_Bits MASK128 type_src ||| shift_Bits MASK8 type_dest
          ||| shift_Bits command_code OPCODE) % 8 = A := by
        rw [Nat.lor_assoc, Nat.lor_assoc]
        exact tag_A_lor _ (lor_mod_eight_zero _ _ h128 (lor_mod_eight_zero _ _ h8 hop))
      by_cases h3 : (type_src = REGISTER ∨ type_src = POINTER)
          ∧ (type_dest = POINTER ∨ type_dest = REGISTER)
      · intro c hc
        simp only [h1, h2, h3, if_true, if_false, insert_Command_List, and_self,
          List.nil_append, List.mem_append, List.mem_singleton] at hc
        rcases hc with hc | hc
        · subst hc; exact first_word_marked _ _ _ _ hw0
        · subst hc
          have hw : (A ||| shift_Bits (get_Operand_Value type_dest dest_op) 3
              ||| shift_Bits (get_Operand_Value type_src src_op) 6) % 8 = A := by
            rw [Nat.lor_assoc]
            exact tag_A_lor _ (lor_mod_eight_zero _ _
              (shift_Bits_mod_eight _ 3 (Or.inr toU16_three))
              (shift_Bits_mod_eight _ 6 (Or.inr toU16_six)))
          show _ = MARK_FOR_SECOND_PASS ↔ IC + 1 ≠ IC ∧ NONE = LABEL
          have hn : ¬ (NONE = LABEL) := by decide
          simp only [hn, and_false, iff_false]
          exact tagged_ne_mark _ hw
      · intro c hc
        simp only [h1, h2, h3, if_true, if_false, insert_Command_List,
          List.nil_append, List.mem_append, List.mem_singleton] at hc
        rcases hc with (hc | hc) | hc
        · subst hc; exact first_word_marked _ _ _ _ hw0
        · subst hc
          by_cases hl : type_src = LABEL
          · simp [hl, h1ne]
          · by_cases hn : type_src = NUMBER
            · simp only [hl, hn, if_false, if_true]
              have := tagged_ne_mark _ (hv3 (get_Operand_Value NUMBER src_op))
              have hnl : ¬ (NUMBER = LABEL) := by decide
              simp [this, hnl]
            · simp only [hl, hn, if_false]
              have := tagged_ne_mark _ (hv6 (get_Operand_Value type_src src_op))
              simp [this, hl]
        · subst hc
          exact operand_word_marked IC (IC + 2) type_dest dest_op _ h2ne (hv3 _)
    · intro c hc
      simp only [h1, h2, if_false, insert_Command_List,
        List.nil_append, List.mem_append, List.mem_singleton] at hc
      rcases hc with hc | hc
      · subst hc
        have hw : (A ||| shift_Bits MASK8 type_dest ||| shift_Bits command_code OPCODE) % 8
            = A := by
          rw [Nat.lor_assoc]
          exact tag_A_lor _ (lor_mod_eight_zero _ _ h8 hop)
        exact first_word_marked _ _ _ _ hw
      · subst hc
        exact operand_word_marked IC (IC + 1) type_dest dest_op _ h1ne (hv3 _)

theorem convert_Command_marked (command_list : List MACHINE_CODE_COMMAND) (line : List Char)
    (command : COMMAND) (IC : Int) :
    ∃ new : List MACHINE_CODE_COMMAND,
      (convert_Command command_list line command IC).1 = command_list ++ new
        ∧ direct_words_ok IC new := by
  unfold convert_Command
  split_ifs
  · exact ⟨_, generate_Mila_append _ _ _ _ _ _ _, generate_Mila_marked _ _ _ _ _ _⟩
  · exact ⟨_, generate_Mila_append _ _ _ _ _ _ _, generate_Mila_marked _ _ _ _ _ _⟩
  · exact ⟨_, generate_Mila_append _ _ _ _ _ _ _, generate_Mila_marked _ _ _ _ _ _⟩
  · exact ⟨[], by simp, fun c hc => absurd hc (List.not_mem_nil c)⟩

theorem mark_step_same (s s1 : FIRSTPASS_STATE)
    (h1 : s1.table.command_head = s.table.command_head) : mark_step s s1 :=
  ⟨[], by simp [h1], fun c hc => absurd hc (List.not_mem_nil c)⟩

theorem firstpass_switch_marked (s : FIRSTPASS_STATE) (line label : List Char)
    (label_skip skip : Int) (type : Int) (command : Option COMMAND) (error0 : Nat) :
    mark_step s (firstpass_switch s line label label_skip skip type command error0) := by
  have hsame : mark_step s (firstpass_next s type s.table s.IC s.DC error0) :=
    mark_step_same _ _ rfl
  unfold firstpass_switch
  split_ifs
  · apply mark_step_same
    unfold firstpass_case_IS_ENTRY
    dsimp only
    split_ifs <;> simp [firstpass_next, firstpass_label_command_head]
  · apply mark_step_same
    unfold firstpass_case_IS_EXTERN
    dsimp only
    split_ifs <;> simp [firstpass_next, firstpass_label_command_head]
  · apply mark_step_same
    unfold firstpass_case_IS_STRING
    dsimp only
    split_ifs <;> simp [firstpass_next, firstpass_label_command_head]
  · apply mark_step_same
    unfold firstpass_case_IS_DATA
    dsimp only
    split_ifs <;> simp [firstpass_next, firstpass_label_command_head]
  · cases command with
    | none => exact hsame
    | some cmd =>
      show mark_step s (firstpass_case_IS_COMMAND s line label label_skip skip cmd error0)
      unfold firstpass_case_IS_COMMAND
      dsimp only
      split_ifs
      · have h := convert_Command_marked s.table.command_head (line.drop skip.toNat) cmd s.IC
        simpa [mark_step, firstpass_next, firstpass_label_command_head] using h
      · exact mark_step_same _ _ (by simp [firstpass_next, firstpass_label_command_head])
  · exact hsame

theorem firstpass_line_marked (s : FIRSTPASS_STATE) (line : List Char) :
    mark_step s (firstpass_line s line) := by
  unfold firstpass_line
  exact firstpass_switch_marked _ _ _ _ _ _ _ _

/-- The words that a line appends are those of `line_words`, and among them exactly the
extension words of a Direct operand are marked. -/
theorem line_words_marked (s : FIRSTPASS_STATE) (line : List Char) :
    (firstpass_line s line).table.command_head = s.table.command_head ++ line_words s line
      ∧ direct_words_ok s.IC (line_words s line) := by
  obtain ⟨new, h1, h2⟩ := firstpass_line_marked s line
  have e : line_words s line = new := by
    unfold line_words
    rw [h1, List.drop_left]
  rw [e]
  exact ⟨h1, h2⟩

/-- Every word of the code image was appended by one of the lines. -/
theorem firstpass_foldl_words (lines : List (List Char)) :
    ∀ s : FIRSTPASS_STATE, ∀ c ∈ (lines.foldl firstpass_line s).table.command_head,
      c ∈ s.table.command_head
        ∨ ∃ before line after, lines = before ++ line :: after
            ∧ c ∈ line_words (before.foldl firstpass_line s) line := by
  induction lines with
  | nil => intro s c hc; exact Or.inl hc
  | cons l rest ih =>
    intro s c hc
    rw [List.foldl_cons] at hc
    rcases ih (firstpass_line s l) c hc with h | ⟨before, line, after, h1, h2⟩
    · rw [(line_words_marked s l).1] at h
      rcases List.mem_append.mp h with h | h
      · exact Or.inl h
      · exact Or.inr ⟨[], l, rest, rfl, h⟩
    · refine Or.inr ⟨l :: before, line, after, ?_, ?_⟩
      · rw [h1]; rfl
      · exact h2

theorem tagged_bit (w : Nat) (h : w % 8 = A) : w.testBit 2 = true := by
  have h1 : (w % 2 ^ 3).testBit 2 = w.testBit 2 := by
    rw [Nat.testBit_mod_two_pow]
    simp
  rw [← h1]
  have h2 : w % 2 ^ 3 = 4 := h
  rw [h2]
  decide

/-- C37: after the first pass every word of the code image was appended by a line of the
source, as a word of the instruction that starts at the value of `IC` before that line,
and it equals `MARK_FOR_SECOND_PASS` (0) exactly when it is an extension word of a Direct
operand, that is, not the first word of its instruction and of operand type `LABEL`;
every other word (instruction word, immediate word, register word) is tagged `A`, has bit
2 set and is not 0. So the test `mila == MARK_FOR_SECOND_PASS` of `Second_Pass`, which is
the only condition under which `second_pass_word` changes a word, selects exactly the
pending label references. -/
theorem C37_pending_discriminator (file : List Char) :
    (∀ c ∈ (firstpass_loop file).table.command_head,
        ∃ before line after, read_lines file.length file = before ++ line :: after
          ∧ c ∈ line_words (before.foldl firstpass_line firstpass_init) line
          ∧ (c.mila = MARK_FOR_SECOND_PASS
              ↔ c.addr ≠ (before.foldl firstpass_line firstpass_init).IC ∧ c.type = LABEL)
          ∧ (c.mila ≠ MARK_FOR_SECOND_PASS →
              c.mila % 8 = A ∧ c.mila.testBit 2 = true))
      ∧ (∀ (labels : List LABEL_LIST) (names : List (List Char)),
          ∀ c ∈ (firstpass_loop file).table.command_head,
            second_pass_word labels names c ≠ c → c.mila = MARK_FOR_SECOND_PASS) := by
  constructor
  · intro c hc
    have hw : first_pass_word c.mila := (firstpass_loop_inv file).1.2 c hc
    unfold firstpass_loop at hc
    rcases firstpass_foldl_words _ firstpass_init c hc with h | ⟨before, line, after, h1, h2⟩
    · exact absurd h (List.not_mem_nil c)
    · refine ⟨before, line, after, h1, h2, (line_words_marked _ line).2 c h2, ?_⟩
      intro hne
      rcases hw with h | h
      · exact absurd h hne
      · exact ⟨h, tagged_bit _ h⟩
  · intro labels names c _ hne
    by_contra h
    apply hne
    unfold second_pass_word
    rw [if_neg h]

/-! ## What the second pass leaves as it is -/

theorem second_pass_word_fixed (labels : List LABEL_LIST) (names : List (List Char))
    (c : MACHINE_CODE_COMMAND) (h : c.mila ≠ MARK_FOR_SECOND_PASS) :
    second_pass_word labels names c = c := by
  unfold second_pass_word
  rw [if_neg h]

theorem second_pass_word_fields (labels : List LABEL_LIST) (names : List (List Char))
    (c : MACHINE_CODE_COMMAND) :
    (second_pass_word labels names c).addr = c.addr
      ∧ (second_pass_word labels names c).label = c.label
      ∧ (second_pass_word labels names c).type = c.type := by
  unfold second_pass_word
  split_ifs <;> exact ⟨rfl, rfl, rfl⟩

theorem mem_zip_map {X : Type} (f : X → X) (l : List X) :
    ∀ p ∈ List.zip l (l.map f), p.2 = f p.1 := by
  induction l with
  | nil => intro p hp; simp at hp
  | cons x xs ih =>
    intro p hp
    rw [List.map_cons, List.zip_cons_cons] at hp
    rcases List.mem_cons.mp hp with h | h
    · rw [h]
    · exact ih p h

/-- C38: `Second_Pass` keeps the length and the order of the code image; position by
position the word afterwards has the address, the operand name and the operand type of
the word before, and it is the same word whenever the word before is not 0
(`MARK_FOR_SECOND_PASS`); the data image and the label list are unchanged. -/
theorem C38_second_pass_frame (t : ASSEMBLER_TABLE) (IC DC : Int) :
    (Second_Pass t IC DC).table.command_head.length = t.command_head.length
      ∧ (∀ p ∈ List.zip t.command_head (Second_Pass t IC DC).table.command_head,
          p.2.addr = p.1.addr ∧ p.2.label = p.1.label ∧ p.2.type = p.1.type
            ∧ (p.1.mila ≠ MARK_FOR_SECOND_PASS → p.2 = p.1))
      ∧ (Second_Pass t IC DC).table.command_head.map (fun c => c.addr)
          = t.command_head.map (fun c => c.addr)
      ∧ (Second_Pass t IC DC).table.instruction_head = t.instruction_head
      ∧ (Second_Pass t IC DC).table.label_head = t.label_head := by
  rw [Second_Pass_command_head]
  refine ⟨List.length_map _ _, ?_, ?_, Second_Pass_instruction_head t IC DC,
    Second_Pass_label_head t IC DC⟩
  · intro p hp
    have h := mem_zip_map _ _ p hp
    rw [h]
    obtain ⟨a, b, c⟩ := second_pass_word_fields t.label_head
      (t.extern_head.map (fun e => e.label)) p.1
    exact ⟨a, b, c, second_pass_word_fixed _ _ _⟩
  · rw [List.map_map]
    apply List.map_congr_left
    intro c _
    exact (second_pass_word_fields _ _ c).1

/-! ## An entry that is defined nowhere -/

theorem Second_Pass_without_entry (t : ASSEMBLER_TABLE) (IC DC : Int) (N : List Char) :
    (Second_Pass (without_entry t N) IC DC).error_flag = (Second_Pass t IC DC).error_flag
      ∧ (Second_Pass (without_entry t N) IC DC).undefined = (Second_Pass t IC DC).undefined
      ∧ (Second_Pass (without_entry t N) IC DC).table.command_head
          = (Second_Pass t IC DC).table.command_head
      ∧ (Second_Pass (without_entry t N) IC DC).table.extern_head
          = (Second_Pass t IC DC).table.extern_head
      ∧ (Second_Pass (without_entry t N) IC DC).table.instruction_head
          = (Second_Pass t IC DC).table.instruction_head := by
  refine ⟨?_, ?_, ?_, ?_, ?_⟩
  · rw [Second_Pass_error_flag, Second_Pass_error_flag]; rfl
  · rw [Second_Pass_undefined, Second_Pass_undefined]; rfl
  · rw [Second_Pass_command_head, Second_Pass_command_head]; rfl
  · rw [Second_Pass_extern_head, Second_Pass_extern_head]; rfl
  · rfl

theorem filter_all_eq {X : Type} (p q : X → Bool) (l : List X)
    (h : ∀ e ∈ l, p e = false → q e = true) : (l.filter p).all q = l.all q := by
  induction l with
  | nil => rfl
  | cons x xs ih =>
    have ih2 := ih (fun e he => h e (List.mem_cons_of_mem _ he))
    rw [List.filter_cons]
    cases hp : p x with
    | true => rw [if_pos rfl, List.all_cons, List.all_cons, ih2]
    | false =>
      have hq := h x (List.mem_cons_self _ _) hp
      rw [if_neg (by simp), List.all_cons, hq, ih2, Bool.true_and]

theorem filter_map_flatten_eq {X Y : Type} (p : X → Bool) (f : X → List Y) (l : List X)
    (h : ∀ e ∈ l, p e = false → f e = []) :
    ((l.filter p).map f).flatten = (l.map f).flatten := by
  induction l with
  | nil => rfl
  | cons x xs ih =>
    have ih2 := ih (fun e he => h e (List.mem_cons_of_mem _ he))
    rw [List.filter_cons]
    cases hp : p x with
    | true => rw [if_pos rfl, List.map_cons, List.map_cons, List.flatten_cons,
        List.flatten_cons, ih2]
    | false =>
      have hq := h x (List.mem_cons_self _ _) hp
      rw [if_neg (by simp), List.map_cons, List.flatten_cons, hq, ih2, List.nil_append]

theorem process_ent_file_filter (l : List ENTRY_LIST) (N : List Char)
    (h : ∀ e ∈ l, e.label = N → e.addr_list = []) :
    process_ent_file (l.filter (fun e => decide (e.label ≠ N))) = process_ent_file l := by
  have hn : ∀ e ∈ l, (fun (e : ENTRY_LIST) => decide (e.label ≠ N)) e = false →
      e.addr_list = [] := by
    intro e he hd
    apply h e he
    simpa using hd
  unfold process_ent_file
  rw [filter_all_eq _ _ l (fun e he hd => by rw [hn e he hd]; rfl),
    filter_map_flatten_eq _ _ l (fun e he hd => by rw [hn e he hd]; rfl)]

theorem Second_Pass_entries_filter (labels : List LABEL_LIST) (l : List ENTRY_LIST)
    (N : List Char) :
    Second_Pass_entries labels (l.filter (fun e => decide (e.label ≠ N)))
      = (Second_Pass_entries labels l).filter (fun e => decide (e.label ≠ N)) := by
  rw [Second_Pass_entries_spec, Second_Pass_entries_spec, List.filter_map]
  rfl

/-- C39: let `N` be the name of no label, in a table whose entry nodes have no address
yet (as the first pass leaves them). `Entry_Examine` never looks at the label list, so the
first pass has no diagnostic for a `.entry N` whose name is not defined. After
`Second_Pass` every entry node named `N` still has an empty address list and contributes
no text to the entry file; and `error_flag`, the list of names reported as undefined and
what is emitted (object file, entry file, externals file) are those of the same table
without the entry nodes named `N`. -/
theorem C39_unresolved_entry (t : ASSEMBLER_TABLE) (IC DC : Int) (N : List Char)
    (hfresh : entries_fresh t) (hN : N ∉ t.label_head.map (fun l => l.label)) :
    (∀ (line : List Char) (labels : List LABEL_LIST),
        Entry_Examine line { t with label_head := labels } = Entry_Examine line t)
      ∧ (∀ e ∈ (Second_Pass t IC DC).table.entry_head, e.label = N →
          e.addr_list = [] ∧ site_lines e.label e.addr_list = [])
      ∧ (Second_Pass t IC DC).error_flag = (Second_Pass (without_entry t N) IC DC).error_flag
      ∧ (Second_Pass t IC DC).undefined = (Second_Pass (without_entry t N) IC DC).undefined
      ∧ (Second_Pass t IC DC).emitted = (Second_Pass (without_entry t N) IC DC).emitted := by
  have hlab : label_addresses t.label_head N = [] := by
    unfold label_addresses
    rw [List.map_eq_nil_iff, List.filter_eq_nil_iff]
    intro l hl
    have : l.label ≠ N := fun e => hN (List.mem_map.mpr ⟨l, hl, e⟩)
    simpa using this
  have hent : ∀ e ∈ (Second_Pass t IC DC).table.entry_head, e.label = N →
      e.addr_list = [] := by
    intro e he hl
    rw [Second_Pass_entry_head, Second_Pass_entries_spec] at he
    obtain ⟨e0, he0, h0⟩ := List.mem_map.mp he
    subst h0
    have hl2 : e0.label = N := hl
    show e0.addr_list ++ label_addresses t.label_head e0.label = []
    rw [hfresh e0 he0, hl2, hlab]
    rfl
  obtain ⟨w1, w2, w3, w4, w5⟩ := Second_Pass_without_entry t IC DC N
  refine ⟨fun line labels => rfl, ?_, w1.symm, w2.symm, ?_⟩
  · intro e he hl
    have h := hent e he hl
    exact ⟨h, by rw [h]; rfl⟩
  · rw [Second_Pass_emitted, Second_Pass_emitted, w1]
    by_cases herr : (Second_Pass t IC DC).error_flag = TRUE
    · rw [if_pos herr, if_pos herr]
      congr 1
      unfold translationunit
      have hentries : (Second_Pass (without_entry t N) IC DC).table.entry_head
          = (Second_Pass t IC DC).table.entry_head.filter (fun e => decide (e.label ≠ N)) := by
        rw [Second_Pass_entry_head, Second_Pass_entry_head]
        exact Second_Pass_entries_filter _ _ _
      rw [w3, w4, w5, hentries, process_ent_file_filter _ N hent]
    · rw [if_neg herr, if_neg herr]

set_option maxRecDepth 100000 in
theorem C39_unresolved_entry_witness :
    ((∀ (line : List Char) (labels : List LABEL_LIST),
          Entry_Examine line
              { (firstpass_loop example_unresolved_entry_file).table with label_head := labels }
            = Entry_Examine line (firstpass_loop example_unresolved_entry_file).table)
      ∧ (∀ e ∈ (Second_Pass (firstpass_loop example_unresolved_entry_file).table
            101 1).table.entry_head,
          e.label = "N".toList → e.addr_list = [] ∧ site_lines e.label e.addr_list = [])
      ∧ (Second_Pass (firstpass_loop example_unresolved_entry_file).table 101 1).error_flag
          = (Second_Pass
              (without_entry (firstpass_loop example_unresolved_entry_file).table "N".toList)
              101 1).error_flag
      ∧ (Second_Pass (firstpass_loop example_unresolved_entry_file).table 101 1).undefined
          = (Second_Pass
              (without_entry (firstpass_loop example_unresolved_entry_file).table "N".toList)
              101 1).undefined
      ∧ (Second_Pass (firstpass_loop example_unresolved_entry_file).table 101 1).emitted
          = (Second_Pass
              (without_entry (firstpass_loop example_unresolved_entry_file).table "N".toList)
              101 1).emitted)
      ∧ (firstpass example_unresolved_entry_file).1.error_flag = TRUE
      ∧ (firstpass example_unresolved_entry_file).1.table.entry_head = [⟨"N".toList, []⟩]
      ∧ (firstpass example_unresolved_entry_file).2
          = some (Second_Pass (firstpass_loop example_unresolved_entry_file).table 101 1)
      ∧ (Second_Pass (firstpass_loop example_unresolved_entry_file).table 101 1).emitted
          = some { ob := "\n\t1 0\n0100\t74004\n".toList, ent := none, ext := none } :=
  ⟨C39_unresolved_entry (firstpass_loop example_unresolved_entry_file).table 101 1 "N".toList
      (firstpass_loop_entries_fresh example_unresolved_entry_file) (by decide),
    by decide, by decide, by decide, by decide⟩

/-! ## Lines read by `fgets` -/

/-- In the bytes that one call of `fgets` returns, a newline is the last byte. -/
theorem fgets_newline_last (n : Nat) :
    ∀ s a b, (fgets n s).1 = a ++ '\n' :: b → b = [] := by
  induction n with
  | zero =>
    intro s a b h
    simp [fgets] at h
  | succ n ih =>
    intro s a b h
    cases s with
    | nil => simp [fgets] at h
    | cons c cs =>
      by_cases hc : c = '\n'
      · simp only [fgets, hc, if_true] at h
        cases a with
        | nil =>
          simp only [List.nil_append, List.cons.injEq, true_and] at h
          exact h.symm
        | cons x xs =>
          simp only [List.cons_append, List.cons.injEq] at h
          have := h.2
          simp at this
      · simp only [fgets, hc, if_false] at h
        cases a with
        | nil =>
          simp only [List.nil_append, List.cons.injEq] at h
          exact absurd h.1 hc
        | cons x xs =>
          simp only [List.cons_append, List.cons.injEq] at h
          exact ih cs xs b h.2

theorem fgets_length (n : Nat) : ∀ s, (fgets n s).1.length ≤ n := by
  induction n with
  | zero => intro s; simp [fgets]
  | succ n ih =>
    intro s
    cases s with
    | nil => simp [fgets]
    | cons c cs =>
      by_cases hc : c = '\n'
      · simp [fgets, hc]
      · have := ih cs
        simp only [fgets, hc, if_false, List.length_cons]
        omega

/-- A line of `read_lines` that ends with a newline is a whole line. -/
theorem read_lines_whole (fuel : Nat) :
    ∀ file, ∀ l ∈ read_lines fuel file, l.getLast? = some '\n' → whole_line l := by
  induction fuel with
  | zero => intro file l hl; simp [read_lines] at hl
  | succ fuel ih =>
    intro file l hl hlast
    cases file with
    | nil => simp [read_lines] at hl
    | cons c cs =>
      simp only [read_lines, List.mem_cons] at hl
      rcases hl with h | h
      · have hsplit : (fgets (MAX_FILE_LINE_LENGTH - 1) (c :: cs)).1
            = l ++ (fgets (MAX_FILE_LINE_LENGTH - 1) (c :: cs)).1.dropWhile
                (fun x => x != Char.ofNat 0) := by
          rw [h, List.takeWhile_append_dropWhile]
        have hlen : l.length ≤ 80 := by
          have h1 := fgets_length (MAX_FILE_LINE_LENGTH - 1) (c :: cs)
          have h2 : l.length ≤ (fgets (MAX_FILE_LINE_LENGTH - 1) (c :: cs)).1.length := by
            rw [h]
            exact (List.takeWhile_sublist _).length_le
          have h3 : MAX_FILE_LINE_LENGTH - 1 = 80 := rfl
          omega
        have hnul : Char.ofNat 0 ∉ l := by
          intro hm
          rw [h] at hm
          have := List.mem_takeWhile_imp hm
          simp at this
        obtain ⟨b, hb⟩ : ∃ b, l = b ++ ['\n'] := by
          have hne : l ≠ [] := by
            intro e
            rw [e] at hlast
            simp at hlast
          refine ⟨l.dropLast, ?_⟩
          have h1 := List.dropLast_append_getLast? '\n' hlast
          exact h1.symm
        refine ⟨hlen, hnul, b, hb, ?_⟩
        intro hm
        obtain ⟨a1, a2, ha⟩ := List.append_of_mem hm
        obtain ⟨D, hD⟩ : ∃ D, (fgets (MAX_FILE_LINE_LENGTH - 1) (c :: cs)).1 = l ++ D :=
          ⟨_, hsplit⟩
        have e : (fgets (MAX_FILE_LINE_LENGTH - 1) (c :: cs)).1
            = a1 ++ '\n' :: (a2 ++ ['\n'] ++ D) := by
          rw [hD, hb, ha]
          simp
        have := fgets_newline_last _ _ _ _ e
        simp at this
      · exact ih _ l h hlast

theorem fgets_whole (n : Nat) :
    ∀ (b rest : List Char), b.length < n → '\n' ∉ b →
      fgets n (b ++ '\n' :: rest) = (b ++ ['\n'], rest) := by
  induction n with
  | zero => intro b rest h; exact absurd h (Nat.not_lt_zero _)
  | succ n ih =>
    intro b rest h hb
    cases b with
    | nil => simp [fgets]
    | cons c cs =>
      have hc : c ≠ '\n' := fun e => hb (e ▸ List.mem_cons_self _ _)
      have h1 := ih cs rest (by simpa using h) (fun e => hb (List.mem_cons_of_mem _ e))
      show fgets (n + 1) (c :: (cs ++ '\n' :: rest)) = _
      simp only [fgets, hc, if_false]
      rw [h1]
      rfl

theorem read_lines_whole_line (fuel : Nat) (t rest : List Char) (ht : whole_line t) :
    read_lines (fuel + 1) (t ++ rest) = t :: read_lines fuel rest := by
  obtain ⟨hlen, hnul, b, hb, hbn⟩ := ht
  have hblen : b.length < 80 := by
    rw [hb] at hlen
    simp only [List.length_append, List.length_singleton] at hlen
    omega
  have hf : fgets (MAX_FILE_LINE_LENGTH - 1) (t ++ rest) = (t, rest) := by
    rw [hb]
    have : b ++ ['\n'] ++ rest = b ++ '\n' :: rest := by simp
    rw [this]
    exact fgets_whole 80 b rest hblen hbn
  have htw : t.takeWhile (fun x => x != Char.ofNat 0) = t := by
    rw [List.takeWhile_eq_self_iff]
    intro a ha
    have : a ≠ Char.ofNat 0 := fun e => hnul (e ▸ ha)
    simp [this]
  cases hcase : t ++ rest with
  | nil =>
    rw [hb] at hcase
    simp at hcase
  | cons c cs =>
    rw [← hcase]
    have : read_lines (fuel + 1) (c :: cs)
        = (fgets (MAX_FILE_LINE_LENGTH - 1) (c :: cs)).1.takeWhile (fun x => x != Char.ofNat 0)
            :: read_lines fuel (fgets (MAX_FILE_LINE_LENGTH - 1) (c :: cs)).2 := rfl
    rw [hcase, this, ← hcase, hf, htw]

theorem read_lines_whole_lines (ts : List (List Char)) (hts : ∀ t ∈ ts, whole_line t) :
    ∀ (fuel : Nat) (rest : List Char),
      read_lines (ts.length + fuel) (ts.flatten ++ rest) = ts ++ read_lines fuel rest := by
  induction ts with
  | nil => intro fuel rest; simp
  | cons t rest_ts ih =>
    intro fuel rest
    have h1 := ih (fun x hx => hts x (List.mem_cons_of_mem _ hx)) fuel rest
    rw [List.flatten_cons, List.append_assoc,
      show (t :: rest_ts).length + fuel = (rest_ts.length + fuel) + 1 by
        simp only [List.length_cons]; omega,
      read_lines_whole_line _ t _ (hts t (List.mem_cons_self _ _)), h1]
    rfl

/-! ## Pre-processing a text without macros -/

theorem strip_plain_length (l : List Char) : (strip_plain l).length ≤ l.length := by
  induction l with
  | nil => simp [strip_plain]
  | cons d ds ih =>
    simp only [strip_plain]
    split_ifs <;> simp only [List.length_append, List.length_cons, List.length_nil] <;> omega

theorem trimmed_length (l : List Char) : (trimmed l).length ≤ l.length := by
  induction l with
  | nil => simp [trimmed]
  | cons c cs ih =>
    simp only [trimmed]
    split_ifs
    · have h1 := strip_plain_length (cs.drop (quote_copy_length cs))
      have h2 : (cs.take (quote_copy_length cs)).length
          + (cs.drop (quote_copy_length cs)).length = cs.length := by
        rw [← List.length_append, List.take_append_drop]
      simp only [List.length_append, List.length_cons]
      omega
    all_goals (simp only [List.length_append, List.length_cons, List.length_nil]; omega)

theorem trimmed_mem (l : List Char) : ∀ c ∈ trimmed l, c ∈ l ∨ c = '\n' := by
  induction l with
  | nil => intro c hc; simp [trimmed] at hc
  | cons d ds ih =>
    intro c hc
    simp only [trimmed] at hc
    split_ifs at hc with h1 h2 h3
    · rcases List.mem_cons.mp hc with h | h
      · exact Or.inl (h ▸ List.mem_cons_self _ _)
      · rcases List.mem_append.mp h with h | h
        · exact Or.inl (List.mem_cons_of_mem _ (List.mem_of_mem_take h))
        · rcases (strip_plain_mem _ c h).2.2.2 with h | h
          · exact Or.inl (List.mem_cons_of_mem _ (List.mem_of_mem_drop h))
          · exact Or.inr h
    · simp only [List.mem_singleton] at hc
      exact Or.inr hc
    · rcases List.mem_append.mp hc with h | h
      · simp only [List.mem_singleton] at h
        exact Or.inl (h ▸ List.mem_cons_self _ _)
      · exact (ih c h).imp (List.mem_cons_of_mem _) id
    · simp only [List.nil_append] at hc
      exact (ih c hc).imp (List.mem_cons_of_mem _) id

theorem strip_plain_newline (y : List Char) (h : '\n' ∉ y) :
    ∃ z, strip_plain (y ++ ['\n']) = z ++ ['\n'] ∧ '\n' ∉ z := by
  induction y with
  | nil => exact ⟨[], by decide, by simp⟩
  | cons d ds ih =>
    have hd : d ≠ '\n' := fun e => h (e ▸ List.mem_cons_self _ _)
    obtain ⟨z, hz, hzn⟩ := ih (fun e => h (List.mem_cons_of_mem _ e))
    show ∃ z, strip_plain (d :: (ds ++ ['\n'])) = z ++ ['\n'] ∧ '\n' ∉ z
    simp only [strip_plain]
    split_ifs
    · exact ⟨[], rfl, by simp⟩
    · refine ⟨d :: z, by rw [hz]; rfl, ?_⟩
      intro hm
      rcases List.mem_cons.mp hm with e | e
      · exact hd e.symm
      · exact hzn e
    · exact ⟨z, by rw [hz]; rfl, hzn⟩

theorem trimmed_newline (b : List Char) (h : '\n' ∉ b) :
    ∃ z, trimmed (b ++ ['\n']) = z ++ ['\n'] ∧ '\n' ∉ z := by
  induction b with
  | nil => exact ⟨[], by decide, by simp⟩
  | cons c cs ih =>
    have hc : c ≠ '\n' := fun e => h (e ▸ List.mem_cons_self _ _)
    have hcs : '\n' ∉ cs := fun e => h (List.mem_cons_of_mem _ e)
    by_cases hq : c = Char.ofNat 34
    · subst hq
      show ∃ z, trimmed (Char.ofNat 34 :: (cs ++ ['\n'])) = z ++ ['\n'] ∧ '\n' ∉ z
      rw [trimmed_quote]
      have hn : quote_copy_length (cs ++ ['\n']) ≤ cs.length := by
        rcases quote_copy_length_cases (cs ++ ['\n']) with ⟨h0, _⟩ | ⟨a, y, _, hcs2, _, hn⟩
        · rw [h0]; exact Nat.zero_le _
        · rw [hn]
          have hy : y ≠ [] := by
            intro e
            rw [e] at hcs2
            have h1 : (cs ++ ['\n']).getLast? = some '\n' := List.getLast?_concat _
            have h2 : (a ++ [Char.ofNat 34]).getLast? = some (Char.ofNat 34) :=
              List.getLast?_concat _
            rw [hcs2, h2] at h1
            exact absurd h1 (by decide)
          have hl : (cs ++ ['\n']).length = (a ++ Char.ofNat 34 :: y).length := by rw [hcs2]
          have hy2 : 0 < y.length := List.length_pos.mpr hy
          simp only [List.length_append, List.length_cons, List.length_nil] at hl
          omega
      rw [List.take_append_of_le_length hn, List.drop_append_of_le_length hn]
      obtain ⟨z, hz, hzn⟩ := strip_plain_newline (cs.drop (quote_copy_length (cs ++ ['\n'])))
        (fun e => hcs (List.mem_of_mem_drop e))
      refine ⟨Char.ofNat 34 :: (cs.take (quote_copy_length (cs ++ ['\n'])) ++ z), ?_, ?_⟩
      · rw [hz]; simp
      · intro hm
        rcases List.mem_cons.mp hm with e | e
        · exact absurd e (by decide)
        · rcases List.mem_append.mp e with e | e
          · exact hcs (List.mem_of_mem_take e)
          · exact hzn e
    · obtain ⟨z, hz, hzn⟩ := ih hcs
      show ∃ z, trimmed (c :: (cs ++ ['\n'])) = z ++ ['\n'] ∧ '\n' ∉ z
      simp only [trimmed, hq, if_false]
      split_ifs
      · exact ⟨[], rfl, by simp⟩
      · refine ⟨c :: z, by rw [hz]; rfl, ?_⟩
        intro hm
        rcases List.mem_cons.mp hm with e | e
        · exact hc e.symm
        · exact hzn e
      · exact ⟨z, by rw [hz]; rfl, hzn⟩

/-- The trimmed text of a whole line is a whole line. -/
theorem remove_white_spaces_whole (l : List Char) (h : whole_line l) :
    whole_line (remove_white_spaces l) := by
  obtain ⟨hlen, hnul, b, hb, hbn⟩ := h
  rw [remove_white_spaces_eq]
  refine ⟨Nat.le_trans (trimmed_length l) hlen, ?_, ?_⟩
  · intro hm
    rcases trimmed_mem l _ hm with e | e
    · exact hnul e
    · exact absurd e (by decide)
  · rw [hb]
    exact trimmed_newline b hbn

theorem plain_line_trimmed (l : List Char) :
    plain_line (remove_white_spaces l) = plain_line l := by
  unfold plain_line
  rw [remove_white_spaces_idem]

/-- For a source in which no trimmed line begins with `macr` or `endmacr`, the `.am`
file holds the trimmed lines that are not empty, and the final newline. -/
theorem Pre_Proc_result_plain (file : List Char)
    (hplain : ∀ l ∈ read_lines file.length file, plain_line l = true) :
    (Pre_Proc_result file).am
      = some (((read_lines file.length file).map copied_text).flatten ++ ['\n']) := by
  obtain ⟨_, _, a3, a4, a5, _, _⟩ :=
    Pre_Proc_outer_plain_foldl (read_lines file.length file) Pre_Proc_init rfl hplain
  have hstate : (Pre_Proc_result file).state
      = (read_lines file.length file).foldl Pre_Proc_line Pre_Proc_init := by
    show Pre_Proc_end _ = _
    unfold Pre_Proc_end
    rw [a3]
    simp
  have hfin : (Pre_Proc_result file).state.final_result = TRUE := by
    rw [hstate, a4]
    rfl
  have ham : (Pre_Proc_result file).am = some ((Pre_Proc_result file).state.am ++ ['\n']) := by
    show (if (Pre_Proc_result file).state.final_result = FALSE then none else some _) = _
    rw [hfin]
    rfl
  rw [ham, hstate, a5]
  have e1 : outer_text Pre_Proc_init.macro_head Pre_Proc_init.store = copied_text := by
    funext l
    exact outer_text_no_macros l
  rw [e1]
  rfl

/-- For a source that is not empty and in which no trimmed line begins with `macr` or
`endmacr`, `Pre_Proc` writes the trimmed lines that are not empty, and the final
newline. -/
theorem Pre_Proc_plain (file : List Char) (hne : file ≠ [])
    (hplain : ∀ l ∈ read_lines file.length file, plain_line l = true) :
    (Pre_Proc file).map (fun r => r.am)
      = some (some (((read_lines file.length file).map copied_text).flatten ++ ['\n'])) := by
  rw [Pre_Proc_of_lines file (read_lines_ne_nil file hne), Option.map_some',
    Pre_Proc_result_plain file hplain]

/-- The text that a whole line adds to the `.am` file is nothing or a whole line that the
pre-processor copies unchanged. -/
theorem copied_text_whole (l : List Char) (h : whole_line l) :
    copied_text l = []
      ∨ (whole_line (copied_text l) ∧ copied_text (copied_text l) = copied_text l
          ∧ plain_line (copied_text l) = plain_line l) := by
  unfold copied_text
  by_cases he : (remove_white_spaces l).head? = none ∨ (remove_white_spaces l).head? = some '\n'
  · exact Or.inl (if_pos he)
  · right
    simp only [he, if_false]
    refine ⟨remove_white_spaces_whole l h, ?_, plain_line_trimmed l⟩
    rw [remove_white_spaces_idem]
    simp only [he, if_false]

theorem flatten_filter_nonempty (ls : List (List Char)) :
    (ls.filter (fun t => !t.isEmpty)).flatten = ls.flatten := by
  induction ls with
  | nil => rfl
  | cons x xs ih =>
    rw [List.filter_cons]
    cases x with
    | nil => simpa using ih
    | cons c cs => simp [ih]

theorem flatten_length_ge (ts : List (List Char)) (h : ∀ t ∈ ts, t ≠ []) :
    ts.length ≤ ts.flatten.length := by
  induction ts with
  | nil => simp
  | cons t rest ih =>
    have h1 := ih (fun x hx => h x (List.mem_cons_of_mem _ hx))
    have h2 : 0 < t.length := List.length_pos.mpr (h t (List.mem_cons_self _ _))
    simp only [List.flatten_cons, List.length_append, List.length_cons]
    omega

theorem read_lines_newline (fuel : Nat) : read_lines (fuel + 1) ['\n'] = [['\n']] := by
  cases fuel <;> rfl

/-- C33, for sources that are not empty, whose lines end with a newline and fit the line
buffer. If the source holds at least one byte, every line that `fgets` reads from it ends
with a newline (no line has more than 79 bytes before its newline, the last line is
terminated, there is no NUL byte) and no trimmed line begins with `macr` or `endmacr`,
then `Pre_Proc` writes an `.am` file, and `Pre_Proc` run on the text of that file writes
byte for byte the same text. -/
theorem C33_idempotent_without_macros (file : List Char) (hne : file ≠ [])
    (hnl : ∀ l ∈ read_lines file.length file, l.getLast? = some '\n')
    (hplain : ∀ l ∈ read_lines file.length file, plain_line l = true) :
    ∃ am, (Pre_Proc file).map (fun r => r.am) = some (some am)
      ∧ (Pre_Proc am).map (fun r => r.am) = some (some am) := by
  have hwhole : ∀ l ∈ read_lines file.length file, whole_line l :=
    fun l hl => read_lines_whole _ _ l hl (hnl l hl)
  refine ⟨_, Pre_Proc_plain file hne hplain, ?_⟩
  have hts : ∀ t ∈ ((read_lines file.length file).map copied_text).filter (fun t => !t.isEmpty),
      whole_line t ∧ copied_text t = t ∧ plain_line t = true := by
    intro t ht
    obtain ⟨h1, h2⟩ := List.mem_filter.mp ht
    obtain ⟨l, hl, rfl⟩ := List.mem_map.mp h1
    rcases copied_text_whole l (hwhole l hl) with h | ⟨a, b, c⟩
    · rw [h] at h2
      simp at h2
    · exact ⟨a, b, c.trans (hplain l hl)⟩
  have hflat := flatten_filter_nonempty ((read_lines file.length file).map copied_text)
  rw [← hflat]
  generalize hT : ((read_lines file.length file).map copied_text).filter
    (fun t => !t.isEmpty) = ts at hts
  have hne2 : ∀ t ∈ ts, t ≠ [] := by
    intro t ht e
    obtain ⟨_, _, b, hb, _⟩ := (hts t ht).1
    rw [e] at hb
    simp at hb
  have hlines : read_lines (ts.flatten ++ ['\n']).length (ts.flatten ++ ['\n'])
      = ts ++ [['\n']] := by
    have hlen := flatten_length_ge ts hne2
    have hfuel : (ts.flatten ++ ['\n']).length
        = ts.length + ((ts.flatten.length - ts.length) + 1) := by
      simp only [List.length_append, List.length_singleton]
      omega
    rw [hfuel, read_lines_whole_lines ts (fun t ht => (hts t ht).1), read_lines_newline]
  have hplain2 : ∀ l ∈ read_lines (ts.flatten ++ ['\n']).length (ts.flatten ++ ['\n']),
      plain_line l = true := by
    intro l hl
    rw [hlines] at hl
    rcases List.mem_append.mp hl with h | h
    · exact (hts l h).2.2
    · simp only [List.mem_singleton] at h
      rw [h]
      decide
  rw [Pre_Proc_plain _ (by simp) hplain2, hlines, List.map_append, List.flatten_append]
  have hmap : ts.map copied_text = ts := by
    conv_rhs => rw [← List.map_id ts]
    apply List.map_congr_left
    intro t ht
    exact (hts t ht).2.1
  rw [hmap]
  have hlast : ([['\n']].map copied_text).flatten = [] := by decide
  rw [hlast, List.append_nil]

set_option maxRecDepth 100000 in
/-- Witness of C33 for `mov r1, r2 ; copy` / an empty line / `stop` behind a tab. -/
theorem C33_idempotent_without_macros_witness :
    (∃ am, (Pre_Proc "mov r1, r2 ; copy\n\n\tstop\n".toList).map (fun r => r.am)
          = some (some am)
        ∧ (Pre_Proc am).map (fun r => r.am) = some (some am))
      ∧ (Pre_Proc "mov r1, r2 ; copy\n\n\tstop\n".toList).map (fun r => r.am)
          = some (some "movr1,r2\nstop\n\n".toList)
      ∧ (Pre_Proc "movr1,r2\nstop\n\n".toList).map (fun r => r.am)
          = some (some "movr1,r2\nstop\n\n".toList) :=
  ⟨C33_idempotent_without_macros "mov r1, r2 ; copy\n\n\tstop\n".toList (by decide)
      (by decide) (by decide),
    by decide, by decide⟩

set_option maxRecDepth 100000 in
/-- C33 as stated fails for a source whose last line has no newline: `Pre_Proc` always
writes one more newline at the end of the `.am` file. For the source `stop` the `.am`
text is `stop` with a newline, and pre-processing that text gives `stop` with two
newlines. For the empty source, which has no line at all, `Pre_Proc` has no defined
result. -/
theorem C33_counterexample :
    (∀ l ∈ read_lines "stop".toList.length "stop".toList, plain_line l = true)
      ∧ Pre_Proc [] = none
      ∧ (Pre_Proc "stop".toList).map (fun r => r.am) = some (some "stop\n".toList)
      ∧ (Pre_Proc "stop\n".toList).map (fun r => r.am) = some (some "stop\n\n".toList)
      ∧ (Pre_Proc "stop\n".toList).map (fun r => r.am)
          ≠ (Pre_Proc "stop".toList).map (fun r => r.am) := by
  decide

/-! ## Operand modes by the rules of the specification -/

theorem registers_eq : registers = spec_registers := by decide

theorem label_name_ok_chars (t : List Char) (h : label_name_ok t = true) :
    ∃ c cs, t = c :: cs ∧ is_letter c = true ∧ isdigit c = false
      ∧ (c :: cs).all (fun x => isdigit x || isupper x || islower x) = true
      ∧ spec_reserved_words.contains (c :: cs) = false
      ∧ ',' ∉ c :: cs ∧ '\n' ∉ c :: cs := by
  cases t with
  | nil => simp [label_name_ok] at h
  | cons c cs =>
    simp only [label_name_ok, List.isEmpty_cons, Bool.not_false, Bool.true_and,
      List.head?_cons, Option.map_some', Bool.and_eq_true, beq_iff_eq, Option.some.injEq,
      Bool.not_eq_true'] at h
    obtain ⟨⟨hc, hall⟩, hres⟩ := h
    have hall2 : (c :: cs).all (fun x => isdigit x || isupper x || islower x) = true := by
      rw [← hall]
      congr 1
      funext x
      unfold is_letter
      cases isdigit x <;> cases isupper x <;> cases islower x <;> rfl
    have hd : isdigit c = false := by
      have h1 : (65 ≤ c.toNat ∧ c.toNat ≤ 90) ∨ (97 ≤ c.toNat ∧ c.toNat ≤ 122) := by
        simpa [is_letter, isupper, islower] using hc
      simp [isdigit]
      omega
    refine ⟨c, cs, rfl, hc, hd, hall2, hres, ?_, ?_⟩
    · intro hm
      have := List.all_eq_true.mp hall _ hm
      revert this
      decide
    · intro hm
      have := List.all_eq_true.mp hall _ hm
      revert this
      decide

theorem examine_Label_of_name_ok (t : List Char) (h : label_name_ok t = true) :
    examine_Label t = TRUE := by
  obtain ⟨c, cs, rfl, _, hd, hall, hres, _, hnl⟩ := label_name_ok_chars t h
  have htw := takeWhile_no_newline (c :: cs) hnl
  have hr := Reserved_Words_Check_no_newline (c :: cs) hnl
  simp only [examine_Label, htw, hr, hall, hres, hd, Bool.false_eq_true, if_false, if_true]
  rfl

theorem spec_operand_ok (t : List Char) (m : Int) (hm : spec_operand_mode t = some m)
    (hs : operand_misjudged t = false) (hlen : t.length ≤ 31) :
    operand_ok t ∧ operand_Type_Identifier t = m := by
  cases t with
  | nil => simp [spec_operand_mode] at hm
  | cons c rest =>
    simp only [spec_operand_mode] at hm
    by_cases h1 : c = '#'
    · subst h1
      rw [if_pos rfl] at hm
      by_cases h2 : signed_decimal rest = true ∧ -2047 ≤ atoi rest ∧ atoi rest < 2048
      · rw [if_pos h2] at hm
        have hm2 : NUMBER = m := Option.some.inj hm
        subst hm2
        have hv : atoi rest ≠ -2047 := by simpa [operand_misjudged] using hs
        have hty := operand_Type_Identifier_spec.1 rest
        obtain ⟨hc, hn⟩ := signed_decimal_no_separator rest h2.1
        refine ⟨⟨?_, ?_, ?_, ?_, ?_⟩, hty⟩
        · unfold MAX_LABEL_SIZE
          omega
        · simp [hc]
        · simp [hn]
        · rw [hty]
          exact Or.inl rfl
        · rw [hty, Examine_Operand_signed_decimal rest h2.1, if_neg]
          unfold MAX_VALUE_FOR_12_BITS MIN_VALUE_FOR_12_BITS
          omega
      · rw [if_neg h2] at hm
        exact absurd hm (by simp)
    · rw [if_neg h1] at hm
      by_cases h3 : c = '*'
      · subst h3
        rw [if_pos rfl] at hm
        by_cases h4 : spec_registers.contains rest = true
        · rw [if_pos h4] at hm
          have hm2 : POINTER = m := Option.some.inj hm
          subst hm2
          have hmem : rest ∈ spec_registers := by simpa using h4
          simp only [spec_registers, List.map_cons, List.map_nil, List.mem_cons,
            List.mem_singleton, List.not_mem_nil, or_false] at hmem
          rcases hmem with h | h | h | h | h | h | h | h <;> subst h <;>
            exact ⟨⟨by decide, by decide, by decide, Or.inr (Or.inr (Or.inl (by decide))),
              by decide⟩, by decide⟩
        · rw [if_neg h4] at hm
          exact absurd hm (by simp)
      · rw [if_neg h3] at hm
        by_cases h5 : spec_registers.contains (c :: rest) = true
        · rw [if_pos h5] at hm
          have hm2 : REGISTER = m := Option.some.inj hm
          subst hm2
          have hmem : c :: rest ∈ spec_registers := by simpa using h5
          simp only [spec_registers, List.map_cons, List.map_nil, List.mem_cons,
            List.mem_singleton, List.not_mem_nil, or_false] at hmem
          rcases hmem with h | h | h | h | h | h | h | h <;> rw [h] <;>
            exact ⟨⟨by decide, by decide, by decide, Or.inr (Or.inr (Or.inr (by decide))),
              by decide⟩, by decide⟩
        · rw [if_neg h5] at hm
          by_cases h6 : label_name_ok (c :: rest) = true ∧ (c :: rest).length ≤ 31
          · rw [if_pos h6] at hm
            have hm2 : LABEL = m := Option.some.inj hm
            subst hm2
            obtain ⟨c2, cs2, heq, hlet, _, _, _, hcomma, hnl⟩ := label_name_ok_chars _ h6.1
            obtain ⟨rfl, rfl⟩ := List.cons.inj heq
            have hr : c ≠ 'r' := by
              intro e
              rw [e] at hs h5
              have hs2 : 'r' :: rest ∈ spec_registers := by
                simpa [operand_misjudged] using hs
              exact h5 (by simpa using hs2)
            have hlet2 : isupper c = true ∨ islower c = true := by
              simpa [is_letter] using hlet
            have hty := operand_Type_Identifier_spec.2.2.2 c rest hlet2 hr
            refine ⟨⟨?_, hcomma, hnl, ?_, ?_⟩, hty⟩
            · unfold MAX_LABEL_SIZE
              omega
            · rw [hty]
              exact Or.inr (Or.inl rfl)
            · rw [hty]
              unfold Examine_Operand
              rw [if_neg (by decide), if_pos rfl, examine_Label_of_name_ok _ h6.1]
              rfl
          · rw [if_neg h6] at hm
            exact absurd hm (by simp)

theorem matrix_permits_one_operand (c a b d : Int) (h : ¬ c ≤ LEA) :
    matrix_permits c a d = matrix_permits c b d := by
  unfold LEA at h
  have h0 : ¬ (c = MOV ∨ c = ADD ∨ c = SUB) := by
    unfold MOV ADD SUB
    omega
  have h1 : ¬ c = CMP := by
    unfold CMP
    omega
  have h2 : ¬ c = LEA := by
    unfold LEA
    omega
  unfold matrix_permits
  rw [if_neg h0, if_neg h1, if_neg h2, if_neg h0, if_neg h1, if_neg h2]

/-- For operands that the classifier of the specification gives a mode, the two kinds
that the code refuses apart, `Command_Examine` accepts the operand text of an opcode if and
only if the legality matrix permits the modes. -/
theorem Command_Examine_spec_matrix (cmd : COMMAND) (src dest : List Char) (ms md : Int)
    (hcmd : cmd ∈ commands_table) (hops : cmd.code < RTS)
    (hs : cmd.code ≤ LEA →
      spec_operand_mode src = some ms ∧ operand_misjudged src = false ∧ src.length ≤ 31)
    (hd : spec_operand_mode dest = some md) (hd2 : operand_misjudged dest = false)
    (hd3 : dest.length ≤ 31) :
    Command_Examine cmd (operand_text cmd.code src dest) = TRUE
      ↔ matrix_permits cmd.code ms md = true := by
  obtain ⟨hdok, hdty⟩ := spec_operand_ok dest md hd hd2 hd3
  by_cases h2 : cmd.code ≤ LEA
  · obtain ⟨a, b, c⟩ := hs h2
    obtain ⟨hsok, hsty⟩ := spec_operand_ok src ms a b c
    have h := Command_Examine_matrix cmd src dest hcmd hops (fun _ => hsok) hdok
    rw [hsty, hdty] at h
    exact h
  · have h := Command_Examine_matrix cmd src dest hcmd hops (fun h => absurd h h2) hdok
    rw [hdty, matrix_permits_one_operand cmd.code _ ms md h2] at h
    exact h

set_option maxRecDepth 100000 in
/-- C15 fails on the code for operands that are well formed and that `Command_Examine`
refuses whatever the opcode. The identifier `result` is a label by the rules of the
specification, the matrix permits a Direct operand for `jmp` and a Direct source for
`mov`, and `Command_Examine` refuses `jmp result` and `mov result, r1`; the immediate
`#-2047` is in the range of the specification, the matrix permits an Immediate operand for
`prn`, and `Command_Examine` refuses `prn #-2047`. The line `lea #5, r1` is refused as the
matrix wants, and `lea X, r1` is accepted. In general, for every opcode that takes
operands and operands of at most 31 characters that the classifier of the specification
gives a mode (two of them joined by one comma for mov, cmp, add, sub and lea; one for the
others), identifiers that begin with `r` and the immediate `-2047` apart,
`Command_Examine` accepts the operand text if and only if the matrix permits the modes. -/
theorem C15_wellformed_operand_refused :
    spec_operand_mode "result".toList = some LABEL
      ∧ matrix_permits JMP NONE LABEL = true
      ∧ Command_Examine ⟨"jmp".toList, JMP⟩ (operand_text JMP [] "result".toList) ≠ TRUE
      ∧ spec_operand_mode "r1".toList = some REGISTER
      ∧ matrix_permits MOV LABEL REGISTER = true
      ∧ Command_Examine ⟨"mov".toList, MOV⟩ (operand_text MOV "result".toList "r1".toList)
          ≠ TRUE
      ∧ spec_operand_mode "#-2047".toList = some NUMBER
      ∧ matrix_permits PRN NONE NUMBER = true
      ∧ Command_Examine ⟨"prn".toList, PRN⟩ (operand_text PRN [] "#-2047".toList) ≠ TRUE
      ∧ spec_operand_mode "#5".toList = some NUMBER
      ∧ matrix_permits LEA NUMBER REGISTER = false
      ∧ Command_Examine ⟨"lea".toList, LEA⟩ (operand_text LEA "#5".toList "r1".toList) ≠ TRUE
      ∧ spec_operand_mode "X".toList = some LABEL
      ∧ Command_Examine ⟨"lea".toList, LEA⟩ (operand_text LEA "X".toList "r1".toList) = TRUE
      ∧ (∀ (cmd : COMMAND) (src dest : List Char) (ms md : Int),
          cmd ∈ commands_table → cmd.code < RTS →
          (cmd.code ≤ LEA →
            spec_operand_mode src = some ms ∧ operand_misjudged src = false
              ∧ src.length ≤ 31) →
          spec_operand_mode dest = some md → operand_misjudged dest = false →
          dest.length ≤ 31 →
          (Command_Examine cmd (operand_text cmd.code src dest) = TRUE
            ↔ matrix_permits cmd.code ms md = true)) :=
  ⟨by decide, by decide, by decide, by decide, by decide, by decide, by decide, by decide,
    by decide, by decide, by decide, by decide, by decide, by decide,
    Command_Examine_spec_matrix⟩

end Assembler
